import Mathlib

/-!
# Segment tree: shallow embedding of `src/src/segment_tree.c`, `src/src/operations.c`
and the validation functions of `src/src/utils.c`

Conventions of the embedding.

* A C `int` is an `Int`; every arithmetic result that can leave the 32-bit range is
  reduced with `wrap32` (two's complement wrap-around).
* Node indices and interval bounds (`node`, `start`, `end`, `l`, `r`) are `Nat`: the
  public functions reject negative bounds before the recursion starts.
* The buffers `tree[]` and `lazy[]` are `List Int`; a `NULL` buffer or pointer is `none`.
  A read outside the buffer yields `0`, a write outside the buffer is dropped.
* The `update_lazy` / `propagate` function pointers can only designate one of the three
  functions of `operations.c`, so they are a tag of type `lazy_fn` (or `none` for `NULL`).
* Recursive functions take a leading `fuel : Nat`; the public functions pass `st.size`,
  which is never exhausted on an interval of at most `st.size` elements.
* Which slots the code touches and how deep it recurses is not visible in these
  functions, so the recursions are translated a second time: with every buffer access
  checked against `tree_size` (`*_checked`) and with a count of the nested activations
  (`*_run`). Both are proved to return the result of the plain translation.
* `malloc`/`calloc`/`realloc` are assumed to succeed; the `double` timing fields of the
  statistics are not represented.
-/

namespace SegTree

/-! ## include/segment_tree.h -/

def SEGTREE_MAX_SIZE : Int := 1000000

def SEGTREE_INF : Int := 2147483647

def SEGTREE_NEG_INF : Int := -2147483648

/-- Reduction of an integer to the range of a 32-bit two's complement `int`. -/
def wrap32 (x : Int) : Int := (x + 2147483648) % 4294967296 - 2147483648

/-- The value is representable as a 32-bit `int`. -/
def is_int32 (x : Int) : Prop := -2147483648 ≤ x ∧ x ≤ 2147483647

instance (x : Int) : Decidable (is_int32 x) := by
  unfold is_int32; infer_instance

inductive segtree_error_t where
  | SEGTREE_OK
  | SEGTREE_ERROR_NULL_POINTER
  | SEGTREE_ERROR_INVALID_RANGE
  | SEGTREE_ERROR_MEMORY_ALLOCATION
  | SEGTREE_ERROR_INVALID_OPERATION
  deriving DecidableEq, Repr

inductive segtree_operation_t where
  | SEGTREE_SUM
  | SEGTREE_MIN
  | SEGTREE_MAX
  | SEGTREE_CUSTOM
  deriving DecidableEq, Repr

structure segtree_stats_t where
  query_count : Int
  update_count : Int
  deriving DecidableEq, Repr

/-- Target of an `update_lazy` or `propagate` function pointer: the `_sum`, `_min` or
`_max` function of `operations.c`. -/
inductive lazy_fn where
  | sum
  | min
  | max
  deriving DecidableEq, Repr

structure segment_tree_t where
  tree : List Int
  lazy : Option (List Int)
  size : Nat
  tree_size : Nat
  op_type : segtree_operation_t
  combine : Int → Int → Int
  update_lazy : Option lazy_fn
  propagate : Option lazy_fn
  identity : Int
  lazy_enabled : Bool
  stats : segtree_stats_t

/-- Read of `a[i]`. -/
def rd (a : List Int) (i : Nat) : Int := a.getD i 0

/-- Write `a[i] = v`. -/
def wr (a : List Int) (i : Nat) (v : Int) : List Int := a.set i v

/-! ## src/src/operations.c -/

def combine_sum (a b : Int) : Int := wrap32 (a + b)

def combine_min (a b : Int) : Int := if a < b then a else b

def combine_max (a b : Int) : Int := if a > b then a else b

def update_lazy_sum (st : segment_tree_t) (node _start _end : Nat) (val : Int) :
    segment_tree_t :=
  match st.lazy with
  | none => st
  | some lz => { st with lazy := some (wr lz node (wrap32 (rd lz node + val))) }

def update_lazy_min (st : segment_tree_t) (node _start _end : Nat) (val : Int) :
    segment_tree_t :=
  match st.lazy with
  | none => st
  | some lz =>
    if rd lz node = SEGTREE_INF ∨ val < rd lz node then
      { st with lazy := some (wr lz node val), tree := wr st.tree node val }
    else st

def update_lazy_max (st : segment_tree_t) (node _start _end : Nat) (val : Int) :
    segment_tree_t :=
  match st.lazy with
  | none => st
  | some lz =>
    if rd lz node = SEGTREE_NEG_INF ∨ val > rd lz node then
      { st with lazy := some (wr lz node val), tree := wr st.tree node val }
    else st

def propagate_sum (st : segment_tree_t) (node start end_ : Nat) : segment_tree_t :=
  match st.lazy with
  | none => st
  | some lz =>
    if rd lz node ≠ 0 then
      let tree1 := wr st.tree node
        (wrap32 (rd st.tree node + wrap32 (rd lz node * ((end_ : Int) - (start : Int) + 1))))
      let lz2 :=
        if start ≠ end_ then
          let lz1 := wr lz (2 * node) (wrap32 (rd lz (2 * node) + rd lz node))
          wr lz1 (2 * node + 1) (wrap32 (rd lz1 (2 * node + 1) + rd lz1 node))
        else lz
      { st with tree := tree1, lazy := some (wr lz2 node 0) }
    else st

def propagate_min (st : segment_tree_t) (node start end_ : Nat) : segment_tree_t :=
  match st.lazy with
  | none => st
  | some lz =>
    if rd lz node ≠ SEGTREE_INF then
      let tree1 := wr st.tree node (rd lz node)
      let lz2 :=
        if start ≠ end_ then
          let lz1 := wr lz (2 * node) (rd lz node)
          wr lz1 (2 * node + 1) (rd lz1 node)
        else lz
      { st with tree := tree1, lazy := some (wr lz2 node SEGTREE_INF) }
    else st

def propagate_max (st : segment_tree_t) (node start end_ : Nat) : segment_tree_t :=
  match st.lazy with
  | none => st
  | some lz =>
    if rd lz node ≠ SEGTREE_NEG_INF then
      let tree1 := wr st.tree node (rd lz node)
      let lz2 :=
        if start ≠ end_ then
          let lz1 := wr lz (2 * node) (rd lz node)
          wr lz1 (2 * node + 1) (rd lz1 node)
        else lz
      { st with tree := tree1, lazy := some (wr lz2 node SEGTREE_NEG_INF) }
    else st

/-- The call `st->propagate(st, node, start, end)` through the function pointer. -/
def call_propagate (st : segment_tree_t) (node start end_ : Nat) : segment_tree_t :=
  match st.propagate with
  | some lazy_fn.sum => propagate_sum st node start end_
  | some lazy_fn.min => propagate_min st node start end_
  | some lazy_fn.max => propagate_max st node start end_
  | none => st

/-- The call `st->update_lazy(st, node, start, end, val)` through the function pointer. -/
def call_update_lazy (st : segment_tree_t) (node start end_ : Nat) (val : Int) :
    segment_tree_t :=
  match st.update_lazy with
  | some lazy_fn.sum => update_lazy_sum st node start end_ val
  | some lazy_fn.min => update_lazy_min st node start end_ val
  | some lazy_fn.max => update_lazy_max st node start end_ val
  | none => st

/-! ## src/src/segment_tree.c -/

/-- The loop `while (size < n) size *= 2;` of `calculate_tree_size`. -/
def calculate_tree_size_loop : Nat → Int → Int → Int
  | 0, size, _ => size
  | fuel + 1, size, n =>
    if size < n then calculate_tree_size_loop fuel (wrap32 (size * 2)) n else size

def calculate_tree_size (n : Int) : Int :=
  wrap32 (calculate_tree_size_loop 32 1 n * 2)

def build_tree : Nat → segment_tree_t → List Int → Nat → Nat → Nat → segment_tree_t
  | 0, st, _, _, _, _ => st
  | fuel + 1, st, arr, node, start, end_ =>
    if start = end_ then
      { st with tree := wr st.tree node (rd arr start) }
    else
      let mid := (start + end_) / 2
      let st1 := build_tree fuel st arr (2 * node) start mid
      let st2 := build_tree fuel st1 arr (2 * node + 1) (mid + 1) end_
      { st2 with
        tree := wr st2.tree node (st2.combine (rd st2.tree (2 * node)) (rd st2.tree (2 * node + 1))) }

def setup_operations (st : segment_tree_t) (op : segtree_operation_t) : segment_tree_t :=
  match op with
  | segtree_operation_t.SEGTREE_SUM =>
    { st with combine := combine_sum, update_lazy := some lazy_fn.sum,
              propagate := some lazy_fn.sum, identity := 0 }
  | segtree_operation_t.SEGTREE_MIN =>
    { st with combine := combine_min, update_lazy := some lazy_fn.min,
              propagate := some lazy_fn.min, identity := SEGTREE_INF }
  | segtree_operation_t.SEGTREE_MAX =>
    { st with combine := combine_max, update_lazy := some lazy_fn.max,
              propagate := some lazy_fn.max, identity := SEGTREE_NEG_INF }
  | segtree_operation_t.SEGTREE_CUSTOM =>
    { st with combine := combine_sum, update_lazy := some lazy_fn.sum,
              propagate := some lazy_fn.sum, identity := 0 }

/-- The freshly `malloc`ed structure after the assignments that precede
`setup_operations`; the fields not yet assigned hold placeholders. -/
def fresh_tree (n : Int) (op : segtree_operation_t) : segment_tree_t :=
  { tree := List.replicate (calculate_tree_size n).toNat 0
    lazy := none
    size := n.toNat
    tree_size := (calculate_tree_size n).toNat
    op_type := op
    combine := combine_sum
    update_lazy := none
    propagate := none
    identity := 0
    lazy_enabled := false
    stats := { query_count := 0, update_count := 0 } }

def segtree_create (arr : Option (List Int)) (n : Int) (op : segtree_operation_t) :
    Option segment_tree_t :=
  match arr with
  | none => none
  | some a =>
    if n ≤ 0 ∨ n > SEGTREE_MAX_SIZE then none
    else
      let st := setup_operations (fresh_tree n op) op
      some (build_tree st.size st a 1 0 (st.size - 1))

def segtree_create_custom (arr : Option (List Int)) (n : Int)
    (combine : Option (Int → Int → Int)) (identity : Int) : Option segment_tree_t :=
  match arr, combine with
  | none, _ => none
  | some _, none => none
  | some a, some f =>
    if n ≤ 0 ∨ n > SEGTREE_MAX_SIZE then none
    else
      let st : segment_tree_t :=
        { fresh_tree n segtree_operation_t.SEGTREE_CUSTOM with
          combine := f, update_lazy := none, propagate := none, identity := identity }
      some (build_tree st.size st a 1 0 (st.size - 1))

/-- The loop `for (i = 0; i < n; i++) a[i] = v;`. -/
def fill : Nat → List Int → Int → List Int
  | 0, a, _ => a
  | k + 1, a, v => wr (fill k a v) k v

def segtree_create_lazy (arr : Option (List Int)) (n : Int) (op : segtree_operation_t) :
    Option segment_tree_t :=
  match segtree_create arr n op with
  | none => none
  | some st =>
    some { st with lazy_enabled := true
                   lazy := some (fill st.tree_size (List.replicate st.tree_size 0) st.identity) }

def query_recursive :
    Nat → segment_tree_t → Nat → Nat → Nat → Nat → Nat → segment_tree_t × Int
  | 0, st, _, _, _, _, _ => (st, st.identity)
  | fuel + 1, st, node, start, end_, l, r =>
    if r < start ∨ end_ < l then (st, st.identity)
    else
      let st1 :=
        if st.lazy_enabled = true ∧ st.propagate ≠ none then call_propagate st node start end_
        else st
      if l ≤ start ∧ end_ ≤ r then (st1, rd st1.tree node)
      else
        let mid := (start + end_) / 2
        let q1 := query_recursive fuel st1 (2 * node) start mid l r
        let q2 := query_recursive fuel q1.1 (2 * node + 1) (mid + 1) end_ l r
        (q2.1, q2.1.combine q1.2 q2.2)

/-- Result of `segtree_query`: the error code, the tree after the call and the content of
the `result` slot after the call (`none` when the corresponding pointer is `NULL`). -/
def segtree_query (st : Option segment_tree_t) (left right : Int) (result : Option Int) :
    segtree_error_t × Option segment_tree_t × Option Int :=
  match st, result with
  | none, _ => (segtree_error_t.SEGTREE_ERROR_NULL_POINTER, none, result)
  | some s, none => (segtree_error_t.SEGTREE_ERROR_NULL_POINTER, some s, none)
  | some s, some old =>
    if left < 0 ∨ right ≥ (s.size : Int) ∨ left > right then
      (segtree_error_t.SEGTREE_ERROR_INVALID_RANGE, some s, some old)
    else
      let q := query_recursive s.size s 1 0 (s.size - 1) left.toNat right.toNat
      (segtree_error_t.SEGTREE_OK,
       some { q.1 with stats :=
                { q.1.stats with query_count := wrap32 (q.1.stats.query_count + 1) } },
       some q.2)

def update_point_recursive :
    Nat → segment_tree_t → Nat → Nat → Nat → Nat → Int → segment_tree_t
  | 0, st, _, _, _, _, _ => st
  | fuel + 1, st, node, start, end_, idx, val =>
    if start = end_ then
      { st with tree := wr st.tree node val }
    else
      let mid := (start + end_) / 2
      let st1 :=
        if idx ≤ mid then update_point_recursive fuel st (2 * node) start mid idx val
        else update_point_recursive fuel st (2 * node + 1) (mid + 1) end_ idx val
      { st1 with
        tree := wr st1.tree node (st1.combine (rd st1.tree (2 * node)) (rd st1.tree (2 * node + 1))) }

def segtree_update_point (st : Option segment_tree_t) (index value : Int) :
    segtree_error_t × Option segment_tree_t :=
  match st with
  | none => (segtree_error_t.SEGTREE_ERROR_NULL_POINTER, none)
  | some s =>
    if index < 0 ∨ index ≥ (s.size : Int) then
      (segtree_error_t.SEGTREE_ERROR_INVALID_RANGE, some s)
    else
      let s1 := update_point_recursive s.size s 1 0 (s.size - 1) index.toNat value
      (segtree_error_t.SEGTREE_OK,
       some { s1 with stats :=
                { s1.stats with update_count := wrap32 (s1.stats.update_count + 1) } })

def update_range_recursive :
    Nat → segment_tree_t → Nat → Nat → Nat → Nat → Nat → Int → segment_tree_t
  | 0, st, _, _, _, _, _, _ => st
  | fuel + 1, st, node, start, end_, l, r, val =>
    let st1 :=
      if st.lazy_enabled = true ∧ st.propagate ≠ none then call_propagate st node start end_
      else st
    if start > r ∨ end_ < l then st1
    else if start ≥ l ∧ end_ ≤ r then
      if st1.lazy_enabled = true ∧ st1.update_lazy ≠ none then
        call_update_lazy st1 node start end_ val
      else { st1 with tree := wr st1.tree node val }
    else
      let mid := (start + end_) / 2
      let st2 := update_range_recursive fuel st1 (2 * node) start mid l r val
      let st3 := update_range_recursive fuel st2 (2 * node + 1) (mid + 1) end_ l r val
      let st4 :=
        if st3.lazy_enabled = true ∧ st3.propagate ≠ none then
          call_propagate (call_propagate st3 (2 * node) start mid) (2 * node + 1) (mid + 1) end_
        else st3
      { st4 with
        tree := wr st4.tree node (st4.combine (rd st4.tree (2 * node)) (rd st4.tree (2 * node + 1))) }

def segtree_update_range (st : Option segment_tree_t) (left right value : Int) :
    segtree_error_t × Option segment_tree_t :=
  match st with
  | none => (segtree_error_t.SEGTREE_ERROR_NULL_POINTER, none)
  | some s =>
    if s.lazy_enabled = false then
      (segtree_error_t.SEGTREE_ERROR_INVALID_OPERATION, some s)
    else if left < 0 ∨ right ≥ (s.size : Int) ∨ left > right then
      (segtree_error_t.SEGTREE_ERROR_INVALID_RANGE, some s)
    else
      let s1 := update_range_recursive s.size s 1 0 (s.size - 1) left.toNat right.toNat value
      (segtree_error_t.SEGTREE_OK,
       some { s1 with stats :=
                { s1.stats with update_count := wrap32 (s1.stats.update_count + 1) } })

/-- The `realloc` of a buffer to `n` slots: the common prefix is kept, fresh slots hold `0`
(they are overwritten before any read). -/
def realloc (a : List Int) (n : Nat) : List Int := (a ++ List.replicate n 0).take n

def segtree_rebuild (st : Option segment_tree_t) (new_arr : Option (List Int))
    (new_size : Int) : segtree_error_t × Option segment_tree_t :=
  match st, new_arr with
  | none, _ => (segtree_error_t.SEGTREE_ERROR_NULL_POINTER, none)
  | some s, none => (segtree_error_t.SEGTREE_ERROR_NULL_POINTER, some s)
  | some s, some a =>
    if new_size ≤ 0 ∨ new_size > SEGTREE_MAX_SIZE then
      (segtree_error_t.SEGTREE_ERROR_INVALID_RANGE, some s)
    else
      let new_tree_size := (calculate_tree_size new_size).toNat
      let s1 :=
        if new_tree_size ≠ s.tree_size then
          let s0 := { s with tree := realloc s.tree new_tree_size }
          let s0 :=
            if s0.lazy_enabled = true then
              { s0 with lazy := some (fill new_tree_size
                  (realloc (s0.lazy.getD []) new_tree_size) s0.identity) }
            else s0
          { s0 with tree_size := new_tree_size }
        else s
      let s2 := { s1 with size := new_size.toNat }
      let s3 := { s2 with tree := fill s2.tree_size s2.tree s2.identity }
      (segtree_error_t.SEGTREE_OK, some (build_tree s3.size s3 a 1 0 (s3.size - 1)))

/-! ## src/src/utils.c

`validate_tree_recursive` copies the structure (`temp_st = *st`) before it propagates the
two children. The copy shares the `tree` and `lazy` buffers with `*st`, and `propagate`
writes nothing but slots of these buffers, so the writes reach the caller's tree: the
function is embedded with the tree after the call as second result. The test
`st->combine == NULL` of `segtree_validate` has no counterpart, `combine` being a total
function here. -/

def validate_tree_recursive :
    Nat → segment_tree_t → Nat → Nat → Nat → Bool × segment_tree_t
  | 0, st, _, _, _ => (false, st)
  | fuel + 1, st, node, start, end_ =>
    if node ≥ st.tree_size ∨ start > end_ ∨ end_ ≥ st.size then (false, st)
    else if start = end_ then (true, st)
    else
      let mid := (start + end_) / 2
      let left_child := 2 * node
      let right_child := 2 * node + 1
      if left_child ≥ st.tree_size ∨ right_child ≥ st.tree_size then (false, st)
      else
        let v1 := validate_tree_recursive fuel st left_child start mid
        let v2 := validate_tree_recursive fuel v1.2 right_child (mid + 1) end_
        if v1.1 = false ∨ v2.1 = false then (false, v2.2)
        else if v2.2.lazy_enabled = true ∧ v2.2.propagate ≠ none then
          let temp_st :=
            call_propagate (call_propagate v2.2 left_child start mid) right_child (mid + 1) end_
          let expected := temp_st.combine (rd temp_st.tree left_child) (rd temp_st.tree right_child)
          if rd temp_st.tree node ≠ expected then (false, temp_st) else (true, temp_st)
        else
          let expected := v2.2.combine (rd v2.2.tree left_child) (rd v2.2.tree right_child)
          if rd v2.2.tree node ≠ expected then (false, v2.2) else (true, v2.2)

/-- Result of `segtree_validate`: the returned flag and the tree after the call. -/
def segtree_validate (st : Option segment_tree_t) : Bool × Option segment_tree_t :=
  match st with
  | none => (false, none)
  | some s =>
    if s.size = 0 ∨ s.tree_size = 0 then (false, some s)
    else if s.lazy_enabled = true ∧
        (s.lazy = none ∨ s.propagate = none ∨ s.update_lazy = none) then (false, some s)
    else if s.size = 1 then (true, some s)
    else
      let v := validate_tree_recursive s.size s 1 0 (s.size - 1)
      (v.1, some v.2)

open segtree_error_t segtree_operation_t

/-! ## Specification vocabulary -/

/-- The elements `S[l], ..., S[r]` of a sequence. -/
def slice (S : List Int) (l r : Nat) : List Int := (S.drop l).take (r + 1 - l)

/-- On 32-bit integers `combine` is an associative operation with the two-sided neutral
element `identity`; no commutativity is required. -/
structure IsMonoid32 (combine : Int → Int → Int) (identity : Int) : Prop where
  closed : ∀ a b, is_int32 a → is_int32 b → is_int32 (combine a b)
  assoc : ∀ a b c, is_int32 a → is_int32 b → is_int32 c →
    combine (combine a b) c = combine a (combine b c)
  id_left : ∀ a, is_int32 a → combine identity a = a
  id_right : ∀ a, is_int32 a → combine a identity = a
  id_int32 : is_int32 identity

/-- Left-to-right fold of `A start, ..., A (start + len - 1)` starting from `identity`. -/
def fold_range (f : Int → Int → Int) (identity : Int) (A : Nat → Int) (start : Nat) :
    Nat → Int
  | 0 => identity
  | len + 1 => f (fold_range f identity A start len) (A (start + len))

/-- Slot `i` belongs to the subtree rooted at slot `node` in the implicit binary-tree
numbering (children of `k` are `2k` and `2k+1`). -/
def inSub (node i : Nat) : Prop := ∃ d : Nat, node * 2 ^ d ≤ i ∧ i < (node + 1) * 2 ^ d

/-- The node `node` covering `[start, end]` and all nodes below it have their slot inside a
buffer of `ts` slots. -/
def InB (node start end_ ts : Nat) : Prop :=
  ∃ j : Nat, end_ + 1 - start ≤ 2 ^ j ∧ (node + 1) * 2 ^ j ≤ ts

/-- Aggregate invariant of a tree without pending tags: below `node`, which covers
`[start, end]`, each leaf holds its element of `A` and each internal node holds the
combination of its two children. -/
inductive AggInv (f : Int → Int → Int) (t : List Int) (A : Nat → Int) :
    Nat → Nat → Nat → Prop
  | leaf (node s : Nat) : rd t node = A s → AggInv f t A node s s
  | node (node s e : Nat) : s < e →
      AggInv f t A (2 * node) s ((s + e) / 2) →
      AggInv f t A (2 * node + 1) ((s + e) / 2 + 1) e →
      rd t node = f (rd t (2 * node)) (rd t (2 * node + 1)) →
      AggInv f t A node s e

/-- The tree `st`, without lazy propagation, stores the sequence `A`: its buffer is large
enough for the recursion over `[0, size - 1]` and satisfies the aggregate invariant. -/
def PlainRep (st : segment_tree_t) (A : Nat → Int) : Prop :=
  st.lazy_enabled = false ∧ 1 ≤ st.size ∧ InB 1 0 (st.size - 1) st.tree.length ∧
    AggInv st.combine st.tree A 1 0 (st.size - 1)

/-- The fold of a sequence under an operation, on unbounded integers, starting from the
identity of the operation: sum from `0`, minimum from `INT_MAX`, maximum from `INT_MIN`. -/
def op_fold : segtree_operation_t → List Int → Int
  | segtree_operation_t.SEGTREE_SUM, L => L.foldl (fun a b => a + b) 0
  | segtree_operation_t.SEGTREE_MIN, L => L.foldl (fun a b => min a b) SEGTREE_INF
  | segtree_operation_t.SEGTREE_MAX, L => L.foldl (fun a b => max a b) SEGTREE_NEG_INF
  | segtree_operation_t.SEGTREE_CUSTOM, L => L.foldl (fun a b => a + b) 0

/-- The tree returned by `segtree_create` over `{1, 2, 3}` with `SEGTREE_SUM`
(first tree of `test_lazy_error_handling`). -/
def plain_sum_123 : segment_tree_t :=
  { tree := [0, 6, 3, 3, 1, 2, 0, 0]
    lazy := none
    size := 3
    tree_size := 8
    op_type := segtree_operation_t.SEGTREE_SUM
    combine := combine_sum
    update_lazy := some lazy_fn.sum
    propagate := some lazy_fn.sum
    identity := 0
    lazy_enabled := false
    stats := { query_count := 0, update_count := 0 } }

/-- The tree returned by `segtree_create_lazy` over `{1, 2, 3}` with `SEGTREE_SUM`
(second tree of `test_lazy_error_handling`). -/
def lazy_sum_123 : segment_tree_t :=
  { plain_sum_123 with lazy := some [0, 0, 0, 0, 0, 0, 0, 0], lazy_enabled := true }

/-- The tree `lazy_sum_123` after `segtree_update_range (0, 2, 5)`: the tag 5 is pending on
the root and no node below the root has received it yet. -/
def lazy_sum_123_tagged : segment_tree_t :=
  { lazy_sum_123 with
    lazy := some [0, 5, 0, 0, 0, 0, 0, 0]
    stats := { query_count := 0, update_count := 1 } }

/-- The combine function of `test_custom_operations`: `int` multiplication. -/
def custom_combine (a b : Int) : Int := wrap32 (a * b)

/-- The combine function that `setup_operations` installs together with a lazy rule. -/
def lz_combine : lazy_fn → Int → Int → Int
  | lazy_fn.sum => combine_sum
  | lazy_fn.min => combine_min
  | lazy_fn.max => combine_max

/-- The identity that `setup_operations` installs together with a lazy rule; it is also
the content of a `lazy[]` slot without pending update. -/
def lz_identity : lazy_fn → Int
  | lazy_fn.sum => 0
  | lazy_fn.min => SEGTREE_INF
  | lazy_fn.max => SEGTREE_NEG_INF

/-- Meaning of a pending tag `t` for the aggregate `x` of a node covering `len` elements:
a SUM tag adds `t` to each element, a MIN/MAX tag other than the sentinel replaces each
element by `t`. -/
def tag_apply : lazy_fn → Int → Int → Int → Int
  | lazy_fn.sum, t, len, x => wrap32 (x + wrap32 (t * len))
  | lazy_fn.min, t, _, x => if t = SEGTREE_INF then x else t
  | lazy_fn.max, t, _, x => if t = SEGTREE_NEG_INF then x else t

/-- The single tag with the meaning of the tag `old` followed by the later tag `new`. -/
def tag_compose : lazy_fn → Int → Int → Int
  | lazy_fn.sum, new, old => wrap32 (old + new)
  | lazy_fn.min, new, old => if new = SEGTREE_INF then old else new
  | lazy_fn.max, new, old => if new = SEGTREE_NEG_INF then old else new

/-- Constraint on a stored aggregate: in a SUM tree it is a 32-bit value. -/
def stored_ok : lazy_fn → Int → Prop
  | lazy_fn.sum, x => is_int32 x
  | lazy_fn.min, _ => True
  | lazy_fn.max, _ => True

/-- The aggregate of the node `c` covering `[s, e]` once its own pending tag is resolved. -/
def node_value (k : lazy_fn) (t lz : List Int) (c s e : Nat) : Int :=
  tag_apply k (rd lz c) ((e : Int) - (s : Int) + 1) (rd t c)

/-- Lazy aggregate invariant below `node`, which covers `[s, e]`, for the buffers `t`
(`tree[]`) and `lz` (`lazy[]`): `acc` is the combined tag still pending on the proper
ancestors of `node`; each leaf, with all tags pending on its path resolved, holds its
element of `M`; each internal node, with its own tag resolved, holds the combination of
the resolved values of its children. -/
inductive LazyInv (k : lazy_fn) (t lz : List Int) (M : Nat → Int) :
    Nat → Nat → Nat → Int → Prop
  | leaf (node s : Nat) (acc : Int) :
      stored_ok k (rd t node) →
      tag_apply k (tag_compose k acc (rd lz node)) 1 (rd t node) = M s →
      LazyInv k t lz M node s s acc
  | node (node s e : Nat) (acc : Int) : s < e →
      stored_ok k (rd t node) →
      node_value k t lz node s e =
        tag_apply k (rd lz node) ((e : Int) - (s : Int) + 1)
          (lz_combine k (node_value k t lz (2 * node) s ((s + e) / 2))
            (node_value k t lz (2 * node + 1) ((s + e) / 2 + 1) e)) →
      LazyInv k t lz M (2 * node) s ((s + e) / 2) (tag_compose k acc (rd lz node)) →
      LazyInv k t lz M (2 * node + 1) ((s + e) / 2 + 1) e (tag_compose k acc (rd lz node)) →
      LazyInv k t lz M node s e acc

/-- The tree `st` has lazy propagation enabled with the rule `k` installed by
`setup_operations`, and `lz` is its `lazy[]` buffer, as long as `tree[]`. -/
def LazyWF (k : lazy_fn) (st : segment_tree_t) (lz : List Int) : Prop :=
  st.lazy_enabled = true ∧ st.propagate = some k ∧ st.update_lazy = some k ∧
    st.combine = lz_combine k ∧ st.identity = lz_identity k ∧ st.lazy = some lz ∧
    lz.length = st.tree.length

/-- The tree `st` with its two buffers replaced. -/
def with_bufs (st : segment_tree_t) (t lz : List Int) : segment_tree_t :=
  { st with tree := t, lazy := some lz }

/-- The model sequence after a range update `(l, r, val)` under the rule `k`: inside
`[l, r]` the tag `val` is applied to each element, outside nothing changes. -/
def range_model (k : lazy_fn) (l r : Nat) (val : Int) (M : Nat → Int) : Nat → Int :=
  fun i => if l ≤ i ∧ i ≤ r then tag_apply k val 1 (M i) else M i

/-- The lazy rule that `setup_operations` installs for an operation. -/
def op_rule : segtree_operation_t → lazy_fn
  | segtree_operation_t.SEGTREE_SUM => lazy_fn.sum
  | segtree_operation_t.SEGTREE_MIN => lazy_fn.min
  | segtree_operation_t.SEGTREE_MAX => lazy_fn.max
  | segtree_operation_t.SEGTREE_CUSTOM => lazy_fn.sum

/-- The lazy tree `st` with rule `k` stores the sequence `M`: its buffers are large enough
for the recursion over `[0, size - 1]` and satisfy the lazy aggregate invariant with no
tag pending above the root. -/
def LazyRep (k : lazy_fn) (st : segment_tree_t) (M : Nat → Int) : Prop :=
  ∃ lz : List Int, LazyWF k st lz ∧ 1 ≤ st.size ∧ InB 1 0 (st.size - 1) st.tree.length ∧
    LazyInv k st.tree lz M 1 0 (st.size - 1) (lz_identity k)

/-- A call of the query / range-update interface of a lazy tree. -/
inductive lazy_call where
  | query (left right : Int)
  | update_range (left right value : Int)

/-- The tree handle after one call (the value a query stores in its result slot is
dropped). -/
def run_call (t : Option segment_tree_t) : lazy_call → Option segment_tree_t
  | lazy_call.query l r => (segtree_query t l r (some 0)).2.1
  | lazy_call.update_range l r v => (segtree_update_range t l r v).2

/-- The tree handle after a sequence of calls, executed in order. -/
def run_calls (t : Option segment_tree_t) (cs : List lazy_call) : Option segment_tree_t :=
  cs.foldl run_call t

/-- A call is valid for a lazy tree of `n` elements with rule `k`: its range satisfies
`0 ≤ left ≤ right ≤ n - 1`; the value of a range update is a 32-bit integer which, for a
MIN or MAX tree, differs from the sentinel `INT_MAX` resp. `INT_MIN`. -/
def valid_call (k : lazy_fn) (n : Int) : lazy_call → Prop
  | lazy_call.query l r => 0 ≤ l ∧ l ≤ r ∧ r < n
  | lazy_call.update_range l r v =>
    0 ≤ l ∧ l ≤ r ∧ r < n ∧ is_int32 v ∧ (k = lazy_fn.sum ∨ v ≠ lz_identity k)

instance (k : lazy_fn) (n : Int) (c : lazy_call) : Decidable (valid_call k n c) := by
  cases c <;> unfold valid_call <;> infer_instance

/-- Effect of a range update with value `v` on one element `x` of the naive model:
addition of `v` for SUM, replacement by `v` for MIN and MAX. -/
def elem_update : lazy_fn → Int → Int → Int
  | lazy_fn.sum, v, x => x + v
  | lazy_fn.min, v, _ => v
  | lazy_fn.max, v, _ => v

/-- Naive range update of a sequence whose first element has index `i`: every element with
index in `[l, r]` is updated. -/
def model_update (k : lazy_fn) (l r : Nat) (v : Int) : Nat → List Int → List Int
  | _, [] => []
  | i, x :: xs =>
    (if l ≤ i ∧ i ≤ r then elem_update k v x else x) :: model_update k l r v (i + 1) xs

/-- Effect of one call on the naive model array. -/
def naive_step (k : lazy_fn) (M : List Int) : lazy_call → List Int
  | lazy_call.query _ _ => M
  | lazy_call.update_range l r v => model_update k l.toNat r.toNat v 0 M

/-- The naive model array after a sequence of calls, on unbounded integers. -/
def naive_model (k : lazy_fn) (S : List Int) (cs : List lazy_call) : List Int :=
  cs.foldl (naive_step k) S

/-- The 32-bit values a tree stores for a model array: reduced modulo `2^32` for SUM. -/
def stored_model : lazy_fn → List Int → Nat → Int
  | lazy_fn.sum, M => fun i => wrap32 (rd M i)
  | lazy_fn.min, M => rd M
  | lazy_fn.max, M => rd M

/-- The 32-bit products `size * 2` that `calculate_tree_size` evaluates for `n`, before
any wrap-around, in evaluation order: one for every turn of the doubling loop started at
`size`, then the one of `return size * 2`. -/
def calculate_tree_size_products : Nat → Int → Int → List Int
  | 0, size, _ => [size * 2]
  | fuel + 1, size, n =>
    if size < n then (size * 2) :: calculate_tree_size_products fuel (wrap32 (size * 2)) n
    else [size * 2]

/-- Slot `i` is an internal node of the recursion tree rooted at `node` over
`[start, end]` (midpoint split, children `2 * node` and `2 * node + 1`). -/
inductive Internal : Nat → Nat → Nat → Nat → Prop
  | here (node s e : Nat) : s < e → Internal node s e node
  | left (node s e i : Nat) : s < e → Internal (2 * node) s ((s + e) / 2) i →
      Internal node s e i
  | right (node s e i : Nat) : s < e → Internal (2 * node + 1) ((s + e) / 2 + 1) e i →
      Internal node s e i

/-- The tree `st`, without lazy propagation, is well formed: `tree[]` has `tree_size`
slots and satisfies the aggregate invariant for some sequence. -/
def PlainOk (st : segment_tree_t) : Prop :=
  st.tree.length = st.tree_size ∧ ∃ A : Nat → Int, PlainRep st A

/-- A call on a tree without lazy propagation. -/
inductive plain_call where
  | query (left right : Int)
  | update_point (index value : Int)
  | rebuild (new_arr : List Int) (new_size : Int)

/-- The error code of a call and the tree handle after it. -/
def plain_result (t : Option segment_tree_t) :
    plain_call → segtree_error_t × Option segment_tree_t
  | plain_call.query l r => ((segtree_query t l r (some 0)).1, (segtree_query t l r (some 0)).2.1)
  | plain_call.update_point i v => segtree_update_point t i v
  | plain_call.rebuild a n => segtree_rebuild t (some a) n

/-- The tree handle after a sequence of calls, executed in order. -/
def plain_calls (t : Option segment_tree_t) (cs : List plain_call) : Option segment_tree_t :=
  cs.foldl (fun t c => (plain_result t c).2) t

/-! ## Access-checked translation of `operations.c` and of the recursions

A second translation of the same source lines, in which every `tree[i]` and `lazy[i]`
goes through `slot_rd` or `slot_wr` and faults unless `1 <= i < st->tree_size`. The
theorems `*_checked_eq` prove that, inside the buffers, each of these functions returns
the result of its counterpart above. -/

/-- Read of slot `i` of a buffer of `ts` slots that faults (`none`) unless
`1 <= i < ts`. -/
def slot_rd (ts : Nat) (a : List Int) (i : Nat) : Option Int :=
  if 1 ≤ i ∧ i < ts then some (rd a i) else none

/-- Write of slot `i` of a buffer of `ts` slots that faults (`none`) unless
`1 <= i < ts`. -/
def slot_wr (ts : Nat) (a : List Int) (i : Nat) (v : Int) : Option (List Int) :=
  if 1 ≤ i ∧ i < ts then some (wr a i v) else none

/-- The function `update_lazy_sum` with every access to `tree[]` and `lazy[]` made through
`slot_rd` and `slot_wr` against `st->tree_size`. -/
def update_lazy_sum_checked (st : segment_tree_t) (node _start _end : Nat) (val : Int) :
    Option segment_tree_t :=
  match st.lazy with
  | none => some st
  | some lz => do
    let x ← slot_rd st.tree_size lz node
    let lz1 ← slot_wr st.tree_size lz node (wrap32 (x + val))
    some { st with lazy := some lz1 }

/-- The function `update_lazy_min` with every access checked. -/
def update_lazy_min_checked (st : segment_tree_t) (node _start _end : Nat) (val : Int) :
    Option segment_tree_t :=
  match st.lazy with
  | none => some st
  | some lz => do
    let x ← slot_rd st.tree_size lz node
    if x = SEGTREE_INF ∨ val < x then do
      let lz1 ← slot_wr st.tree_size lz node val
      let tree1 ← slot_wr st.tree_size st.tree node val
      some { st with lazy := some lz1, tree := tree1 }
    else some st

/-- The function `update_lazy_max` with every access checked. -/
def update_lazy_max_checked (st : segment_tree_t) (node _start _end : Nat) (val : Int) :
    Option segment_tree_t :=
  match st.lazy with
  | none => some st
  | some lz => do
    let x ← slot_rd st.tree_size lz node
    if x = SEGTREE_NEG_INF ∨ val > x then do
      let lz1 ← slot_wr st.tree_size lz node val
      let tree1 ← slot_wr st.tree_size st.tree node val
      some { st with lazy := some lz1, tree := tree1 }
    else some st

/-- The function `propagate_sum` with every access checked. -/
def propagate_sum_checked (st : segment_tree_t) (node start end_ : Nat) :
    Option segment_tree_t :=
  match st.lazy with
  | none => some st
  | some lz => do
    let tag ← slot_rd st.tree_size lz node
    if tag ≠ 0 then do
      let x ← slot_rd st.tree_size st.tree node
      let tree1 ← slot_wr st.tree_size st.tree node
        (wrap32 (x + wrap32 (tag * ((end_ : Int) - (start : Int) + 1))))
      let lz2 ←
        (if start ≠ end_ then do
          let c1 ← slot_rd st.tree_size lz (2 * node)
          let lz1 ← slot_wr st.tree_size lz (2 * node) (wrap32 (c1 + tag))
          let c2 ← slot_rd st.tree_size lz1 (2 * node + 1)
          let tag2 ← slot_rd st.tree_size lz1 node
          slot_wr st.tree_size lz1 (2 * node + 1) (wrap32 (c2 + tag2))
        else some lz)
      let lz3 ← slot_wr st.tree_size lz2 node 0
      some { st with tree := tree1, lazy := some lz3 }
    else some st

/-- The function `propagate_min` with every access checked. -/
def propagate_min_checked (st : segment_tree_t) (node start end_ : Nat) :
    Option segment_tree_t :=
  match st.lazy with
  | none => some st
  | some lz => do
    let tag ← slot_rd st.tree_size lz node
    if tag ≠ SEGTREE_INF then do
      let tree1 ← slot_wr st.tree_size st.tree node tag
      let lz2 ←
        (if start ≠ end_ then do
          let lz1 ← slot_wr st.tree_size lz (2 * node) tag
          let tag2 ← slot_rd st.tree_size lz1 node
          slot_wr st.tree_size lz1 (2 * node + 1) tag2
        else some lz)
      let lz3 ← slot_wr st.tree_size lz2 node SEGTREE_INF
      some { st with tree := tree1, lazy := some lz3 }
    else some st

/-- The function `propagate_max` with every access checked. -/
def propagate_max_checked (st : segment_tree_t) (node start end_ : Nat) :
    Option segment_tree_t :=
  match st.lazy with
  | none => some st
  | some lz => do
    let tag ← slot_rd st.tree_size lz node
    if tag ≠ SEGTREE_NEG_INF then do
      let tree1 ← slot_wr st.tree_size st.tree node tag
      let lz2 ←
        (if start ≠ end_ then do
          let lz1 ← slot_wr st.tree_size lz (2 * node) tag
          let tag2 ← slot_rd st.tree_size lz1 node
          slot_wr st.tree_size lz1 (2 * node + 1) tag2
        else some lz)
      let lz3 ← slot_wr st.tree_size lz2 node SEGTREE_NEG_INF
      some { st with tree := tree1, lazy := some lz3 }
    else some st

/-- The call `st->propagate(st, node, start, end)` with every access checked. -/
def call_propagate_checked (st : segment_tree_t) (node start end_ : Nat) :
    Option segment_tree_t :=
  match st.propagate with
  | some lazy_fn.sum => propagate_sum_checked st node start end_
  | some lazy_fn.min => propagate_min_checked st node start end_
  | some lazy_fn.max => propagate_max_checked st node start end_
  | none => some st

/-- The call `st->update_lazy(st, node, start, end, val)` with every access checked. -/
def call_update_lazy_checked (st : segment_tree_t) (node start end_ : Nat) (val : Int) :
    Option segment_tree_t :=
  match st.update_lazy with
  | some lazy_fn.sum => update_lazy_sum_checked st node start end_ val
  | some lazy_fn.min => update_lazy_min_checked st node start end_ val
  | some lazy_fn.max => update_lazy_max_checked st node start end_ val
  | none => some st

/-- The function `build_tree` with every access to `tree[]` checked; `none` also when the
fuel does not cover the recursion. -/
def build_tree_checked :
    Nat → segment_tree_t → List Int → Nat → Nat → Nat → Option segment_tree_t
  | 0, _, _, _, _, _ => none
  | fuel + 1, st, arr, node, start, end_ =>
    if start = end_ then do
      let tree1 ← slot_wr st.tree_size st.tree node (rd arr start)
      some { st with tree := tree1 }
    else do
      let mid := (start + end_) / 2
      let st1 ← build_tree_checked fuel st arr (2 * node) start mid
      let st2 ← build_tree_checked fuel st1 arr (2 * node + 1) (mid + 1) end_
      let a ← slot_rd st2.tree_size st2.tree (2 * node)
      let b ← slot_rd st2.tree_size st2.tree (2 * node + 1)
      let tree1 ← slot_wr st2.tree_size st2.tree node (st2.combine a b)
      some { st2 with tree := tree1 }

/-- The function `query_recursive` with every access to `tree[]` and `lazy[]` checked;
`none` also when the fuel does not cover the recursion. -/
def query_recursive_checked :
    Nat → segment_tree_t → Nat → Nat → Nat → Nat → Nat → Option (segment_tree_t × Int)
  | 0, _, _, _, _, _, _ => none
  | fuel + 1, st, node, start, end_, l, r =>
    if r < start ∨ end_ < l then some (st, st.identity)
    else do
      let st1 ←
        (if st.lazy_enabled = true ∧ st.propagate ≠ none then
          call_propagate_checked st node start end_
        else some st)
      if l ≤ start ∧ end_ ≤ r then do
        let v ← slot_rd st1.tree_size st1.tree node
        some (st1, v)
      else do
        let mid := (start + end_) / 2
        let q1 ← query_recursive_checked fuel st1 (2 * node) start mid l r
        let q2 ← query_recursive_checked fuel q1.1 (2 * node + 1) (mid + 1) end_ l r
        some (q2.1, q2.1.combine q1.2 q2.2)

/-- The function `update_point_recursive` with every access to `tree[]` checked; `none`
also when the fuel does not cover the recursion. -/
def update_point_recursive_checked :
    Nat → segment_tree_t → Nat → Nat → Nat → Nat → Int → Option segment_tree_t
  | 0, _, _, _, _, _, _ => none
  | fuel + 1, st, node, start, end_, idx, val =>
    if start = end_ then do
      let tree1 ← slot_wr st.tree_size st.tree node val
      some { st with tree := tree1 }
    else do
      let mid := (start + end_) / 2
      let st1 ←
        (if idx ≤ mid then update_point_recursive_checked fuel st (2 * node) start mid idx val
        else update_point_recursive_checked fuel st (2 * node + 1) (mid + 1) end_ idx val)
      let a ← slot_rd st1.tree_size st1.tree (2 * node)
      let b ← slot_rd st1.tree_size st1.tree (2 * node + 1)
      let tree1 ← slot_wr st1.tree_size st1.tree node (st1.combine a b)
      some { st1 with tree := tree1 }

/-- The function `update_range_recursive` with every access to `tree[]` and `lazy[]`
checked; `none` also when the fuel does not cover the recursion. -/
def update_range_recursive_checked :
    Nat → segment_tree_t → Nat → Nat → Nat → Nat → Nat → Int → Option segment_tree_t
  | 0, _, _, _, _, _, _, _ => none
  | fuel + 1, st, node, start, end_, l, r, val => do
    let st1 ←
      (if st.lazy_enabled = true ∧ st.propagate ≠ none then
        call_propagate_checked st node start end_
      else some st)
    if start > r ∨ end_ < l then some st1
    else if start ≥ l ∧ end_ ≤ r then
      if st1.lazy_enabled = true ∧ st1.update_lazy ≠ none then
        call_update_lazy_checked st1 node start end_ val
      else do
        let tree1 ← slot_wr st1.tree_size st1.tree node val
        some { st1 with tree := tree1 }
    else do
      let mid := (start + end_) / 2
      let st2 ← update_range_recursive_checked fuel st1 (2 * node) start mid l r val
      let st3 ← update_range_recursive_checked fuel st2 (2 * node + 1) (mid + 1) end_ l r val
      let st4 ←
        (if st3.lazy_enabled = true ∧ st3.propagate ≠ none then do
          let s5 ← call_propagate_checked st3 (2 * node) start mid
          call_propagate_checked s5 (2 * node + 1) (mid + 1) end_
        else some st3)
      let a ← slot_rd st4.tree_size st4.tree (2 * node)
      let b ← slot_rd st4.tree_size st4.tree (2 * node + 1)
      let tree1 ← slot_wr st4.tree_size st4.tree node (st4.combine a b)
      some { st4 with tree := tree1 }

/-! ## The recursions with a count of nested activations

A second translation of the four recursive functions that returns, with the result, the
depth that the recursion reached, and `none` when it needs more than `fuel` nested
activations. The theorems `*_run_ok` prove that the result is the one of the function
above. -/

/-- The recursion returned `res` within the available activations and its depth is at most
`k`. -/
def RunOk {α : Type} (k : Nat) (run : Option (α × Nat)) (res : α) : Prop :=
  ∃ d : Nat, d ≤ k ∧ run = some (res, d)

/-- The function `build_tree` with a count of the nested activations: the tree after the
call and the depth of the recursion (number of nested calls below the first one); `none`
when more than `fuel` nested activations are needed. -/
def build_tree_run :
    Nat → segment_tree_t → List Int → Nat → Nat → Nat → Option (segment_tree_t × Nat)
  | 0, _, _, _, _, _ => none
  | fuel + 1, st, arr, node, start, end_ =>
    if start = end_ then
      some ({ st with tree := wr st.tree node (rd arr start) }, 0)
    else
      let mid := (start + end_) / 2
      match build_tree_run fuel st arr (2 * node) start mid with
      | none => none
      | some (st1, d1) =>
        match build_tree_run fuel st1 arr (2 * node + 1) (mid + 1) end_ with
        | none => none
        | some (st2, d2) =>
          some ({ st2 with
            tree := wr st2.tree node
              (st2.combine (rd st2.tree (2 * node)) (rd st2.tree (2 * node + 1))) },
            max d1 d2 + 1)

/-- The function `update_point_recursive` with a count of the nested activations; `none`
when more than `fuel` nested activations are needed. -/
def update_point_run :
    Nat → segment_tree_t → Nat → Nat → Nat → Nat → Int → Option (segment_tree_t × Nat)
  | 0, _, _, _, _, _, _ => none
  | fuel + 1, st, node, start, end_, idx, val =>
    if start = end_ then
      some ({ st with tree := wr st.tree node val }, 0)
    else
      let mid := (start + end_) / 2
      match (if idx ≤ mid then update_point_run fuel st (2 * node) start mid idx val
          else update_point_run fuel st (2 * node + 1) (mid + 1) end_ idx val) with
      | none => none
      | some (st1, d1) =>
        some ({ st1 with
          tree := wr st1.tree node
            (st1.combine (rd st1.tree (2 * node)) (rd st1.tree (2 * node + 1))) },
          d1 + 1)

/-- The function `query_recursive` with a count of the nested activations; `none` when
more than `fuel` nested activations are needed. -/
def query_run :
    Nat → segment_tree_t → Nat → Nat → Nat → Nat → Nat →
      Option ((segment_tree_t × Int) × Nat)
  | 0, _, _, _, _, _, _ => none
  | fuel + 1, st, node, start, end_, l, r =>
    if r < start ∨ end_ < l then some ((st, st.identity), 0)
    else
      let st1 :=
        if st.lazy_enabled = true ∧ st.propagate ≠ none then call_propagate st node start end_
        else st
      if l ≤ start ∧ end_ ≤ r then some ((st1, rd st1.tree node), 0)
      else
        let mid := (start + end_) / 2
        match query_run fuel st1 (2 * node) start mid l r with
        | none => none
        | some (q1, d1) =>
          match query_run fuel q1.1 (2 * node + 1) (mid + 1) end_ l r with
          | none => none
          | some (q2, d2) => some ((q2.1, q2.1.combine q1.2 q2.2), max d1 d2 + 1)

/-- The function `update_range_recursive` with a count of the nested activations; `none`
when more than `fuel` nested activations are needed. -/
def update_range_run :
    Nat → segment_tree_t → Nat → Nat → Nat → Nat → Nat → Int → Option (segment_tree_t × Nat)
  | 0, _, _, _, _, _, _, _ => none
  | fuel + 1, st, node, start, end_, l, r, val =>
    let st1 :=
      if st.lazy_enabled = true ∧ st.propagate ≠ none then call_propagate st node start end_
      else st
    if start > r ∨ end_ < l then some (st1, 0)
    else if start ≥ l ∧ end_ ≤ r then
      if st1.lazy_enabled = true ∧ st1.update_lazy ≠ none then
        some (call_update_lazy st1 node start end_ val, 0)
      else some ({ st1 with tree := wr st1.tree node val }, 0)
    else
      let mid := (start + end_) / 2
      match update_range_run fuel st1 (2 * node) start mid l r val with
      | none => none
      | some (st2, d1) =>
        match update_range_run fuel st2 (2 * node + 1) (mid + 1) end_ l r val with
        | none => none
        | some (st3, d2) =>
          let st4 :=
            if st3.lazy_enabled = true ∧ st3.propagate ≠ none then
              call_propagate (call_propagate st3 (2 * node) start mid) (2 * node + 1)
                (mid + 1) end_
            else st3
          some ({ st4 with
            tree := wr st4.tree node
              (st4.combine (rd st4.tree (2 * node)) (rd st4.tree (2 * node + 1))) },
            max d1 d2 + 1)

/-! ## Further specification vocabulary -/

/-- The activations of `query_recursive` for the range `[l, r]`, each as the triple
`(node, start, end)` of its arguments, in call order; the activations that return at once
because `[start, end]` lies outside `[l, r]` are included; `none` when the fuel does not
cover the recursion. -/
def query_visits :
    Nat → Nat → Nat → Nat → Nat → Nat → Option (List (Nat × Nat × Nat))
  | 0, _, _, _, _, _ => none
  | fuel + 1, node, start, end_, l, r =>
    if r < start ∨ end_ < l then some [(node, start, end_)]
    else if l ≤ start ∧ end_ ≤ r then some [(node, start, end_)]
    else
      let mid := (start + end_) / 2
      match query_visits fuel (2 * node) start mid l r,
          query_visits fuel (2 * node + 1) (mid + 1) end_ l r with
      | some a, some b => some ((node, start, end_) :: (a ++ b))
      | _, _ => none

/-- Slot `i` is the node covering `[a, b]` in the recursion tree rooted at `node` over
`[start, end]` (midpoint split, children `2 * node` and `2 * node + 1`); it is a leaf
when `a = b`. -/
inductive Covers : Nat → Nat → Nat → Nat → Nat → Nat → Prop
  | here (node s e : Nat) : Covers node s e node s e
  | left (node s e i a b : Nat) : s < e → Covers (2 * node) s ((s + e) / 2) i a b →
      Covers node s e i a b
  | right (node s e i a b : Nat) : s < e →
      Covers (2 * node + 1) ((s + e) / 2 + 1) e i a b → Covers node s e i a b

/-- The lazy tree `st` with rule `k` is well formed and no slot of `lazy[]` holds a
pending tag. -/
def LazyClean (k : lazy_fn) (st : segment_tree_t) : Prop :=
  ∃ lz : List Int, LazyWF k st lz ∧ 1 ≤ st.size ∧ InB 1 0 (st.size - 1) lz.length ∧
    ∀ i : Nat, i < lz.length → rd lz i = lz_identity k

/-- A call of the query / point-update interface. -/
inductive point_call where
  | query (left right : Int)
  | update_point (index value : Int)

/-- The tree handle after a sequence of query and point-update calls, executed in order
(the value a query stores in its result slot is dropped). -/
def point_calls (t : Option segment_tree_t) (cs : List point_call) : Option segment_tree_t :=
  cs.foldl (fun t c =>
    match c with
    | point_call.query l r => (segtree_query t l r (some 0)).2.1
    | point_call.update_point i v => (segtree_update_point t i v).2) t

/-- State left under `node`, which covers `[start, end]`, by a range update over `[l, r]`
whose value is the sentinel of the rule `k`: every visited node has no pending tag, a node
inside `[l, r]` stores the sentinel, and a node cut by `[l, r]` stores the combination of
its children. -/
inductive Settled (k : lazy_fn) (t lz : List Int) (l r : Nat) : Nat → Nat → Nat → Prop
  | outside (node s e : Nat) : (s > r ∨ e < l) → rd lz node = lz_identity k →
      Settled k t lz l r node s e
  | covered (node s e : Nat) : ¬ (s > r ∨ e < l) → (s ≥ l ∧ e ≤ r) →
      rd lz node = lz_identity k → rd t node = lz_identity k → Settled k t lz l r node s e
  | cut (node s e : Nat) : ¬ (s > r ∨ e < l) → ¬ (s ≥ l ∧ e ≤ r) →
      rd lz node = lz_identity k →
      Settled k t lz l r (2 * node) s ((s + e) / 2) →
      Settled k t lz l r (2 * node + 1) ((s + e) / 2 + 1) e →
      rd t node = lz_combine k (rd t (2 * node)) (rd t (2 * node + 1)) →
      Settled k t lz l r node s e

/-- Slot `i` lies on the path that `update_point_recursive` follows from `node`, which
covers `[start, end]`, down to the leaf of the index `idx`: the node itself and, while
`start != end`, the path below the child chosen by `idx <= mid`. -/
inductive OnPath (idx : Nat) : Nat → Nat → Nat → Nat → Prop
  | here (node s e : Nat) : OnPath idx node s e node
  | left (node s e i : Nat) : s ≠ e → idx ≤ (s + e) / 2 →
      OnPath idx (2 * node) s ((s + e) / 2) i → OnPath idx node s e i
  | right (node s e i : Nat) : s ≠ e → ¬ idx ≤ (s + e) / 2 →
      OnPath idx (2 * node + 1) ((s + e) / 2 + 1) e i → OnPath idx node s e i

/-- The tree `st` with its `op_type` field replaced. -/
def with_op (st : segment_tree_t) (op : segtree_operation_t) : segment_tree_t :=
  { st with op_type := op }

/-- A call of one of the four operations on an existing tree. -/
inductive tree_call where
  | query (left right : Int)
  | update_point (index value : Int)
  | update_range (left right value : Int)
  | rebuild (new_arr : Option (List Int)) (new_size : Int)

/-- The tree handle after one call (the value a query stores in its result slot is
dropped). -/
def tree_step (t : Option segment_tree_t) : tree_call → Option segment_tree_t
  | tree_call.query l r => (segtree_query t l r (some 0)).2.1
  | tree_call.update_point i v => (segtree_update_point t i v).2
  | tree_call.update_range l r v => (segtree_update_range t l r v).2
  | tree_call.rebuild a n => (segtree_rebuild t a n).2

/-- The tree handle after a sequence of calls, executed in order. -/
def tree_calls (t : Option segment_tree_t) (cs : List tree_call) : Option segment_tree_t :=
  cs.foldl tree_step t

/-- The value that `query_recursive` returns for the range `[a, b]` at `node`, which covers
`[start, end]`, read off the buffers `t` (`tree[]`) and `lz` (`lazy[]`) without moving any
tag: `acc` is the combined tag pending on the proper ancestors of `node`; a node inside
`[a, b]` contributes its stored aggregate with all pending tags of its path applied. -/
def resolved_value (k : lazy_fn) (t lz : List Int) (a b : Nat) :
    Nat → Nat → Nat → Nat → Int → Int
  | 0, _, _, _, _ => lz_identity k
  | fuel + 1, node, start, end_, acc =>
    if b < start ∨ end_ < a then lz_identity k
    else if a ≤ start ∧ end_ ≤ b then
      tag_apply k (tag_compose k acc (rd lz node)) ((end_ : Int) - (start : Int) + 1) (rd t node)
    else
      lz_combine k
        (resolved_value k t lz a b fuel (2 * node) start ((start + end_) / 2)
          (tag_compose k acc (rd lz node)))
        (resolved_value k t lz a b fuel (2 * node + 1) ((start + end_) / 2 + 1) end_
          (tag_compose k acc (rd lz node)))

/-! ## Machine integers and buffers -/

theorem wrap32_is_int32 (x : Int) : is_int32 (wrap32 x) := by
  unfold is_int32 wrap32; omega

theorem wrap32_of_is_int32 {x : Int} (h : is_int32 x) : wrap32 x = x := by
  unfold is_int32 at h; unfold wrap32; omega

theorem wrap32_add_left (a b : Int) : wrap32 (wrap32 a + b) = wrap32 (a + b) := by
  unfold wrap32; omega

theorem wrap32_add_right (a b : Int) : wrap32 (a + wrap32 b) = wrap32 (a + b) := by
  unfold wrap32; omega

theorem wrap32_modEq (x : Int) : wrap32 x ≡ x [ZMOD 4294967296] := by
  unfold wrap32 Int.ModEq; omega

theorem wrap32_congr {a b : Int} (h : a ≡ b [ZMOD 4294967296]) : wrap32 a = wrap32 b := by
  unfold Int.ModEq at h; unfold wrap32; omega

theorem rd_wr_same {a : List Int} {i : Nat} (v : Int) (h : i < a.length) : rd (wr a i v) i = v := by
  simp [rd, wr, List.getD, h]

theorem rd_wr_ne {a : List Int} {i j : Nat} (v : Int) (h : i ≠ j) : rd (wr a i v) j = rd a j := by
  simp [rd, wr, List.getD, List.getElem?_set_ne h]

theorem length_wr (a : List Int) (i : Nat) (v : Int) : (wr a i v).length = a.length := by
  simp [wr]

/-! ## Index geometry -/

theorem inSub_self (n : Nat) : inSub n n := ⟨0, by simp, by simp⟩

theorem inSub_ge {n i : Nat} (h : inSub n i) : n ≤ i := by
  obtain ⟨d, h1, _⟩ := h
  have hp : 1 ≤ 2 ^ d := Nat.one_le_two_pow
  calc n = n * 1 := (Nat.mul_one n).symm
    _ ≤ n * 2 ^ d := Nat.mul_le_mul_left n hp
    _ ≤ i := h1

theorem inSub_left {n i : Nat} (h : inSub (2 * n) i) : inSub n i := by
  obtain ⟨d, h1, h2⟩ := h
  refine ⟨d + 1, ?_, ?_⟩ <;> rw [Nat.pow_succ] <;> generalize 2 ^ d = p at * <;> nlinarith

theorem inSub_right {n i : Nat} (h : inSub (2 * n + 1) i) : inSub n i := by
  obtain ⟨d, h1, h2⟩ := h
  refine ⟨d + 1, ?_, ?_⟩ <;> rw [Nat.pow_succ] <;> generalize 2 ^ d = p at * <;> nlinarith

theorem inSub_left_ne {n i : Nat} (hn : 1 ≤ n) (h : inSub (2 * n) i) : i ≠ n := by
  have := inSub_ge h; omega

theorem inSub_right_ne {n i : Nat} (h : inSub (2 * n + 1) i) : i ≠ n := by
  have := inSub_ge h; omega

theorem inSub_disjoint {n i : Nat} (hn : 1 ≤ n) (h1 : inSub (2 * n) i) (h2 : inSub (2 * n + 1) i) :
    False := by
  obtain ⟨d1, a1, b1⟩ := h1
  obtain ⟨d2, a2, b2⟩ := h2
  rcases Nat.lt_or_ge d2 d1 with h | h
  · have hp : 2 ^ (d2 + 1) ≤ 2 ^ d1 := Nat.pow_le_pow_right (by decide) h
    rw [Nat.pow_succ] at hp
    generalize 2 ^ d1 = p at *
    generalize 2 ^ d2 = q at *
    nlinarith
  · have hp : 2 ^ d1 ≤ 2 ^ d2 := Nat.pow_le_pow_right (by decide) h
    generalize 2 ^ d1 = p at *
    generalize 2 ^ d2 = q at *
    nlinarith

theorem InB_lt {node s e ts : Nat} (h : InB node s e ts) : node < ts := by
  obtain ⟨j, _, h2⟩ := h
  have hp : 1 ≤ 2 ^ j := Nat.one_le_two_pow
  have := Nat.mul_le_mul_left (node + 1) hp
  omega

theorem InB_left {node s e ts : Nat} (hse : s < e) (h : InB node s e ts) :
    InB (2 * node) s ((s + e) / 2) ts := by
  obtain ⟨j, h1, h2⟩ := h
  rcases j with _ | j
  · simp at h1; omega
  · rw [Nat.pow_succ] at h1 h2
    refine ⟨j, ?_, ?_⟩
    · generalize 2 ^ j = p at *
      omega
    · generalize 2 ^ j = p at *
      nlinarith

theorem InB_right {node s e ts : Nat} (hse : s < e) (h : InB node s e ts) :
    InB (2 * node + 1) ((s + e) / 2 + 1) e ts := by
  obtain ⟨j, h1, h2⟩ := h
  rcases j with _ | j
  · simp at h1; omega
  · rw [Nat.pow_succ] at h1 h2
    refine ⟨j, ?_, ?_⟩
    · generalize 2 ^ j = p at *
      omega
    · generalize 2 ^ j = p at *
      nlinarith

theorem calculate_tree_size_loop_pow (n : Int) (hn : n ≤ 1000000) :
    ∀ (fuel j : Nat), j ≤ 20 → 21 ≤ fuel + j →
      ∃ j2 : Nat, j2 ≤ 20 ∧ n ≤ 2 ^ j2 ∧ calculate_tree_size_loop fuel (2 ^ j) n = 2 ^ j2 := by
  intro fuel
  induction fuel with
  | zero => intro j h1 h2; omega
  | succ fuel ih =>
    intro j h1 h2
    unfold calculate_tree_size_loop
    by_cases hlt : (2 : Int) ^ j < n
    · have hj : j < 20 := by
        by_contra hc
        have : j = 20 := by omega
        subst this
        norm_num at hlt
        omega
      have hb : (2 : Int) ^ j ≤ 2 ^ 19 := pow_le_pow_right₀ (by norm_num) (by omega)
      have hpos : (0 : Int) < 2 ^ j := by positivity
      have hw : wrap32 ((2 : Int) ^ j * 2) = 2 ^ (j + 1) := by
        rw [pow_succ]
        apply wrap32_of_is_int32
        unfold is_int32
        norm_num at hb
        omega
      rw [if_pos hlt, hw]
      exact ih (j + 1) (by omega) (by omega)
    · rw [if_neg hlt]
      exact ⟨j, h1, by omega, rfl⟩

/-! ## Folds -/

theorem fold_range_int32 {f : Int → Int → Int} {id : Int} (hm : IsMonoid32 f id)
    (A : Nat → Int) (s : Nat) :
    ∀ len : Nat, (∀ i, s ≤ i → i < s + len → is_int32 (A i)) →
      is_int32 (fold_range f id A s len)
  | 0, _ => hm.id_int32
  | len + 1, h =>
    hm.closed _ _ (fold_range_int32 hm A s len (fun i h1 h2 => h i h1 (by omega)))
      (h (s + len) (by omega) (by omega))

theorem fold_range_split {f : Int → Int → Int} {id : Int} (hm : IsMonoid32 f id)
    (A : Nat → Int) (s k1 : Nat) :
    ∀ k2 : Nat, (∀ i, s ≤ i → i < s + (k1 + k2) → is_int32 (A i)) →
      fold_range f id A s (k1 + k2) =
        f (fold_range f id A s k1) (fold_range f id A (s + k1) k2) := by
  intro k2
  induction k2 with
  | zero =>
    intro h
    simp only [Nat.add_zero, fold_range]
    exact (hm.id_right _ (fold_range_int32 hm A s k1 h)).symm
  | succ k2 ih =>
    intro h
    have h1 : ∀ i, s ≤ i → i < s + (k1 + k2) → is_int32 (A i) :=
      fun i a b => h i a (by omega)
    have e : k1 + (k2 + 1) = (k1 + k2) + 1 := by omega
    rw [e]
    simp only [fold_range]
    rw [ih h1, hm.assoc, Nat.add_assoc]
    · exact fold_range_int32 hm A s k1 (fun i a b => h i a (by omega))
    · exact fold_range_int32 hm A (s + k1) k2 (fun i a b => h i (by omega) (by omega))
    · exact h _ (by omega) (by omega)

theorem fold_range_congr (f : Int → Int → Int) (id : Int) (A B : Nat → Int) (s : Nat) :
    ∀ len : Nat, (∀ i, s ≤ i → i < s + len → A i = B i) →
      fold_range f id A s len = fold_range f id B s len
  | 0, _ => rfl
  | len + 1, h => by
    simp only [fold_range]
    rw [fold_range_congr f id A B s len (fun i a b => h i a (by omega)),
      h (s + len) (by omega) (by omega)]

theorem fold_range_one {f : Int → Int → Int} {id : Int} (hm : IsMonoid32 f id)
    (A : Nat → Int) (s : Nat) (h : is_int32 (A s)) : fold_range f id A s 1 = A s := by
  simp only [fold_range, Nat.add_zero]
  exact hm.id_left _ h

theorem slice_foldl (f : Int → Int → Int) (id : Int) (S : List Int) (l : Nat) :
    ∀ k : Nat, l + k ≤ S.length →
      ((S.drop l).take k).foldl f id = fold_range f id (rd S) l k := by
  intro k
  induction k with
  | zero => intro _; simp [fold_range]
  | succ k ih =>
    intro h
    have hk : k < (S.drop l).length := by simp; omega
    rw [List.take_succ, List.foldl_append, ih (by omega)]
    simp [fold_range, rd, List.getD, List.getElem?_drop, List.getElem?_eq_getElem (show l + k < S.length by omega)]

theorem fold_slice_eq (f : Int → Int → Int) (id : Int) (S : List Int) (l r : Nat)
    (hl : l ≤ r) (h : r < S.length) :
    (slice S l r).foldl f id = fold_range f id (rd S) l (r + 1 - l) := by
  unfold slice
  exact slice_foldl f id S l (r + 1 - l) (by omega)

/-! ## The aggregate invariant -/

theorem AggInv_frame {f : Int → Int → Int} {t t2 : List Int} {A A2 : Nat → Int}
    {node s e : Nat} (h : AggInv f t A node s e) (hn : 1 ≤ node)
    (ht : ∀ i, inSub node i → rd t2 i = rd t i)
    (hA : ∀ i, s ≤ i → i ≤ e → A2 i = A i) : AggInv f t2 A2 node s e := by
  induction h with
  | leaf node s h0 =>
    exact AggInv.leaf node s (by rw [ht node (inSub_self node), hA s (le_refl _) (le_refl _), h0])
  | node node s e hse _ _ h3 ih1 ih2 =>
    refine AggInv.node node s e hse
      (ih1 (by omega) (fun i hi => ht i (inSub_left hi)) (fun i a b => hA i a (by omega)))
      (ih2 (by omega) (fun i hi => ht i (inSub_right hi)) (fun i a b => hA i (by omega) b)) ?_
    rw [ht node (inSub_self node), ht (2 * node) (inSub_left (inSub_self _)),
      ht (2 * node + 1) (inSub_right (inSub_self _)), h3]

theorem AggInv_le {f : Int → Int → Int} {t : List Int} {A : Nat → Int}
    {node s e : Nat} (h : AggInv f t A node s e) : s ≤ e := by
  cases h with
  | leaf => exact le_refl _
  | node _ _ _ hse => exact Nat.le_of_lt hse

theorem AggInv_value {f : Int → Int → Int} {id : Int} (hm : IsMonoid32 f id)
    {t : List Int} {A : Nat → Int} {node s e : Nat} (h : AggInv f t A node s e)
    (hA : ∀ i, s ≤ i → i ≤ e → is_int32 (A i)) :
    rd t node = fold_range f id A s (e + 1 - s) := by
  induction h with
  | leaf node s h0 =>
    have e1 : s + 1 - s = 1 := by omega
    rw [e1, fold_range_one hm A s (hA s (le_refl _) (le_refl _)), h0]
  | node node s e hse h1 h2 h3 ih1 ih2 =>
    have e1 : e + 1 - s = ((s + e) / 2 + 1 - s) + (e + 1 - ((s + e) / 2 + 1)) := by omega
    have e2 : s + ((s + e) / 2 + 1 - s) = (s + e) / 2 + 1 := by omega
    rw [e1, fold_range_split hm A s _ _ (fun i a b => hA i a (by omega)), e2, h3,
      ih1 (fun i a b => hA i a (by omega)), ih2 (fun i a b => hA i (by omega) b)]

theorem ne_of_not_inSub {node i : Nat} (h : ¬ inSub node i) : node ≠ i :=
  fun e => h (e ▸ inSub_self node)

theorem build_tree_spec (arr : List Int) :
    ∀ (fuel : Nat) (st : segment_tree_t) (node s e : Nat), s ≤ e → e - s < fuel → 1 ≤ node →
      InB node s e st.tree.length →
      ∃ t : List Int, build_tree fuel st arr node s e = { st with tree := t } ∧
        t.length = st.tree.length ∧ (∀ i, ¬ inSub node i → rd t i = rd st.tree i) ∧
        AggInv st.combine t (rd arr) node s e := by
  intro fuel
  induction fuel with
  | zero => intro st node s e _ h; omega
  | succ fuel ih =>
    intro st node s e hse hf hn hb
    unfold build_tree
    by_cases hl : s = e
    · subst hl
      rw [if_pos rfl]
      refine ⟨_, rfl, length_wr _ _ _, ?_, ?_⟩
      · intro i hi
        exact rd_wr_ne _ (ne_of_not_inSub hi)
      · exact AggInv.leaf node s (rd_wr_same _ (InB_lt hb))
    · rw [if_neg hl]
      have hlt : s < e := by omega
      obtain ⟨t1, e1, l1, f1, a1⟩ :=
        ih st (2 * node) s ((s + e) / 2) (by omega) (by omega) (by omega) (InB_left hlt hb)
      obtain ⟨t2, e2, l2, f2, a2⟩ :=
        ih { st with tree := t1 } (2 * node + 1) ((s + e) / 2 + 1) e (by omega) (by omega)
          (by omega) (by simpa [l1] using InB_right hlt hb)
      simp only [e1, e2]
      simp only at l2 f2 a2
      refine ⟨_, rfl, by rw [length_wr, l2, l1], ?_, ?_⟩
      · intro i hi
        have hi1 : ¬ inSub (2 * node) i := fun h => hi (inSub_left h)
        have hi2 : ¬ inSub (2 * node + 1) i := fun h => hi (inSub_right h)
        rw [rd_wr_ne _ (ne_of_not_inSub hi), f2 i hi2, f1 i hi1]
      · have hnl : node < t2.length := by rw [l2, l1]; exact InB_lt hb
        refine AggInv.node node s e hlt ?_ ?_ ?_
        · refine AggInv_frame a1 (by omega) ?_ (fun _ _ _ => rfl)
          intro i hi
          rw [rd_wr_ne _ (inSub_left_ne hn hi).symm,
            f2 i (fun h => inSub_disjoint hn hi h)]
        · refine AggInv_frame a2 (by omega) ?_ (fun _ _ _ => rfl)
          intro i hi
          rw [rd_wr_ne _ (inSub_right_ne hi).symm]
        · rw [rd_wr_same _ hnl, rd_wr_ne _ (by omega), rd_wr_ne _ (by omega)]

theorem fold_range_zero_len (f : Int → Int → Int) (id : Int) (A : Nat → Int) (a b k : Nat)
    (h : k = 0 ∨ a = b) : fold_range f id A a k = fold_range f id A b k := by
  rcases h with h | h
  · subst h; rfl
  · subst h; rfl

theorem query_recursive_nolazy {st : segment_tree_t} {A : Nat → Int}
    (hm : IsMonoid32 st.combine st.identity) (hl : st.lazy_enabled = false) (l r : Nat)
    (hlr : l ≤ r) :
    ∀ (fuel node s e : Nat), e - s < fuel → AggInv st.combine st.tree A node s e →
      (∀ i, s ≤ i → i ≤ e → is_int32 (A i)) →
      query_recursive fuel st node s e l r =
        (st, fold_range st.combine st.identity A (max s l) (min e r + 1 - max s l)) := by
  intro fuel
  induction fuel with
  | zero => intro node s e h; omega
  | succ fuel ih =>
    intro node s e hf ha hA
    have hse := AggInv_le ha
    unfold query_recursive
    by_cases hd : r < s ∨ e < l
    · rw [if_pos hd]
      have : min e r + 1 - max s l = 0 := by omega
      rw [this]; rfl
    · rw [if_neg hd]
      simp only [hl, Bool.false_eq_true, false_and, if_false]
      by_cases hc : l ≤ s ∧ e ≤ r
      · rw [if_pos hc, AggInv_value hm ha hA]
        have e1 : max s l = s := by omega
        have e2 : min e r = e := by omega
        rw [e1, e2]
      · rw [if_neg hc]
        cases ha with
        | leaf => omega
        | node _ _ _ hlt h1 h2 h3 =>
          rw [ih _ _ _ (by omega) h1 (fun i a b => hA i a (by omega))]
          simp only
          rw [ih _ _ _ (by omega) h2 (fun i a b => hA i (by omega) b)]
          simp only
          have ek : min e r + 1 - max s l =
              (min ((s + e) / 2) r + 1 - max s l) +
                (min e r + 1 - max ((s + e) / 2 + 1) l) := by omega
          rw [ek, fold_range_split hm A _ _ _ (fun i a b => hA i (by omega) (by omega))]
          congr 2
          exact fold_range_zero_len _ _ _ _ _ _ (by omega)

theorem update_point_recursive_spec (idx : Nat) (val : Int) :
    ∀ (fuel : Nat) (st : segment_tree_t) (node s e : Nat) (A : Nat → Int), e - s < fuel →
      1 ≤ node → InB node s e st.tree.length → s ≤ idx → idx ≤ e →
      AggInv st.combine st.tree A node s e →
      ∃ t : List Int, update_point_recursive fuel st node s e idx val = { st with tree := t } ∧
        t.length = st.tree.length ∧ (∀ i, ¬ inSub node i → rd t i = rd st.tree i) ∧
        AggInv st.combine t (Function.update A idx val) node s e := by
  intro fuel
  induction fuel with
  | zero => intro st node s e A h; omega
  | succ fuel ih =>
    intro st node s e A hf hn hb h1 h2 ha
    unfold update_point_recursive
    cases ha with
    | leaf _ _ h0 =>
      rw [if_pos rfl]
      refine ⟨_, rfl, length_wr _ _ _, fun i hi => rd_wr_ne _ (ne_of_not_inSub hi), ?_⟩
      have : idx = s := by omega
      subst this
      exact AggInv.leaf node idx (by rw [rd_wr_same _ (InB_lt hb), Function.update_same])
    | node _ _ _ hlt a1 a2 a3 =>
      rw [if_neg (by omega)]
      simp only
      by_cases hi : idx ≤ (s + e) / 2
      · rw [if_pos hi]
        obtain ⟨t1, e1, l1, f1, b1⟩ :=
          ih st (2 * node) s ((s + e) / 2) A (by omega) (by omega) (InB_left hlt hb) h1 hi a1
        simp only [e1]
        have hnl : node < t1.length := by rw [l1]; exact InB_lt hb
        refine ⟨_, rfl, by rw [length_wr, l1], ?_, ?_⟩
        · intro i hni
          rw [rd_wr_ne _ (ne_of_not_inSub hni), f1 i (fun h => hni (inSub_left h))]
        · refine AggInv.node node s e hlt ?_ ?_ ?_
          · exact AggInv_frame b1 (by omega)
              (fun i hi => rd_wr_ne _ (inSub_left_ne hn hi).symm) (fun _ _ _ => rfl)
          · refine AggInv_frame a2 (by omega) ?_ ?_
            · intro i hi2
              rw [rd_wr_ne _ (inSub_right_ne hi2).symm,
                f1 i (fun h => inSub_disjoint hn h hi2)]
            · intro i hi1 _
              exact Function.update_noteq (by omega) _ _
          · rw [rd_wr_same _ hnl, rd_wr_ne _ (by omega), rd_wr_ne _ (by omega)]
      · rw [if_neg hi]
        obtain ⟨t1, e1, l1, f1, b1⟩ :=
          ih st (2 * node + 1) ((s + e) / 2 + 1) e A (by omega) (by omega)
            (InB_right hlt hb) (by omega) h2 a2
        simp only [e1]
        have hnl : node < t1.length := by rw [l1]; exact InB_lt hb
        refine ⟨_, rfl, by rw [length_wr, l1], ?_, ?_⟩
        · intro i hni
          rw [rd_wr_ne _ (ne_of_not_inSub hni), f1 i (fun h => hni (inSub_right h))]
        · refine AggInv.node node s e hlt ?_ ?_ ?_
          · refine AggInv_frame a1 (by omega) ?_ ?_
            · intro i hi1
              rw [rd_wr_ne _ (inSub_left_ne hn hi1).symm,
                f1 i (fun h => inSub_disjoint hn hi1 h)]
            · intro i _ hi2
              exact Function.update_noteq (by omega) _ _
          · exact AggInv_frame b1 (by omega)
              (fun i hi => rd_wr_ne _ (inSub_right_ne hi).symm) (fun _ _ _ => rfl)
          · rw [rd_wr_same _ hnl, rd_wr_ne _ (by omega), rd_wr_ne _ (by omega)]

/-! ## Operation descriptors -/

theorem isMonoid32_sum : IsMonoid32 combine_sum 0 where
  closed := fun a b _ _ => wrap32_is_int32 _
  assoc := fun a b c _ _ _ => by
    unfold combine_sum; rw [wrap32_add_left, wrap32_add_right, add_assoc]
  id_left := fun a h => by unfold combine_sum; rw [zero_add]; exact wrap32_of_is_int32 h
  id_right := fun a h => by unfold combine_sum; rw [add_zero]; exact wrap32_of_is_int32 h
  id_int32 := by unfold is_int32; omega

theorem isMonoid32_min : IsMonoid32 combine_min SEGTREE_INF where
  closed := fun a b ha hb => by unfold combine_min; split <;> assumption
  assoc := fun a b c _ _ _ => by unfold combine_min; split_ifs <;> omega
  id_left := fun a h => by
    unfold is_int32 at h; unfold combine_min SEGTREE_INF; split_ifs <;> omega
  id_right := fun a h => by
    unfold is_int32 at h; unfold combine_min SEGTREE_INF; split_ifs <;> omega
  id_int32 := by unfold is_int32 SEGTREE_INF; omega

theorem isMonoid32_max : IsMonoid32 combine_max SEGTREE_NEG_INF where
  closed := fun a b ha hb => by unfold combine_max; split <;> assumption
  assoc := fun a b c _ _ _ => by unfold combine_max; split_ifs <;> omega
  id_left := fun a h => by
    unfold is_int32 at h; unfold combine_max SEGTREE_NEG_INF; split_ifs <;> omega
  id_right := fun a h => by
    unfold is_int32 at h; unfold combine_max SEGTREE_NEG_INF; split_ifs <;> omega
  id_int32 := by unfold is_int32 SEGTREE_NEG_INF; omega

theorem calculate_tree_size_spec (n : Int) (h1 : 1 ≤ n) (h2 : n ≤ SEGTREE_MAX_SIZE) :
    ∃ j : Nat, j ≤ 20 ∧ n.toNat ≤ 2 ^ j ∧ (calculate_tree_size n).toNat = 2 * 2 ^ j := by
  unfold SEGTREE_MAX_SIZE at h2
  obtain ⟨j, hj, hn, he⟩ := calculate_tree_size_loop_pow n h2 32 0 (by omega) (by omega)
  rw [pow_zero] at he
  refine ⟨j, hj, ?_, ?_⟩
  · have : ((n.toNat : Nat) : Int) ≤ ((2 ^ j : Nat) : Int) := by
      rw [Int.toNat_of_nonneg (by omega)]; push_cast; exact hn
    exact_mod_cast this
  · unfold calculate_tree_size
    rw [he]
    have hb : (2 : Int) ^ j ≤ 2 ^ 20 := pow_le_pow_right₀ (by norm_num) hj
    have hpos : (0 : Int) < 2 ^ j := by positivity
    rw [wrap32_of_is_int32 (by unfold is_int32; norm_num at hb; omega)]
    have : ((2 : Int) ^ j * 2) = ((2 * 2 ^ j : Nat) : Int) := by push_cast; ring
    rw [this, Int.toNat_natCast]

theorem InB_root (n : Int) (h1 : 1 ≤ n) (h2 : n ≤ SEGTREE_MAX_SIZE) :
    InB 1 0 (n.toNat - 1) (calculate_tree_size n).toNat := by
  obtain ⟨j, _, hn, he⟩ := calculate_tree_size_spec n h1 h2
  refine ⟨j, by omega, by rw [he]⟩

theorem rd_int32_of_mem {S : List Int} (h : ∀ x ∈ S, is_int32 x) (i : Nat) :
    is_int32 (rd S i) := by
  unfold rd
  rw [List.getD_eq_getElem?_getD]
  by_cases hi : i < S.length
  · rw [List.getElem?_eq_getElem hi]
    exact h _ (List.getElem_mem hi)
  · rw [List.getElem?_eq_none (by omega)]
    simp [is_int32]

theorem segtree_query_plain {st : segment_tree_t} {A : Nat → Int}
    (hm : IsMonoid32 st.combine st.identity) (hrep : PlainRep st A)
    (hA : ∀ i, i < st.size → is_int32 (A i)) (l r old : Int) (h0 : 0 ≤ l) (hlr : l ≤ r)
    (hr : r < st.size) :
    segtree_query (some st) l r (some old) =
      (SEGTREE_OK,
       some { st with stats :=
                { st.stats with query_count := wrap32 (st.stats.query_count + 1) } },
       some (fold_range st.combine st.identity A l.toNat (r.toNat + 1 - l.toNat))) := by
  obtain ⟨hl, hs, hb, ha⟩ := hrep
  unfold segtree_query
  simp only
  rw [if_neg (by omega)]
  rw [query_recursive_nolazy hm hl l.toNat r.toNat (by omega) st.size 1 0 (st.size - 1)
    (by omega) ha (fun i _ hi => hA i (by omega))]
  have e1 : max 0 l.toNat = l.toNat := by omega
  have e2 : min (st.size - 1) r.toNat = r.toNat := by omega
  simp only [e1, e2]

theorem segtree_update_point_plain {st : segment_tree_t} {A : Nat → Int}
    (hrep : PlainRep st A) (index value : Int) (h0 : 0 ≤ index) (h1 : index < st.size) :
    ∃ st2 : segment_tree_t,
      segtree_update_point (some st) index value = (SEGTREE_OK, some st2) ∧
      PlainRep st2 (Function.update A index.toNat value) ∧ st2.combine = st.combine ∧
      st2.identity = st.identity ∧ st2.size = st.size ∧ st2.tree.length = st.tree.length := by
  obtain ⟨hl, hs, hb, ha⟩ := hrep
  obtain ⟨t, e1, l1, _, a1⟩ := update_point_recursive_spec index.toNat value st.size st 1 0
    (st.size - 1) A (by omega) (le_refl _) hb (by omega) (by omega) ha
  unfold segtree_update_point
  simp only
  rw [if_neg (by omega), e1]
  refine ⟨_, rfl, ⟨hl, hs, ?_, a1⟩, rfl, rfl, rfl, l1⟩
  simpa [l1] using hb

theorem build_tree_plain (st0 : segment_tree_t) (S : List Int)
    (hl : st0.lazy_enabled = false) (hs : 1 ≤ st0.size)
    (hb : InB 1 0 (st0.size - 1) st0.tree.length) :
    PlainRep (build_tree st0.size st0 S 1 0 (st0.size - 1)) (rd S) ∧
      (build_tree st0.size st0 S 1 0 (st0.size - 1)).size = st0.size ∧
      (build_tree st0.size st0 S 1 0 (st0.size - 1)).combine = st0.combine ∧
      (build_tree st0.size st0 S 1 0 (st0.size - 1)).identity = st0.identity ∧
      (build_tree st0.size st0 S 1 0 (st0.size - 1)).tree.length = st0.tree.length := by
  obtain ⟨t, e1, l1, _, a1⟩ := build_tree_spec S st0.size st0 1 0 (st0.size - 1) (by omega)
    (by omega) (le_refl _) hb
  rw [e1]
  refine ⟨⟨hl, hs, ?_, a1⟩, rfl, rfl, rfl, l1⟩
  simpa [l1] using hb

theorem segtree_create_plain (S : List Int) (n : Int) (op : segtree_operation_t)
    (h1 : 1 ≤ n) (h2 : n ≤ SEGTREE_MAX_SIZE) :
    ∃ st : segment_tree_t, segtree_create (some S) n op = some st ∧ PlainRep st (rd S) ∧
      st.size = n.toNat ∧ st.combine = (setup_operations (fresh_tree n op) op).combine ∧
      st.identity = (setup_operations (fresh_tree n op) op).identity ∧
      st.tree.length = (calculate_tree_size n).toNat := by
  have hsz : (setup_operations (fresh_tree n op) op).size = n.toNat := by
    cases op <;> rfl
  have htr : (setup_operations (fresh_tree n op) op).tree =
      List.replicate (calculate_tree_size n).toNat 0 := by
    cases op <;> rfl
  have hlz : (setup_operations (fresh_tree n op) op).lazy_enabled = false := by
    cases op <;> rfl
  have hb := InB_root n h1 h2
  obtain ⟨p1, p2, p3, p4, p5⟩ := build_tree_plain (setup_operations (fresh_tree n op) op) S hlz
    (by rw [hsz]; omega) (by rw [hsz, htr, List.length_replicate]; exact hb)
  unfold segtree_create
  simp only
  rw [if_neg (by omega)]
  rw [htr, List.length_replicate] at p5
  exact ⟨_, rfl, p1, p2.trans hsz, p3, p4, p5⟩

theorem segtree_create_custom_plain (S : List Int) (n : Int) (f : Int → Int → Int)
    (identity : Int) (h1 : 1 ≤ n) (h2 : n ≤ SEGTREE_MAX_SIZE) :
    ∃ st : segment_tree_t, segtree_create_custom (some S) n (some f) identity = some st ∧
      PlainRep st (rd S) ∧ st.size = n.toNat ∧ st.combine = f ∧ st.identity = identity ∧
      st.tree.length = (calculate_tree_size n).toNat := by
  have hb := InB_root n h1 h2
  obtain ⟨p1, p2, p3, p4, p5⟩ := build_tree_plain
    { fresh_tree n SEGTREE_CUSTOM with
      combine := f, update_lazy := none, propagate := none, identity := identity } S rfl
    (by show 1 ≤ n.toNat; omega)
    (by show InB 1 0 (n.toNat - 1) (List.replicate (calculate_tree_size n).toNat 0).length
        rw [List.length_replicate]; exact hb)
  unfold segtree_create_custom
  simp only
  rw [if_neg (by omega)]
  refine ⟨_, rfl, p1, p2, p3, p4, ?_⟩
  rw [p5]
  exact List.length_replicate _ _

theorem query_recursive_nolazy_int32 {st : segment_tree_t}
    (hm : IsMonoid32 st.combine st.identity) (hl : st.lazy_enabled = false)
    (ht : ∀ x ∈ st.tree, is_int32 x) (l r : Nat) :
    ∀ (fuel node s e : Nat), (query_recursive fuel st node s e l r).1 = st ∧
      is_int32 (query_recursive fuel st node s e l r).2 := by
  intro fuel
  induction fuel with
  | zero => intro node s e; exact ⟨rfl, hm.id_int32⟩
  | succ fuel ih =>
    intro node s e
    unfold query_recursive
    by_cases hd : r < s ∨ e < l
    · rw [if_pos hd]; exact ⟨rfl, hm.id_int32⟩
    · rw [if_neg hd]
      simp only [hl, Bool.false_eq_true, false_and, if_false]
      by_cases hc : l ≤ s ∧ e ≤ r
      · rw [if_pos hc]; exact ⟨rfl, rd_int32_of_mem ht node⟩
      · rw [if_neg hc]
        obtain ⟨a1, b1⟩ := ih (2 * node) s ((s + e) / 2)
        simp only [a1]
        obtain ⟨a2, b2⟩ := ih (2 * node + 1) ((s + e) / 2 + 1) e
        simp only [a2]
        exact ⟨trivial, hm.closed _ _ b1 b2⟩

theorem query_recursive_disjoint (st : segment_tree_t) (fuel node s e l r : Nat)
    (h : r < s ∨ e < l) : query_recursive fuel st node s e l r = (st, st.identity) := by
  cases fuel with
  | zero => rfl
  | succ fuel => unfold query_recursive; rw [if_pos h]

theorem AggInv_of_queries {st : segment_tree_t} {A : Nat → Int}
    (hm : IsMonoid32 st.combine st.identity) (hl : st.lazy_enabled = false)
    (ht : ∀ x ∈ st.tree, is_int32 x) :
    ∀ (fuel node s e : Nat), s ≤ e → e - s < fuel →
      (∀ i, s ≤ i → i ≤ e → is_int32 (A i)) →
      (∀ l r, s ≤ l → l ≤ r → r ≤ e →
        (query_recursive fuel st node s e l r).2 =
          fold_range st.combine st.identity A l (r + 1 - l)) →
      AggInv st.combine st.tree A node s e := by
  intro fuel
  induction fuel with
  | zero => intro node s e _ h; omega
  | succ fuel ih =>
    intro node s e hse hf hA hq
    by_cases hleaf : s = e
    · subst hleaf
      have := hq s s (le_refl _) (le_refl _) (le_refl _)
      unfold query_recursive at this
      rw [if_neg (by omega)] at this
      simp only [hl, Bool.false_eq_true, false_and, if_false] at this
      rw [if_pos ⟨le_refl _, le_refl _⟩] at this
      have e1 : s + 1 - s = 1 := by omega
      rw [e1, fold_range_one hm A s (hA s (le_refl _) (le_refl _))] at this
      exact AggInv.leaf node s this
    · have hlt : s < e := by omega
      have hstep : ∀ l r, s ≤ l → l ≤ r → r ≤ e → ¬ (l ≤ s ∧ e ≤ r) →
          st.combine (query_recursive fuel st (2 * node) s ((s + e) / 2) l r).2
            (query_recursive fuel st (2 * node + 1) ((s + e) / 2 + 1) e l r).2 =
          fold_range st.combine st.identity A l (r + 1 - l) := by
        intro l r h1 h2 h3 h4
        have := hq l r h1 h2 h3
        unfold query_recursive at this
        rw [if_neg (by omega)] at this
        simp only [hl, Bool.false_eq_true, false_and, if_false] at this
        rw [if_neg h4] at this
        simp only [(query_recursive_nolazy_int32 hm hl ht l r fuel _ _ _).1] at this
        exact this
      have a1 : AggInv st.combine st.tree A (2 * node) s ((s + e) / 2) := by
        refine ih _ _ _ (by omega) (by omega) (fun i a b => hA i a (by omega)) ?_
        intro l r h1 h2 h3
        have := hstep l r h1 h2 (by omega) (by omega)
        rw [query_recursive_disjoint st fuel (2 * node + 1) _ _ l r (by omega)] at this
        simp only at this
        rw [hm.id_right _ (query_recursive_nolazy_int32 hm hl ht l r fuel _ _ _).2] at this
        exact this
      have a2 : AggInv st.combine st.tree A (2 * node + 1) ((s + e) / 2 + 1) e := by
        refine ih _ _ _ (by omega) (by omega) (fun i a b => hA i (by omega) b) ?_
        intro l r h1 h2 h3
        have := hstep l r (by omega) h2 h3 (by omega)
        rw [query_recursive_disjoint st fuel (2 * node) _ _ l r (by omega)] at this
        simp only at this
        rw [hm.id_left _ (query_recursive_nolazy_int32 hm hl ht l r fuel _ _ _).2] at this
        exact this
      refine AggInv.node node s e hlt a1 a2 ?_
      have := hq s e (le_refl _) hse (le_refl _)
      unfold query_recursive at this
      rw [if_neg (by omega)] at this
      simp only [hl, Bool.false_eq_true, false_and, if_false] at this
      rw [if_pos ⟨le_refl _, le_refl _⟩] at this
      simp only at this
      rw [this, AggInv_value hm a1 (fun i a b => hA i a (by omega)),
        AggInv_value hm a2 (fun i a b => hA i (by omega) b)]
      have e1 : e + 1 - s = ((s + e) / 2 + 1 - s) + (e + 1 - ((s + e) / 2 + 1)) := by omega
      have e2 : s + ((s + e) / 2 + 1 - s) = (s + e) / 2 + 1 := by omega
      rw [e1, fold_range_split hm A s _ _ (fun i a b => hA i a (by omega)), e2]

/-! ## Conversions between the code's folds and folds on unbounded integers -/

theorem foldl_combine_sum (L : List Int) :
    ∀ a : Int, L.foldl combine_sum (wrap32 a) = wrap32 (L.foldl (fun x y => x + y) a) := by
  induction L with
  | nil => intro a; rfl
  | cons x L ih =>
    intro a
    simp only [List.foldl_cons]
    unfold combine_sum
    rw [wrap32_add_left]
    exact ih (a + x)

theorem combine_min_eq : combine_min = fun a b => min a b := by
  funext a b; unfold combine_min; split_ifs <;> omega

theorem combine_max_eq : combine_max = fun a b => max a b := by
  funext a b; unfold combine_max; split_ifs <;> omega

theorem slice_full (S : List Int) (h : 1 ≤ S.length) : slice S 0 (S.length - 1) = S := by
  unfold slice
  have : S.length - 1 + 1 - 0 = S.length := by omega
  rw [this, List.drop_zero, List.take_length]

theorem isMonoid32_custom_combine : IsMonoid32 custom_combine 1 where
  closed := fun a b _ _ => wrap32_is_int32 _
  assoc := fun a b c _ _ _ => by
    unfold custom_combine
    apply wrap32_congr
    calc wrap32 (a * b) * c ≡ a * b * c [ZMOD 4294967296] := (wrap32_modEq _).mul_right c
      _ = a * (b * c) := mul_assoc a b c
      _ ≡ a * wrap32 (b * c) [ZMOD 4294967296] := ((wrap32_modEq _).mul_left a).symm
  id_left := fun a h => by unfold custom_combine; rw [one_mul]; exact wrap32_of_is_int32 h
  id_right := fun a h => by unfold custom_combine; rw [mul_one]; exact wrap32_of_is_int32 h
  id_int32 := by unfold is_int32; omega

theorem build_tree_cfg (arr : List Int) :
    ∀ (fuel : Nat) (st : segment_tree_t) (node s e : Nat),
      ∃ t : List Int, build_tree fuel st arr node s e = { st with tree := t } := by
  intro fuel
  induction fuel with
  | zero => intro st node s e; exact ⟨st.tree, rfl⟩
  | succ fuel ih =>
    intro st node s e
    unfold build_tree
    split
    · exact ⟨_, rfl⟩
    · obtain ⟨t1, e1⟩ := ih st (2 * node) s ((s + e) / 2)
      obtain ⟨t2, e2⟩ := ih { st with tree := t1 } (2 * node + 1) ((s + e) / 2 + 1) e
      simp only [e1, e2]
      exact ⟨_, rfl⟩

/-! ## Properties of trees without lazy propagation -/

theorem create_query_value (S : List Int) (n : Int) (op : segtree_operation_t)
    (hn : n = S.length) (hn1 : 1 ≤ n) (hn2 : n ≤ SEGTREE_MAX_SIZE)
    (hS : ∀ x ∈ S, is_int32 x) (l r old : Int) (h0 : 0 ≤ l) (hlr : l ≤ r) (hr : r ≤ n - 1)
    (hov : op = SEGTREE_SUM ∨ op = SEGTREE_CUSTOM →
      is_int32 (op_fold op (slice S l.toNat r.toNat))) :
    ∃ st2 : segment_tree_t,
      segtree_query (segtree_create (some S) n op) l r (some old) =
        (SEGTREE_OK, some st2, some (op_fold op (slice S l.toNat r.toNat))) := by
  obtain ⟨st, hc, hrep, hsz, hcomb, hid, _⟩ := segtree_create_plain S n op hn1 hn2
  have hm : IsMonoid32 st.combine st.identity := by
    rw [hcomb, hid]
    cases op
    · exact isMonoid32_sum
    · exact isMonoid32_min
    · exact isMonoid32_max
    · exact isMonoid32_sum
  have hv : fold_range st.combine st.identity (rd S) l.toNat (r.toNat + 1 - l.toNat) =
      op_fold op (slice S l.toNat r.toNat) := by
    rw [← fold_slice_eq _ _ S _ _ (by omega) (by omega), hcomb, hid]
    cases op
    · have := foldl_combine_sum (slice S l.toNat r.toNat) 0
      rw [wrap32_of_is_int32 (by unfold is_int32; omega)] at this
      exact this.trans (wrap32_of_is_int32 (hov (Or.inl rfl)))
    · show List.foldl combine_min SEGTREE_INF _ = _
      rw [combine_min_eq]; rfl
    · show List.foldl combine_max SEGTREE_NEG_INF _ = _
      rw [combine_max_eq]; rfl
    · have := foldl_combine_sum (slice S l.toNat r.toNat) 0
      rw [wrap32_of_is_int32 (by unfold is_int32; omega)] at this
      exact this.trans (wrap32_of_is_int32 (hov (Or.inr rfl)))
  rw [hc, segtree_query_plain hm hrep (fun i _ => rd_int32_of_mem hS i) l r old h0 hlr
    (by omega), hv]
  exact ⟨_, rfl⟩

/-- C1: on the tree returned by `segtree_create` over a non-empty sequence `S` of `n`
elements (`1 ≤ n ≤ SEGTREE_MAX_SIZE`) with operation SUM, MIN or MAX, every query
`(l, r)` with `0 ≤ l ≤ r ≤ n - 1` returns `SEGTREE_OK` and the fold of `S[l..r]` (sum,
minimum, maximum; for SUM provided the exact sum fits in 32 bits); in particular the
query `(0, n - 1)` returns the fold of the whole of `S` starting from the identity. -/
theorem create_query_fold (S : List Int) (n : Int) (op : segtree_operation_t)
    (hop : op ≠ SEGTREE_CUSTOM) (hn : n = S.length) (hn1 : 1 ≤ n)
    (hn2 : n ≤ SEGTREE_MAX_SIZE) (hS : ∀ x ∈ S, is_int32 x) (l r old : Int) (h0 : 0 ≤ l)
    (hlr : l ≤ r) (hr : r ≤ n - 1)
    (hov : op = SEGTREE_SUM → is_int32 (op_fold op (slice S l.toNat r.toNat))) :
    (segtree_query (segtree_create (some S) n op) l r (some old)).1 = SEGTREE_OK ∧
    (segtree_query (segtree_create (some S) n op) l r (some old)).2.2 =
      some (op_fold op (slice S l.toNat r.toNat)) ∧
    ((op = SEGTREE_SUM → is_int32 (op_fold op S)) →
      (segtree_query (segtree_create (some S) n op) 0 (n - 1) (some old)).2.2 =
        some (op_fold op S)) := by
  obtain ⟨st2, e⟩ := create_query_value S n op hn hn1 hn2 hS l r old h0 hlr hr
    (fun h => h.elim hov (fun h => absurd h hop))
  refine ⟨by rw [e], by rw [e], ?_⟩
  intro hfull
  have hs : slice S (0 : Int).toNat (n - 1).toNat = S := by
    have : (n - 1).toNat = S.length - 1 := by omega
    rw [this]
    exact slice_full S (by omega)
  obtain ⟨st3, e3⟩ := create_query_value S n op hn hn1 hn2 hS 0 (n - 1) old (le_refl _)
    (by omega) (le_refl _) (by rw [hs]; exact fun h => h.elim hfull (fun h => absurd h hop))
  rw [e3, hs]

theorem create_query_fold_witness :
    (segtree_query (segtree_create (some [1, 3, 5, 7, 9, 11]) 6 SEGTREE_SUM) 1 4 (some 0)).1 =
      SEGTREE_OK ∧
    (segtree_query (segtree_create (some [1, 3, 5, 7, 9, 11]) 6 SEGTREE_SUM) 1 4 (some 0)).2.2 =
      some (op_fold SEGTREE_SUM (slice [1, 3, 5, 7, 9, 11] 1 4)) ∧
    ((SEGTREE_SUM = SEGTREE_SUM → is_int32 (op_fold SEGTREE_SUM [1, 3, 5, 7, 9, 11])) →
      (segtree_query (segtree_create (some [1, 3, 5, 7, 9, 11]) 6 SEGTREE_SUM) 0 (6 - 1)
        (some 0)).2.2 = some (op_fold SEGTREE_SUM [1, 3, 5, 7, 9, 11])) :=
  create_query_fold [1, 3, 5, 7, 9, 11] 6 SEGTREE_SUM (by decide) (by decide) (by decide)
    (by decide) (by decide) 1 4 0 (by decide) (by decide) (by decide) (by decide)

/-- C6: on the tree returned by `segtree_create_custom` over a non-empty sequence `S` with
a caller-supplied `combine` that is associative and has `identity` as two-sided neutral
element (no commutativity assumed), every query `(l, r)` with `0 ≤ l ≤ r ≤ n - 1` returns
`SEGTREE_OK` and the left-to-right fold of `S[l..r]` under `combine`. -/
theorem create_custom_query_fold (S : List Int) (n : Int) (combine : Int → Int → Int)
    (identity : Int) (hm : IsMonoid32 combine identity) (hn : n = S.length) (hn1 : 1 ≤ n)
    (hn2 : n ≤ SEGTREE_MAX_SIZE) (hS : ∀ x ∈ S, is_int32 x) (l r old : Int) (h0 : 0 ≤ l)
    (hlr : l ≤ r) (hr : r ≤ n - 1) :
    (segtree_query (segtree_create_custom (some S) n (some combine) identity) l r
      (some old)).1 = SEGTREE_OK ∧
    (segtree_query (segtree_create_custom (some S) n (some combine) identity) l r
      (some old)).2.2 = some ((slice S l.toNat r.toNat).foldl combine identity) := by
  obtain ⟨st, hc, hrep, hsz, hcomb, hid, _⟩ :=
    segtree_create_custom_plain S n combine identity hn1 hn2
  have hm2 : IsMonoid32 st.combine st.identity := by rw [hcomb, hid]; exact hm
  rw [hc, segtree_query_plain hm2 hrep (fun i _ => rd_int32_of_mem hS i) l r old h0 hlr
    (by omega)]
  refine ⟨rfl, ?_⟩
  simp only
  rw [← fold_slice_eq _ _ S _ _ (by omega) (by omega), hcomb, hid]

theorem create_custom_query_fold_witness :
    (segtree_query (segtree_create_custom (some [2, 3, 4, 5]) 4 (some custom_combine) 1) 1 2
      (some 0)).1 = SEGTREE_OK ∧
    (segtree_query (segtree_create_custom (some [2, 3, 4, 5]) 4 (some custom_combine) 1) 1 2
      (some 0)).2.2 = some ((slice [2, 3, 4, 5] 1 2).foldl custom_combine 1) :=
  create_custom_query_fold [2, 3, 4, 5] 4 custom_combine 1 isMonoid32_custom_combine
    (by decide) (by decide) (by decide) (by decide) 1 2 0 (by decide) (by decide) (by decide)

theorem rd_set (A : List Int) (i : Nat) (v : Int) (h : i < A.length) :
    rd (A.set i v) = Function.update (rd A) i v := by
  funext j
  by_cases hj : j = i
  · subst hj
    rw [Function.update_same]
    exact rd_wr_same v h
  · rw [Function.update_noteq hj]
    exact rd_wr_ne v (Ne.symm hj)

theorem take_set_of_le (l : List Int) (n m : Nat) (a : Int) (h : m ≤ n) :
    (l.set n a).take m = l.take m := by
  apply List.ext_getElem?
  intro k
  rw [List.getElem?_take, List.getElem?_take]
  split
  · rw [List.getElem?_set_ne (by omega)]
  · rfl

/-- C2: for a tree with lazy propagation disabled whose combine is an associative operation
with neutral `identity` (SUM, MIN, MAX or custom) and whose queries agree with a model
sequence `A`, `segtree_update_point (i, v)` with `0 ≤ i < size` returns `SEGTREE_OK`, and
afterwards every query agrees with `A[i := v]`: the query `(i, i)` returns `v` and every
query over a range not containing `i` returns what it returned before the update. -/
theorem update_point_agrees (st : segment_tree_t) (A : List Int)
    (hm : IsMonoid32 st.combine st.identity) (hlazy : st.lazy_enabled = false)
    (hs1 : 1 ≤ (st.size : Int)) (hs2 : (st.size : Int) ≤ SEGTREE_MAX_SIZE)
    (hbuf : st.tree.length = (calculate_tree_size st.size).toNat)
    (htree : ∀ x ∈ st.tree, is_int32 x) (hlen : A.length = st.size)
    (hA : ∀ x ∈ A, is_int32 x)
    (hagree : ∀ l r : Int, 0 ≤ l → l ≤ r → r < st.size →
      (segtree_query (some st) l r (some 0)).2.2 =
        some ((slice A l.toNat r.toNat).foldl st.combine st.identity))
    (i v : Int) (hi0 : 0 ≤ i) (hi1 : i < st.size) (hv : is_int32 v) :
    (segtree_update_point (some st) i v).1 = SEGTREE_OK ∧
    (∀ l r : Int, 0 ≤ l → l ≤ r → r < st.size →
      (segtree_query (segtree_update_point (some st) i v).2 l r (some 0)).2.2 =
        some ((slice (A.set i.toNat v) l.toNat r.toNat).foldl st.combine st.identity)) ∧
    (segtree_query (segtree_update_point (some st) i v).2 i i (some 0)).2.2 = some v ∧
    (∀ l r : Int, 0 ≤ l → l ≤ r → r < st.size → (i < l ∨ r < i) →
      (segtree_query (segtree_update_point (some st) i v).2 l r (some 0)).2.2 =
        (segtree_query (some st) l r (some 0)).2.2) := by
  have hb : InB 1 0 (st.size - 1) st.tree.length := by
    rw [hbuf]
    have := InB_root (st.size : Int) hs1 hs2
    simpa using this
  have hA2 : ∀ i, is_int32 (rd A i) := rd_int32_of_mem hA
  have hagg : AggInv st.combine st.tree (rd A) 1 0 (st.size - 1) := by
    refine AggInv_of_queries hm hlazy htree st.size 1 0 (st.size - 1) (by omega) (by omega)
      (fun i _ _ => hA2 i) ?_
    intro l r h1 h2 h3
    have := hagree (l : Int) (r : Int) (by omega) (by omega) (by omega)
    unfold segtree_query at this
    simp only at this
    rw [if_neg (by omega)] at this
    simp only [Int.toNat_natCast, Option.some.injEq] at this
    rw [this]
    exact fold_slice_eq _ _ A l r h2 (by omega)
  have hrep : PlainRep st (rd A) := ⟨hlazy, by omega, hb, hagg⟩
  obtain ⟨st2, e2, hrep2, hc2, hid2, hsz2, _⟩ :=
    segtree_update_point_plain hrep i v hi0 hi1
  have hm2 : IsMonoid32 st2.combine st2.identity := by rw [hc2, hid2]; exact hm
  have hset : Function.update (rd A) i.toNat v = rd (A.set i.toNat v) :=
    (rd_set A i.toNat v (by omega)).symm
  have hA3 : ∀ j, is_int32 (rd (A.set i.toNat v) j) := by
    apply rd_int32_of_mem
    intro x hx
    rcases List.mem_or_eq_of_mem_set hx with h | h
    · exact hA x h
    · rw [h]; exact hv
  rw [hset] at hrep2
  have hq : ∀ l r : Int, 0 ≤ l → l ≤ r → r < st.size →
      (segtree_query (segtree_update_point (some st) i v).2 l r (some 0)).2.2 =
        some ((slice (A.set i.toNat v) l.toNat r.toNat).foldl st.combine st.identity) := by
    intro l r h1 h2 h3
    rw [e2]
    simp only
    rw [segtree_query_plain hm2 hrep2 (fun j _ => hA3 j) l r 0 h1 h2 (by omega)]
    simp only
    rw [hc2, hid2, fold_slice_eq _ _ _ _ _ (by omega) (by simp; omega)]
  refine ⟨by rw [e2], hq, ?_, ?_⟩
  · rw [hq i i hi0 (le_refl _) hi1]
    have e1 : slice (A.set i.toNat v) i.toNat i.toNat = [v] := by
      unfold slice
      have : i.toNat + 1 - i.toNat = 1 := by omega
      rw [this]
      have hlt : i.toNat < (A.set i.toNat v).length := by simp; omega
      rw [List.drop_eq_getElem_cons hlt]
      simp
    rw [e1]
    simp only [List.foldl_cons, List.foldl_nil]
    rw [hm.id_left v hv]
  · intro l r h1 h2 h3 h4
    rw [hq l r h1 h2 h3, hagree l r h1 h2 h3]
    congr 2
    unfold slice
    rcases h4 with h4 | h4
    · rw [List.drop_set_of_lt _ _ (by omega)]
    · rw [List.drop_set, if_neg (by omega), take_set_of_le _ _ _ _ (by omega)]

theorem update_point_agrees_witness :
    (segtree_update_point (some plain_sum_123) 1 10).1 = SEGTREE_OK ∧
    (∀ l r : Int, 0 ≤ l → l ≤ r → r < plain_sum_123.size →
      (segtree_query (segtree_update_point (some plain_sum_123) 1 10).2 l r (some 0)).2.2 =
        some ((slice ([1, 2, 3].set (1 : Int).toNat 10) l.toNat r.toNat).foldl
          plain_sum_123.combine plain_sum_123.identity)) ∧
    (segtree_query (segtree_update_point (some plain_sum_123) 1 10).2 1 1 (some 0)).2.2 =
      some 10 ∧
    (∀ l r : Int, 0 ≤ l → l ≤ r → r < plain_sum_123.size → (1 < l ∨ r < 1) →
      (segtree_query (segtree_update_point (some plain_sum_123) 1 10).2 l r (some 0)).2.2 =
        (segtree_query (some plain_sum_123) l r (some 0)).2.2) :=
  update_point_agrees plain_sum_123 [1, 2, 3] isMonoid32_sum rfl (by decide) (by decide)
    (by decide) (by decide) rfl (by decide)
    (by
      intro l r h0 hlr hr
      have hr2 : r < 3 := hr
      have hr0 : 0 ≤ r := by omega
      interval_cases r <;> interval_cases l <;> rfl)
    1 10 (by decide) (by decide) (by decide)

/-- C8: for a non-null tree and a non-null result slot, `segtree_query (left, right)`
returns `SEGTREE_ERROR_INVALID_RANGE` exactly when `left < 0`, `right >= size` or
`left > right`, and `SEGTREE_OK` otherwise; `segtree_update_point (index, value)` returns
`SEGTREE_ERROR_INVALID_RANGE` exactly when `index < 0` or `index >= size`, and
`SEGTREE_OK` otherwise. A rejected call changes neither the tree nor the result slot, so
no out-of-range argument is clamped to a valid one. -/
theorem range_check_contract (st : segment_tree_t) (left right index value old : Int) :
    ((segtree_query (some st) left right (some old)).1 = SEGTREE_ERROR_INVALID_RANGE ↔
      (left < 0 ∨ right ≥ (st.size : Int) ∨ left > right)) ∧
    ((segtree_query (some st) left right (some old)).1 = SEGTREE_OK ↔
      ¬ (left < 0 ∨ right ≥ (st.size : Int) ∨ left > right)) ∧
    ((left < 0 ∨ right ≥ (st.size : Int) ∨ left > right) →
      segtree_query (some st) left right (some old) =
        (SEGTREE_ERROR_INVALID_RANGE, some st, some old)) ∧
    ((segtree_update_point (some st) index value).1 = SEGTREE_ERROR_INVALID_RANGE ↔
      (index < 0 ∨ index ≥ (st.size : Int))) ∧
    ((segtree_update_point (some st) index value).1 = SEGTREE_OK ↔
      ¬ (index < 0 ∨ index ≥ (st.size : Int))) ∧
    ((index < 0 ∨ index ≥ (st.size : Int)) →
      segtree_update_point (some st) index value =
        (SEGTREE_ERROR_INVALID_RANGE, some st)) := by
  unfold segtree_query segtree_update_point
  simp only
  by_cases hq : left < 0 ∨ right ≥ (st.size : Int) ∨ left > right <;>
    by_cases hu : index < 0 ∨ index ≥ (st.size : Int) <;>
    simp [hq, hu]

theorem range_check_contract_witness :
    (segtree_query (some plain_sum_123) 0 5 (some 7)).1 = SEGTREE_ERROR_INVALID_RANGE ∧
    segtree_query (some plain_sum_123) 0 5 (some 7) =
      (SEGTREE_ERROR_INVALID_RANGE, some plain_sum_123, some 7) ∧
    (segtree_update_point (some plain_sum_123) (-1) 10).1 = SEGTREE_ERROR_INVALID_RANGE :=
  ⟨(range_check_contract plain_sum_123 0 5 (-1) 10 7).1.2 (by decide),
   (range_check_contract plain_sum_123 0 5 (-1) 10 7).2.2.1 (by decide),
   (range_check_contract plain_sum_123 0 5 (-1) 10 7).2.2.2.1.2 (by decide)⟩

/-- C9 as stated fails: on the non-lazy tree `segtree_create ({1, 2, 3}, SEGTREE_SUM)` the
call `segtree_update_range (-1, 2, 5)`, whose `left` is negative, does not return
`SEGTREE_ERROR_INVALID_RANGE` but `SEGTREE_ERROR_INVALID_OPERATION`. -/
theorem update_range_invalid_range_counterexample :
    (segtree_create (some [1, 2, 3]) 3 SEGTREE_SUM).isSome = true ∧ (-1 : Int) < 0 ∧
    (segtree_update_range (segtree_create (some [1, 2, 3]) 3 SEGTREE_SUM) (-1) 2 5).1 ≠
      SEGTREE_ERROR_INVALID_RANGE ∧
    (segtree_update_range (segtree_create (some [1, 2, 3]) 3 SEGTREE_SUM) (-1) 2 5).1 =
      SEGTREE_ERROR_INVALID_OPERATION := by
  decide

/-- C9 (amended): on a tree with lazy propagation enabled, `segtree_update_range` with
`left > right`, `left < 0` or `right >= size` returns `SEGTREE_ERROR_INVALID_RANGE` and
leaves the tree unchanged; on a tree with lazy propagation disabled the same call returns
`SEGTREE_ERROR_INVALID_OPERATION`, because that check comes first. -/
theorem update_range_invalid_range (st : segment_tree_t) (left right value : Int)
    (hbad : left > right ∨ left < 0 ∨ right ≥ (st.size : Int)) :
    (st.lazy_enabled = true →
      segtree_update_range (some st) left right value =
        (SEGTREE_ERROR_INVALID_RANGE, some st)) ∧
    (st.lazy_enabled = false →
      segtree_update_range (some st) left right value =
        (SEGTREE_ERROR_INVALID_OPERATION, some st)) := by
  unfold segtree_update_range
  simp only
  constructor
  · intro h
    rw [if_neg (by simp [h]), if_pos (by omega)]
  · intro h
    rw [if_pos h]

theorem update_range_invalid_range_witness :
    ((-1 : Int) > 2 ∨ (-1 : Int) < 0 ∨ (2 : Int) ≥ (lazy_sum_123.size : Int)) ∧
    segtree_create_lazy (some [1, 2, 3]) 3 SEGTREE_SUM = some lazy_sum_123 ∧
    segtree_update_range (some lazy_sum_123) (-1) 2 5 =
      (SEGTREE_ERROR_INVALID_RANGE, some lazy_sum_123) :=
  ⟨by decide, rfl,
   (update_range_invalid_range lazy_sum_123 (-1) 2 5 (by decide)).1 rfl⟩

theorem build_tree_lazy_enabled (arr : List Int) (fuel : Nat) (st : segment_tree_t)
    (node s e : Nat) : (build_tree fuel st arr node s e).lazy_enabled = st.lazy_enabled := by
  obtain ⟨t, h⟩ := build_tree_cfg arr fuel st node s e
  rw [h]

/-- C10: on a tree with lazy propagation disabled, `segtree_update_range` returns
`SEGTREE_ERROR_INVALID_OPERATION` whatever its arguments and returns the tree unchanged
(`tree[]`, statistics and all other fields); every tree returned by `segtree_create` or
`segtree_create_custom` has lazy propagation disabled. -/
theorem update_range_without_lazy (left right value : Int) :
    (∀ st : segment_tree_t, st.lazy_enabled = false →
      segtree_update_range (some st) left right value =
        (SEGTREE_ERROR_INVALID_OPERATION, some st)) ∧
    (∀ (arr : Option (List Int)) (n : Int) (op : segtree_operation_t) (st : segment_tree_t),
      segtree_create arr n op = some st → st.lazy_enabled = false) ∧
    (∀ (arr : Option (List Int)) (n : Int) (f : Option (Int → Int → Int)) (identity : Int)
      (st : segment_tree_t),
      segtree_create_custom arr n f identity = some st → st.lazy_enabled = false) := by
  refine ⟨?_, ?_, ?_⟩
  · intro st h
    unfold segtree_update_range
    simp only
    rw [if_pos h]
  · intro arr n op st h
    unfold segtree_create at h
    split at h
    · exact absurd h (by simp)
    · split at h
      · exact absurd h (by simp)
      · simp only [Option.some.injEq] at h
        rw [← h, build_tree_lazy_enabled]
        cases op <;> rfl
  · intro arr n f identity st h
    unfold segtree_create_custom at h
    split at h
    · exact absurd h (by simp)
    · exact absurd h (by simp)
    · split at h
      · exact absurd h (by simp)
      · simp only [Option.some.injEq] at h
        rw [← h, build_tree_lazy_enabled]
        rfl

theorem update_range_without_lazy_witness :
    segtree_create (some [1, 2, 3]) 3 SEGTREE_SUM = some plain_sum_123 ∧
    plain_sum_123.lazy_enabled = false ∧
    segtree_update_range (some plain_sum_123) 0 2 5 =
      (SEGTREE_ERROR_INVALID_OPERATION, some plain_sum_123) :=
  ⟨rfl, (update_range_without_lazy 0 2 5).2.1 (some [1, 2, 3]) 3 SEGTREE_SUM plain_sum_123 rfl,
   (update_range_without_lazy 0 2 5).1 plain_sum_123 rfl⟩

/-- C5, evaluated at a failing input: on `segtree_create_lazy ({1, 1}, SEGTREE_SUM)` after
`segtree_update_range (0, 1, 5)`, the call `segtree_update_point (0, 10)` returns
`SEGTREE_OK`, yet the query `(0, 0)` then returns `15`, not `10`: the tag pending at the
root is pushed onto the freshly written leaf. -/
theorem update_point_lazy_stale_tag :
    (segtree_update_point
      (segtree_update_range (segtree_create_lazy (some [1, 1]) 2 SEGTREE_SUM) 0 1 5).2
      0 10).1 = SEGTREE_OK ∧
    (segtree_query
      (segtree_update_point
        (segtree_update_range (segtree_create_lazy (some [1, 1]) 2 SEGTREE_SUM) 0 1 5).2
        0 10).2 0 0 (some 0)).2.2 = some 15 := by
  decide

/-- C7, evaluated at a failing input: on `segtree_create_lazy ({1, 2, 3}, SEGTREE_SUM)`
after `segtree_update_range (0, 2, 5)`, the call `segtree_rebuild ({1, 1, 1}, 3)` returns
`SEGTREE_OK` and sets the size to `3`, yet the query `(0, 2)` then returns `18`, not the
sum `3` of the new sequence: the buffer size is unchanged, so the pending tag at the root
survives the rebuild. -/
theorem rebuild_lazy_stale_tag :
    (segtree_rebuild
      (segtree_update_range (segtree_create_lazy (some [1, 2, 3]) 3 SEGTREE_SUM) 0 2 5).2
      (some [1, 1, 1]) 3).1 = SEGTREE_OK ∧
    ((segtree_rebuild
      (segtree_update_range (segtree_create_lazy (some [1, 2, 3]) 3 SEGTREE_SUM) 0 2 5).2
      (some [1, 1, 1]) 3).2.map (fun st => st.size)) = some 3 ∧
    (segtree_query
      (segtree_rebuild
        (segtree_update_range (segtree_create_lazy (some [1, 2, 3]) 3 SEGTREE_SUM) 0 2 5).2
        (some [1, 1, 1]) 3).2 0 2 (some 0)).2.2 = some 18 ∧
    op_fold SEGTREE_SUM [1, 1, 1] = 3 := by
  decide

/-! ## Algebra of pending tags -/

theorem isMonoid32_lz (k : lazy_fn) : IsMonoid32 (lz_combine k) (lz_identity k) := by
  cases k
  · exact isMonoid32_sum
  · exact isMonoid32_min
  · exact isMonoid32_max

theorem tag_apply_sum_modEq (t len x : Int) :
    tag_apply lazy_fn.sum t len x ≡ x + t * len [ZMOD 4294967296] :=
  (wrap32_modEq _).trans ((wrap32_modEq _).add_left x)

theorem tag_apply_combine (k : lazy_fn) (t l1 l2 x y : Int) :
    tag_apply k t (l1 + l2) (lz_combine k x y) =
      lz_combine k (tag_apply k t l1 x) (tag_apply k t l2 y) := by
  cases k
  · show wrap32 _ = wrap32 _
    apply wrap32_congr
    calc wrap32 (x + y) + wrap32 (t * (l1 + l2))
        ≡ (x + y) + t * (l1 + l2) [ZMOD 4294967296] :=
          (wrap32_modEq _).add (wrap32_modEq _)
      _ = (x + t * l1) + (y + t * l2) := by ring
      _ ≡ tag_apply lazy_fn.sum t l1 x + tag_apply lazy_fn.sum t l2 y [ZMOD 4294967296] :=
          ((tag_apply_sum_modEq t l1 x).add (tag_apply_sum_modEq t l2 y)).symm
  · simp only [tag_apply, lz_combine, combine_min]
    split_ifs <;> rfl
  · simp only [tag_apply, lz_combine, combine_max]
    split_ifs <;> rfl

theorem tag_apply_compose (k : lazy_fn) (new old len x : Int) :
    tag_apply k (tag_compose k new old) len x =
      tag_apply k new len (tag_apply k old len x) := by
  cases k
  · show wrap32 _ = wrap32 _
    apply wrap32_congr
    calc x + wrap32 (wrap32 (old + new) * len)
        ≡ x + (old + new) * len [ZMOD 4294967296] :=
          ((wrap32_modEq _).trans ((wrap32_modEq _).mul_right len)).add_left x
      _ = (x + old * len) + new * len := by ring
      _ ≡ tag_apply lazy_fn.sum old len x + wrap32 (new * len) [ZMOD 4294967296] :=
          ((tag_apply_sum_modEq old len x).add (wrap32_modEq _)).symm
  · simp only [tag_apply, tag_compose]
    split_ifs <;> rfl
  · simp only [tag_apply, tag_compose]
    split_ifs <;> rfl

theorem tag_compose_assoc (k : lazy_fn) (a b c : Int) :
    tag_compose k a (tag_compose k b c) = tag_compose k (tag_compose k a b) c := by
  cases k
  · simp only [tag_compose, wrap32]; omega
  · simp only [tag_compose]
    split_ifs <;> rfl
  · simp only [tag_compose]
    split_ifs <;> rfl

theorem tag_compose_id_id (k : lazy_fn) :
    tag_compose k (lz_identity k) (lz_identity k) = lz_identity k := by
  cases k <;> decide

theorem tag_compose_id_swap (k : lazy_fn) (v t : Int) :
    tag_compose k (lz_identity k) (tag_compose k v t) =
      tag_compose k v (tag_compose k (lz_identity k) t) := by
  cases k
  · simp only [tag_compose, lz_identity, wrap32]; omega
  · simp only [tag_compose, lz_identity]
    split_ifs <;> rfl
  · simp only [tag_compose, lz_identity]
    split_ifs <;> rfl

theorem tag_compose_push (k : lazy_fn) (acc t c : Int) :
    tag_compose k (tag_compose k acc (lz_identity k)) (tag_compose k t c) =
      tag_compose k (tag_compose k acc t) c := by
  cases k
  · simp only [tag_compose, lz_identity, wrap32]; omega
  · simp only [tag_compose, lz_identity]
    split_ifs <;> first | rfl | omega
  · simp only [tag_compose, lz_identity]
    split_ifs <;> first | rfl | omega

theorem stored_ok_combine (k : lazy_fn) (a b : Int) : stored_ok k (lz_combine k a b) := by
  cases k
  · exact wrap32_is_int32 _
  · trivial
  · trivial

theorem stored_ok_apply (k : lazy_fn) (t len x : Int) (h : stored_ok k x) :
    stored_ok k (tag_apply k t len x) := by
  cases k
  · exact wrap32_is_int32 _
  · trivial
  · trivial

theorem tag_apply_id (k : lazy_fn) (len x : Int) (h : stored_ok k x) :
    tag_apply k (lz_identity k) len x = x := by
  cases k
  · show wrap32 (x + wrap32 (0 * len)) = x
    rw [zero_mul, wrap32_of_is_int32 (show is_int32 0 by unfold is_int32; omega), add_zero]
    exact wrap32_of_is_int32 h
  · simp [tag_apply, lz_identity]
  · simp [tag_apply, lz_identity]

theorem stored_ok_of_int32 (k : lazy_fn) (x : Int) (h : is_int32 x) : stored_ok k x := by
  cases k
  · exact h
  · trivial
  · trivial

/-! ## The lazy aggregate invariant -/

theorem LazyInv_le {k : lazy_fn} {t lz : List Int} {M : Nat → Int} {node s e : Nat}
    {acc : Int} (h : LazyInv k t lz M node s e acc) : s ≤ e := by
  cases h with
  | leaf => exact le_refl _
  | node _ _ _ _ hse => exact Nat.le_of_lt hse

theorem node_value_congr (k : lazy_fn) {t lz t2 lz2 : List Int} (c s e : Nat)
    (h1 : rd t2 c = rd t c) (h2 : rd lz2 c = rd lz c) :
    node_value k t2 lz2 c s e = node_value k t lz c s e := by
  unfold node_value; rw [h1, h2]

theorem LazyInv_frame {k : lazy_fn} {t lz t2 lz2 : List Int} {M M2 : Nat → Int}
    {node s e : Nat} {acc : Int} (h : LazyInv k t lz M node s e acc)
    (ht : ∀ i, inSub node i → rd t2 i = rd t i) (hz : ∀ i, inSub node i → rd lz2 i = rd lz i)
    (hM : ∀ i, s ≤ i → i ≤ e → M2 i = M i) : LazyInv k t2 lz2 M2 node s e acc := by
  induction h with
  | leaf node s acc h1 h2 =>
    refine LazyInv.leaf node s acc ?_ ?_
    · rw [ht node (inSub_self node)]; exact h1
    · rw [ht node (inSub_self node), hz node (inSub_self node), hM s (le_refl _) (le_refl _)]
      exact h2
  | node node s e acc hse h1 h2 _ _ ih1 ih2 =>
    have hzn := hz node (inSub_self node)
    have htn := ht node (inSub_self node)
    refine LazyInv.node node s e acc hse ?_ ?_ ?_ ?_
    · rw [htn]; exact h1
    · rw [node_value_congr k node s e htn hzn,
        node_value_congr k (2 * node) _ _ (ht _ (inSub_left (inSub_self _)))
          (hz _ (inSub_left (inSub_self _))),
        node_value_congr k (2 * node + 1) _ _ (ht _ (inSub_right (inSub_self _)))
          (hz _ (inSub_right (inSub_self _))), hzn]
      exact h2
    · rw [hzn]
      exact ih1 (fun i hi => ht i (inSub_left hi)) (fun i hi => hz i (inSub_left hi))
        (fun i a b => hM i a (by omega))
    · rw [hzn]
      exact ih2 (fun i hi => ht i (inSub_right hi)) (fun i hi => hz i (inSub_right hi))
        (fun i a b => hM i (by omega) b)

theorem LazyInv_value {k : lazy_fn} {t lz : List Int} {M : Nat → Int} {node s e : Nat}
    {acc : Int} (h : LazyInv k t lz M node s e acc)
    (hM : ∀ i, s ≤ i → i ≤ e → is_int32 (M i)) :
    tag_apply k acc ((e : Int) - (s : Int) + 1) (node_value k t lz node s e) =
      fold_range (lz_combine k) (lz_identity k) M s (e + 1 - s) := by
  induction h with
  | leaf node s acc _ h2 =>
    have e1 : s + 1 - s = 1 := by omega
    have e2 : (s : Int) - (s : Int) + 1 = 1 := by omega
    rw [e1, fold_range_one (isMonoid32_lz k) M s (hM s (le_refl _) (le_refl _))]
    unfold node_value
    rw [e2, ← tag_apply_compose, h2]
  | node node s e acc hse _ h2 _ _ ih1 ih2 =>
    have e1 : e + 1 - s = ((s + e) / 2 + 1 - s) + (e + 1 - ((s + e) / 2 + 1)) := by omega
    have e2 : s + ((s + e) / 2 + 1 - s) = (s + e) / 2 + 1 := by omega
    have e3 : (e : Int) - (s : Int) + 1 =
        ((((s + e) / 2 : Nat) : Int) - (s : Int) + 1) +
          ((e : Int) - (((s + e) / 2 + 1 : Nat) : Int) + 1) := by omega
    rw [e1, fold_range_split (isMonoid32_lz k) M s _ _ (fun i a b => hM i a (by omega)), e2,
      ← ih1 (fun i a b => hM i a (by omega)), ← ih2 (fun i a b => hM i (by omega) b), h2,
      ← tag_apply_compose, e3, tag_apply_combine]

theorem LazyInv_value_id {k : lazy_fn} {t lz : List Int} {M : Nat → Int} {node s e : Nat}
    (h : LazyInv k t lz M node s e (lz_identity k))
    (hM : ∀ i, s ≤ i → i ≤ e → is_int32 (M i)) :
    node_value k t lz node s e =
      fold_range (lz_combine k) (lz_identity k) M s (e + 1 - s) := by
  have hv := LazyInv_value h hM
  have hs : stored_ok k (node_value k t lz node s e) := by
    unfold node_value
    apply stored_ok_apply
    cases h with
    | leaf _ _ _ h1 => exact h1
    | node _ _ _ _ _ h1 => exact h1
  rw [tag_apply_id k _ _ hs] at hv
  exact hv

theorem LazyInv_stored {k : lazy_fn} {t lz : List Int} {M : Nat → Int} {node s e : Nat}
    {acc : Int} (h : LazyInv k t lz M node s e acc) : stored_ok k (rd t node) := by
  cases h with
  | leaf _ _ _ h1 => exact h1
  | node _ _ _ _ _ h1 => exact h1

theorem LazyInv_push {k : lazy_fn} {t lz : List Int} {M : Nat → Int} {node s e : Nat}
    {acc : Int} (v : Int) (h : LazyInv k t lz M node s e acc) :
    LazyInv k t lz (fun i => tag_apply k v 1 (M i)) node s e (tag_compose k v acc) := by
  induction h with
  | leaf node s acc h1 h2 =>
    refine LazyInv.leaf node s _ h1 ?_
    rw [← tag_compose_assoc, tag_apply_compose, h2]
  | node node s e acc hse h1 h2 _ _ ih1 ih2 =>
    refine LazyInv.node node s e _ hse h1 h2 ?_ ?_
    · rw [← tag_compose_assoc]; exact ih1
    · rw [← tag_compose_assoc]; exact ih2

theorem LazyInv_retag {k : lazy_fn} {t lz : List Int} {M : Nat → Int} {node s e : Nat}
    {acc1 : Int} (acc2 tg : Int) (h : LazyInv k t lz M node s e acc1) (hn : 1 ≤ node)
    (hb : node < lz.length)
    (hc : tag_compose k acc2 (tag_compose k tg (rd lz node)) =
      tag_compose k acc1 (rd lz node)) :
    LazyInv k t (wr lz node (tag_compose k tg (rd lz node))) M node s e acc2 := by
  have hsame : rd (wr lz node (tag_compose k tg (rd lz node))) node =
      tag_compose k tg (rd lz node) := rd_wr_same _ hb
  have hl : ∀ i, inSub (2 * node) i →
      rd (wr lz node (tag_compose k tg (rd lz node))) i = rd lz i :=
    fun i hi => rd_wr_ne _ (inSub_left_ne hn hi).symm
  have hr : ∀ i, inSub (2 * node + 1) i →
      rd (wr lz node (tag_compose k tg (rd lz node))) i = rd lz i :=
    fun i hi => rd_wr_ne _ (inSub_right_ne hi).symm
  cases h with
  | leaf _ _ _ h1 h2 =>
    refine LazyInv.leaf node s _ h1 ?_
    rw [hsame, hc]; exact h2
  | node _ _ _ _ hse h1 h2 h3 h4 =>
    refine LazyInv.node node s e _ hse h1 ?_ ?_ ?_
    · rw [node_value_congr k (2 * node) _ _ rfl (hl _ (inSub_self _)),
        node_value_congr k (2 * node + 1) _ _ rfl (hr _ (inSub_self _)), hsame,
        tag_apply_compose, ← h2]
      unfold node_value
      rw [hsame, tag_apply_compose]
    · rw [hsame, hc]
      exact LazyInv_frame h3 (fun _ _ => rfl) hl (fun _ _ _ => rfl)
    · rw [hsame, hc]
      exact LazyInv_frame h4 (fun _ _ => rfl) hr (fun _ _ _ => rfl)

theorem tag_apply_assign (k : lazy_fn) (hk : k ≠ lazy_fn.sum) (t len x y : Int)
    (ht : t ≠ lz_identity k) : tag_apply k t len x = tag_apply k t len y := by
  cases k
  · exact absurd rfl hk
  · have ht2 : ¬ t = SEGTREE_INF := ht
    simp only [tag_apply]; rw [if_neg ht2, if_neg ht2]
  · have ht2 : ¬ t = SEGTREE_NEG_INF := ht
    simp only [tag_apply]; rw [if_neg ht2, if_neg ht2]

theorem tag_compose_ne_id (k : lazy_fn) (hk : k ≠ lazy_fn.sum) (acc t : Int)
    (ht : t ≠ lz_identity k) : tag_compose k acc t ≠ lz_identity k := by
  cases k
  · exact absurd rfl hk
  · simp only [tag_compose, lz_identity] at *; split_ifs <;> assumption
  · simp only [tag_compose, lz_identity] at *; split_ifs <;> assumption

theorem LazyInv_overwrite {k : lazy_fn} {t lz : List Int} {M : Nat → Int} {node s e : Nat}
    {acc : Int} (hk : k ≠ lazy_fn.sum) (y : Int) (h : LazyInv k t lz M node s e acc)
    (hn : 1 ≤ node) (ht : rd lz node ≠ lz_identity k) :
    LazyInv k (wr t node y) lz M node s e acc := by
  have hso : ∀ x, stored_ok k x := by
    intro x; cases k
    · exact absurd rfl hk
    · trivial
    · trivial
  have hl : ∀ i, inSub (2 * node) i → rd (wr t node y) i = rd t i :=
    fun i hi => rd_wr_ne _ (inSub_left_ne hn hi).symm
  have hr : ∀ i, inSub (2 * node + 1) i → rd (wr t node y) i = rd t i :=
    fun i hi => rd_wr_ne _ (inSub_right_ne hi).symm
  cases h with
  | leaf _ _ _ _ h2 =>
    refine LazyInv.leaf node s _ (hso _) ?_
    rw [tag_apply_assign k hk _ _ _ (rd t node) (tag_compose_ne_id k hk acc _ ht)]
    exact h2
  | node _ _ _ _ hse _ _ h3 h4 =>
    refine LazyInv.node node s e _ hse (hso _) ?_
      (LazyInv_frame h3 hl (fun _ _ => rfl) (fun _ _ _ => rfl))
      (LazyInv_frame h4 hr (fun _ _ => rfl) (fun _ _ _ => rfl))
    unfold node_value
    exact tag_apply_assign k hk _ _ _ _ ht

/-! ## Propagation -/

theorem rd_wr (a : List Int) (i j : Nat) (v : Int) :
    rd (wr a i v) j = if j = i ∧ i < a.length then v else rd a j := by
  by_cases h : j = i
  · subst h
    by_cases hb : j < a.length
    · rw [if_pos ⟨rfl, hb⟩]; exact rd_wr_same v hb
    · rw [if_neg (fun c => hb c.2)]
      unfold rd wr
      rw [List.getD_eq_getElem?_getD, List.getD_eq_getElem?_getD,
        List.getElem?_eq_none (by simp; omega), List.getElem?_eq_none (by omega)]
  · rw [if_neg (fun c => h c.1)]; exact rd_wr_ne v (Ne.symm h)

theorem with_bufs_self (st : segment_tree_t) (lz : List Int) (h : st.lazy = some lz) :
    with_bufs st st.tree lz = st := by
  unfold with_bufs; rw [← h]

theorem with_bufs_with_bufs (st : segment_tree_t) (t lz t2 lz2 : List Int) :
    with_bufs (with_bufs st t lz) t2 lz2 = with_bufs st t2 lz2 := rfl

theorem LazyWF_with_bufs {k : lazy_fn} {st : segment_tree_t} {lz : List Int}
    (h : LazyWF k st lz) (t2 lz2 : List Int) (hl : lz2.length = t2.length) :
    LazyWF k (with_bufs st t2 lz2) lz2 := by
  obtain ⟨h1, h2, h3, h4, h5, _, _⟩ := h
  exact ⟨h1, h2, h3, h4, h5, rfl, hl⟩

theorem call_propagate_eq {k : lazy_fn} {st : segment_tree_t} {lz : List Int}
    (hp : st.propagate = some k) (hlz : st.lazy = some lz) (node s e : Nat) (hn : 1 ≤ node) :
    call_propagate st node s e =
      if rd lz node = lz_identity k then st
      else with_bufs st
        (wr st.tree node (tag_apply k (rd lz node) ((e : Int) - (s : Int) + 1) (rd st.tree node)))
        (wr (if s ≠ e then
              wr (wr lz (2 * node) (tag_compose k (rd lz node) (rd lz (2 * node))))
                (2 * node + 1) (tag_compose k (rd lz node) (rd lz (2 * node + 1)))
            else lz) node (lz_identity k)) := by
  have h1 : ∀ v, rd (wr lz (2 * node) v) (2 * node + 1) = rd lz (2 * node + 1) :=
    fun v => rd_wr_ne v (by omega)
  have h2 : ∀ v, rd (wr lz (2 * node) v) node = rd lz node :=
    fun v => rd_wr_ne v (by omega)
  unfold call_propagate
  rw [hp]
  cases k
  · simp only [propagate_sum, hlz, h1, h2, lz_identity, tag_apply, tag_compose, with_bufs]
    by_cases h0 : rd lz node = 0
    · simp [h0]
    · simp [h0]
  · simp only [propagate_min, hlz, h2, lz_identity, tag_apply, tag_compose, with_bufs]
    by_cases h0 : rd lz node = SEGTREE_INF
    · simp [h0]
    · simp [h0]
  · simp only [propagate_max, hlz, h2, lz_identity, tag_apply, tag_compose, with_bufs]
    by_cases h0 : rd lz node = SEGTREE_NEG_INF
    · simp [h0]
    · simp [h0]

theorem tag_apply_push_id (k : lazy_fn) (acc t len x : Int) (h : stored_ok k x) :
    tag_apply k (tag_compose k acc (lz_identity k)) len (tag_apply k t len x) =
      tag_apply k (tag_compose k acc t) len x := by
  rw [tag_apply_compose, tag_apply_compose,
    tag_apply_id k len _ (stored_ok_apply k t len x h)]

theorem call_propagate_spec {k : lazy_fn} {st : segment_tree_t} {lz : List Int}
    {M : Nat → Int} {node s e : Nat} {acc : Int} (hwf : LazyWF k st lz) (hn : 1 ≤ node)
    (hb : InB node s e st.tree.length) (h : LazyInv k st.tree lz M node s e acc) :
    ∃ t2 lz2 : List Int, call_propagate st node s e = with_bufs st t2 lz2 ∧
      t2.length = st.tree.length ∧ lz2.length = lz.length ∧
      rd lz2 node = lz_identity k ∧
      (∀ i, ¬ inSub node i → rd t2 i = rd st.tree i) ∧
      (∀ i, ¬ inSub node i → rd lz2 i = rd lz i) ∧
      LazyInv k t2 lz2 M node s e acc := by
  obtain ⟨_, hp, _, _, _, hlz, hlen⟩ := hwf
  rw [call_propagate_eq hp hlz node s e hn]
  by_cases h0 : rd lz node = lz_identity k
  · rw [if_pos h0]
    exact ⟨st.tree, lz, (with_bufs_self st lz hlz).symm, rfl, rfl, h0, fun _ _ => rfl,
      fun _ _ => rfl, h⟩
  · rw [if_neg h0]
    have hnb : node < st.tree.length := InB_lt hb
    refine ⟨_, _, rfl, length_wr _ _ _, ?_, ?_, ?_, ?_, ?_⟩
    · rw [length_wr]; split <;> simp [length_wr]
    · apply rd_wr_same
      split
      · rw [length_wr, length_wr, hlen]; exact hnb
      · rw [hlen]; exact hnb
    · intro i hi
      exact rd_wr_ne _ (ne_of_not_inSub hi)
    · intro i hi
      rw [rd_wr_ne _ (ne_of_not_inSub hi)]
      split
      · rw [rd_wr_ne _ (ne_of_not_inSub (fun c => hi (inSub_right c))),
          rd_wr_ne _ (ne_of_not_inSub (fun c => hi (inSub_left c)))]
      · rfl
    · cases h with
      | leaf _ _ _ h1 h2 =>
        rw [if_neg (by simp)]
        refine LazyInv.leaf node s acc ?_ ?_
        · rw [rd_wr_same _ hnb]; exact stored_ok_apply k _ _ _ h1
        · rw [rd_wr_same _ hnb, rd_wr_same _ (by rw [hlen]; exact hnb)]
          have e2 : (s : Int) - (s : Int) + 1 = 1 := by omega
          rw [e2, tag_apply_push_id k _ _ _ _ h1]
          exact h2
      | node _ _ _ _ hse h1 h2 h3 h4 =>
        rw [if_pos (by omega)]
        have hbl := InB_lt (InB_left hse hb)
        have hbr := InB_lt (InB_right hse hb)
        have hzn : rd (wr (wr (wr lz (2 * node) (tag_compose k (rd lz node) (rd lz (2 * node))))
            (2 * node + 1) (tag_compose k (rd lz node) (rd lz (2 * node + 1)))) node
            (lz_identity k)) node = lz_identity k :=
          rd_wr_same _ (by rw [length_wr, length_wr, hlen]; exact hnb)
        have hzl : rd (wr (wr (wr lz (2 * node) (tag_compose k (rd lz node) (rd lz (2 * node))))
            (2 * node + 1) (tag_compose k (rd lz node) (rd lz (2 * node + 1)))) node
            (lz_identity k)) (2 * node) = tag_compose k (rd lz node) (rd lz (2 * node)) := by
          rw [rd_wr_ne _ (by omega), rd_wr_ne _ (by omega),
            rd_wr_same _ (by rw [hlen]; exact hbl)]
        have hzr : rd (wr (wr (wr lz (2 * node) (tag_compose k (rd lz node) (rd lz (2 * node))))
            (2 * node + 1) (tag_compose k (rd lz node) (rd lz (2 * node + 1)))) node
            (lz_identity k)) (2 * node + 1) =
              tag_compose k (rd lz node) (rd lz (2 * node + 1)) := by
          rw [rd_wr_ne _ (by omega),
            rd_wr_same _ (by rw [length_wr, hlen]; exact hbr)]
        have e3 : (e : Int) - (s : Int) + 1 =
            ((((s + e) / 2 : Nat) : Int) - (s : Int) + 1) +
              ((e : Int) - (((s + e) / 2 + 1 : Nat) : Int) + 1) := by omega
        refine LazyInv.node node s e acc hse ?_ ?_ ?_ ?_
        · rw [rd_wr_same _ hnb]; exact stored_ok_apply k _ _ _ h1
        · have hvl : node_value k
              (wr st.tree node (tag_apply k (rd lz node) ((e : Int) - (s : Int) + 1)
                (rd st.tree node)))
              (wr (wr (wr lz (2 * node) (tag_compose k (rd lz node) (rd lz (2 * node))))
                (2 * node + 1) (tag_compose k (rd lz node) (rd lz (2 * node + 1)))) node
                (lz_identity k)) (2 * node) s ((s + e) / 2) =
              tag_apply k (rd lz node) ((((s + e) / 2 : Nat) : Int) - (s : Int) + 1)
                (node_value k st.tree lz (2 * node) s ((s + e) / 2)) := by
            unfold node_value
            rw [hzl, rd_wr_ne _ (by omega), tag_apply_compose]
          have hvr : node_value k
              (wr st.tree node (tag_apply k (rd lz node) ((e : Int) - (s : Int) + 1)
                (rd st.tree node)))
              (wr (wr (wr lz (2 * node) (tag_compose k (rd lz node) (rd lz (2 * node))))
                (2 * node + 1) (tag_compose k (rd lz node) (rd lz (2 * node + 1)))) node
                (lz_identity k)) (2 * node + 1) ((s + e) / 2 + 1) e =
              tag_apply k (rd lz node) ((e : Int) - (((s + e) / 2 + 1 : Nat) : Int) + 1)
                (node_value k st.tree lz (2 * node + 1) ((s + e) / 2 + 1) e) := by
            unfold node_value
            rw [hzr, rd_wr_ne _ (by omega), tag_apply_compose]
          have h2b := h2
          unfold node_value at h2b
          rw [hvl, hvr]
          unfold node_value
          rw [hzn, rd_wr_same _ hnb, h2b, e3, tag_apply_combine]
        · rw [hzn]
          refine LazyInv_frame (LazyInv_retag (tag_compose k acc (lz_identity k)) (rd lz node)
            h3 (by omega) (by rw [hlen]; exact hbl) (tag_compose_push k _ _ _)) ?_ ?_
            (fun _ _ _ => rfl)
          · intro i hi
            exact rd_wr_ne _ (inSub_left_ne hn hi).symm
          · intro i hi
            rw [rd_wr_ne _ (inSub_left_ne hn hi).symm,
              rd_wr_ne _ (ne_of_not_inSub (fun c => inSub_disjoint hn hi c))]
        · rw [hzn]
          refine LazyInv_frame (LazyInv_retag (tag_compose k acc (lz_identity k)) (rd lz node)
            h4 (by omega) (by rw [hlen]; exact hbr) (tag_compose_push k _ _ _)) ?_ ?_
            (fun _ _ _ => rfl)
          · intro i hi
            exact rd_wr_ne _ (inSub_right_ne hi).symm
          · intro i hi
            rw [rd_wr_ne _ (inSub_right_ne hi).symm, rd_wr, rd_wr, rd_wr, length_wr]
            have hne : i ≠ 2 * node := fun c => by
              have := inSub_ge hi; omega
            by_cases hi2 : i = 2 * node + 1
            · subst hi2
              rw [if_pos ⟨rfl, by rw [hlen]; exact hbr⟩, if_pos ⟨rfl, by rw [hlen]; exact hbr⟩]
            · rw [if_neg (fun c => hi2 c.1), if_neg (fun c => hne c.1),
                if_neg (fun c => hi2 c.1)]

/-! ## Queries on a lazy tree -/

theorem node_value_of_id {k : lazy_fn} {t lz : List Int} {c s e : Nat}
    (h0 : rd lz c = lz_identity k) (hs : stored_ok k (rd t c)) :
    node_value k t lz c s e = rd t c := by
  unfold node_value
  rw [h0, tag_apply_id k _ _ hs]

theorem query_recursive_lazy (k : lazy_fn) (M : Nat → Int) (l r : Nat) (hlr : l ≤ r) :
    ∀ (fuel : Nat) (st : segment_tree_t) (lz : List Int) (node s e : Nat), e - s < fuel →
      1 ≤ node → LazyWF k st lz → InB node s e st.tree.length →
      LazyInv k st.tree lz M node s e (lz_identity k) →
      (∀ i, s ≤ i → i ≤ e → is_int32 (M i)) →
      ∃ t2 lz2 : List Int,
        query_recursive fuel st node s e l r =
          (with_bufs st t2 lz2,
           fold_range (lz_combine k) (lz_identity k) M (max s l) (min e r + 1 - max s l)) ∧
        t2.length = st.tree.length ∧ lz2.length = lz.length ∧
        (∀ i, ¬ inSub node i → rd t2 i = rd st.tree i) ∧
        (∀ i, ¬ inSub node i → rd lz2 i = rd lz i) ∧
        LazyInv k t2 lz2 M node s e (lz_identity k) := by
  intro fuel
  induction fuel with
  | zero => intro st lz node s e h; omega
  | succ fuel ih =>
    intro st lz node s e hf hn hwf hb hinv hM
    have hwf0 := hwf
    obtain ⟨hen, hp, _, hcomb, hid, hlz, hlen⟩ := hwf
    unfold query_recursive
    by_cases hd : r < s ∨ e < l
    · rw [if_pos hd]
      have : min e r + 1 - max s l = 0 := by omega
      rw [this]
      exact ⟨st.tree, lz, by rw [with_bufs_self st lz hlz, hid]; rfl, rfl, rfl,
        fun _ _ => rfl, fun _ _ => rfl, hinv⟩
    · have hg : st.lazy_enabled = true ∧ st.propagate ≠ none := ⟨hen, by rw [hp]; simp⟩
      rw [if_neg hd]
      simp only [if_pos hg]
      obtain ⟨t1, lz1, e1, lt1, ll1, z1, ft1, fl1, inv1⟩ := call_propagate_spec hwf0 hn hb hinv
      rw [e1]
      have hwf1 : LazyWF k (with_bufs st t1 lz1) lz1 :=
        LazyWF_with_bufs hwf0 t1 lz1 (by rw [ll1, lt1, hlen])
      by_cases hc : l ≤ s ∧ e ≤ r
      · rw [if_pos hc]
        have e2 : max s l = s := by omega
        have e3 : min e r = e := by omega
        refine ⟨t1, lz1, ?_, lt1, ll1, ft1, fl1, inv1⟩
        rw [e2, e3, ← LazyInv_value_id inv1 hM, node_value_of_id z1 (LazyInv_stored inv1)]
        rfl
      · rw [if_neg hc]
        cases inv1 with
        | leaf => omega
        | node _ _ _ _ hse h1 h2 h3 h4 =>
          rw [z1, tag_compose_id_id] at h3 h4
          have hb1 : InB node s e (with_bufs st t1 lz1).tree.length := by
            show InB node s e t1.length
            rw [lt1]; exact hb
          obtain ⟨t2, lz2, e2, lt2, ll2, ft2, fl2, inv2⟩ :=
            ih (with_bufs st t1 lz1) lz1 (2 * node) s ((s + e) / 2) (by omega) (by omega) hwf1
              (InB_left hse hb1) h3 (fun i a b => hM i a (by omega))
          rw [e2]
          simp only [with_bufs_with_bufs]
          have hwf2 : LazyWF k (with_bufs st t2 lz2) lz2 :=
            LazyWF_with_bufs hwf0 t2 lz2 (by
              rw [ll2, lt2]; show lz1.length = t1.length; rw [ll1, lt1, hlen])
          have lt2b : t2.length = t1.length := lt2
          have ft2b : ∀ i, ¬ inSub (2 * node) i → rd t2 i = rd t1 i := ft2
          have hb2 : InB node s e (with_bufs st t2 lz2).tree.length := by
            show InB node s e t2.length
            rw [lt2b, lt1]; exact hb
          have h4b : LazyInv k (with_bufs st t2 lz2).tree lz2 M (2 * node + 1)
              ((s + e) / 2 + 1) e (lz_identity k) :=
            LazyInv_frame h4
              (fun i hi => ft2b i (fun c => inSub_disjoint hn c hi))
              (fun i hi => fl2 i (fun c => inSub_disjoint hn c hi)) (fun _ _ _ => rfl)
          obtain ⟨t3, lz3, e3, lt3, ll3, ft3, fl3, inv3⟩ :=
            ih (with_bufs st t2 lz2) lz2 (2 * node + 1) ((s + e) / 2 + 1) e (by omega)
              (by omega) hwf2 (InB_right hse hb2) h4b (fun i a b => hM i (by omega) b)
          rw [e3]
          simp only [with_bufs_with_bufs]
          have lt3b : t3.length = t2.length := lt3
          have ft3b : ∀ i, ¬ inSub (2 * node + 1) i → rd t3 i = rd t2 i := ft3
          have inv2b : LazyInv k t3 lz3 M (2 * node) s ((s + e) / 2) (lz_identity k) :=
            LazyInv_frame inv2
              (fun i hi => ft3b i (fun c => inSub_disjoint hn hi c))
              (fun i hi => fl3 i (fun c => inSub_disjoint hn hi c)) (fun _ _ _ => rfl)
          have hnl : ¬ inSub (2 * node) node := fun c => by have := inSub_ge c; omega
          have hnr : ¬ inSub (2 * node + 1) node := fun c => by have := inSub_ge c; omega
          have tn : rd t3 node = rd t1 node := by rw [ft3b node hnr, ft2b node hnl]
          have zn : rd lz3 node = rd lz1 node := by rw [fl3 node hnr, fl2 node hnl]
          refine ⟨t3, lz3, ?_, by rw [lt3b, lt2b, lt1], by rw [ll3, ll2, ll1], ?_, ?_, ?_⟩
          · show (with_bufs st t3 lz3, st.combine _ _) = _
            have ek : min e r + 1 - max s l =
                (min ((s + e) / 2) r + 1 - max s l) +
                  (min e r + 1 - max ((s + e) / 2 + 1) l) := by omega
            rw [hcomb, ek, fold_range_split (isMonoid32_lz k) M _ _ _
              (fun i a b => hM i (by omega) (by omega))]
            congr 2
            exact fold_range_zero_len _ _ _ _ _ _ (by omega)
          · intro i hi
            rw [ft3b i (fun c => hi (inSub_right c)), ft2b i (fun c => hi (inSub_left c)),
              ft1 i hi]
          · intro i hi
            rw [fl3 i (fun c => hi (inSub_right c)), fl2 i (fun c => hi (inSub_left c)),
              fl1 i hi]
          · refine LazyInv.node node s e _ hse (by rw [tn]; exact h1) ?_ ?_ ?_
            · rw [node_value_congr k node s e tn zn, h2, zn,
                LazyInv_value_id h3 (fun i a b => hM i a (by omega)),
                LazyInv_value_id h4 (fun i a b => hM i (by omega) b),
                LazyInv_value_id inv2b (fun i a b => hM i a (by omega)),
                LazyInv_value_id inv3 (fun i a b => hM i (by omega) b)]
            · rw [zn, z1, tag_compose_id_id]; exact inv2b
            · rw [zn, z1, tag_compose_id_id]; exact inv3

/-! ## Range updates on a lazy tree -/

theorem tag_compose_id_right (k : lazy_fn) (hk : k ≠ lazy_fn.sum) (v : Int) :
    tag_compose k v (lz_identity k) = v := by
  cases k
  · exact absurd rfl hk
  · simp only [tag_compose, lz_identity]; split_ifs with h
    · exact h.symm
    · rfl
  · simp only [tag_compose, lz_identity]; split_ifs with h
    · exact h.symm
    · rfl

theorem call_update_lazy_eq {k : lazy_fn} {st : segment_tree_t} {lz : List Int}
    (hu : st.update_lazy = some k) (hlz : st.lazy = some lz) (node s e : Nat) (val : Int)
    (h0 : rd lz node = lz_identity k) :
    call_update_lazy st node s e val =
      with_bufs st (if k = lazy_fn.sum then st.tree else wr st.tree node val)
        (wr lz node (tag_compose k val (rd lz node))) := by
  unfold call_update_lazy
  rw [hu]
  cases k
  · simp only [update_lazy_sum, hlz, tag_compose, with_bufs, if_true]
  · have h1 : rd lz node = SEGTREE_INF := h0
    simp only [update_lazy_min, hlz, h1, true_or, if_true, with_bufs]
    rw [← h1, h0, tag_compose_id_right _ (by decide)]
    simp
  · have h1 : rd lz node = SEGTREE_NEG_INF := h0
    simp only [update_lazy_max, hlz, h1, true_or, if_true, with_bufs]
    rw [← h1, h0, tag_compose_id_right _ (by decide)]
    simp

theorem LazyInv_update_node {k : lazy_fn} {t lz : List Int} {M : Nat → Int} {node s e : Nat}
    (val : Int) (hval : k ≠ lazy_fn.sum → val ≠ lz_identity k)
    (h : LazyInv k t lz M node s e (lz_identity k)) (h0 : rd lz node = lz_identity k)
    (hn : 1 ≤ node) (hb : node < lz.length) :
    LazyInv k (if k = lazy_fn.sum then t else wr t node val)
      (wr lz node (tag_compose k val (rd lz node)))
      (fun i => tag_apply k val 1 (M i)) node s e (lz_identity k) := by
  have hA := LazyInv_push val h
  have hB := LazyInv_retag (lz_identity k) val hA hn hb (by
    rw [h0, tag_compose_id_swap, tag_compose_id_id, ← tag_compose_assoc, tag_compose_id_id])
  by_cases hk : k = lazy_fn.sum
  · rw [if_pos hk]; exact hB
  · rw [if_neg hk]
    refine LazyInv_overwrite hk val hB hn ?_
    rw [rd_wr_same _ hb, h0, tag_compose_id_right k hk]
    exact hval hk

theorem range_model_outside (k : lazy_fn) (l r : Nat) (val : Int) (M : Nat → Int) (i : Nat)
    (h : i < l ∨ r < i) : range_model k l r val M i = M i := by
  unfold range_model; rw [if_neg (by omega)]

theorem range_model_inside (k : lazy_fn) (l r : Nat) (val : Int) (M : Nat → Int) (i : Nat)
    (h1 : l ≤ i) (h2 : i ≤ r) : range_model k l r val M i = tag_apply k val 1 (M i) := by
  unfold range_model; rw [if_pos ⟨h1, h2⟩]

theorem update_range_recursive_lazy (k : lazy_fn) (l r : Nat) (val : Int)
    (hval : k ≠ lazy_fn.sum → val ≠ lz_identity k) :
    ∀ (fuel : Nat) (st : segment_tree_t) (lz : List Int) (M : Nat → Int) (node s e : Nat),
      e - s < fuel → 1 ≤ node → LazyWF k st lz → InB node s e st.tree.length →
      LazyInv k st.tree lz M node s e (lz_identity k) →
      ∃ t2 lz2 : List Int,
        update_range_recursive fuel st node s e l r val = with_bufs st t2 lz2 ∧
        t2.length = st.tree.length ∧ lz2.length = lz.length ∧
        (∀ i, ¬ inSub node i → rd t2 i = rd st.tree i) ∧
        (∀ i, ¬ inSub node i → rd lz2 i = rd lz i) ∧
        LazyInv k t2 lz2 (range_model k l r val M) node s e (lz_identity k) := by
  intro fuel
  induction fuel with
  | zero => intro st lz M node s e h; omega
  | succ fuel ih =>
    intro st lz M node s e hf hn hwf hb hinv
    have hwf0 := hwf
    obtain ⟨hen, hp, hu, hcomb, hid, hlz, hlen⟩ := hwf
    have hg : st.lazy_enabled = true ∧ st.propagate ≠ none := ⟨hen, by rw [hp]; simp⟩
    unfold update_range_recursive
    simp only [if_pos hg]
    obtain ⟨t1, lz1, e1, lt1, ll1, z1, ft1, fl1, inv1⟩ := call_propagate_spec hwf0 hn hb hinv
    rw [e1]
    have hwf1 : LazyWF k (with_bufs st t1 lz1) lz1 :=
      LazyWF_with_bufs hwf0 t1 lz1 (by rw [ll1, lt1, hlen])
    have hnb : node < t1.length := by rw [lt1]; exact InB_lt hb
    by_cases hd : s > r ∨ e < l
    · rw [if_pos hd]
      refine ⟨t1, lz1, rfl, lt1, ll1, ft1, fl1, ?_⟩
      exact LazyInv_frame inv1 (fun _ _ => rfl) (fun _ _ => rfl)
        (fun i a b => range_model_outside k l r val M i (by omega))
    · rw [if_neg hd]
      by_cases hc : s ≥ l ∧ e ≤ r
      · rw [if_pos hc]
        have hg2 : (with_bufs st t1 lz1).lazy_enabled = true ∧
            (with_bufs st t1 lz1).update_lazy ≠ none :=
          ⟨hen, by show st.update_lazy ≠ none; rw [hu]; simp⟩
        rw [if_pos hg2, @call_update_lazy_eq k (with_bufs st t1 lz1) lz1
          (show (with_bufs st t1 lz1).update_lazy = some k from hu) rfl node s e val z1]
        simp only [with_bufs_with_bufs]
        have hu1 := LazyInv_update_node val hval inv1 z1 hn (by rw [ll1, hlen, ← lt1]; exact hnb)
        refine ⟨_, _, rfl, ?_, ?_, ?_, ?_, ?_⟩
        · show (if k = lazy_fn.sum then t1 else wr t1 node val).length = _
          split
          · exact lt1
          · rw [length_wr]; exact lt1
        · rw [length_wr]; exact ll1
        · intro i hi
          show rd (if k = lazy_fn.sum then t1 else wr t1 node val) i = _
          split
          · exact ft1 i hi
          · rw [rd_wr_ne _ (ne_of_not_inSub hi)]; exact ft1 i hi
        · intro i hi
          rw [rd_wr_ne _ (ne_of_not_inSub hi)]; exact fl1 i hi
        · exact LazyInv_frame hu1 (fun _ _ => rfl) (fun _ _ => rfl)
            (fun i a b => range_model_inside k l r val M i (by omega) (by omega))
      · rw [if_neg hc]
        cases inv1 with
        | leaf => omega
        | node _ _ _ _ hse h1 h2 h3 h4 =>
          rw [z1, tag_compose_id_id] at h3 h4
          have hb1 : InB node s e (with_bufs st t1 lz1).tree.length := by
            show InB node s e t1.length
            rw [lt1]; exact hb
          obtain ⟨t2, lz2, e2, lt2, ll2, ft2, fl2, inv2⟩ :=
            ih (with_bufs st t1 lz1) lz1 M (2 * node) s ((s + e) / 2) (by omega) (by omega) hwf1
              (InB_left hse hb1) h3
          rw [e2]
          simp only [with_bufs_with_bufs]
          have lt2b : t2.length = t1.length := lt2
          have ft2b : ∀ i, ¬ inSub (2 * node) i → rd t2 i = rd t1 i := ft2
          have hwf2 : LazyWF k (with_bufs st t2 lz2) lz2 :=
            LazyWF_with_bufs hwf0 t2 lz2 (by rw [ll2, lt2b, ll1, lt1, hlen])
          have hb2 : InB node s e (with_bufs st t2 lz2).tree.length := by
            show InB node s e t2.length
            rw [lt2b, lt1]; exact hb
          have h4b : LazyInv k (with_bufs st t2 lz2).tree lz2 M (2 * node + 1)
              ((s + e) / 2 + 1) e (lz_identity k) :=
            LazyInv_frame h4
              (fun i hi => ft2b i (fun c => inSub_disjoint hn c hi))
              (fun i hi => fl2 i (fun c => inSub_disjoint hn c hi)) (fun _ _ _ => rfl)
          obtain ⟨t3, lz3, e3, lt3, ll3, ft3, fl3, inv3⟩ :=
            ih (with_bufs st t2 lz2) lz2 M (2 * node + 1) ((s + e) / 2 + 1) e (by omega)
              (by omega) hwf2 (InB_right hse hb2) h4b
          rw [e3]
          simp only [with_bufs_with_bufs]
          have lt3b : t3.length = t2.length := lt3
          have ft3b : ∀ i, ¬ inSub (2 * node + 1) i → rd t3 i = rd t2 i := ft3
          have hwf3 : LazyWF k (with_bufs st t3 lz3) lz3 :=
            LazyWF_with_bufs hwf0 t3 lz3 (by rw [ll3, lt3b, ll2, lt2b, ll1, lt1, hlen])
          have hb3 : InB node s e (with_bufs st t3 lz3).tree.length := by
            show InB node s e t3.length
            rw [lt3b, lt2b, lt1]; exact hb
          have hg3 : (with_bufs st t3 lz3).lazy_enabled = true ∧
              (with_bufs st t3 lz3).propagate ≠ none := hg
          rw [if_pos hg3]
          have inv2b : LazyInv k (with_bufs st t3 lz3).tree lz3 (range_model k l r val M)
              (2 * node) s ((s + e) / 2) (lz_identity k) :=
            LazyInv_frame inv2
              (fun i hi => ft3b i (fun c => inSub_disjoint hn hi c))
              (fun i hi => fl3 i (fun c => inSub_disjoint hn hi c)) (fun _ _ _ => rfl)
          obtain ⟨t4, lz4, e4, lt4, ll4, z4, ft4, fl4, inv4⟩ :=
            call_propagate_spec hwf3 (by omega) (InB_left hse hb3) inv2b
          rw [e4]
          have lt4b : t4.length = t3.length := lt4
          have ft4b : ∀ i, ¬ inSub (2 * node) i → rd t4 i = rd t3 i := ft4
          have hwf4 : LazyWF k (with_bufs st t4 lz4) lz4 :=
            LazyWF_with_bufs hwf0 t4 lz4
              (by rw [ll4, lt4b, ll3, lt3b, ll2, lt2b, ll1, lt1, hlen])
          have hb4 : InB node s e (with_bufs st t4 lz4).tree.length := by
            show InB node s e t4.length
            rw [lt4b, lt3b, lt2b, lt1]; exact hb
          have inv3b : LazyInv k (with_bufs st t4 lz4).tree lz4 (range_model k l r val M)
              (2 * node + 1) ((s + e) / 2 + 1) e (lz_identity k) :=
            LazyInv_frame inv3
              (fun i hi => ft4b i (fun c => inSub_disjoint hn c hi))
              (fun i hi => fl4 i (fun c => inSub_disjoint hn c hi)) (fun _ _ _ => rfl)
          have hwf4b : LazyWF k (with_bufs (with_bufs st t3 lz3) t4 lz4) lz4 := hwf4
          have hb4b : InB node s e (with_bufs (with_bufs st t3 lz3) t4 lz4).tree.length := hb4
          obtain ⟨t5, lz5, e5, lt5, ll5, z5, ft5, fl5, inv5⟩ :=
            call_propagate_spec hwf4b (by omega) (InB_right hse hb4b) inv3b
          rw [e5]
          have lt5b : t5.length = t4.length := lt5
          have ft5b : ∀ i, ¬ inSub (2 * node + 1) i → rd t5 i = rd t4 i := ft5
          have hnl : ¬ inSub (2 * node) node := fun c => by have := inSub_ge c; omega
          have hnr : ¬ inSub (2 * node + 1) node := fun c => by have := inSub_ge c; omega
          have hlr2 : ¬ inSub (2 * node + 1) (2 * node) := fun c => by
            have := inSub_ge c; omega
          have hnb5 : node < t5.length := by rw [lt5b, lt4b, lt3b, lt2b]; exact hnb
          have zn : rd lz5 node = lz_identity k := by
            rw [fl5 node hnr, fl4 node hnl, fl3 node hnr, fl2 node hnl, z1]
          have zl : rd lz5 (2 * node) = lz_identity k := by rw [fl5 _ hlr2, z4]
          have inv4b : LazyInv k t5 lz5 (range_model k l r val M) (2 * node) s ((s + e) / 2)
              (lz_identity k) :=
            LazyInv_frame inv4
              (fun i hi => ft5b i (fun c => inSub_disjoint hn hi c))
              (fun i hi => fl5 i (fun c => inSub_disjoint hn hi c)) (fun _ _ _ => rfl)
          refine ⟨wr t5 node (lz_combine k (rd t5 (2 * node)) (rd t5 (2 * node + 1))), lz5,
            ?_, ?_, ?_, ?_, ?_, ?_⟩
          · show with_bufs st (wr t5 node (st.combine _ _)) lz5 = _
            rw [hcomb]
            rfl
          · rw [length_wr, lt5b, lt4b, lt3b, lt2b, lt1]
          · rw [ll5, ll4, ll3, ll2, ll1]
          · intro i hi
            rw [rd_wr_ne _ (ne_of_not_inSub hi), ft5b i (fun c => hi (inSub_right c)),
              ft4b i (fun c => hi (inSub_left c)), ft3b i (fun c => hi (inSub_right c)),
              ft2b i (fun c => hi (inSub_left c)), ft1 i hi]
          · intro i hi
            rw [fl5 i (fun c => hi (inSub_right c)), fl4 i (fun c => hi (inSub_left c)),
              fl3 i (fun c => hi (inSub_right c)), fl2 i (fun c => hi (inSub_left c)),
              fl1 i hi]
          · have hfl : ∀ i, inSub (2 * node) i →
                rd (wr t5 node (lz_combine k (rd t5 (2 * node)) (rd t5 (2 * node + 1)))) i =
                  rd t5 i := fun i hi => rd_wr_ne _ (inSub_left_ne hn hi).symm
            have hfr : ∀ i, inSub (2 * node + 1) i →
                rd (wr t5 node (lz_combine k (rd t5 (2 * node)) (rd t5 (2 * node + 1)))) i =
                  rd t5 i := fun i hi => rd_wr_ne _ (inSub_right_ne hi).symm
            refine LazyInv.node node s e _ hse ?_ ?_ ?_ ?_
            · rw [rd_wr_same _ hnb5]; exact stored_ok_combine k _ _
            · rw [node_value_of_id zl (by
                  rw [hfl _ (inSub_self _)]; exact LazyInv_stored inv4b),
                node_value_of_id z5 (by
                  rw [hfr _ (inSub_self _)]; exact LazyInv_stored inv5),
                hfl _ (inSub_self _), hfr _ (inSub_self _)]
              unfold node_value
              rw [rd_wr_same _ hnb5]
            · rw [zn, tag_compose_id_id]
              exact LazyInv_frame inv4b hfl (fun _ _ => rfl) (fun _ _ _ => rfl)
            · rw [zn, tag_compose_id_id]
              exact LazyInv_frame inv5 hfr (fun _ _ => rfl) (fun _ _ _ => rfl)

/-! ## Lazy trees: construction and public operations -/

theorem rd_fill (v : Int) (a : List Int) :
    ∀ (n i : Nat), n ≤ a.length → rd (fill n a v) i = if i < n then v else rd a i := by
  intro n
  induction n with
  | zero => intro i _; simp [fill]
  | succ n ih =>
    intro i h
    have hl : ∀ m, (fill m a v).length = a.length := by
      intro m
      induction m with
      | zero => rfl
      | succ m ihm => simp only [fill]; rw [length_wr, ihm]
    simp only [fill]
    rw [rd_wr, ih i (by omega), hl]
    by_cases h1 : i = n
    · subst h1; rw [if_pos ⟨rfl, by omega⟩, if_pos (by omega)]
    · rw [if_neg (fun c => h1 c.1)]
      by_cases h2 : i < n
      · rw [if_pos h2, if_pos (by omega)]
      · rw [if_neg h2, if_neg (by omega)]

theorem length_fill (v : Int) (a : List Int) : ∀ n : Nat, (fill n a v).length = a.length := by
  intro n
  induction n with
  | zero => rfl
  | succ n ih => simp only [fill]; rw [length_wr, ih]

theorem AggInv_to_LazyInv {k : lazy_fn} {t lz : List Int} {A : Nat → Int} {node s e : Nat}
    (h : AggInv (lz_combine k) t A node s e) (hb : InB node s e lz.length)
    (hz : ∀ i, i < lz.length → rd lz i = lz_identity k)
    (hA : ∀ i, s ≤ i → i ≤ e → is_int32 (A i)) :
    LazyInv k t lz A node s e (lz_identity k) := by
  induction h with
  | leaf node s h0 =>
    have hs : stored_ok k (rd t node) := by
      rw [h0]; exact stored_ok_of_int32 k _ (hA s (le_refl _) (le_refl _))
    refine LazyInv.leaf node s _ hs ?_
    rw [hz node (InB_lt hb), tag_compose_id_id, tag_apply_id k _ _ hs, h0]
  | node node s e hse _ _ h3 ih1 ih2 =>
    have i1 := ih1 (InB_left hse hb) (fun i a b => hA i a (by omega))
    have i2 := ih2 (InB_right hse hb) (fun i a b => hA i (by omega) b)
    have zn := hz node (InB_lt hb)
    have hs : stored_ok k (rd t node) := by rw [h3]; exact stored_ok_combine k _ _
    refine LazyInv.node node s e _ hse hs ?_ ?_ ?_
    · rw [node_value_of_id (hz _ (InB_lt (InB_left hse hb))) (LazyInv_stored i1),
        node_value_of_id (hz _ (InB_lt (InB_right hse hb))) (LazyInv_stored i2),
        node_value_of_id zn hs, zn, ← h3, tag_apply_id k _ _ hs]
    · rw [zn, tag_compose_id_id]; exact i1
    · rw [zn, tag_compose_id_id]; exact i2

theorem segtree_create_cfg (S : List Int) (n : Int) (op : segtree_operation_t)
    (st : segment_tree_t) (h : segtree_create (some S) n op = some st) :
    ∃ t : List Int, st = { setup_operations (fresh_tree n op) op with tree := t } := by
  unfold segtree_create at h
  simp only at h
  split at h
  · exact absurd h (by simp)
  · obtain ⟨t, e⟩ := build_tree_cfg S (setup_operations (fresh_tree n op) op).size
      (setup_operations (fresh_tree n op) op) 1 0
      ((setup_operations (fresh_tree n op) op).size - 1)
    rw [e] at h
    exact ⟨t, (Option.some.inj h).symm⟩

theorem segtree_create_lazy_rep (S : List Int) (n : Int) (op : segtree_operation_t)
    (h1 : 1 ≤ n) (h2 : n ≤ SEGTREE_MAX_SIZE) (hS : ∀ x ∈ S, is_int32 x) :
    ∃ st : segment_tree_t, segtree_create_lazy (some S) n op = some st ∧
      LazyRep (op_rule op) st (rd S) ∧ st.size = n.toNat := by
  obtain ⟨st, hc, ⟨_, hs, hb, hagg⟩, hsz, hcomb, _, hlen⟩ := segtree_create_plain S n op h1 h2
  obtain ⟨t, ht⟩ := segtree_create_cfg S n op st hc
  have hts : st.tree_size = (calculate_tree_size n).toNat := by
    rw [ht]; cases op <;> rfl
  have hcomb2 : st.combine = lz_combine (op_rule op) := by rw [hcomb]; cases op <;> rfl
  have hid : st.identity = lz_identity (op_rule op) := by rw [ht]; cases op <;> rfl
  have hp : st.propagate = some (op_rule op) := by rw [ht]; cases op <;> rfl
  have hu : st.update_lazy = some (op_rule op) := by rw [ht]; cases op <;> rfl
  unfold segtree_create_lazy
  rw [hc]
  refine ⟨_, rfl, ⟨fill st.tree_size (List.replicate st.tree_size 0) st.identity,
    ⟨rfl, hp, hu, hcomb2, hid, rfl, ?_⟩, hs, hb, ?_⟩, hsz⟩
  · rw [length_fill, List.length_replicate, hts, hlen]
  · show LazyInv (op_rule op) st.tree _ (rd S) 1 0 (st.size - 1) _
    rw [hcomb2] at hagg
    refine AggInv_to_LazyInv hagg ?_ ?_ (fun i _ _ => rd_int32_of_mem hS i)
    · rw [length_fill, List.length_replicate, hts, ← hlen]; exact hb
    · intro i hi
      rw [length_fill, List.length_replicate] at hi
      rw [rd_fill _ _ _ _ (by rw [List.length_replicate]), if_pos hi, hid]

theorem segtree_query_lazy {k : lazy_fn} {st : segment_tree_t} {M : Nat → Int}
    (hrep : LazyRep k st M) (hM : ∀ i, i < st.size → is_int32 (M i)) (l r old : Int)
    (h0 : 0 ≤ l) (hlr : l ≤ r) (hr : r < st.size) :
    ∃ st2 : segment_tree_t,
      segtree_query (some st) l r (some old) =
        (SEGTREE_OK, some st2,
         some (fold_range (lz_combine k) (lz_identity k) M l.toNat (r.toNat + 1 - l.toNat))) ∧
      LazyRep k st2 M ∧ st2.size = st.size := by
  obtain ⟨lz, hwf, hs, hb, hinv⟩ := hrep
  obtain ⟨t2, lz2, e2, lt2, ll2, _, _, inv2⟩ :=
    query_recursive_lazy k M l.toNat r.toNat (by omega) st.size st lz 1 0 (st.size - 1)
      (by omega) (le_refl _) hwf hb hinv (fun i _ hi => hM i (by omega))
  have e3 : max 0 l.toNat = l.toNat := by omega
  have e4 : min (st.size - 1) r.toNat = r.toNat := by omega
  rw [e3, e4] at e2
  unfold segtree_query
  simp only
  rw [if_neg (by omega), e2]
  refine ⟨_, rfl, ⟨lz2, ?_, hs, ?_, inv2⟩, rfl⟩
  · obtain ⟨a1, a2, a3, a4, a5, _, a7⟩ := hwf
    exact ⟨a1, a2, a3, a4, a5, rfl, by rw [ll2, a7, ← lt2]; rfl⟩
  · show InB 1 0 (st.size - 1) t2.length
    rw [lt2]; exact hb

theorem segtree_update_range_lazy {k : lazy_fn} {st : segment_tree_t} {M : Nat → Int}
    (hrep : LazyRep k st M) (l r val : Int) (h0 : 0 ≤ l) (hlr : l ≤ r) (hr : r < st.size)
    (hval : k ≠ lazy_fn.sum → val ≠ lz_identity k) :
    ∃ st2 : segment_tree_t,
      segtree_update_range (some st) l r val = (SEGTREE_OK, some st2) ∧
      LazyRep k st2 (range_model k l.toNat r.toNat val M) ∧ st2.size = st.size := by
  obtain ⟨lz, hwf, hs, hb, hinv⟩ := hrep
  obtain ⟨t2, lz2, e2, lt2, ll2, _, _, inv2⟩ :=
    update_range_recursive_lazy k l.toNat r.toNat val hval st.size st lz M 1 0 (st.size - 1)
      (by omega) (le_refl _) hwf hb hinv
  unfold segtree_update_range
  simp only
  rw [if_neg (by rw [hwf.1]; simp), if_neg (by omega), e2]
  refine ⟨_, rfl, ⟨lz2, ?_, hs, ?_, inv2⟩, rfl⟩
  · obtain ⟨a1, a2, a3, a4, a5, _, a7⟩ := hwf
    exact ⟨a1, a2, a3, a4, a5, rfl, by rw [ll2, a7, ← lt2]; rfl⟩
  · show InB 1 0 (st.size - 1) t2.length
    rw [lt2]; exact hb

theorem LazyRep_congr {k : lazy_fn} {st : segment_tree_t} {M M2 : Nat → Int}
    (h : LazyRep k st M) (hM : ∀ i, i < st.size → M2 i = M i) : LazyRep k st M2 := by
  obtain ⟨lz, hwf, hs, hb, hinv⟩ := h
  exact ⟨lz, hwf, hs, hb,
    LazyInv_frame hinv (fun _ _ => rfl) (fun _ _ => rfl) (fun i _ hi => hM i (by omega))⟩

/-! ## Sequences of calls against the naive model -/

theorem length_model_update (k : lazy_fn) (l r : Nat) (v : Int) :
    ∀ (M : List Int) (i : Nat), (model_update k l r v i M).length = M.length := by
  intro M
  induction M with
  | nil => intro i; rfl
  | cons x xs ih => intro i; simp only [model_update, List.length_cons, ih]

theorem rd_cons_succ (x : Int) (xs : List Int) (j : Nat) : rd (x :: xs) (j + 1) = rd xs j := by
  simp [rd]

theorem rd_cons_zero (x : Int) (xs : List Int) : rd (x :: xs) 0 = x := by
  simp [rd]

theorem rd_model_update (k : lazy_fn) (l r : Nat) (v : Int) :
    ∀ (M : List Int) (i j : Nat), j < M.length →
      rd (model_update k l r v i M) j =
        if l ≤ i + j ∧ i + j ≤ r then elem_update k v (rd M j) else rd M j := by
  intro M
  induction M with
  | nil => intro i j h; simp at h
  | cons x xs ih =>
    intro i j h
    cases j with
    | zero => simp only [model_update, rd_cons_zero, Nat.add_zero]
    | succ j =>
      simp only [model_update, rd_cons_succ]
      rw [ih (i + 1) j (by simpa using h)]
      have : i + 1 + j = i + (j + 1) := by omega
      rw [this]

theorem stored_model_update (k : lazy_fn) (l r : Nat) (v : Int)
    (hv : k = lazy_fn.sum ∨ v ≠ lz_identity k) (M : List Int) (j : Nat) (hj : j < M.length) :
    stored_model k (model_update k l r v 0 M) j = range_model k l r v (stored_model k M) j := by
  unfold range_model
  cases k
  · simp only [stored_model, tag_apply, elem_update]
    rw [rd_model_update _ _ _ _ _ _ _ hj, Nat.zero_add]
    split
    · simp only [elem_update]
      rw [mul_one, wrap32_add_left, wrap32_add_right]
    · rfl
  · have hv2 : ¬ v = SEGTREE_INF := by
      rcases hv with h | h
      · exact absurd h (by decide)
      · exact h
    simp only [stored_model, tag_apply]
    rw [rd_model_update _ _ _ _ _ _ _ hj, Nat.zero_add, if_neg hv2]
    rfl
  · have hv2 : ¬ v = SEGTREE_NEG_INF := by
      rcases hv with h | h
      · exact absurd h (by decide)
      · exact h
    simp only [stored_model, tag_apply]
    rw [rd_model_update _ _ _ _ _ _ _ hj, Nat.zero_add, if_neg hv2]
    rfl

theorem stored_model_update_int32 (k : lazy_fn) (l r : Nat) (v : Int) (hv : is_int32 v)
    (M : List Int) (hM : ∀ j, j < M.length → is_int32 (stored_model k M j)) (j : Nat)
    (hj : j < M.length) : is_int32 (stored_model k (model_update k l r v 0 M) j) := by
  cases k
  · exact wrap32_is_int32 _
  · show is_int32 (rd _ j)
    rw [rd_model_update _ _ _ _ _ _ _ hj]
    split
    · exact hv
    · exact hM j hj
  · show is_int32 (rd _ j)
    rw [rd_model_update _ _ _ _ _ _ _ hj]
    split
    · exact hv
    · exact hM j hj

theorem run_calls_lazy (k : lazy_fn) :
    ∀ (cs : List lazy_call) (st : segment_tree_t) (M : List Int),
      LazyRep k st (stored_model k M) → M.length = st.size →
      (∀ j, j < M.length → is_int32 (stored_model k M j)) →
      (∀ c ∈ cs, valid_call k st.size c) →
      ∃ st2 : segment_tree_t, run_calls (some st) cs = some st2 ∧
        LazyRep k st2 (stored_model k (naive_model k M cs)) ∧ st2.size = st.size ∧
        (naive_model k M cs).length = M.length ∧
        (∀ j, j < M.length → is_int32 (stored_model k (naive_model k M cs) j)) := by
  intro cs
  induction cs with
  | nil => intro st M h1 h2 h3 _; exact ⟨st, rfl, h1, rfl, rfl, h3⟩
  | cons c cs ih =>
    intro st M h1 h2 h3 h4
    have hc := h4 c (List.mem_cons_self _ _)
    have hcs : ∀ c2 ∈ cs, valid_call k st.size c2 :=
      fun c2 h => h4 c2 (List.mem_cons_of_mem _ h)
    cases c with
    | query l r =>
      obtain ⟨a1, a2, a3⟩ := hc
      obtain ⟨st1, e1, r1, s1⟩ :=
        segtree_query_lazy h1 (fun i hi => h3 i (by omega)) l r 0 a1 a2 a3
      obtain ⟨st2, e2, r2, s2, l2, i2⟩ := ih st1 M r1 (by rw [s1]; exact h2) h3
        (by rw [s1]; exact hcs)
      refine ⟨st2, ?_, r2, by rw [s2, s1], l2, i2⟩
      show run_calls (run_call (some st) (lazy_call.query l r)) cs = _
      simp only [run_call, e1]
      exact e2
    | update_range l r v =>
      obtain ⟨a1, a2, a3, a4, a5⟩ := hc
      obtain ⟨st1, e1, r1, s1⟩ := segtree_update_range_lazy h1 l r v a1 a2 a3
        (fun hk => a5.elim (fun h => absurd h hk) id)
      have hlen := length_model_update k l.toNat r.toNat v M 0
      have r1b : LazyRep k st1 (stored_model k (model_update k l.toNat r.toNat v 0 M)) :=
        LazyRep_congr r1 (fun i hi =>
          stored_model_update k l.toNat r.toNat v a5 M i (by rw [s1] at hi; omega))
      obtain ⟨st2, e2, r2, s2, l2, i2⟩ := ih st1 (model_update k l.toNat r.toNat v 0 M) r1b
        (by rw [hlen, s1]; exact h2)
        (fun j hj => stored_model_update_int32 k _ _ v a4 M h3 j (by rw [hlen] at hj; exact hj))
        (by rw [s1]; exact hcs)
      refine ⟨st2, ?_, r2, by rw [s2, s1], by rw [← hlen]; exact l2,
        fun j hj => i2 j (by rw [hlen]; exact hj)⟩
      show run_calls (run_call (some st) (lazy_call.update_range l r v)) cs = _
      simp only [run_call, e1]
      exact e2

theorem lazy_query_after_calls (S : List Int) (n : Int) (op : segtree_operation_t)
    (cs : List lazy_call) (hn : n = S.length) (hn1 : 1 ≤ n) (hn2 : n ≤ SEGTREE_MAX_SIZE)
    (hS : ∀ x ∈ S, is_int32 x) (hcs : ∀ c ∈ cs, valid_call (op_rule op) n c)
    (a b old : Int) (ha : 0 ≤ a) (hab : a ≤ b) (hb : b < n) :
    ∃ st2 : segment_tree_t,
      segtree_query (run_calls (segtree_create_lazy (some S) n op) cs) a b (some old) =
        (SEGTREE_OK, some st2,
         some (fold_range (lz_combine (op_rule op)) (lz_identity (op_rule op))
           (stored_model (op_rule op) (naive_model (op_rule op) S cs)) a.toNat
           (b.toNat + 1 - a.toNat))) ∧
      (naive_model (op_rule op) S cs).length = S.length ∧
      (∀ j, j < S.length →
        is_int32 (stored_model (op_rule op) (naive_model (op_rule op) S cs) j)) := by
  obtain ⟨st, e0, r0, s0⟩ := segtree_create_lazy_rep S n op hn1 hn2 hS
  have hi0 : ∀ j, j < S.length → is_int32 (stored_model (op_rule op) S j) := by
    intro j _
    cases op
    · exact wrap32_is_int32 _
    · exact rd_int32_of_mem hS j
    · exact rd_int32_of_mem hS j
    · exact wrap32_is_int32 _
  have r0b : LazyRep (op_rule op) st (stored_model (op_rule op) S) := by
    refine LazyRep_congr r0 ?_
    intro i _
    cases op
    · exact wrap32_of_is_int32 (rd_int32_of_mem hS i)
    · rfl
    · rfl
    · exact wrap32_of_is_int32 (rd_int32_of_mem hS i)
  have hsz : (st.size : Int) = n := by rw [s0]; omega
  obtain ⟨st1, e1, r1, s1, l1, i1⟩ := run_calls_lazy (op_rule op) cs st S r0b
    (by rw [s0]; omega) hi0 (by rw [hsz]; exact hcs)
  obtain ⟨st2, e2, _, _⟩ := segtree_query_lazy r1
    (fun i hi => i1 i (by rw [s1, s0] at hi; omega)) a b old ha hab (by rw [s1, hsz]; exact hb)
  rw [e0, e1, e2]
  exact ⟨st2, rfl, l1, i1⟩

theorem fold_range_sum_wrap (A : Nat → Int) (s : Nat) :
    ∀ len : Nat, fold_range combine_sum 0 (fun i => wrap32 (A i)) s len =
      wrap32 (fold_range (fun x y => x + y) 0 A s len) := by
  intro len
  induction len with
  | zero => rfl
  | succ len ih =>
    simp only [fold_range]
    rw [ih]
    unfold combine_sum
    rw [wrap32_add_left, wrap32_add_right]

theorem slice_single (M : List Int) (i : Nat) (h : i < M.length) : slice M i i = [rd M i] := by
  unfold slice
  have : i + 1 - i = 1 := by omega
  rw [this, List.drop_eq_getElem_cons h, List.take_succ_cons, List.take_zero]
  unfold rd
  rw [List.getD_eq_getElem?_getD, List.getElem?_eq_getElem h, Option.getD_some]

theorem naive_model_append (k : lazy_fn) (S : List Int) (cs : List lazy_call) (c : lazy_call) :
    naive_model k S (cs ++ [c]) = naive_step k (naive_model k S cs) c := by
  simp [naive_model, List.foldl_append]

theorem lazy_point_query (S : List Int) (n : Int) (op : segtree_operation_t)
    (cs : List lazy_call) (hn : n = S.length) (hn1 : 1 ≤ n) (hn2 : n ≤ SEGTREE_MAX_SIZE)
    (hS : ∀ x ∈ S, is_int32 x) (hcs : ∀ c ∈ cs, valid_call (op_rule op) n c)
    (i old : Int) (hi0 : 0 ≤ i) (hi1 : i < n) :
    (segtree_query (run_calls (segtree_create_lazy (some S) n op) cs) i i (some old)).2.2 =
      some (stored_model (op_rule op) (naive_model (op_rule op) S cs) i.toNat) := by
  obtain ⟨st2, e, _, hi⟩ :=
    lazy_query_after_calls S n op cs hn hn1 hn2 hS hcs i i old hi0 (le_refl _) hi1
  rw [e]
  have e1 : i.toNat + 1 - i.toNat = 1 := by omega
  simp only [e1]
  rw [fold_range_one (isMonoid32_lz _) _ _ (hi _ (by omega))]

/-- C3: a lazy SUM tree built by `segtree_create_lazy` refines the naive model array. After
any finite sequence of valid `segtree_query` / `segtree_update_range` calls, every valid
query `(a, b)` returns `SEGTREE_OK` and the sum over `[a, b]` of the array obtained from
`S` by adding `delta` on `[l, r]` for each `update_range (l, r, delta)` in order, reduced
to 32 bits, hence that sum itself whenever it fits in 32 bits. One more
`update_range (l, r, delta)` raises the single-element query at each `i` in `[l, r]` by
`delta` (in 32-bit arithmetic) and leaves it unchanged at each `i` outside. -/
theorem lazy_sum_refines_naive_model (S : List Int) (n : Int) (cs : List lazy_call)
    (hn : n = S.length) (hn1 : 1 ≤ n) (hn2 : n ≤ SEGTREE_MAX_SIZE)
    (hS : ∀ x ∈ S, is_int32 x) (hcs : ∀ c ∈ cs, valid_call lazy_fn.sum n c)
    (a b old : Int) (ha : 0 ≤ a) (hab : a ≤ b) (hb : b < n) :
    (segtree_query (run_calls (segtree_create_lazy (some S) n SEGTREE_SUM) cs) a b
      (some old)).1 = SEGTREE_OK ∧
    (segtree_query (run_calls (segtree_create_lazy (some S) n SEGTREE_SUM) cs) a b
      (some old)).2.2 =
      some (wrap32 (op_fold SEGTREE_SUM (slice (naive_model lazy_fn.sum S cs) a.toNat b.toNat))) ∧
    (is_int32 (op_fold SEGTREE_SUM (slice (naive_model lazy_fn.sum S cs) a.toNat b.toNat)) →
      (segtree_query (run_calls (segtree_create_lazy (some S) n SEGTREE_SUM) cs) a b
        (some old)).2.2 =
        some (op_fold SEGTREE_SUM (slice (naive_model lazy_fn.sum S cs) a.toNat b.toNat))) ∧
    (∀ l r delta i : Int, valid_call lazy_fn.sum n (lazy_call.update_range l r delta) →
      0 ≤ i → i < n →
      ∃ q : Int,
        (segtree_query (run_calls (segtree_create_lazy (some S) n SEGTREE_SUM) cs) i i
          (some old)).2.2 = some q ∧
        (segtree_query (run_calls (segtree_create_lazy (some S) n SEGTREE_SUM)
          (cs ++ [lazy_call.update_range l r delta])) i i (some old)).2.2 =
          some (if l ≤ i ∧ i ≤ r then wrap32 (q + delta) else q)) := by
  obtain ⟨st2, e, hl, _⟩ :=
    lazy_query_after_calls S n SEGTREE_SUM cs hn hn1 hn2 hS hcs a b old ha hab hb
  have hv : fold_range (lz_combine (op_rule SEGTREE_SUM)) (lz_identity (op_rule SEGTREE_SUM))
      (stored_model (op_rule SEGTREE_SUM) (naive_model (op_rule SEGTREE_SUM) S cs)) a.toNat
      (b.toNat + 1 - a.toNat) =
      wrap32 (op_fold SEGTREE_SUM (slice (naive_model lazy_fn.sum S cs) a.toNat b.toNat)) := by
    show fold_range combine_sum 0 (fun i => wrap32 (rd (naive_model lazy_fn.sum S cs) i)) _ _ = _
    rw [fold_range_sum_wrap]
    show _ = wrap32 (List.foldl (fun x y => x + y) 0 _)
    rw [fold_slice_eq _ _ _ _ _ (by omega) (by
      have : (naive_model lazy_fn.sum S cs).length = S.length := hl
      omega)]
  rw [hv] at e
  refine ⟨by rw [e], by rw [e], ?_, ?_⟩
  · intro h
    rw [e, wrap32_of_is_int32 h]
  · intro l r delta i hc hi0 hi1
    refine ⟨_, lazy_point_query S n SEGTREE_SUM cs hn hn1 hn2 hS hcs i old hi0 hi1, ?_⟩
    have hcs2 : ∀ c ∈ cs ++ [lazy_call.update_range l r delta],
        valid_call (op_rule SEGTREE_SUM) n c := by
      intro c hc2
      rcases List.mem_append.1 hc2 with h | h
      · exact hcs c h
      · rw [List.mem_singleton.1 h]; exact hc
    rw [lazy_point_query S n SEGTREE_SUM _ hn hn1 hn2 hS hcs2 i old hi0 hi1]
    obtain ⟨c1, c2, c3, _, _⟩ := hc
    have hl2 : (naive_model lazy_fn.sum S cs).length = S.length := hl
    show some (wrap32 (rd (naive_model lazy_fn.sum S (cs ++ [lazy_call.update_range l r delta]))
      i.toNat)) = some (if l ≤ i ∧ i ≤ r then
        wrap32 (wrap32 (rd (naive_model lazy_fn.sum S cs) i.toNat) + delta)
        else wrap32 (rd (naive_model lazy_fn.sum S cs) i.toNat))
    rw [naive_model_append]
    simp only [naive_step]
    rw [rd_model_update _ _ _ _ _ _ _ (by omega), Nat.zero_add]
    by_cases hin : l ≤ i ∧ i ≤ r
    · rw [if_pos hin, if_pos (by omega)]
      simp only [elem_update]
      rw [wrap32_add_left]
    · rw [if_neg hin, if_neg (by omega)]

theorem lazy_sum_refines_naive_model_witness :
    (segtree_query (run_calls (segtree_create_lazy (some [1, 2, 3, 4, 5, 6]) 6 SEGTREE_SUM)
      [lazy_call.update_range 1 3 5, lazy_call.query 0 5, lazy_call.update_range 2 4 (-1)])
      1 3 (some 0)).1 = SEGTREE_OK ∧
    (segtree_query (run_calls (segtree_create_lazy (some [1, 2, 3, 4, 5, 6]) 6 SEGTREE_SUM)
      [lazy_call.update_range 1 3 5, lazy_call.query 0 5, lazy_call.update_range 2 4 (-1)])
      1 3 (some 0)).2.2 =
      some (op_fold SEGTREE_SUM (slice (naive_model lazy_fn.sum [1, 2, 3, 4, 5, 6]
        [lazy_call.update_range 1 3 5, lazy_call.query 0 5, lazy_call.update_range 2 4 (-1)])
        (1 : Int).toNat (3 : Int).toNat)) :=
  ⟨(lazy_sum_refines_naive_model [1, 2, 3, 4, 5, 6] 6
    [lazy_call.update_range 1 3 5, lazy_call.query 0 5, lazy_call.update_range 2 4 (-1)]
    (by decide) (by decide) (by decide) (by decide) (by decide) 1 3 0 (by decide)
    (by decide) (by decide)).1,
   (lazy_sum_refines_naive_model [1, 2, 3, 4, 5, 6] 6
    [lazy_call.update_range 1 3 5, lazy_call.query 0 5, lazy_call.update_range 2 4 (-1)]
    (by decide) (by decide) (by decide) (by decide) (by decide) 1 3 0 (by decide)
    (by decide) (by decide)).2.2.1 (by decide)⟩

/-- C4: on a lazy MIN (resp. MAX) tree built by `segtree_create_lazy`, range updates whose
values differ from the sentinel `INT_MAX` (resp. `INT_MIN`) are range assignments. After
any finite sequence of valid `segtree_query` / `segtree_update_range` calls, every valid
query `(a, b)` returns `SEGTREE_OK` and the minimum (resp. maximum) over `[a, b]` of the
model array in which each assignment overwrites the earlier contents of its range. One
more `update_range (l, r, v)` makes the single-element query read `v` at each `i` in
`[l, r]`, whatever was there before, and leaves it unchanged at each `i` outside. -/
theorem lazy_min_max_range_assignment (S : List Int) (n : Int) (op : segtree_operation_t)
    (cs : List lazy_call) (hop : op = SEGTREE_MIN ∨ op = SEGTREE_MAX) (hn : n = S.length)
    (hn1 : 1 ≤ n) (hn2 : n ≤ SEGTREE_MAX_SIZE) (hS : ∀ x ∈ S, is_int32 x)
    (hcs : ∀ c ∈ cs, valid_call (op_rule op) n c) (a b old : Int) (ha : 0 ≤ a)
    (hab : a ≤ b) (hb : b < n) :
    (segtree_query (run_calls (segtree_create_lazy (some S) n op) cs) a b (some old)).1 =
      SEGTREE_OK ∧
    (segtree_query (run_calls (segtree_create_lazy (some S) n op) cs) a b (some old)).2.2 =
      some (op_fold op (slice (naive_model (op_rule op) S cs) a.toNat b.toNat)) ∧
    (∀ l r v i : Int, valid_call (op_rule op) n (lazy_call.update_range l r v) →
      0 ≤ i → i < n →
      (l ≤ i ∧ i ≤ r →
        (segtree_query (run_calls (segtree_create_lazy (some S) n op)
          (cs ++ [lazy_call.update_range l r v])) i i (some old)).2.2 = some v) ∧
      (¬ (l ≤ i ∧ i ≤ r) →
        (segtree_query (run_calls (segtree_create_lazy (some S) n op)
          (cs ++ [lazy_call.update_range l r v])) i i (some old)).2.2 =
        (segtree_query (run_calls (segtree_create_lazy (some S) n op) cs) i i
          (some old)).2.2)) := by
  obtain ⟨st2, e, hl, _⟩ :=
    lazy_query_after_calls S n op cs hn hn1 hn2 hS hcs a b old ha hab hb
  have hsm : ∀ M : List Int, stored_model (op_rule op) M = rd M := by
    intro M
    rcases hop with h | h <;> subst h <;> rfl
  have hv : fold_range (lz_combine (op_rule op)) (lz_identity (op_rule op))
      (stored_model (op_rule op) (naive_model (op_rule op) S cs)) a.toNat
      (b.toNat + 1 - a.toNat) =
      op_fold op (slice (naive_model (op_rule op) S cs) a.toNat b.toNat) := by
    rw [hsm, ← fold_slice_eq _ _ _ _ _ (by omega) (by omega)]
    rcases hop with h | h <;> subst h
    · show List.foldl combine_min SEGTREE_INF _ = _
      rw [combine_min_eq]; rfl
    · show List.foldl combine_max SEGTREE_NEG_INF _ = _
      rw [combine_max_eq]; rfl
  rw [hv] at e
  refine ⟨by rw [e], by rw [e], ?_⟩
  intro l r v i hc hi0 hi1
  have hcs2 : ∀ c ∈ cs ++ [lazy_call.update_range l r v], valid_call (op_rule op) n c := by
    intro c hc2
    rcases List.mem_append.1 hc2 with h | h
    · exact hcs c h
    · rw [List.mem_singleton.1 h]; exact hc
  rw [lazy_point_query S n op _ hn hn1 hn2 hS hcs2 i old hi0 hi1,
    lazy_point_query S n op cs hn hn1 hn2 hS hcs i old hi0 hi1, hsm, hsm,
    naive_model_append]
  obtain ⟨c1, c2, c3, _, _⟩ := hc
  simp only [naive_step]
  rw [rd_model_update _ _ _ _ _ _ _ (by omega), Nat.zero_add]
  constructor
  · intro hin
    rw [if_pos (by omega)]
    rcases hop with h | h <;> subst h <;> rfl
  · intro hin
    rw [if_neg (by omega)]

theorem lazy_min_max_range_assignment_witness :
    (segtree_query (run_calls (segtree_create_lazy (some [8, 3, 12, 1, 6, 9]) 6 SEGTREE_MIN)
      [lazy_call.update_range 1 4 7, lazy_call.query 0 5, lazy_call.update_range 2 3 2])
      0 5 (some 0)).1 = SEGTREE_OK ∧
    (segtree_query (run_calls (segtree_create_lazy (some [8, 3, 12, 1, 6, 9]) 6 SEGTREE_MIN)
      [lazy_call.update_range 1 4 7, lazy_call.query 0 5, lazy_call.update_range 2 3 2])
      0 5 (some 0)).2.2 =
      some (op_fold SEGTREE_MIN (slice (naive_model (op_rule SEGTREE_MIN) [8, 3, 12, 1, 6, 9]
        [lazy_call.update_range 1 4 7, lazy_call.query 0 5, lazy_call.update_range 2 3 2])
        (0 : Int).toNat (5 : Int).toNat)) :=
  ⟨(lazy_min_max_range_assignment [8, 3, 12, 1, 6, 9] 6 SEGTREE_MIN
    [lazy_call.update_range 1 4 7, lazy_call.query 0 5, lazy_call.update_range 2 3 2]
    (by decide) (by decide) (by decide) (by decide) (by decide) (by decide) 0 5 0 (by decide)
    (by decide) (by decide)).1,
   (lazy_min_max_range_assignment [8, 3, 12, 1, 6, 9] 6 SEGTREE_MIN
    [lazy_call.update_range 1 4 7, lazy_call.query 0 5, lazy_call.update_range 2 3 2]
    (by decide) (by decide) (by decide) (by decide) (by decide) (by decide) 0 5 0 (by decide)
    (by decide) (by decide)).2.1⟩

/-! ## Construction contract -/

theorem setup_operations_cfg (st : segment_tree_t) (op : segtree_operation_t) :
    (setup_operations st op).tree = st.tree ∧ (setup_operations st op).lazy = st.lazy ∧
    (setup_operations st op).size = st.size ∧
    (setup_operations st op).tree_size = st.tree_size ∧
    (setup_operations st op).op_type = st.op_type ∧
    (setup_operations st op).lazy_enabled = st.lazy_enabled ∧
    (setup_operations st op).stats = st.stats := by
  cases op <;> exact ⟨rfl, rfl, rfl, rfl, rfl, rfl, rfl⟩

theorem segtree_create_some (S : List Int) (n : Int) (op : segtree_operation_t)
    (h : ¬ (n ≤ 0 ∨ n > SEGTREE_MAX_SIZE)) :
    ∃ t : List Int, segtree_create (some S) n op =
      some { setup_operations (fresh_tree n op) op with tree := t } := by
  unfold segtree_create
  simp only
  rw [if_neg h]
  obtain ⟨t, e⟩ := build_tree_cfg S (setup_operations (fresh_tree n op) op).size
    (setup_operations (fresh_tree n op) op) 1 0
    ((setup_operations (fresh_tree n op) op).size - 1)
  exact ⟨t, by rw [e]⟩

theorem segtree_create_custom_some (S : List Int) (n : Int) (f : Int → Int → Int)
    (identity : Int) (h : ¬ (n ≤ 0 ∨ n > SEGTREE_MAX_SIZE)) :
    ∃ t : List Int, segtree_create_custom (some S) n (some f) identity =
      some { fresh_tree n SEGTREE_CUSTOM with
        combine := f, update_lazy := none, propagate := none, identity := identity,
        tree := t } := by
  unfold segtree_create_custom
  simp only
  rw [if_neg h]
  obtain ⟨t, e⟩ := build_tree_cfg S (fresh_tree n SEGTREE_CUSTOM).size
    { fresh_tree n SEGTREE_CUSTOM with
      combine := f, update_lazy := none, propagate := none, identity := identity }
    1 0 ((fresh_tree n SEGTREE_CUSTOM).size - 1)
  exact ⟨t, by rw [e]⟩

/-- C15: with a non-null array (allocation is assumed to succeed), `segtree_create` and
`segtree_create_lazy` return `NULL` exactly when `n <= 0` or `n > SEGTREE_MAX_SIZE`
(`1000000`), and `segtree_create_custom` returns `NULL` exactly when `n <= 0`,
`n > SEGTREE_MAX_SIZE` or the combine function is `NULL`; `n == 1` and
`n == SEGTREE_MAX_SIZE` are accepted by all three. -/
theorem create_null_iff (S : List Int) (n : Int) (op : segtree_operation_t)
    (f : Option (Int → Int → Int)) (g : Int → Int → Int) (identity : Int) :
    (segtree_create (some S) n op = none ↔ (n ≤ 0 ∨ n > SEGTREE_MAX_SIZE)) ∧
    (segtree_create_lazy (some S) n op = none ↔ (n ≤ 0 ∨ n > SEGTREE_MAX_SIZE)) ∧
    (segtree_create_custom (some S) n f identity = none ↔
      (n ≤ 0 ∨ n > SEGTREE_MAX_SIZE ∨ f = none)) ∧
    SEGTREE_MAX_SIZE = 1000000 ∧
    segtree_create (some S) 1 op ≠ none ∧
    segtree_create (some S) SEGTREE_MAX_SIZE op ≠ none ∧
    segtree_create_lazy (some S) 1 op ≠ none ∧
    segtree_create_lazy (some S) SEGTREE_MAX_SIZE op ≠ none ∧
    segtree_create_custom (some S) 1 (some g) identity ≠ none ∧
    segtree_create_custom (some S) SEGTREE_MAX_SIZE (some g) identity ≠ none := by
  have hc : ∀ m : Int, segtree_create (some S) m op = none ↔
      (m ≤ 0 ∨ m > SEGTREE_MAX_SIZE) := by
    intro m
    by_cases h : m ≤ 0 ∨ m > SEGTREE_MAX_SIZE
    · simp only [h, iff_true]
      unfold segtree_create
      simp only
      rw [if_pos h]
    · obtain ⟨t, e⟩ := segtree_create_some S m op h
      simp only [h, iff_false, e]
      exact fun c => Option.noConfusion c
  have hl : ∀ m : Int, segtree_create_lazy (some S) m op = none ↔
      (m ≤ 0 ∨ m > SEGTREE_MAX_SIZE) := by
    intro m
    unfold segtree_create_lazy
    by_cases h : m ≤ 0 ∨ m > SEGTREE_MAX_SIZE
    · rw [(hc m).2 h]
      simp only [h]
    · obtain ⟨t, e⟩ := segtree_create_some S m op h
      rw [e]
      simp only [h, iff_false]
      exact fun c => Option.noConfusion c
  have hk : ∀ (m : Int) (f2 : Option (Int → Int → Int)),
      segtree_create_custom (some S) m f2 identity = none ↔
        (m ≤ 0 ∨ m > SEGTREE_MAX_SIZE ∨ f2 = none) := by
    intro m f2
    cases f2 with
    | none => simp [segtree_create_custom]
    | some f3 =>
      by_cases h : m ≤ 0 ∨ m > SEGTREE_MAX_SIZE
      · have h2 : m ≤ 0 ∨ m > SEGTREE_MAX_SIZE ∨ some f3 = none := by
          rcases h with h | h
          · exact Or.inl h
          · exact Or.inr (Or.inl h)
        simp only [h2, iff_true]
        unfold segtree_create_custom
        simp only
        rw [if_pos h]
      · obtain ⟨t, e⟩ := segtree_create_custom_some S m f3 identity h
        rw [e]
        constructor
        · exact fun c => Option.noConfusion c
        · intro c
          rcases c with c | c | c
          · exact absurd (Or.inl c) h
          · exact absurd (Or.inr c) h
          · exact Option.noConfusion c
  have b1 : ¬ ((1 : Int) ≤ 0 ∨ (1 : Int) > SEGTREE_MAX_SIZE) := by decide
  have b2 : ¬ (SEGTREE_MAX_SIZE ≤ 0 ∨ SEGTREE_MAX_SIZE > SEGTREE_MAX_SIZE) := by decide
  refine ⟨hc n, hl n, hk n f, rfl, ?_, ?_, ?_, ?_, ?_, ?_⟩
  · exact fun c => b1 ((hc 1).1 c)
  · exact fun c => b2 ((hc _).1 c)
  · exact fun c => b1 ((hl 1).1 c)
  · exact fun c => b2 ((hl _).1 c)
  · intro c
    rcases (hk 1 (some g)).1 c with c | c | c
    · exact b1 (Or.inl c)
    · exact b1 (Or.inr c)
    · exact Option.noConfusion c
  · intro c
    rcases (hk _ (some g)).1 c with c | c | c
    · exact b2 (Or.inl c)
    · exact b2 (Or.inr c)
    · exact Option.noConfusion c

/-- C14: for `1 <= n <= SEGTREE_MAX_SIZE`, `segtree_create` returns a tree with `size == n`,
`op_type == op`, `lazy_enabled == false`, no lazy buffer, identity `0` / `INT_MAX` /
`INT_MIN` for SUM / MIN / MAX and zeroed statistics counters; `segtree_create_lazy` returns
the same tree except for `lazy_enabled == true` and a lazy buffer of `tree_size` slots,
every one of which holds the identity. -/
theorem create_fields (S : List Int) (n : Int) (op : segtree_operation_t) (h1 : 1 ≤ n)
    (h2 : n ≤ SEGTREE_MAX_SIZE) :
    ∃ st : segment_tree_t, segtree_create (some S) n op = some st ∧
      (st.size : Int) = n ∧ st.op_type = op ∧ st.lazy_enabled = false ∧ st.lazy = none ∧
      (op = SEGTREE_SUM → st.identity = 0) ∧
      (op = SEGTREE_MIN → st.identity = 2147483647) ∧
      (op = SEGTREE_MAX → st.identity = -2147483648) ∧
      st.stats = { query_count := 0, update_count := 0 } ∧
      ∃ lz : List Int,
        segtree_create_lazy (some S) n op =
          some { st with lazy_enabled := true, lazy := some lz } ∧
        lz.length = st.tree_size ∧ ∀ i, i < st.tree_size → rd lz i = st.identity := by
  obtain ⟨t, e⟩ := segtree_create_some S n op (by omega)
  refine ⟨_, e, ?_, ?_, ?_, ?_, ?_, ?_, ?_, ?_, ?_⟩
  · show (((setup_operations (fresh_tree n op) op).size : Nat) : Int) = n
    rw [(setup_operations_cfg _ op).2.2.1]
    show ((n.toNat : Nat) : Int) = n
    omega
  · show (setup_operations (fresh_tree n op) op).op_type = op
    rw [(setup_operations_cfg _ op).2.2.2.2.1]; rfl
  · show (setup_operations (fresh_tree n op) op).lazy_enabled = false
    rw [(setup_operations_cfg _ op).2.2.2.2.2.1]; rfl
  · show (setup_operations (fresh_tree n op) op).lazy = none
    rw [(setup_operations_cfg _ op).2.1]; rfl
  · intro h; subst h; rfl
  · intro h; subst h; rfl
  · intro h; subst h; rfl
  · show (setup_operations (fresh_tree n op) op).stats = _
    rw [(setup_operations_cfg _ op).2.2.2.2.2.2]; rfl
  · unfold segtree_create_lazy
    rw [e]
    refine ⟨_, rfl, ?_, ?_⟩
    · rw [length_fill, List.length_replicate]
    · intro i hi
      rw [rd_fill _ _ _ _ (by rw [List.length_replicate]), if_pos hi]

theorem create_fields_witness :
    ∃ st : segment_tree_t, segtree_create (some [1, 2, 3, 4, 5]) 5 SEGTREE_MIN = some st ∧
      (st.size : Int) = 5 ∧ st.op_type = SEGTREE_MIN ∧ st.lazy_enabled = false ∧
      st.lazy = none ∧
      (SEGTREE_MIN = SEGTREE_SUM → st.identity = 0) ∧
      (SEGTREE_MIN = SEGTREE_MIN → st.identity = 2147483647) ∧
      (SEGTREE_MIN = SEGTREE_MAX → st.identity = -2147483648) ∧
      st.stats = { query_count := 0, update_count := 0 } ∧
      ∃ lz : List Int,
        segtree_create_lazy (some [1, 2, 3, 4, 5]) 5 SEGTREE_MIN =
          some { st with lazy_enabled := true, lazy := some lz } ∧
        lz.length = st.tree_size ∧ ∀ i, i < st.tree_size → rd lz i = st.identity :=
  create_fields [1, 2, 3, 4, 5] 5 SEGTREE_MIN (by decide) (by decide)

/-! ## Error paths and frame of rebuild -/

/-- C16: whenever `segtree_query`, `segtree_update_point`, `segtree_update_range` or
`segtree_rebuild` returns `SEGTREE_ERROR_NULL_POINTER`, `SEGTREE_ERROR_INVALID_RANGE` or
`SEGTREE_ERROR_INVALID_OPERATION`, the tree after the call is the tree before the call
(size, tree_size, both buffers, operation configuration and statistics counters), and a
failing query leaves its result slot untouched. -/
theorem error_leaves_state (st : Option segment_tree_t) (result : Option Int)
    (left right index value : Int) (new_arr : Option (List Int)) (new_size : Int) :
    (((segtree_query st left right result).1 = SEGTREE_ERROR_NULL_POINTER ∨
      (segtree_query st left right result).1 = SEGTREE_ERROR_INVALID_RANGE ∨
      (segtree_query st left right result).1 = SEGTREE_ERROR_INVALID_OPERATION) →
      (segtree_query st left right result).2 = (st, result)) ∧
    (((segtree_update_point st index value).1 = SEGTREE_ERROR_NULL_POINTER ∨
      (segtree_update_point st index value).1 = SEGTREE_ERROR_INVALID_RANGE ∨
      (segtree_update_point st index value).1 = SEGTREE_ERROR_INVALID_OPERATION) →
      (segtree_update_point st index value).2 = st) ∧
    (((segtree_update_range st left right value).1 = SEGTREE_ERROR_NULL_POINTER ∨
      (segtree_update_range st left right value).1 = SEGTREE_ERROR_INVALID_RANGE ∨
      (segtree_update_range st left right value).1 = SEGTREE_ERROR_INVALID_OPERATION) →
      (segtree_update_range st left right value).2 = st) ∧
    (((segtree_rebuild st new_arr new_size).1 = SEGTREE_ERROR_NULL_POINTER ∨
      (segtree_rebuild st new_arr new_size).1 = SEGTREE_ERROR_INVALID_RANGE ∨
      (segtree_rebuild st new_arr new_size).1 = SEGTREE_ERROR_INVALID_OPERATION) →
      (segtree_rebuild st new_arr new_size).2 = st) := by
  refine ⟨?_, ?_, ?_, ?_⟩
  · unfold segtree_query
    cases st with
    | none => intro _; rfl
    | some s =>
      cases result with
      | none => intro _; rfl
      | some old =>
        simp only
        split
        · intro _; rfl
        · intro h; simp at h
  · unfold segtree_update_point
    cases st with
    | none => intro _; rfl
    | some s =>
      simp only
      split
      · intro _; rfl
      · intro h; simp at h
  · unfold segtree_update_range
    cases st with
    | none => intro _; rfl
    | some s =>
      simp only
      split
      · intro _; rfl
      · split
        · intro _; rfl
        · intro h; simp at h
  · unfold segtree_rebuild
    cases st with
    | none => intro _; rfl
    | some s =>
      cases new_arr with
      | none => intro _; rfl
      | some a =>
        simp only
        split
        · intro _; rfl
        · intro h; simp at h

theorem error_leaves_state_witness :
    (segtree_query (some lazy_sum_123) 2 1 (some 7)).2 = (some lazy_sum_123, some 7) ∧
    (segtree_update_point (some lazy_sum_123) 3 10).2 = some lazy_sum_123 ∧
    (segtree_update_range (some plain_sum_123) 0 2 5).2 = some plain_sum_123 ∧
    (segtree_rebuild (some lazy_sum_123) none 3).2 = some lazy_sum_123 :=
  ⟨(error_leaves_state (some lazy_sum_123) (some 7) 2 1 3 10 none 3).1
      (Or.inr (Or.inl (by decide))),
   (error_leaves_state (some lazy_sum_123) (some 7) 2 1 3 10 none 3).2.1
      (Or.inr (Or.inl (by decide))),
   (error_leaves_state (some plain_sum_123) (some 7) 0 2 3 5 none 3).2.2.1
      (Or.inr (Or.inr (by decide))),
   (error_leaves_state (some lazy_sum_123) (some 7) 2 1 3 10 none 3).2.2.2
      (Or.inl (by decide))⟩

theorem build_tree_fields (arr : List Int) (fuel : Nat) (st : segment_tree_t)
    (node s e : Nat) :
    (build_tree fuel st arr node s e).lazy = st.lazy ∧
    (build_tree fuel st arr node s e).size = st.size ∧
    (build_tree fuel st arr node s e).tree_size = st.tree_size ∧
    (build_tree fuel st arr node s e).op_type = st.op_type ∧
    (build_tree fuel st arr node s e).combine = st.combine ∧
    (build_tree fuel st arr node s e).update_lazy = st.update_lazy ∧
    (build_tree fuel st arr node s e).propagate = st.propagate ∧
    (build_tree fuel st arr node s e).identity = st.identity ∧
    (build_tree fuel st arr node s e).lazy_enabled = st.lazy_enabled ∧
    (build_tree fuel st arr node s e).stats = st.stats := by
  obtain ⟨t, h⟩ := build_tree_cfg arr fuel st node s e
  rw [h]
  exact ⟨rfl, rfl, rfl, rfl, rfl, rfl, rfl, rfl, rfl, rfl⟩

/-- C18: a successful `segtree_rebuild` (non-null tree and array,
`1 <= new_size <= SEGTREE_MAX_SIZE`) returns `SEGTREE_OK` and a tree whose `op_type`,
combine function, lazy rules, identity, `lazy_enabled` flag and statistics counters are
those of the tree before the call; its size is `new_size` and its `tree_size` is
`calculate_tree_size (new_size)`. -/
theorem rebuild_frame (st : segment_tree_t) (new_arr : List Int) (new_size : Int)
    (h1 : 1 ≤ new_size) (h2 : new_size ≤ SEGTREE_MAX_SIZE) :
    ∃ st2 : segment_tree_t,
      segtree_rebuild (some st) (some new_arr) new_size = (SEGTREE_OK, some st2) ∧
      st2.op_type = st.op_type ∧ st2.combine = st.combine ∧
      st2.update_lazy = st.update_lazy ∧ st2.propagate = st.propagate ∧
      st2.identity = st.identity ∧ st2.lazy_enabled = st.lazy_enabled ∧
      st2.stats = st.stats ∧ (st2.size : Int) = new_size ∧
      st2.tree_size = (calculate_tree_size new_size).toNat := by
  unfold segtree_rebuild
  simp only
  rw [if_neg (by omega)]
  refine ⟨_, rfl, ?_, ?_, ?_, ?_, ?_, ?_, ?_, ?_, ?_⟩
  · rw [(build_tree_fields _ _ _ _ _ _).2.2.2.1]
    split_ifs <;> rfl
  · rw [(build_tree_fields _ _ _ _ _ _).2.2.2.2.1]
    split_ifs <;> rfl
  · rw [(build_tree_fields _ _ _ _ _ _).2.2.2.2.2.1]
    split_ifs <;> rfl
  · rw [(build_tree_fields _ _ _ _ _ _).2.2.2.2.2.2.1]
    split_ifs <;> rfl
  · rw [(build_tree_fields _ _ _ _ _ _).2.2.2.2.2.2.2.1]
    split_ifs <;> rfl
  · rw [(build_tree_fields _ _ _ _ _ _).2.2.2.2.2.2.2.2.1]
    split_ifs <;> rfl
  · rw [(build_tree_fields _ _ _ _ _ _).2.2.2.2.2.2.2.2.2]
    split_ifs <;> rfl
  · rw [(build_tree_fields _ _ _ _ _ _).2.1]
    show ((new_size.toNat : Nat) : Int) = new_size
    omega
  · rw [(build_tree_fields _ _ _ _ _ _).2.2.1]
    split_ifs with ha hb
    · rfl
    · rfl
    · exact (not_not.1 ha).symm

theorem rebuild_frame_witness :
    ∃ st2 : segment_tree_t,
      segtree_rebuild (some lazy_sum_123) (some [4, 5, 6, 7, 8]) 5 = (SEGTREE_OK, some st2) ∧
      st2.op_type = lazy_sum_123.op_type ∧ st2.combine = lazy_sum_123.combine ∧
      st2.update_lazy = lazy_sum_123.update_lazy ∧ st2.propagate = lazy_sum_123.propagate ∧
      st2.identity = lazy_sum_123.identity ∧ st2.lazy_enabled = lazy_sum_123.lazy_enabled ∧
      st2.stats = lazy_sum_123.stats ∧ (st2.size : Int) = 5 ∧
      st2.tree_size = (calculate_tree_size 5).toNat :=
  rebuild_frame lazy_sum_123 [4, 5, 6, 7, 8] 5 (by decide) (by decide)

/-! ## Trees whose operation is CUSTOM -/

theorem segtree_create_inv (arr : Option (List Int)) (n : Int) (op : segtree_operation_t)
    (st : segment_tree_t) (h : segtree_create arr n op = some st) :
    ¬ (n ≤ 0 ∨ n > SEGTREE_MAX_SIZE) ∧
      ∃ t : List Int, st = { setup_operations (fresh_tree n op) op with tree := t } := by
  cases arr with
  | none => exact absurd h (by simp [segtree_create])
  | some S =>
    by_cases hn : n ≤ 0 ∨ n > SEGTREE_MAX_SIZE
    · exact absurd h (by simp [segtree_create, hn])
    · exact ⟨hn, segtree_create_cfg S n op st h⟩

theorem segtree_create_custom_inv (arr : Option (List Int)) (n : Int)
    (f : Option (Int → Int → Int)) (identity : Int) (st : segment_tree_t)
    (h : segtree_create_custom arr n f identity = some st) :
    st.op_type = SEGTREE_CUSTOM ∧ st.lazy_enabled = false := by
  unfold segtree_create_custom at h
  split at h
  · exact absurd h (by simp)
  · exact absurd h (by simp)
  · split at h
    · exact absurd h (by simp)
    · simp only [Option.some.injEq] at h
      rw [← h, (build_tree_fields _ _ _ _ _ _).2.2.2.1,
        (build_tree_fields _ _ _ _ _ _).2.2.2.2.2.2.2.2.1]
      exact ⟨rfl, rfl⟩

/-- C11 as stated fails: `segtree_create_lazy ({1, 2, 3}, SEGTREE_CUSTOM)` returns a tree
whose `op_type` is `SEGTREE_CUSTOM` and whose lazy propagation is enabled, and
`segtree_update_range (0, 2, 5)` on it returns `SEGTREE_OK`, not
`SEGTREE_ERROR_INVALID_OPERATION`. -/
theorem custom_lazy_counterexample :
    (segtree_create_lazy (some [1, 2, 3]) 3 SEGTREE_CUSTOM).map (fun st => st.op_type) =
      some SEGTREE_CUSTOM ∧
    (segtree_create_lazy (some [1, 2, 3]) 3 SEGTREE_CUSTOM).map (fun st => st.lazy_enabled) =
      some true ∧
    (segtree_update_range (segtree_create_lazy (some [1, 2, 3]) 3 SEGTREE_CUSTOM) 0 2 5).1 =
      SEGTREE_OK ∧
    (segtree_update_range (segtree_create_lazy (some [1, 2, 3]) 3 SEGTREE_CUSTOM) 0 2 5).1 ≠
      SEGTREE_ERROR_INVALID_OPERATION := by
  decide

/-- C11 (amended): every tree returned by `segtree_create_custom`, or by `segtree_create`
called with `SEGTREE_CUSTOM`, has `op_type == SEGTREE_CUSTOM` and lazy propagation
disabled, and `segtree_update_range` on it returns `SEGTREE_ERROR_INVALID_OPERATION`
leaving it unchanged; every tree returned by `segtree_create_lazy` called with
`SEGTREE_CUSTOM` has `op_type == SEGTREE_CUSTOM` but lazy propagation enabled with the SUM
rules, and `segtree_update_range` with a valid range returns `SEGTREE_OK` on it. -/
theorem custom_update_range (arr : Option (List Int)) (n : Int)
    (f : Option (Int → Int → Int)) (identity : Int) (st : segment_tree_t)
    (left right value : Int) :
    ((segtree_create_custom arr n f identity = some st ∨
        segtree_create arr n SEGTREE_CUSTOM = some st) →
      st.op_type = SEGTREE_CUSTOM ∧ st.lazy_enabled = false ∧
      segtree_update_range (some st) left right value =
        (SEGTREE_ERROR_INVALID_OPERATION, some st)) ∧
    (segtree_create_lazy arr n SEGTREE_CUSTOM = some st →
      st.op_type = SEGTREE_CUSTOM ∧ st.lazy_enabled = true ∧
      st.combine = combine_sum ∧ st.identity = 0 ∧
      st.update_lazy = some lazy_fn.sum ∧ st.propagate = some lazy_fn.sum ∧
      (0 ≤ left → left ≤ right → right < (st.size : Int) →
        (segtree_update_range (some st) left right value).1 = SEGTREE_OK)) := by
  have hio : ∀ s : segment_tree_t, s.lazy_enabled = false →
      segtree_update_range (some s) left right value =
        (SEGTREE_ERROR_INVALID_OPERATION, some s) := by
    intro s hs
    unfold segtree_update_range
    simp only
    rw [if_pos hs]
  constructor
  · intro h
    rcases h with h | h
    · obtain ⟨a, b⟩ := segtree_create_custom_inv arr n f identity st h
      exact ⟨a, b, hio st b⟩
    · obtain ⟨_, t, e⟩ := segtree_create_inv arr n SEGTREE_CUSTOM st h
      have b : st.lazy_enabled = false := by rw [e]; rfl
      exact ⟨by rw [e]; rfl, b, hio st b⟩
  · intro h
    unfold segtree_create_lazy at h
    split at h
    · exact absurd h (by simp)
    · rename_i st0 h0
      obtain ⟨_, t, e⟩ := segtree_create_inv arr n SEGTREE_CUSTOM st0 h0
      simp only [Option.some.injEq] at h
      have hl : st.lazy_enabled = true := by rw [← h]
      refine ⟨by rw [← h, e]; rfl, hl, by rw [← h, e]; rfl, by rw [← h, e]; rfl,
        by rw [← h, e]; rfl, by rw [← h, e]; rfl, ?_⟩
      intro a b c
      unfold segtree_update_range
      simp only
      rw [if_neg (by simp [hl]), if_neg (by omega)]

theorem custom_update_range_witness :
    (segtree_create (some [1, 2, 3]) 3 SEGTREE_CUSTOM =
        some { plain_sum_123 with op_type := SEGTREE_CUSTOM } ∧
      segtree_update_range (some { plain_sum_123 with op_type := SEGTREE_CUSTOM }) 0 2 5 =
        (SEGTREE_ERROR_INVALID_OPERATION,
          some { plain_sum_123 with op_type := SEGTREE_CUSTOM })) ∧
    (segtree_create_lazy (some [1, 2, 3]) 3 SEGTREE_CUSTOM =
        some { lazy_sum_123 with op_type := SEGTREE_CUSTOM } ∧
      (segtree_update_range (some { lazy_sum_123 with op_type := SEGTREE_CUSTOM }) 0 2 5).1 =
        SEGTREE_OK) :=
  ⟨⟨rfl, ((custom_update_range (some [1, 2, 3]) 3 none 0
      { plain_sum_123 with op_type := SEGTREE_CUSTOM } 0 2 5).1 (Or.inr rfl)).2.2⟩,
    ⟨rfl, ((custom_update_range (some [1, 2, 3]) 3 none 0
      { lazy_sum_123 with op_type := SEGTREE_CUSTOM } 0 2 5).2 rfl).2.2.2.2.2.2
        (by decide) (by decide) (by decide)⟩⟩

/-! ## Size of the buffers -/

theorem calculate_tree_size_loop_min (n : Int) (hn : n ≤ 1000000) :
    ∀ (fuel j : Nat), j ≤ 20 → 21 ≤ fuel + j → (∀ i : Nat, n ≤ 2 ^ i → j ≤ i) →
      ∃ j2 : Nat, j2 ≤ 20 ∧ n ≤ 2 ^ j2 ∧ (∀ i : Nat, n ≤ 2 ^ i → j2 ≤ i) ∧
        calculate_tree_size_loop fuel (2 ^ j) n = 2 ^ j2 ∧
        ∀ x ∈ calculate_tree_size_products fuel (2 ^ j) n, is_int32 x := by
  intro fuel
  induction fuel with
  | zero => intro j h1 h2; omega
  | succ fuel ih =>
    intro j h1 h2 hmin
    unfold calculate_tree_size_loop calculate_tree_size_products
    have hb20 : (2 : Int) ^ j ≤ 2 ^ 20 := pow_le_pow_right₀ (by norm_num) h1
    have hpos : (0 : Int) < 2 ^ j := by positivity
    have h32 : is_int32 ((2 : Int) ^ j * 2) := by
      unfold is_int32
      norm_num at hb20
      omega
    by_cases hlt : (2 : Int) ^ j < n
    · have hj : j < 20 := by
        by_contra hc
        have : j = 20 := by omega
        subst this
        norm_num at hlt
        omega
      have hw : wrap32 ((2 : Int) ^ j * 2) = 2 ^ (j + 1) := by
        rw [pow_succ]
        exact wrap32_of_is_int32 h32
      rw [if_pos hlt, if_pos hlt, hw]
      obtain ⟨j2, a, b, c, d, e⟩ := ih (j + 1) (by omega) (by omega) (by
        intro i hi
        by_contra hc
        have : (2 : Int) ^ i ≤ 2 ^ j := pow_le_pow_right₀ (by norm_num) (by omega)
        omega)
      refine ⟨j2, a, b, c, d, ?_⟩
      intro x hx
      rcases List.mem_cons.1 hx with hx | hx
      · rw [hx]; exact h32
      · exact e x hx
    · rw [if_neg hlt, if_neg hlt]
      refine ⟨j, h1, by omega, hmin, rfl, ?_⟩
      intro x hx
      rw [List.mem_singleton.1 hx]
      exact h32

theorem segtree_rebuild_ok (st : segment_tree_t) (a : List Int) (n : Int)
    (h1 : 1 ≤ n) (h2 : n ≤ SEGTREE_MAX_SIZE) :
    ∃ s3 : segment_tree_t,
      segtree_rebuild (some st) (some a) n =
        (SEGTREE_OK, some (build_tree n.toNat s3 a 1 0 (n.toNat - 1))) ∧
      s3.size = n.toNat ∧ s3.tree_size = (calculate_tree_size n).toNat ∧
      s3.combine = st.combine ∧ s3.identity = st.identity ∧
      s3.lazy_enabled = st.lazy_enabled ∧
      (st.tree.length = st.tree_size → s3.tree.length = s3.tree_size) := by
  unfold segtree_rebuild
  simp only
  rw [if_neg (by omega)]
  refine ⟨_, rfl, ?_, ?_, ?_, ?_, ?_, ?_⟩
  · rfl
  · split_ifs with ha hb
    · rfl
    · rfl
    · exact (not_not.1 ha).symm
  · split_ifs <;> rfl
  · split_ifs <;> rfl
  · split_ifs <;> rfl
  · intro hlen
    simp only [length_fill]
    split_ifs with ha hb
    · simp [realloc]
    · simp [realloc]
    · exact hlen

/-- C17: for every `n` with `1 <= n <= SEGTREE_MAX_SIZE`, `calculate_tree_size (n)` is
`2 * 2^j` where `2^j` is the smallest power of two that is at least `n` (and `j <= 20`);
the doubling loop leaves by its own test with `2^j` whatever fuel of at least 21 turns it
is given, and every product `size * 2` it evaluates, the returned one included, fits in
32 bits. The buffer length `tree_size` set by `segtree_create` and by a successful
`segtree_rebuild` is this value; it is 2 for `n == 1` and `2^21` for
`n == SEGTREE_MAX_SIZE`. -/
theorem tree_size_capacity (n : Int) (h1 : 1 ≤ n) (h2 : n ≤ SEGTREE_MAX_SIZE) :
    (∃ j : Nat, j ≤ 20 ∧ n ≤ 2 ^ j ∧ (∀ i : Nat, n ≤ 2 ^ i → j ≤ i) ∧
      calculate_tree_size n = 2 * 2 ^ j ∧
      (∀ fuel : Nat, 21 ≤ fuel → calculate_tree_size_loop fuel 1 n = 2 ^ j) ∧
      (∀ x ∈ calculate_tree_size_products 32 1 n, is_int32 x) ∧
      (∀ (S : List Int) (op : segtree_operation_t) (st : segment_tree_t),
        segtree_create (some S) n op = some st → st.tree_size = 2 * 2 ^ j) ∧
      (∀ (st st2 : segment_tree_t) (S : List Int),
        segtree_rebuild (some st) (some S) n = (SEGTREE_OK, some st2) →
          st2.tree_size = 2 * 2 ^ j)) ∧
    calculate_tree_size 1 = 2 ∧ calculate_tree_size SEGTREE_MAX_SIZE = 2 ^ 21 := by
  have h2c := h2
  unfold SEGTREE_MAX_SIZE at h2
  obtain ⟨j, hj, hn, hmin, he, hp⟩ :=
    calculate_tree_size_loop_min n h2 32 0 (by omega) (by omega) (fun i _ => Nat.zero_le i)
  rw [pow_zero] at he hp
  have hb : (2 : Int) ^ j ≤ 2 ^ 20 := pow_le_pow_right₀ (by norm_num) hj
  have hpos : (0 : Int) < 2 ^ j := by positivity
  have hc : calculate_tree_size n = 2 * 2 ^ j := by
    unfold calculate_tree_size
    rw [he, wrap32_of_is_int32 (by unfold is_int32; norm_num at hb; omega)]
    ring
  have hcn : (calculate_tree_size n).toNat = 2 * 2 ^ j := by
    rw [hc]
    have : (2 * (2 : Int) ^ j) = ((2 * 2 ^ j : Nat) : Int) := by push_cast; ring
    rw [this, Int.toNat_natCast]
  refine ⟨⟨j, hj, hn, hmin, hc, ?_, hp, ?_, ?_⟩, by decide, by decide⟩
  · intro fuel hf
    obtain ⟨j2, a, b, c, d, _⟩ :=
      calculate_tree_size_loop_min n h2 fuel 0 (by omega) (by omega) (fun i _ => Nat.zero_le i)
    rw [pow_zero] at d
    rw [d]
    have : j2 = j := le_antisymm (c j hn) (hmin j2 b)
    rw [this]
  · intro S op st h
    obtain ⟨t, e⟩ := segtree_create_cfg S n op st h
    rw [e, ← hcn]
    cases op <;> rfl
  · intro st st2 S h
    obtain ⟨s3, e, _, ets, _⟩ := segtree_rebuild_ok st S n h1 h2c
    rw [e] at h
    simp only [Prod.mk.injEq, Option.some.injEq, true_and] at h
    rw [← h, (build_tree_fields _ _ _ _ _ _).2.2.1, ets, hcn]

theorem tree_size_capacity_witness :
    (∃ j : Nat, j ≤ 20 ∧ (5 : Int) ≤ 2 ^ j ∧ (∀ i : Nat, (5 : Int) ≤ 2 ^ i → j ≤ i) ∧
      calculate_tree_size 5 = 2 * 2 ^ j ∧
      (∀ fuel : Nat, 21 ≤ fuel → calculate_tree_size_loop fuel 1 5 = 2 ^ j) ∧
      (∀ x ∈ calculate_tree_size_products 32 1 5, is_int32 x) ∧
      (∀ (S : List Int) (op : segtree_operation_t) (st : segment_tree_t),
        segtree_create (some S) 5 op = some st → st.tree_size = 2 * 2 ^ j) ∧
      (∀ (st st2 : segment_tree_t) (S : List Int),
        segtree_rebuild (some st) (some S) 5 = (SEGTREE_OK, some st2) →
          st2.tree_size = 2 * 2 ^ j)) ∧
    calculate_tree_size 1 = 2 ∧ calculate_tree_size SEGTREE_MAX_SIZE = 2 ^ 21 :=
  tree_size_capacity 5 (by decide) (by decide)

/-! ## Validation of trees without lazy propagation -/

theorem AggInv_internal {f : Int → Int → Int} {t : List Int} {A : Nat → Int}
    {node s e i : Nat} (hi : Internal node s e i) (h : AggInv f t A node s e) :
    rd t i = f (rd t (2 * i)) (rd t (2 * i + 1)) := by
  induction hi with
  | here node s e hse =>
    cases h with
    | leaf _ _ _ => omega
    | node _ _ _ _ _ _ heq => exact heq
  | left node s e i hse _ ih =>
    cases h with
    | leaf _ _ _ => omega
    | node _ _ _ _ hl _ _ => exact ih hl
  | right node s e i hse _ ih =>
    cases h with
    | leaf _ _ _ => omega
    | node _ _ _ _ _ hr _ => exact ih hr

theorem validate_tree_recursive_nolazy {A : Nat → Int} :
    ∀ (fuel : Nat) (st : segment_tree_t) (node s e : Nat), st.lazy_enabled = false →
      s ≤ e → e < st.size → e - s < fuel → InB node s e st.tree_size →
      AggInv st.combine st.tree A node s e →
      validate_tree_recursive fuel st node s e = (true, st) := by
  intro fuel
  induction fuel with
  | zero => intro st node s e _ _ _ h; omega
  | succ fuel ih =>
    intro st node s e hl hse hes hf hb ha
    unfold validate_tree_recursive
    have hn := InB_lt hb
    rw [if_neg (by omega)]
    by_cases heq : s = e
    · rw [if_pos heq]
    · rw [if_neg heq]
      have hlt : s < e := by omega
      have hbl := InB_left hlt hb
      have hbr := InB_right hlt hb
      have hnl := InB_lt hbl
      have hnr := InB_lt hbr
      cases ha with
      | leaf _ _ _ => omega
      | node _ _ _ _ al ar heqn =>
        have e1 := ih st (2 * node) s ((s + e) / 2) hl (by omega) (by omega) (by omega) hbl al
        have e2 := ih st (2 * node + 1) ((s + e) / 2 + 1) e hl (by omega) hes (by omega) hbr ar
        simp only [e1, e2]
        rw [if_neg (by omega), if_neg (by simp), if_neg (by simp [hl]), if_neg (by simpa using heqn)]

theorem segtree_validate_plain {st : segment_tree_t} (h : PlainOk st) :
    segtree_validate (some st) = (true, some st) := by
  obtain ⟨hlen, A, hl, hs, hb, ha⟩ := h
  rw [hlen] at hb
  have hts := InB_lt hb
  unfold segtree_validate
  simp only
  rw [if_neg (by omega), if_neg (by simp [hl])]
  by_cases h1 : st.size = 1
  · rw [if_pos h1]
  · rw [if_neg h1, validate_tree_recursive_nolazy st.size st 1 0 (st.size - 1) hl (by omega)
      (by omega) (by omega) hb ha]

theorem query_recursive_nolazy_state :
    ∀ (fuel : Nat) (st : segment_tree_t) (node s e l r : Nat), st.lazy_enabled = false →
      (query_recursive fuel st node s e l r).1 = st := by
  intro fuel
  induction fuel with
  | zero => intro st node s e l r _; rfl
  | succ fuel ih =>
    intro st node s e l r hl
    unfold query_recursive
    by_cases h1 : r < s ∨ e < l
    · rw [if_pos h1]
    · rw [if_neg h1]
      have hst : (if st.lazy_enabled = true ∧ st.propagate ≠ none then
          call_propagate st node s e else st) = st := by
        rw [if_neg (by simp [hl])]
      simp only [hst]
      by_cases h2 : l ≤ s ∧ e ≤ r
      · rw [if_pos h2]
      · rw [if_neg h2]
        simp only [ih st _ _ _ l r hl]

theorem PlainOk_stats {st : segment_tree_t} (h : PlainOk st) (s : segtree_stats_t) :
    PlainOk { st with stats := s } := h

theorem PlainOk_create (S : List Int) (n : Int) (op : segtree_operation_t)
    (h1 : 1 ≤ n) (h2 : n ≤ SEGTREE_MAX_SIZE) :
    ∃ st : segment_tree_t, segtree_create (some S) n op = some st ∧ PlainOk st := by
  obtain ⟨st, e, hrep, _, _, _, hlen⟩ := segtree_create_plain S n op h1 h2
  obtain ⟨t, et⟩ := segtree_create_cfg S n op st e
  refine ⟨st, e, ?_, rd S, hrep⟩
  rw [hlen, et]
  cases op <;> rfl

theorem PlainOk_create_custom (S : List Int) (n : Int) (f : Int → Int → Int)
    (identity : Int) (h1 : 1 ≤ n) (h2 : n ≤ SEGTREE_MAX_SIZE) :
    ∃ st : segment_tree_t,
      segtree_create_custom (some S) n (some f) identity = some st ∧ PlainOk st := by
  obtain ⟨st, e, hrep, _, _, _, hlen⟩ := segtree_create_custom_plain S n f identity h1 h2
  refine ⟨st, e, ?_, rd S, hrep⟩
  rw [hlen]
  unfold segtree_create_custom at e
  simp only at e
  rw [if_neg (by omega)] at e
  simp only [Option.some.injEq] at e
  rw [← e, (build_tree_fields _ _ _ _ _ _).2.2.1]
  rfl

theorem PlainOk_step {st : segment_tree_t} (h : PlainOk st) (c : plain_call) :
    ∃ st2 : segment_tree_t, (plain_result (some st) c).2 = some st2 ∧ PlainOk st2 := by
  cases c with
  | query l r =>
    show ∃ st2 : segment_tree_t,
      (segtree_query (some st) l r (some 0)).2.1 = some st2 ∧ PlainOk st2
    unfold segtree_query
    simp only
    split_ifs with hg
    · exact ⟨st, rfl, h⟩
    · rw [query_recursive_nolazy_state _ _ _ _ _ _ _ h.2.choose_spec.1]
      exact ⟨_, rfl, PlainOk_stats h _⟩
  | update_point i v =>
    show ∃ st2 : segment_tree_t,
      (segtree_update_point (some st) i v).2 = some st2 ∧ PlainOk st2
    by_cases hg : i < 0 ∨ i ≥ (st.size : Int)
    · refine ⟨st, ?_, h⟩
      unfold segtree_update_point
      simp only
      rw [if_pos hg]
    · obtain ⟨hlen, A, hl, hs, hb, ha⟩ := h
      obtain ⟨t, e1, l1, _, a1⟩ := update_point_recursive_spec i.toNat v st.size st 1 0
        (st.size - 1) A (by omega) (le_refl _) hb (by omega) (by omega) ha
      unfold segtree_update_point
      simp only
      rw [if_neg hg, e1]
      refine ⟨_, rfl, ?_, Function.update A i.toNat v, hl, hs, ?_, a1⟩
      · exact l1.trans hlen
      · show InB 1 0 (st.size - 1) t.length
        rw [l1]; exact hb
  | rebuild a n =>
    show ∃ st2 : segment_tree_t,
      (segtree_rebuild (some st) (some a) n).2 = some st2 ∧ PlainOk st2
    by_cases hg : n ≤ 0 ∨ n > SEGTREE_MAX_SIZE
    · refine ⟨st, ?_, h⟩
      unfold segtree_rebuild
      simp only
      rw [if_pos hg]
    · obtain ⟨hlen, A, hl, hs, hb, ha⟩ := h
      obtain ⟨s3, e, esz, ets, _, _, elz, elen⟩ :=
        segtree_rebuild_ok st a n (by omega) (by omega)
      have hlen3 := elen hlen
      have hb3 : InB 1 0 (s3.size - 1) s3.tree.length := by
        rw [hlen3, ets, esz]
        exact InB_root n (by omega) (by omega)
      obtain ⟨p1, _, _, _, p5⟩ := build_tree_plain s3 a (elz.trans hl)
        (by rw [esz]; omega) hb3
      rw [e]
      rw [esz] at p1 p5
      refine ⟨_, rfl, ?_, rd a, p1⟩
      rw [p5, hlen3, (build_tree_fields _ _ _ _ _ _).2.2.1]

theorem PlainOk_calls (cs : List plain_call) :
    ∀ st : segment_tree_t, PlainOk st →
      ∃ st2 : segment_tree_t, plain_calls (some st) cs = some st2 ∧ PlainOk st2 := by
  induction cs with
  | nil => intro st h; exact ⟨st, rfl, h⟩
  | cons c cs ih =>
    intro st h
    obtain ⟨st1, e1, h1⟩ := PlainOk_step h c
    obtain ⟨st2, e2, h2⟩ := ih st1 h1
    refine ⟨st2, ?_, h2⟩
    unfold plain_calls at e2 ⊢
    rw [List.foldl_cons, e1]
    exact e2

theorem PlainOk_internal {st : segment_tree_t} (h : PlainOk st) (i : Nat)
    (hi : Internal 1 0 (st.size - 1) i) :
    rd st.tree i = st.combine (rd st.tree (2 * i)) (rd st.tree (2 * i + 1)) := by
  obtain ⟨_, A, _, _, _, ha⟩ := h
  exact AggInv_internal hi ha

/-- C13 as stated fails: `segtree_create_custom ({2, 3}, custom_combine, 0)` pairs the
multiplication `custom_combine` with the identity `0`, which is not neutral for it
(`custom_combine (0, 5) == 0`), yet `segtree_validate` returns true on the tree. -/
theorem validate_mismatched_identity_counterexample :
    custom_combine 0 5 ≠ 5 ∧
    (segtree_validate (segtree_create_custom (some [2, 3]) 2 (some custom_combine) 0)).1 =
      true := by
  decide

/-- C13 (amended): for every tree constructed by
`segtree_create_custom (S, n, combine, identity)` with `1 <= n <= SEGTREE_MAX_SIZE`,
`segtree_validate` returns true and leaves the tree unchanged, whatever `combine` and
`identity` are: validation never inspects `identity`. -/
theorem validate_create_custom (S : List Int) (n : Int) (combine : Int → Int → Int)
    (identity : Int) (h1 : 1 ≤ n) (h2 : n ≤ SEGTREE_MAX_SIZE) :
    ∃ st : segment_tree_t,
      segtree_create_custom (some S) n (some combine) identity = some st ∧
      st.combine = combine ∧ st.identity = identity ∧
      segtree_validate (some st) = (true, some st) := by
  obtain ⟨st, e, hok⟩ := PlainOk_create_custom S n combine identity h1 h2
  obtain ⟨st2, e2, _, _, hc, hi, _⟩ := segtree_create_custom_plain S n combine identity h1 h2
  rw [e] at e2
  simp only [Option.some.injEq] at e2
  subst e2
  exact ⟨st, e, hc, hi, segtree_validate_plain hok⟩

theorem validate_create_custom_witness :
    ∃ st : segment_tree_t,
      segtree_create_custom (some [2, 3, 4]) 3 (some custom_combine) 7 = some st ∧
      st.combine = custom_combine ∧ st.identity = 7 ∧
      segtree_validate (some st) = (true, some st) :=
  validate_create_custom [2, 3, 4] 3 custom_combine 7 (by decide) (by decide)

/-- C20: a tree returned by `segtree_create` or `segtree_create_custom` with
`1 <= n <= SEGTREE_MAX_SIZE` has lazy propagation disabled, and after any sequence of
`segtree_query`, `segtree_update_point` and `segtree_rebuild` calls (successful or not)
the handle is still a tree with lazy propagation disabled on which every internal node
`i` of the recursion tree over `[0, size - 1]` satisfies
`tree[i] == combine (tree[2i], tree[2i+1])` and on which `segtree_validate` returns
true, leaving the tree unchanged. -/
theorem plain_aggregate_invariant (S : List Int) (n : Int) (op : segtree_operation_t)
    (combine : Int → Int → Int) (identity : Int) (cs : List plain_call)
    (h1 : 1 ≤ n) (h2 : n ≤ SEGTREE_MAX_SIZE) :
    ∀ t0 : Option segment_tree_t,
      t0 = segtree_create (some S) n op ∨
        t0 = segtree_create_custom (some S) n (some combine) identity →
      ∃ st : segment_tree_t, plain_calls t0 cs = some st ∧ st.lazy_enabled = false ∧
        (∀ i : Nat, Internal 1 0 (st.size - 1) i →
          rd st.tree i = st.combine (rd st.tree (2 * i)) (rd st.tree (2 * i + 1))) ∧
        segtree_validate (some st) = (true, some st) := by
  intro t0 ht
  have h0 : ∃ st0 : segment_tree_t, t0 = some st0 ∧ PlainOk st0 := by
    rcases ht with ht | ht
    · obtain ⟨st0, e, hok⟩ := PlainOk_create S n op h1 h2
      exact ⟨st0, ht.trans e, hok⟩
    · obtain ⟨st0, e, hok⟩ := PlainOk_create_custom S n combine identity h1 h2
      exact ⟨st0, ht.trans e, hok⟩
  obtain ⟨st0, e0, hok0⟩ := h0
  obtain ⟨st, e, hok⟩ := PlainOk_calls cs st0 hok0
  rw [e0]
  exact ⟨st, e, hok.2.choose_spec.1, PlainOk_internal hok, segtree_validate_plain hok⟩

theorem plain_aggregate_invariant_witness :
    ∃ st : segment_tree_t,
      plain_calls (segtree_create (some [1, 3, 5, 7, 9, 11]) 6 SEGTREE_SUM)
        [plain_call.update_point 2 10, plain_call.query 1 3,
          plain_call.rebuild [4, 5, 6] 3, plain_call.update_point 7 1] = some st ∧
      st.lazy_enabled = false ∧
      (∀ i : Nat, Internal 1 0 (st.size - 1) i →
        rd st.tree i = st.combine (rd st.tree (2 * i)) (rd st.tree (2 * i + 1))) ∧
      segtree_validate (some st) = (true, some st) :=
  plain_aggregate_invariant [1, 3, 5, 7, 9, 11] 6 SEGTREE_SUM custom_combine 1
    [plain_call.update_point 2 10, plain_call.query 1 3,
      plain_call.rebuild [4, 5, 6] 3, plain_call.update_point 7 1] (by decide) (by decide)
    _ (Or.inl rfl)

/-- C12 fails on the code: on the tree of `segtree_create_lazy ({8, 3}, SEGTREE_MIN)` the
call `segtree_update_range (0, 1, 7)` returns `SEGTREE_OK`, a following
`segtree_query (0, 1)` returns 7, and `segtree_validate` on the updated tree returns
false. -/
theorem validate_after_range_update :
    (segtree_update_range (segtree_create_lazy (some [8, 3]) 2 SEGTREE_MIN) 0 1 7).1 =
      SEGTREE_OK ∧
    (segtree_query
      (segtree_update_range (segtree_create_lazy (some [8, 3]) 2 SEGTREE_MIN) 0 1 7).2
      0 1 (some 0)).2.2 = some 7 ∧
    (segtree_validate
      (segtree_update_range (segtree_create_lazy (some [8, 3]) 2 SEGTREE_MIN) 0 1 7).2).1 =
      false := by
  decide

/-! ## The built-in operations -/

/-- C27: each of `(combine_sum, 0)`, `(combine_min, INT_MAX)` and `(combine_max, INT_MIN)`,
the pairs that `setup_operations` installs for SUM, MIN and MAX, is a commutative monoid
on 32-bit integers: the function maps 32-bit integers to 32-bit integers, is associative
and commutative, and the identity is neutral on both sides for every 32-bit `x`;
`combine_sum` is the sum modulo `2^32`; `combine_min` and `combine_max` are idempotent. -/
theorem combine_commutative_monoid :
    (∀ st : segment_tree_t,
      (setup_operations st SEGTREE_SUM).combine = combine_sum ∧
      (setup_operations st SEGTREE_SUM).identity = 0 ∧
      (setup_operations st SEGTREE_MIN).combine = combine_min ∧
      (setup_operations st SEGTREE_MIN).identity = 2147483647 ∧
      (setup_operations st SEGTREE_MAX).combine = combine_max ∧
      (setup_operations st SEGTREE_MAX).identity = -2147483648) ∧
    (∀ a b : Int, is_int32 a → is_int32 b →
      is_int32 (combine_sum a b) ∧ is_int32 (combine_min a b) ∧ is_int32 (combine_max a b)) ∧
    (∀ a b : Int, combine_sum a b ≡ a + b [ZMOD 4294967296]) ∧
    (∀ a b c : Int,
      combine_sum (combine_sum a b) c = combine_sum a (combine_sum b c) ∧
      combine_min (combine_min a b) c = combine_min a (combine_min b c) ∧
      combine_max (combine_max a b) c = combine_max a (combine_max b c)) ∧
    (∀ a b : Int,
      combine_sum a b = combine_sum b a ∧ combine_min a b = combine_min b a ∧
      combine_max a b = combine_max b a) ∧
    (∀ x : Int, is_int32 x →
      combine_sum 0 x = x ∧ combine_sum x 0 = x ∧
      combine_min 2147483647 x = x ∧ combine_min x 2147483647 = x ∧
      combine_max (-2147483648) x = x ∧ combine_max x (-2147483648) = x) ∧
    (∀ x : Int, combine_min x x = x ∧ combine_max x x = x) := by
  refine ⟨?_, ?_, ?_, ?_, ?_, ?_, ?_⟩
  · intro st
    exact ⟨rfl, rfl, rfl, rfl, rfl, rfl⟩
  · intro a b ha hb
    unfold is_int32 at *
    unfold combine_sum combine_min combine_max wrap32
    refine ⟨by omega, ?_, ?_⟩ <;> split_ifs <;> omega
  · intro a b
    exact wrap32_modEq (a + b)
  · intro a b c
    unfold combine_sum combine_min combine_max
    refine ⟨?_, ?_, ?_⟩
    · rw [wrap32_add_left, wrap32_add_right, add_assoc]
    · split_ifs <;> omega
    · split_ifs <;> omega
  · intro a b
    unfold combine_sum combine_min combine_max
    refine ⟨by rw [add_comm], ?_, ?_⟩ <;> split_ifs <;> omega
  · intro x hx
    unfold is_int32 at hx
    unfold combine_sum combine_min combine_max wrap32
    refine ⟨by omega, by omega, ?_, ?_, ?_, ?_⟩ <;> split_ifs <;> omega
  · intro x
    unfold combine_min combine_max
    constructor <;> split_ifs <;> rfl

theorem combine_commutative_monoid_witness :
    (combine_sum 0 2147483647 = 2147483647 ∧ combine_sum 2147483647 0 = 2147483647 ∧
      combine_min 2147483647 (-5) = -5 ∧ combine_min (-5) 2147483647 = -5 ∧
      combine_max (-2147483648) (-5) = -5 ∧ combine_max (-5) (-2147483648) = -5) ∧
    is_int32 (combine_sum 2147483647 1) :=
  ⟨⟨(combine_commutative_monoid.2.2.2.2.2.1 2147483647 (by decide)).1,
    (combine_commutative_monoid.2.2.2.2.2.1 2147483647 (by decide)).2.1,
    (combine_commutative_monoid.2.2.2.2.2.1 (-5) (by decide)).2.2.1,
    (combine_commutative_monoid.2.2.2.2.2.1 (-5) (by decide)).2.2.2.1,
    (combine_commutative_monoid.2.2.2.2.2.1 (-5) (by decide)).2.2.2.2.1,
    (combine_commutative_monoid.2.2.2.2.2.1 (-5) (by decide)).2.2.2.2.2⟩,
   (combine_commutative_monoid.2.1 2147483647 1 (by decide) (by decide)).1⟩

/-! ## What validation checks -/

theorem validate_tree_recursive_nolazy_iff :
    ∀ (fuel : Nat) (st : segment_tree_t) (node s e : Nat), st.lazy_enabled = false →
      s ≤ e → e < st.size → e - s < fuel → InB node s e st.tree_size →
      (validate_tree_recursive fuel st node s e).2 = st ∧
      ((validate_tree_recursive fuel st node s e).1 = true ↔
        ∀ i : Nat, Internal node s e i →
          rd st.tree i = st.combine (rd st.tree (2 * i)) (rd st.tree (2 * i + 1))) := by
  intro fuel
  induction fuel with
  | zero => intro st node s e _ _ _ h; omega
  | succ fuel ih =>
    intro st node s e hl hse hes hf hb
    unfold validate_tree_recursive
    have hn := InB_lt hb
    rw [if_neg (by omega)]
    by_cases heq : s = e
    · rw [if_pos heq]
      refine ⟨rfl, fun _ i hi => ?_, fun _ => rfl⟩
      subst heq
      cases hi <;> omega
    · rw [if_neg heq]
      have hlt : s < e := by omega
      have hbl := InB_left hlt hb
      have hbr := InB_right hlt hb
      have hnl := InB_lt hbl
      have hnr := InB_lt hbr
      obtain ⟨e1, i1⟩ := ih st (2 * node) s ((s + e) / 2) hl (by omega) (by omega) (by omega) hbl
      obtain ⟨e2, i2⟩ := ih st (2 * node + 1) ((s + e) / 2 + 1) e hl (by omega) hes
        (by omega) hbr
      simp only
      rw [if_neg (by omega), e1, e2]
      by_cases hv : (validate_tree_recursive fuel st (2 * node) s ((s + e) / 2)).1 = false ∨
          (validate_tree_recursive fuel st (2 * node + 1) ((s + e) / 2 + 1) e).1 = false
      · rw [if_pos hv]
        refine ⟨rfl, fun h => by simp at h, fun h => ?_⟩
        exfalso
        rcases hv with hv | hv
        · rw [i1.2 (fun i hi => h i (Internal.left node s e i hlt hi))] at hv
          simp at hv
        · rw [i2.2 (fun i hi => h i (Internal.right node s e i hlt hi))] at hv
          simp at hv
      · rw [if_neg hv, if_neg (by simp [hl])]
        have hv1 : (validate_tree_recursive fuel st (2 * node) s ((s + e) / 2)).1 = true := by
          by_contra hc
          exact hv (Or.inl (by simpa using hc))
        have hv2 : (validate_tree_recursive fuel st (2 * node + 1) ((s + e) / 2 + 1) e).1 =
            true := by
          by_contra hc
          exact hv (Or.inr (by simpa using hc))
        by_cases hne : rd st.tree node ≠
            st.combine (rd st.tree (2 * node)) (rd st.tree (2 * node + 1))
        · rw [if_pos hne]
          refine ⟨rfl, fun h => by simp at h, fun h => ?_⟩
          exact absurd (h node (Internal.here node s e hlt)) hne
        · rw [if_neg hne]
          refine ⟨rfl, fun _ i hi => ?_, fun _ => rfl⟩
          cases hi with
          | here _ _ _ _ => exact not_not.1 hne
          | left _ _ _ _ _ h2 => exact i1.1 hv1 i h2
          | right _ _ _ _ _ h2 => exact i2.1 hv2 i h2

/-- C25: on a tree with lazy propagation disabled whose `tree_size` is the one computed at
construction for its size (`1 <= size <= SEGTREE_MAX_SIZE`), `segtree_validate` leaves the
tree unchanged; for `size >= 2` it returns true if and only if every internal node `i` of
the recursion tree over `[0, size - 1]` satisfies
`tree[i] == combine (tree[2i], tree[2i+1])`, so one mismatching internal node makes it
return false; for `size == 1` it returns true whatever is stored. -/
theorem validate_plain_iff (st : segment_tree_t) (hl : st.lazy_enabled = false)
    (h1 : 1 ≤ st.size) (h2 : (st.size : Int) ≤ SEGTREE_MAX_SIZE)
    (hts : st.tree_size = (calculate_tree_size st.size).toNat) :
    (segtree_validate (some st)).2 = some st ∧
    (2 ≤ st.size →
      ((segtree_validate (some st)).1 = true ↔
        ∀ i : Nat, Internal 1 0 (st.size - 1) i →
          rd st.tree i = st.combine (rd st.tree (2 * i)) (rd st.tree (2 * i + 1))) ∧
      (∀ i : Nat, Internal 1 0 (st.size - 1) i →
        rd st.tree i ≠ st.combine (rd st.tree (2 * i)) (rd st.tree (2 * i + 1)) →
        (segtree_validate (some st)).1 = false)) ∧
    (st.size = 1 → (segtree_validate (some st)).1 = true) := by
  have hb : InB 1 0 (st.size - 1) st.tree_size := by
    have := InB_root (st.size : Int) (by omega) h2
    rw [Int.toNat_natCast] at this
    rw [hts]; exact this
  have hn := InB_lt hb
  obtain ⟨e1, i1⟩ := validate_tree_recursive_nolazy_iff st.size st 1 0 (st.size - 1) hl
    (Nat.zero_le _) (by omega) (by omega) hb
  have hv : segtree_validate (some st) =
      if st.size = 1 then (true, some st)
      else ((validate_tree_recursive st.size st 1 0 (st.size - 1)).1, some st) := by
    unfold segtree_validate
    simp only
    rw [if_neg (by omega), if_neg (by simp [hl]), e1]
  refine ⟨?_, fun h => ?_, fun h => ?_⟩
  · rw [hv]; split_ifs <;> rfl
  · have hv2 : (segtree_validate (some st)).1 =
        (validate_tree_recursive st.size st 1 0 (st.size - 1)).1 := by
      rw [hv, if_neg (by omega)]
    rw [hv2]
    refine ⟨i1, fun i hi hne => ?_⟩
    by_contra hc
    exact hne (i1.1 (by simpa using hc) i hi)
  · rw [hv, if_pos h]

theorem validate_plain_iff_witness :
    (segtree_validate (some plain_sum_123)).2 = some plain_sum_123 ∧
    (2 ≤ plain_sum_123.size →
      ((segtree_validate (some plain_sum_123)).1 = true ↔
        ∀ i : Nat, Internal 1 0 (plain_sum_123.size - 1) i →
          rd plain_sum_123.tree i =
            plain_sum_123.combine (rd plain_sum_123.tree (2 * i))
              (rd plain_sum_123.tree (2 * i + 1))) ∧
      (∀ i : Nat, Internal 1 0 (plain_sum_123.size - 1) i →
        rd plain_sum_123.tree i ≠
          plain_sum_123.combine (rd plain_sum_123.tree (2 * i))
            (rd plain_sum_123.tree (2 * i + 1)) →
        (segtree_validate (some plain_sum_123)).1 = false)) ∧
    (plain_sum_123.size = 1 → (segtree_validate (some plain_sum_123)).1 = true) :=
  validate_plain_iff plain_sum_123 rfl (by decide) (by decide) (by decide)

/-- C26 fails on the code: `segtree_validate` writes through the caller's buffers. On the
lazy SUM tree over `{1, 2}` after `segtree_update_range (0, 1, 5)` and
`segtree_query (0, 0)`, the tag 5 is pending on the right leaf (`tree[3] == 2`,
`lazy[3] == 5`); `segtree_validate` returns true and leaves `tree[3] == 7`,
`lazy[3] == 0` in the same tree. -/
theorem validate_writes_buffers :
    ((segtree_query
        (segtree_update_range (segtree_create_lazy (some [1, 2]) 2 SEGTREE_SUM) 0 1 5).2
        0 0 (some 0)).2.1).map (fun st => (st.tree, st.lazy)) =
      some ([0, 13, 6, 2], some [0, 0, 0, 5]) ∧
    (segtree_validate
      (segtree_query
        (segtree_update_range (segtree_create_lazy (some [1, 2]) 2 SEGTREE_SUM) 0 1 5).2
        0 0 (some 0)).2.1).1 = true ∧
    ((segtree_validate
      (segtree_query
        (segtree_update_range (segtree_create_lazy (some [1, 2]) 2 SEGTREE_SUM) 0 1 5).2
        0 0 (some 0)).2.1).2).map (fun st => (st.tree, st.lazy)) =
      some ([0, 13, 6, 7], some [0, 0, 0, 0]) := by
  decide

/-! ## The sentinel of MIN and MAX trees -/

/-- C22 as stated fails for the sentinel itself: on the lazy MIN tree over `{1, 2}` the
call `segtree_update_range (0, 1, INT_MAX)` returns `SEGTREE_OK`, yet the point query
`(0, 0)` reads back 1; on the lazy MAX tree over `{5, 6}` after
`segtree_update_range (0, 1, INT_MIN)` the point query `(1, 1)` reads back 6. -/
theorem sentinel_assignment_counterexample :
    (segtree_update_range (segtree_create_lazy (some [1, 2]) 2 SEGTREE_MIN)
      0 1 2147483647).1 = SEGTREE_OK ∧
    is_int32 2147483647 ∧
    (segtree_query
      (segtree_update_range (segtree_create_lazy (some [1, 2]) 2 SEGTREE_MIN)
        0 1 2147483647).2 0 0 (some 0)).2.2 = some 1 ∧
    (segtree_update_range (segtree_create_lazy (some [5, 6]) 2 SEGTREE_MAX)
      0 1 (-2147483648)).1 = SEGTREE_OK ∧
    (segtree_query
      (segtree_update_range (segtree_create_lazy (some [5, 6]) 2 SEGTREE_MAX)
        0 1 (-2147483648)).2 1 1 (some 0)).2.2 = some 6 := by
  decide

/-- C22 (amended): on a lazy MIN (resp. MAX) tree built by `segtree_create_lazy` from
32-bit elements and brought to any state by valid calls, for every 32-bit integer `v`
other than the sentinel `INT_MAX` (resp. `INT_MIN`), after
`segtree_update_range (l, r, v)` with `0 <= l <= r < n` the single-point query of every
element `i` in `[l, r]` returns `SEGTREE_OK` and reads back exactly `v`. -/
theorem range_assignment_reads_back (S : List Int) (n : Int) (op : segtree_operation_t)
    (cs : List lazy_call) (hop : op = SEGTREE_MIN ∨ op = SEGTREE_MAX) (hn : n = S.length)
    (hn1 : 1 ≤ n) (hn2 : n ≤ SEGTREE_MAX_SIZE) (hS : ∀ x ∈ S, is_int32 x)
    (hcs : ∀ c ∈ cs, valid_call (op_rule op) n c) (l r v i old : Int)
    (h0 : 0 ≤ l) (hlr : l ≤ r) (hr : r < n) (hv : is_int32 v)
    (hne : v ≠ (if op = SEGTREE_MIN then 2147483647 else -2147483648))
    (hli : l ≤ i) (hir : i ≤ r) :
    (segtree_query (run_calls (segtree_create_lazy (some S) n op)
      (cs ++ [lazy_call.update_range l r v])) i i (some old)).1 = SEGTREE_OK ∧
    (segtree_query (run_calls (segtree_create_lazy (some S) n op)
      (cs ++ [lazy_call.update_range l r v])) i i (some old)).2.2 = some v := by
  have hc : valid_call (op_rule op) n (lazy_call.update_range l r v) := by
    refine ⟨h0, hlr, hr, hv, Or.inr ?_⟩
    rcases hop with h | h <;> subst h
    · simpa using hne
    · simpa using hne
  have hcs2 : ∀ c ∈ cs ++ [lazy_call.update_range l r v], valid_call (op_rule op) n c := by
    intro c hc2
    rcases List.mem_append.1 hc2 with h | h
    · exact hcs c h
    · rw [List.mem_singleton.1 h]; exact hc
  obtain ⟨st2, e, _, _⟩ :=
    lazy_query_after_calls S n op _ hn hn1 hn2 hS hcs2 i i old (by omega) (le_refl _)
      (by omega)
  obtain ⟨_, _, hlen, _⟩ :=
    lazy_query_after_calls S n op cs hn hn1 hn2 hS hcs i i old (by omega) (le_refl _)
      (by omega)
  have hsm : ∀ M : List Int, stored_model (op_rule op) M = rd M := by
    intro M
    rcases hop with h | h <;> subst h <;> rfl
  refine ⟨by rw [e], ?_⟩
  rw [lazy_point_query S n op _ hn hn1 hn2 hS hcs2 i old (by omega) (by omega), hsm,
    naive_model_append]
  simp only [naive_step]
  rw [rd_model_update _ _ _ _ _ _ _ (by omega), Nat.zero_add, if_pos (by omega)]
  rcases hop with h | h <;> subst h <;> rfl

theorem range_assignment_reads_back_witness :
    (segtree_query (run_calls (segtree_create_lazy (some [8, 3, 12, 1, 6, 9]) 6 SEGTREE_MIN)
      ([lazy_call.update_range 1 4 7, lazy_call.query 0 5] ++
        [lazy_call.update_range 2 5 2147483646])) 3 3 (some 0)).1 = SEGTREE_OK ∧
    (segtree_query (run_calls (segtree_create_lazy (some [8, 3, 12, 1, 6, 9]) 6 SEGTREE_MIN)
      ([lazy_call.update_range 1 4 7, lazy_call.query 0 5] ++
        [lazy_call.update_range 2 5 2147483646])) 3 3 (some 0)).2.2 = some 2147483646 :=
  range_assignment_reads_back [8, 3, 12, 1, 6, 9] 6 SEGTREE_MIN
    [lazy_call.update_range 1 4 7, lazy_call.query 0 5] (by decide) (by decide) (by decide)
    (by decide) (by decide) (by decide) 2 5 2147483646 3 0 (by decide) (by decide)
    (by decide) (by decide) (by decide) (by decide) (by decide)

/-! ## Depth of the recursions -/

theorem halves_le {s e j : Nat} (hse : s < e) (h : e + 1 - s ≤ 2 ^ (j + 1)) :
    (s + e) / 2 + 1 - s ≤ 2 ^ j ∧ e + 1 - ((s + e) / 2 + 1) ≤ 2 ^ j := by
  rw [Nat.pow_succ] at h
  generalize 2 ^ j = p at *
  omega

theorem width_pos_exp {s e j : Nat} (hse : s < e) (h : e + 1 - s ≤ 2 ^ j) : 1 ≤ j := by
  rcases j with _ | j
  · simp at h; omega
  · omega

theorem build_tree_run_ok (arr : List Int) :
    ∀ (fuel : Nat) (st : segment_tree_t) (node s e j : Nat), s ≤ e → e + 1 - s ≤ 2 ^ j →
      j < fuel →
      RunOk j (build_tree_run fuel st arr node s e) (build_tree fuel st arr node s e) := by
  intro fuel
  induction fuel with
  | zero => intro st node s e j _ _ h; omega
  | succ fuel ih =>
    intro st node s e j hse hw hj
    unfold build_tree_run build_tree
    by_cases heq : s = e
    · rw [if_pos heq, if_pos heq]; exact ⟨0, Nat.zero_le _, rfl⟩
    · rw [if_neg heq, if_neg heq]
      have hlt : s < e := by omega
      obtain ⟨j2, rfl⟩ : ∃ j2, j = j2 + 1 := ⟨j - 1, by have := width_pos_exp hlt hw; omega⟩
      obtain ⟨w1, w2⟩ := halves_le hlt hw
      obtain ⟨a, ha, ea⟩ := ih st (2 * node) s ((s + e) / 2) j2 (by omega) w1 (by omega)
      obtain ⟨b, hb, eb⟩ := ih (build_tree fuel st arr (2 * node) s ((s + e) / 2))
        (2 * node + 1) ((s + e) / 2 + 1) e j2 (by omega) w2 (by omega)
      simp only [ea, eb]
      exact ⟨_, by omega, rfl⟩

theorem update_point_run_ok (idx : Nat) (val : Int) :
    ∀ (fuel : Nat) (st : segment_tree_t) (node s e j : Nat), s ≤ e → e + 1 - s ≤ 2 ^ j →
      j < fuel →
      RunOk j (update_point_run fuel st node s e idx val)
        (update_point_recursive fuel st node s e idx val) := by
  intro fuel
  induction fuel with
  | zero => intro st node s e j _ _ h; omega
  | succ fuel ih =>
    intro st node s e j hse hw hj
    unfold update_point_run update_point_recursive
    by_cases heq : s = e
    · rw [if_pos heq, if_pos heq]; exact ⟨0, Nat.zero_le _, rfl⟩
    · rw [if_neg heq, if_neg heq]
      have hlt : s < e := by omega
      obtain ⟨j2, rfl⟩ : ∃ j2, j = j2 + 1 := ⟨j - 1, by have := width_pos_exp hlt hw; omega⟩
      obtain ⟨w1, w2⟩ := halves_le hlt hw
      by_cases hi : idx ≤ (s + e) / 2
      · obtain ⟨a, ha, ea⟩ := ih st (2 * node) s ((s + e) / 2) j2 (by omega) w1 (by omega)
        simp only [if_pos hi, ea]
        exact ⟨_, by omega, rfl⟩
      · obtain ⟨a, ha, ea⟩ :=
          ih st (2 * node + 1) ((s + e) / 2 + 1) e j2 (by omega) w2 (by omega)
        simp only [if_neg hi, ea]
        exact ⟨_, by omega, rfl⟩

theorem query_run_ok (l r : Nat) :
    ∀ (fuel : Nat) (st : segment_tree_t) (node s e j : Nat), s ≤ e → e + 1 - s ≤ 2 ^ j →
      j < fuel →
      RunOk j (query_run fuel st node s e l r) (query_recursive fuel st node s e l r) := by
  intro fuel
  induction fuel with
  | zero => intro st node s e j _ _ h; omega
  | succ fuel ih =>
    intro st node s e j hse hw hj
    unfold query_run query_recursive
    by_cases h1 : r < s ∨ e < l
    · rw [if_pos h1, if_pos h1]; exact ⟨0, Nat.zero_le _, rfl⟩
    · rw [if_neg h1, if_neg h1]
      simp only
      generalize (if st.lazy_enabled = true ∧ st.propagate ≠ none then
        call_propagate st node s e else st) = st1
      by_cases h2 : l ≤ s ∧ e ≤ r
      · rw [if_pos h2, if_pos h2]; exact ⟨0, Nat.zero_le _, rfl⟩
      · rw [if_neg h2, if_neg h2]
        have hlt : s < e := by omega
        obtain ⟨j2, rfl⟩ : ∃ j2, j = j2 + 1 :=
          ⟨j - 1, by have := width_pos_exp hlt hw; omega⟩
        obtain ⟨w1, w2⟩ := halves_le hlt hw
        obtain ⟨a, ha, ea⟩ := ih st1 (2 * node) s ((s + e) / 2) j2 (by omega) w1 (by omega)
        obtain ⟨b, hb, eb⟩ :=
          ih (query_recursive fuel st1 (2 * node) s ((s + e) / 2) l r).1
            (2 * node + 1) ((s + e) / 2 + 1) e j2 (by omega) w2 (by omega)
        simp only [ea, eb]
        exact ⟨_, by omega, rfl⟩

theorem update_range_run_ok (l r : Nat) (val : Int) :
    ∀ (fuel : Nat) (st : segment_tree_t) (node s e j : Nat), s ≤ e → e + 1 - s ≤ 2 ^ j →
      j < fuel →
      RunOk j (update_range_run fuel st node s e l r val)
        (update_range_recursive fuel st node s e l r val) := by
  intro fuel
  induction fuel with
  | zero => intro st node s e j _ _ h; omega
  | succ fuel ih =>
    intro st node s e j hse hw hj
    unfold update_range_run update_range_recursive
    simp only
    generalize (if st.lazy_enabled = true ∧ st.propagate ≠ none then
      call_propagate st node s e else st) = st1
    by_cases h1 : s > r ∨ e < l
    · rw [if_pos h1, if_pos h1]; exact ⟨0, Nat.zero_le _, rfl⟩
    · rw [if_neg h1, if_neg h1]
      by_cases h2 : s ≥ l ∧ e ≤ r
      · rw [if_pos h2, if_pos h2]
        by_cases h3 : st1.lazy_enabled = true ∧ st1.update_lazy ≠ none
        · rw [if_pos h3, if_pos h3]; exact ⟨0, Nat.zero_le _, rfl⟩
        · rw [if_neg h3, if_neg h3]; exact ⟨0, Nat.zero_le _, rfl⟩
      · rw [if_neg h2, if_neg h2]
        have hlt : s < e := by omega
        obtain ⟨j2, rfl⟩ : ∃ j2, j = j2 + 1 :=
          ⟨j - 1, by have := width_pos_exp hlt hw; omega⟩
        obtain ⟨w1, w2⟩ := halves_le hlt hw
        obtain ⟨a, ha, ea⟩ := ih st1 (2 * node) s ((s + e) / 2) j2 (by omega) w1 (by omega)
        obtain ⟨b, hb, eb⟩ :=
          ih (update_range_recursive fuel st1 (2 * node) s ((s + e) / 2) l r val)
            (2 * node + 1) ((s + e) / 2 + 1) e j2 (by omega) w2 (by omega)
        simp only [ea, eb]
        exact ⟨_, by omega, rfl⟩

theorem build_tree_fuel (arr : List Int) :
    ∀ (fuel fuel2 : Nat) (st : segment_tree_t) (node s e j : Nat), s ≤ e →
      e + 1 - s ≤ 2 ^ j → j < fuel → j < fuel2 →
      build_tree fuel st arr node s e = build_tree fuel2 st arr node s e := by
  intro fuel
  induction fuel with
  | zero => intro fuel2 st node s e j _ _ h; omega
  | succ fuel ih =>
    intro fuel2 st node s e j hse hw hj hj2
    obtain ⟨g, rfl⟩ : ∃ g, fuel2 = g + 1 := ⟨fuel2 - 1, by omega⟩
    unfold build_tree
    by_cases heq : s = e
    · rw [if_pos heq, if_pos heq]
    · rw [if_neg heq, if_neg heq]
      have hlt : s < e := by omega
      obtain ⟨j2, rfl⟩ : ∃ j2, j = j2 + 1 := ⟨j - 1, by have := width_pos_exp hlt hw; omega⟩
      obtain ⟨w1, w2⟩ := halves_le hlt hw
      simp only
      rw [ih g st (2 * node) s ((s + e) / 2) j2 (by omega) w1 (by omega) (by omega),
        ih g _ (2 * node + 1) ((s + e) / 2 + 1) e j2 (by omega) w2 (by omega) (by omega)]

theorem update_point_recursive_fuel (idx : Nat) (val : Int) :
    ∀ (fuel fuel2 : Nat) (st : segment_tree_t) (node s e j : Nat), s ≤ e →
      e + 1 - s ≤ 2 ^ j → j < fuel → j < fuel2 →
      update_point_recursive fuel st node s e idx val =
        update_point_recursive fuel2 st node s e idx val := by
  intro fuel
  induction fuel with
  | zero => intro fuel2 st node s e j _ _ h; omega
  | succ fuel ih =>
    intro fuel2 st node s e j hse hw hj hj2
    obtain ⟨g, rfl⟩ : ∃ g, fuel2 = g + 1 := ⟨fuel2 - 1, by omega⟩
    unfold update_point_recursive
    by_cases heq : s = e
    · rw [if_pos heq, if_pos heq]
    · rw [if_neg heq, if_neg heq]
      have hlt : s < e := by omega
      obtain ⟨j2, rfl⟩ : ∃ j2, j = j2 + 1 := ⟨j - 1, by have := width_pos_exp hlt hw; omega⟩
      obtain ⟨w1, w2⟩ := halves_le hlt hw
      simp only
      rw [ih g st (2 * node) s ((s + e) / 2) j2 (by omega) w1 (by omega) (by omega),
        ih g st (2 * node + 1) ((s + e) / 2 + 1) e j2 (by omega) w2 (by omega) (by omega)]

theorem query_recursive_fuel (l r : Nat) :
    ∀ (fuel fuel2 : Nat) (st : segment_tree_t) (node s e j : Nat), s ≤ e →
      e + 1 - s ≤ 2 ^ j → j < fuel → j < fuel2 →
      query_recursive fuel st node s e l r = query_recursive fuel2 st node s e l r := by
  intro fuel
  induction fuel with
  | zero => intro fuel2 st node s e j _ _ h; omega
  | succ fuel ih =>
    intro fuel2 st node s e j hse hw hj hj2
    obtain ⟨g, rfl⟩ : ∃ g, fuel2 = g + 1 := ⟨fuel2 - 1, by omega⟩
    unfold query_recursive
    by_cases h1 : r < s ∨ e < l
    · rw [if_pos h1, if_pos h1]
    · rw [if_neg h1, if_neg h1]
      simp only
      generalize (if st.lazy_enabled = true ∧ st.propagate ≠ none then
        call_propagate st node s e else st) = st1
      by_cases h2 : l ≤ s ∧ e ≤ r
      · rw [if_pos h2, if_pos h2]
      · rw [if_neg h2, if_neg h2]
        have hlt : s < e := by omega
        obtain ⟨j2, rfl⟩ : ∃ j2, j = j2 + 1 :=
          ⟨j - 1, by have := width_pos_exp hlt hw; omega⟩
        obtain ⟨w1, w2⟩ := halves_le hlt hw
        rw [ih g st1 (2 * node) s ((s + e) / 2) j2 (by omega) w1 (by omega) (by omega),
          ih g _ (2 * node + 1) ((s + e) / 2 + 1) e j2 (by omega) w2 (by omega) (by omega)]

theorem update_range_recursive_fuel (l r : Nat) (val : Int) :
    ∀ (fuel fuel2 : Nat) (st : segment_tree_t) (node s e j : Nat), s ≤ e →
      e + 1 - s ≤ 2 ^ j → j < fuel → j < fuel2 →
      update_range_recursive fuel st node s e l r val =
        update_range_recursive fuel2 st node s e l r val := by
  intro fuel
  induction fuel with
  | zero => intro fuel2 st node s e j _ _ h; omega
  | succ fuel ih =>
    intro fuel2 st node s e j hse hw hj hj2
    obtain ⟨g, rfl⟩ : ∃ g, fuel2 = g + 1 := ⟨fuel2 - 1, by omega⟩
    unfold update_range_recursive
    simp only
    generalize (if st.lazy_enabled = true ∧ st.propagate ≠ none then
      call_propagate st node s e else st) = st1
    by_cases h1 : s > r ∨ e < l
    · rw [if_pos h1, if_pos h1]
    · rw [if_neg h1, if_neg h1]
      by_cases h2 : s ≥ l ∧ e ≤ r
      · rw [if_pos h2, if_pos h2]
      · rw [if_neg h2, if_neg h2]
        have hlt : s < e := by omega
        obtain ⟨j2, rfl⟩ : ∃ j2, j = j2 + 1 :=
          ⟨j - 1, by have := width_pos_exp hlt hw; omega⟩
        obtain ⟨w1, w2⟩ := halves_le hlt hw
        rw [ih g st1 (2 * node) s ((s + e) / 2) j2 (by omega) w1 (by omega) (by omega),
          ih g _ (2 * node + 1) ((s + e) / 2 + 1) e j2 (by omega) w2 (by omega) (by omega)]

theorem smallest_exponent (n : Nat) (h1 : 1 ≤ n) :
    ∃ k : Nat, n ≤ 2 ^ k ∧ (∀ k2 : Nat, n ≤ 2 ^ k2 → k ≤ k2) ∧ k < n := by
  have hmin : ∀ k2 : Nat, n ≤ 2 ^ k2 → Nat.clog 2 n ≤ k2 := fun k2 h =>
    (Nat.le_pow_iff_clog_le (by decide)).1 h
  refine ⟨Nat.clog 2 n, Nat.le_pow_clog (by decide) n, hmin, ?_⟩
  have h2 : n ≤ 2 ^ (n - 1) := by
    have := @Nat.lt_two_pow (n - 1)
    omega
  have := hmin (n - 1) h2
  omega

/-- C30: on every call with `0 <= start <= end` the two intervals of the recursive calls
are non-empty and strictly narrower than `[start, end]`, and `build_tree`,
`update_point_recursive`, `query_recursive` and `update_range_recursive` return: run with
any budget of more than `end - start` nested activations, on every tree, node and other
argument, each recursion ends inside the budget with the result of the function. Started
on the root interval `[0, n - 1]`, `n >= 1`, each of them ends with a recursion depth of at
most `k` for every `k` with `n <= 2^k`, so a budget of `k + 1` activations gives the
result of every larger budget; the smallest such `k` is below `n`, the budget that the
public functions pass. -/
theorem recursion_depth (s e : Nat) (hse : s ≤ e) :
    (s < e → s ≤ (s + e) / 2 ∧ (s + e) / 2 - s < e - s ∧ (s + e) / 2 + 1 ≤ e ∧
      e - ((s + e) / 2 + 1) < e - s) ∧
    (∀ (fuel : Nat) (st : segment_tree_t) (node : Nat), e - s < fuel →
      (∀ arr : List Int,
        RunOk (e - s) (build_tree_run fuel st arr node s e)
          (build_tree fuel st arr node s e)) ∧
      (∀ (idx : Nat) (val : Int),
        RunOk (e - s) (update_point_run fuel st node s e idx val)
          (update_point_recursive fuel st node s e idx val)) ∧
      (∀ l r : Nat,
        RunOk (e - s) (query_run fuel st node s e l r)
          (query_recursive fuel st node s e l r)) ∧
      (∀ (l r : Nat) (val : Int),
        RunOk (e - s) (update_range_run fuel st node s e l r val)
          (update_range_recursive fuel st node s e l r val))) ∧
    (∀ n k : Nat, 1 ≤ n → n ≤ 2 ^ k → ∀ (fuel : Nat) (st : segment_tree_t), k < fuel →
      (∀ arr : List Int,
        RunOk k (build_tree_run fuel st arr 1 0 (n - 1))
          (build_tree fuel st arr 1 0 (n - 1)) ∧
        build_tree fuel st arr 1 0 (n - 1) = build_tree (k + 1) st arr 1 0 (n - 1)) ∧
      (∀ (idx : Nat) (val : Int),
        RunOk k (update_point_run fuel st 1 0 (n - 1) idx val)
          (update_point_recursive fuel st 1 0 (n - 1) idx val) ∧
        update_point_recursive fuel st 1 0 (n - 1) idx val =
          update_point_recursive (k + 1) st 1 0 (n - 1) idx val) ∧
      (∀ l r : Nat,
        RunOk k (query_run fuel st 1 0 (n - 1) l r)
          (query_recursive fuel st 1 0 (n - 1) l r) ∧
        query_recursive fuel st 1 0 (n - 1) l r =
          query_recursive (k + 1) st 1 0 (n - 1) l r) ∧
      (∀ (l r : Nat) (val : Int),
        RunOk k (update_range_run fuel st 1 0 (n - 1) l r val)
          (update_range_recursive fuel st 1 0 (n - 1) l r val) ∧
        update_range_recursive fuel st 1 0 (n - 1) l r val =
          update_range_recursive (k + 1) st 1 0 (n - 1) l r val)) ∧
    (∀ n : Nat, 1 ≤ n →
      ∃ k : Nat, n ≤ 2 ^ k ∧ (∀ k2 : Nat, n ≤ 2 ^ k2 → k ≤ k2) ∧ k < n) := by
  have hw : e + 1 - s ≤ 2 ^ (e - s) := by
    have := @Nat.lt_two_pow (e - s)
    omega
  refine ⟨fun h => by omega, ?_, ?_, smallest_exponent⟩
  · intro fuel st node hf
    exact ⟨fun arr => build_tree_run_ok arr fuel st node s e (e - s) hse hw hf,
      fun idx val => update_point_run_ok idx val fuel st node s e (e - s) hse hw hf,
      fun l r => query_run_ok l r fuel st node s e (e - s) hse hw hf,
      fun l r val => update_range_run_ok l r val fuel st node s e (e - s) hse hw hf⟩
  · intro n k h1 hk fuel st hf
    have hk2 : n - 1 + 1 - 0 ≤ 2 ^ k := by omega
    exact ⟨fun arr => ⟨build_tree_run_ok arr fuel st 1 0 (n - 1) k (Nat.zero_le _) hk2 hf,
        build_tree_fuel arr fuel (k + 1) st 1 0 (n - 1) k (Nat.zero_le _) hk2 hf
          (Nat.lt_succ_self k)⟩,
      fun idx val =>
        ⟨update_point_run_ok idx val fuel st 1 0 (n - 1) k (Nat.zero_le _) hk2 hf,
          update_point_recursive_fuel idx val fuel (k + 1) st 1 0 (n - 1) k (Nat.zero_le _)
            hk2 hf (Nat.lt_succ_self k)⟩,
      fun l r =>
        ⟨query_run_ok l r fuel st 1 0 (n - 1) k (Nat.zero_le _) hk2 hf,
          query_recursive_fuel l r fuel (k + 1) st 1 0 (n - 1) k (Nat.zero_le _) hk2 hf
            (Nat.lt_succ_self k)⟩,
      fun l r val =>
        ⟨update_range_run_ok l r val fuel st 1 0 (n - 1) k (Nat.zero_le _) hk2 hf,
          update_range_recursive_fuel l r val fuel (k + 1) st 1 0 (n - 1) k (Nat.zero_le _)
            hk2 hf (Nat.lt_succ_self k)⟩⟩

theorem recursion_depth_witness :
    RunOk (2 - 0) (query_run 3 lazy_sum_123_tagged 1 0 2 0 0)
      (query_recursive 3 lazy_sum_123_tagged 1 0 2 0 0) ∧
    RunOk 2 (build_tree_run 3 plain_sum_123 [1, 2, 3] 1 0 (3 - 1))
      (build_tree 3 plain_sum_123 [1, 2, 3] 1 0 (3 - 1)) ∧
    update_range_recursive 5 lazy_sum_123_tagged 1 0 (3 - 1) 0 1 7 =
      update_range_recursive (2 + 1) lazy_sum_123_tagged 1 0 (3 - 1) 0 1 7 :=
  ⟨((recursion_depth 0 2 (by decide)).2.1 3 lazy_sum_123_tagged 1 (by decide)).2.2.1 0 0,
   (((recursion_depth 0 2 (by decide)).2.2.1 3 2 (by decide) (by decide) 3 plain_sum_123
      (by decide)).1 [1, 2, 3]).1,
   (((recursion_depth 0 2 (by decide)).2.2.1 3 2 (by decide) (by decide) 5
      lazy_sum_123_tagged (by decide)).2.2.2 0 1 7).2⟩

/-! ## Fields outside the two buffers -/

theorem call_propagate_cfg (st : segment_tree_t) (node s e : Nat) :
    ∃ (t : List Int) (lzo : Option (List Int)),
      call_propagate st node s e = { st with tree := t, lazy := lzo } ∧
      t.length = st.tree.length ∧ lzo.map List.length = st.lazy.map List.length := by
  unfold call_propagate
  split
  · unfold propagate_sum
    split
    · exact ⟨_, _, rfl, rfl, rfl⟩
    · rename_i lz hlz
      split_ifs
      · exact ⟨_, _, rfl, by simp [length_wr], by simp [hlz, length_wr]⟩
      · exact ⟨_, _, rfl, by simp [length_wr], by simp [hlz, length_wr]⟩
      · exact ⟨_, _, rfl, rfl, rfl⟩
  · unfold propagate_min
    split
    · exact ⟨_, _, rfl, rfl, rfl⟩
    · rename_i lz hlz
      split_ifs
      · exact ⟨_, _, rfl, by simp [length_wr], by simp [hlz, length_wr]⟩
      · exact ⟨_, _, rfl, by simp [length_wr], by simp [hlz, length_wr]⟩
      · exact ⟨_, _, rfl, rfl, rfl⟩
  · unfold propagate_max
    split
    · exact ⟨_, _, rfl, rfl, rfl⟩
    · rename_i lz hlz
      split_ifs
      · exact ⟨_, _, rfl, by simp [length_wr], by simp [hlz, length_wr]⟩
      · exact ⟨_, _, rfl, by simp [length_wr], by simp [hlz, length_wr]⟩
      · exact ⟨_, _, rfl, rfl, rfl⟩
  · exact ⟨_, _, rfl, rfl, rfl⟩

theorem call_update_lazy_cfg (st : segment_tree_t) (node s e : Nat) (val : Int) :
    ∃ (t : List Int) (lzo : Option (List Int)),
      call_update_lazy st node s e val = { st with tree := t, lazy := lzo } ∧
      t.length = st.tree.length ∧ lzo.map List.length = st.lazy.map List.length := by
  unfold call_update_lazy
  split
  · unfold update_lazy_sum
    split
    · exact ⟨_, _, rfl, rfl, rfl⟩
    · rename_i lz hlz
      exact ⟨_, _, rfl, rfl, by simp [hlz, length_wr]⟩
  · unfold update_lazy_min
    split
    · exact ⟨_, _, rfl, rfl, rfl⟩
    · rename_i lz hlz
      split_ifs
      · exact ⟨_, _, rfl, by simp [length_wr], by simp [hlz, length_wr]⟩
      · exact ⟨_, _, rfl, rfl, rfl⟩
  · unfold update_lazy_max
    split
    · exact ⟨_, _, rfl, rfl, rfl⟩
    · rename_i lz hlz
      split_ifs
      · exact ⟨_, _, rfl, by simp [length_wr], by simp [hlz, length_wr]⟩
      · exact ⟨_, _, rfl, rfl, rfl⟩
  · exact ⟨_, _, rfl, rfl, rfl⟩

theorem guarded_propagate_cfg (st : segment_tree_t) (c : Prop) [Decidable c]
    (node s e : Nat) :
    ∃ (t : List Int) (lzo : Option (List Int)),
      (if c then call_propagate st node s e else st) = { st with tree := t, lazy := lzo } ∧
      t.length = st.tree.length ∧ lzo.map List.length = st.lazy.map List.length := by
  split_ifs
  · exact call_propagate_cfg st node s e
  · exact ⟨_, _, rfl, rfl, rfl⟩

theorem query_recursive_cfg (l r : Nat) :
    ∀ (fuel : Nat) (st : segment_tree_t) (node s e : Nat),
      ∃ (t : List Int) (lzo : Option (List Int)),
        (query_recursive fuel st node s e l r).1 = { st with tree := t, lazy := lzo } ∧
        t.length = st.tree.length ∧ lzo.map List.length = st.lazy.map List.length := by
  intro fuel
  induction fuel with
  | zero => intro st node s e; exact ⟨_, _, rfl, rfl, rfl⟩
  | succ fuel ih =>
    intro st node s e
    unfold query_recursive
    by_cases h1 : r < s ∨ e < l
    · rw [if_pos h1]; exact ⟨_, _, rfl, rfl, rfl⟩
    · rw [if_neg h1]
      obtain ⟨t1, l1, e1, a1, b1⟩ :=
        guarded_propagate_cfg st (st.lazy_enabled = true ∧ st.propagate ≠ none) node s e
      simp only
      rw [e1]
      by_cases h2 : l ≤ s ∧ e ≤ r
      · rw [if_pos h2]; exact ⟨_, _, rfl, a1, b1⟩
      · rw [if_neg h2]
        obtain ⟨t2, l2, e2, a2, b2⟩ := ih { st with tree := t1, lazy := l1 } (2 * node) s
          ((s + e) / 2)
        obtain ⟨t3, l3, e3, a3, b3⟩ := ih
          (query_recursive fuel { st with tree := t1, lazy := l1 } (2 * node) s
            ((s + e) / 2) l r).1 (2 * node + 1) ((s + e) / 2 + 1) e
        have e3b : (query_recursive fuel
            (query_recursive fuel { st with tree := t1, lazy := l1 } (2 * node) s
              ((s + e) / 2) l r).1 (2 * node + 1) ((s + e) / 2 + 1) e l r).1 =
            { st with tree := t3, lazy := l3 } := by rw [e3, e2]
        have a3b : t3.length = t2.length := by rw [a3, e2]
        have b3b : l3.map List.length = l2.map List.length := by rw [b3, e2]
        exact ⟨t3, l3, e3b, a3b.trans (a2.trans a1), b3b.trans (b2.trans b1)⟩

theorem update_point_recursive_cfg (idx : Nat) (val : Int) :
    ∀ (fuel : Nat) (st : segment_tree_t) (node s e : Nat),
      ∃ t : List Int,
        update_point_recursive fuel st node s e idx val = { st with tree := t } ∧
        t.length = st.tree.length := by
  intro fuel
  induction fuel with
  | zero => intro st node s e; exact ⟨_, rfl, rfl⟩
  | succ fuel ih =>
    intro st node s e
    unfold update_point_recursive
    by_cases h1 : s = e
    · rw [if_pos h1]; exact ⟨_, rfl, length_wr _ _ _⟩
    · rw [if_neg h1]
      have hc : ∃ t : List Int,
          (if idx ≤ (s + e) / 2 then
            update_point_recursive fuel st (2 * node) s ((s + e) / 2) idx val
          else update_point_recursive fuel st (2 * node + 1) ((s + e) / 2 + 1) e idx val) =
            { st with tree := t } ∧ t.length = st.tree.length := by
        split_ifs
        · exact ih st _ _ _
        · exact ih st _ _ _
      obtain ⟨t1, e1, a1⟩ := hc
      simp only
      rw [e1]
      exact ⟨_, rfl, (length_wr _ _ _).trans a1⟩

theorem update_range_recursive_cfg (l r : Nat) (val : Int) :
    ∀ (fuel : Nat) (st : segment_tree_t) (node s e : Nat),
      ∃ (t : List Int) (lzo : Option (List Int)),
        update_range_recursive fuel st node s e l r val = { st with tree := t, lazy := lzo } ∧
        t.length = st.tree.length ∧ lzo.map List.length = st.lazy.map List.length := by
  intro fuel
  induction fuel with
  | zero => intro st node s e; exact ⟨_, _, rfl, rfl, rfl⟩
  | succ fuel ih =>
    intro st node s e
    unfold update_range_recursive
    obtain ⟨t1, l1, e1, a1, b1⟩ :=
      guarded_propagate_cfg st (st.lazy_enabled = true ∧ st.propagate ≠ none) node s e
    simp only
    rw [e1]
    by_cases h1 : s > r ∨ e < l
    · rw [if_pos h1]; exact ⟨_, _, rfl, a1, b1⟩
    · rw [if_neg h1]
      by_cases h2 : s ≥ l ∧ e ≤ r
      · rw [if_pos h2]
        split_ifs
        · obtain ⟨t2, l2, e2, a2, b2⟩ :=
            call_update_lazy_cfg { st with tree := t1, lazy := l1 } node s e val
          rw [e2]
          exact ⟨_, _, rfl, a2.trans a1, b2.trans b1⟩
        · exact ⟨_, _, rfl, (length_wr _ _ _).trans a1, b1⟩
      · rw [if_neg h2]
        obtain ⟨t2, l2, e2, a2, b2⟩ := ih { st with tree := t1, lazy := l1 } (2 * node) s
          ((s + e) / 2)
        rw [e2]
        obtain ⟨t3, l3, e3, a3, b3⟩ := ih { st with tree := t2, lazy := l2 } (2 * node + 1)
          ((s + e) / 2 + 1) e
        rw [e3]
        obtain ⟨t4, l4, e4, a4, b4⟩ :=
          call_propagate_cfg { st with tree := t3, lazy := l3 } (2 * node) s ((s + e) / 2)
        obtain ⟨t5, l5, e5, a5, b5⟩ :=
          call_propagate_cfg { st with tree := t4, lazy := l4 } (2 * node + 1)
            ((s + e) / 2 + 1) e
        split_ifs
        · rw [e4, e5]
          exact ⟨_, _, rfl,
            (length_wr _ _ _).trans (a5.trans (a4.trans (a3.trans (a2.trans a1)))),
            b5.trans (b4.trans (b3.trans (b2.trans b1)))⟩
        · exact ⟨_, _, rfl, (length_wr _ _ _).trans (a3.trans (a2.trans a1)),
            b3.trans (b2.trans b1)⟩

/-! ## Statistics counters -/

theorem call_propagate_stats (st : segment_tree_t) (c : segtree_stats_t) (node s e : Nat) :
    call_propagate { st with stats := c } node s e =
      { call_propagate st node s e with stats := c } := by
  unfold call_propagate
  simp only
  split
  · unfold propagate_sum
    simp only
    split
    · rfl
    · split_ifs <;> rfl
  · unfold propagate_min
    simp only
    split
    · rfl
    · split_ifs <;> rfl
  · unfold propagate_max
    simp only
    split
    · rfl
    · split_ifs <;> rfl
  · rfl

theorem query_recursive_stats (c : segtree_stats_t) (l r : Nat) :
    ∀ (fuel : Nat) (st : segment_tree_t) (node s e : Nat),
      query_recursive fuel { st with stats := c } node s e l r =
        ({ (query_recursive fuel st node s e l r).1 with stats := c },
          (query_recursive fuel st node s e l r).2) := by
  intro fuel
  induction fuel with
  | zero => intro st node s e; rfl
  | succ fuel ih =>
    intro st node s e
    unfold query_recursive
    by_cases h1 : r < s ∨ e < l
    · rw [if_pos h1, if_pos h1]
    · rw [if_neg h1, if_neg h1]
      have hp : (if ({ st with stats := c } : segment_tree_t).lazy_enabled = true ∧
            ({ st with stats := c } : segment_tree_t).propagate ≠ none then
            call_propagate { st with stats := c } node s e else { st with stats := c }) =
          { (if st.lazy_enabled = true ∧ st.propagate ≠ none then call_propagate st node s e
              else st) with stats := c } := by
        split_ifs
        · exact call_propagate_stats st c node s e
        · rfl
      simp only [hp]
      by_cases h2 : l ≤ s ∧ e ≤ r
      · rw [if_pos h2, if_pos h2]
      · rw [if_neg h2, if_neg h2]
        simp only [ih]

/-- C29: a `segtree_query` that returns `SEGTREE_OK` leaves a tree whose `query_count` is
the old one plus one (in 32-bit arithmetic; exactly plus one whenever that is
representable) and whose `update_count` is unchanged; a `segtree_update_point` or
`segtree_update_range` that returns `SEGTREE_OK` does the same to `update_count` and
leaves `query_count` unchanged; and replacing the counters of a tree by any other values
changes neither the error code, nor the value stored in the result slot, nor the buffers
left by a query. -/
theorem stats_counters (st : segment_tree_t) (c : segtree_stats_t)
    (left right index value old : Int) :
    ((segtree_query (some st) left right (some old)).1 = SEGTREE_OK →
      ∃ st2 : segment_tree_t,
        (segtree_query (some st) left right (some old)).2.1 = some st2 ∧
        st2.stats.query_count = wrap32 (st.stats.query_count + 1) ∧
        (is_int32 (st.stats.query_count + 1) →
          st2.stats.query_count = st.stats.query_count + 1) ∧
        st2.stats.update_count = st.stats.update_count) ∧
    ((segtree_update_point (some st) index value).1 = SEGTREE_OK →
      ∃ st2 : segment_tree_t,
        (segtree_update_point (some st) index value).2 = some st2 ∧
        st2.stats.update_count = wrap32 (st.stats.update_count + 1) ∧
        (is_int32 (st.stats.update_count + 1) →
          st2.stats.update_count = st.stats.update_count + 1) ∧
        st2.stats.query_count = st.stats.query_count) ∧
    ((segtree_update_range (some st) left right value).1 = SEGTREE_OK →
      ∃ st2 : segment_tree_t,
        (segtree_update_range (some st) left right value).2 = some st2 ∧
        st2.stats.update_count = wrap32 (st.stats.update_count + 1) ∧
        (is_int32 (st.stats.update_count + 1) →
          st2.stats.update_count = st.stats.update_count + 1) ∧
        st2.stats.query_count = st.stats.query_count) ∧
    (segtree_query (some { st with stats := c }) left right (some old)).1 =
      (segtree_query (some st) left right (some old)).1 ∧
    (segtree_query (some { st with stats := c }) left right (some old)).2.2 =
      (segtree_query (some st) left right (some old)).2.2 ∧
    ((segtree_query (some { st with stats := c }) left right (some old)).2.1).map
        (fun x => (x.tree, x.lazy)) =
      ((segtree_query (some st) left right (some old)).2.1).map
        (fun x => (x.tree, x.lazy)) := by
  refine ⟨?_, ?_, ?_, ?_⟩
  · unfold segtree_query
    simp only
    split_ifs with hg
    · intro h; simp at h
    · intro _
      obtain ⟨t, lzo, e1, _, _⟩ :=
        query_recursive_cfg left.toNat right.toNat st.size st 1 0 (st.size - 1)
      rw [e1]
      exact ⟨_, rfl, rfl, fun h => wrap32_of_is_int32 h, rfl⟩
  · unfold segtree_update_point
    simp only
    split_ifs with hg
    · intro h; simp at h
    · intro _
      obtain ⟨t, e1, _⟩ :=
        update_point_recursive_cfg index.toNat value st.size st 1 0 (st.size - 1)
      rw [e1]
      exact ⟨_, rfl, rfl, fun h => wrap32_of_is_int32 h, rfl⟩
  · unfold segtree_update_range
    simp only
    split_ifs with hg hg2
    · intro h; simp at h
    · intro h; simp at h
    · intro _
      obtain ⟨t, lzo, e1, _, _⟩ :=
        update_range_recursive_cfg left.toNat right.toNat value st.size st 1 0 (st.size - 1)
      rw [e1]
      exact ⟨_, rfl, rfl, fun h => wrap32_of_is_int32 h, rfl⟩
  · unfold segtree_query
    simp only
    split_ifs with hg
    · exact ⟨rfl, rfl, rfl⟩
    · rw [query_recursive_stats]
      exact ⟨rfl, rfl, rfl⟩

theorem stats_counters_witness :
    ∃ st2 : segment_tree_t,
      (segtree_query (some lazy_sum_123) 0 1 (some 0)).2.1 = some st2 ∧
      st2.stats.query_count = wrap32 (lazy_sum_123.stats.query_count + 1) ∧
      (is_int32 (lazy_sum_123.stats.query_count + 1) →
        st2.stats.query_count = lazy_sum_123.stats.query_count + 1) ∧
      st2.stats.update_count = lazy_sum_123.stats.update_count :=
  (stats_counters lazy_sum_123 { query_count := 7, update_count := 9 } 0 1 0 0 0).1
    (by decide)

/-! ## Tags resolved by a query -/

theorem call_propagate_frame {k : lazy_fn} {st : segment_tree_t} {lz : List Int}
    (hwf : LazyWF k st lz) {node : Nat} (s e : Nat) (hn : 1 ≤ node) (hb : node < lz.length) :
    ∃ t2 lz2 : List Int, call_propagate st node s e = with_bufs st t2 lz2 ∧
      t2.length = st.tree.length ∧ lz2.length = lz.length ∧
      rd lz2 node = lz_identity k ∧
      (∀ i, ¬ inSub node i → rd t2 i = rd st.tree i) ∧
      (∀ i, ¬ inSub node i → rd lz2 i = rd lz i) ∧
      (rd lz node = lz_identity k → t2 = st.tree ∧ lz2 = lz) := by
  obtain ⟨_, hp, _, _, _, hlz, _⟩ := hwf
  rw [call_propagate_eq hp hlz node s e hn]
  by_cases h0 : rd lz node = lz_identity k
  · rw [if_pos h0]
    exact ⟨st.tree, lz, (with_bufs_self st lz hlz).symm, rfl, rfl, h0, fun _ _ => rfl,
      fun _ _ => rfl, fun _ => ⟨rfl, rfl⟩⟩
  · rw [if_neg h0]
    refine ⟨_, _, rfl, length_wr _ _ _, ?_, ?_, ?_, ?_, fun h => absurd h h0⟩
    · rw [length_wr]
      split_ifs
      · rw [length_wr, length_wr]
      · rfl
    · apply rd_wr_same
      split_ifs
      · rw [length_wr, length_wr]; exact hb
      · exact hb
    · intro i hi
      exact rd_wr_ne _ (ne_of_not_inSub hi)
    · intro i hi
      have h1 : node ≠ i := ne_of_not_inSub hi
      have h2 : 2 * node ≠ i := fun c => hi (inSub_left (c ▸ inSub_self (2 * node)))
      have h3 : 2 * node + 1 ≠ i := fun c => hi (inSub_right (c ▸ inSub_self (2 * node + 1)))
      rw [rd_wr_ne _ h1]
      split_ifs
      · rw [rd_wr_ne _ h3, rd_wr_ne _ h2]
      · rfl

theorem query_recursive_resolves (k : lazy_fn) (l r : Nat) :
    ∀ (fuel : Nat) (st : segment_tree_t) (lz : List Int) (node s e : Nat), e - s < fuel →
      s ≤ e → 1 ≤ node → LazyWF k st lz → InB node s e lz.length →
      ∃ (V : List (Nat × Nat × Nat)) (t2 lz2 : List Int),
        query_visits fuel node s e l r = some V ∧
        (query_recursive fuel st node s e l r).1 = with_bufs st t2 lz2 ∧
        t2.length = st.tree.length ∧ lz2.length = lz.length ∧
        (∀ i, ¬ inSub node i → rd lz2 i = rd lz i) ∧
        (∀ v ∈ V, inSub node v.1 ∧
          (¬ (r < v.2.1 ∨ v.2.2 < l) → rd lz2 v.1 = lz_identity k)) := by
  intro fuel
  induction fuel with
  | zero => intro st lz node s e h; omega
  | succ fuel ih =>
    intro st lz node s e hf hse hn hwf hb
    have hwf0 := hwf
    obtain ⟨hle, hp, _, _, _, hlz, hlen⟩ := hwf
    unfold query_recursive query_visits
    by_cases h1 : r < s ∨ e < l
    · rw [if_pos h1, if_pos h1]
      refine ⟨_, st.tree, lz, rfl, (with_bufs_self st lz hlz).symm, rfl, rfl, fun _ _ => rfl, ?_⟩
      intro v hv
      rw [List.mem_singleton.1 hv]
      exact ⟨inSub_self node, fun hc => absurd h1 hc⟩
    · rw [if_neg h1, if_neg h1]
      obtain ⟨t1, lz1, e1, a1, b1, c1, _, f1, _⟩ :=
        call_propagate_frame hwf0 s e hn (InB_lt hb)
      have hg : (if st.lazy_enabled = true ∧ st.propagate ≠ none then
          call_propagate st node s e else st) = with_bufs st t1 lz1 := by
        rw [if_pos ⟨hle, by simp [hp]⟩, e1]
      simp only [hg]
      by_cases h2 : l ≤ s ∧ e ≤ r
      · rw [if_pos h2, if_pos h2]
        refine ⟨_, t1, lz1, rfl, rfl, a1, b1, f1, ?_⟩
        intro v hv
        rw [List.mem_singleton.1 hv]
        exact ⟨inSub_self node, fun _ => c1⟩
      · rw [if_neg h2, if_neg h2]
        have hlt : s < e := by omega
        have hwf1 : LazyWF k (with_bufs st t1 lz1) lz1 :=
          LazyWF_with_bufs hwf0 t1 lz1 (by rw [a1, b1, hlen])
        have hb1 : InB node s e lz1.length := by rw [b1]; exact hb
        obtain ⟨Va, ta, lza, va, ea, aa, ba, fa, pa⟩ := ih (with_bufs st t1 lz1) lz1 (2 * node)
          s ((s + e) / 2) (by omega) (by omega) (by omega) hwf1 (InB_left hlt hb1)
        rw [ea, with_bufs_with_bufs]
        have hwf2 : LazyWF k (with_bufs st ta lza) lza :=
          LazyWF_with_bufs hwf0 ta lza (by
            rw [aa, ba]
            show lz1.length = t1.length
            rw [a1, b1, hlen])
        have hb2 : InB node s e lza.length := by rw [ba]; exact hb1
        obtain ⟨Vb, tb, lzb, vb, eb, ab, bb, fb, pb⟩ := ih (with_bufs st ta lza) lza
          (2 * node + 1) ((s + e) / 2 + 1) e (by omega) (by omega) (by omega) hwf2
          (InB_right hlt hb2)
        simp only [va, vb]
        refine ⟨_, tb, lzb, rfl, ?_, ?_, ?_, ?_, ?_⟩
        · show (query_recursive fuel (with_bufs st ta lza) (2 * node + 1) ((s + e) / 2 + 1) e
            l r).1 = _
          rw [eb, with_bufs_with_bufs]
        · rw [ab]; show ta.length = _; rw [aa]; exact a1
        · rw [bb, ba, b1]
        · intro i hi
          rw [fb i (fun c => hi (inSub_right c)), fa i (fun c => hi (inSub_left c)), f1 i hi]
        · intro v hv
          rcases List.mem_cons.1 hv with hv | hv
          · rw [hv]
            refine ⟨inSub_self node, fun _ => ?_⟩
            show rd lzb node = _
            rw [fb node (fun c => inSub_right_ne c rfl),
              fa node (fun c => inSub_left_ne hn c rfl), c1]
          · rcases List.mem_append.1 hv with hv | hv
            · obtain ⟨q1, q2⟩ := pa v hv
              refine ⟨inSub_left q1, fun hc => ?_⟩
              rw [fb v.1 (fun c => inSub_disjoint hn q1 c), q2 hc]
            · obtain ⟨q1, q2⟩ := pb v hv
              exact ⟨inSub_right q1, q2⟩

/-- C23 as stated fails: on the lazy SUM tree over `{1, 2}` after
`segtree_update_range (0, 1, 5)`, the descent of `segtree_query (0, 0)` visits the nodes
1, 2 and 3; node 3 covers `[1, 1]`, outside `[0, 0]`, and when the query returns its lazy
slot holds 5, not the identity 0. -/
theorem query_visited_tag_counterexample :
    query_visits 2 1 0 1 0 0 = some [(1, 0, 1), (2, 0, 0), (3, 1, 1)] ∧
    (segtree_query
      (segtree_update_range (segtree_create_lazy (some [1, 2]) 2 SEGTREE_SUM) 0 1 5).2
      0 0 (some 0)).1 = SEGTREE_OK ∧
    ((segtree_query
      (segtree_update_range (segtree_create_lazy (some [1, 2]) 2 SEGTREE_SUM) 0 1 5).2
      0 0 (some 0)).2.1).map (fun st => (st.size, st.identity, st.lazy.map (fun lz => rd lz 3))) =
      some (2, 0, some 5) := by
  decide

/-- C23 (amended): on a lazy tree (`lazy_enabled`, rule `k` installed, `lazy[]` as long
as `tree[]` and large enough for the recursion over `[0, size - 1]`), a valid
`segtree_query (l, r)` returns `SEGTREE_OK`, and when it returns every node that its
descent visited and whose interval intersects `[l, r]` has its lazy slot equal to the
identity; visited nodes whose interval lies entirely outside `[l, r]` are left without
propagation. -/
theorem query_resolves_visited_tags (k : lazy_fn) (st : segment_tree_t) (lz : List Int)
    (hwf : LazyWF k st lz) (hs : 1 ≤ st.size) (hb : InB 1 0 (st.size - 1) lz.length)
    (l r old : Int) (h0 : 0 ≤ l) (hlr : l ≤ r) (hr : r < st.size) :
    ∃ (V : List (Nat × Nat × Nat)) (st2 : segment_tree_t) (lz2 : List Int),
      query_visits st.size 1 0 (st.size - 1) l.toNat r.toNat = some V ∧
      (segtree_query (some st) l r (some old)).1 = SEGTREE_OK ∧
      (segtree_query (some st) l r (some old)).2.1 = some st2 ∧
      st2.lazy = some lz2 ∧ st2.identity = st.identity ∧
      ∀ v ∈ V, ¬ (r.toNat < v.2.1 ∨ v.2.2 < l.toNat) → rd lz2 v.1 = st2.identity := by
  obtain ⟨V, t2, lz2, hv, e, _, _, _, p⟩ :=
    query_recursive_resolves k l.toNat r.toNat st.size st lz 1 0 (st.size - 1) (by omega)
      (Nat.zero_le _) (le_refl _) hwf hb
  have hid : st.identity = lz_identity k := hwf.2.2.2.2.1
  unfold segtree_query
  simp only
  rw [if_neg (by omega), e]
  refine ⟨V, _, lz2, hv, rfl, rfl, rfl, rfl, ?_⟩
  intro v hvm hc
  show rd lz2 v.1 = st.identity
  rw [hid]
  exact (p v hvm).2 hc

theorem query_resolves_visited_tags_witness :
    ((segtree_update_range (segtree_create_lazy (some [1, 2, 3]) 3 SEGTREE_SUM) 0 2 5).2).map
        (fun st => (st.tree, st.lazy, st.size, st.tree_size, st.stats)) =
      some (lazy_sum_123_tagged.tree, lazy_sum_123_tagged.lazy, lazy_sum_123_tagged.size,
        lazy_sum_123_tagged.tree_size, lazy_sum_123_tagged.stats) ∧
    lazy_sum_123_tagged.lazy = some [0, 5, 0, 0, 0, 0, 0, 0] ∧
    ((segtree_query (some lazy_sum_123_tagged) 0 0 (some 0)).2.1).map (fun st => st.lazy) =
      some (some [0, 0, 0, 5, 0, 5, 0, 0]) ∧
    ∃ (V : List (Nat × Nat × Nat)) (st2 : segment_tree_t) (lz2 : List Int),
      query_visits lazy_sum_123_tagged.size 1 0 (lazy_sum_123_tagged.size - 1)
        (0 : Int).toNat (0 : Int).toNat = some V ∧
      (segtree_query (some lazy_sum_123_tagged) 0 0 (some 0)).1 = SEGTREE_OK ∧
      (segtree_query (some lazy_sum_123_tagged) 0 0 (some 0)).2.1 = some st2 ∧
      st2.lazy = some lz2 ∧ st2.identity = lazy_sum_123_tagged.identity ∧
      ∀ v ∈ V, ¬ ((0 : Int).toNat < v.2.1 ∨ v.2.2 < (0 : Int).toNat) →
        rd lz2 v.1 = st2.identity :=
  ⟨by decide, rfl, by decide,
   query_resolves_visited_tags lazy_fn.sum lazy_sum_123_tagged [0, 5, 0, 0, 0, 0, 0, 0]
    ⟨rfl, rfl, rfl, rfl, rfl, rfl, rfl⟩ (by decide) ⟨2, by decide, by decide⟩ 0 0 0
    (by decide) (by decide) (by decide)⟩

/-! ## Tags on leaves -/

theorem Covers_InB {node s e i a b ts : Nat} (h : Covers node s e i a b) :
    1 ≤ node → s ≤ e → InB node s e ts → 1 ≤ i ∧ a ≤ b ∧ InB i a b ts ∧ inSub node i := by
  induction h with
  | here node s e => intro hn hse hb; exact ⟨hn, hse, hb, inSub_self node⟩
  | left node s e i a b hlt _ ih =>
    intro hn hse hb
    obtain ⟨p1, p2, p3, p4⟩ := ih (by omega) (by omega) (InB_left hlt hb)
    exact ⟨p1, p2, p3, inSub_left p4⟩
  | right node s e i a b hlt _ ih =>
    intro hn hse hb
    obtain ⟨p1, p2, p3, p4⟩ := ih (by omega) (by omega) (InB_right hlt hb)
    exact ⟨p1, p2, p3, inSub_right p4⟩

theorem segtree_create_lazy_wf (S : List Int) (n : Int) (op : segtree_operation_t)
    (h1 : 1 ≤ n) (h2 : n ≤ SEGTREE_MAX_SIZE) :
    ∃ st : segment_tree_t, segtree_create_lazy (some S) n op = some st ∧
      LazyClean (op_rule op) st ∧ st.size = n.toNat ∧ st.tree_size = st.tree.length := by
  obtain ⟨st, hc, ⟨_, hs, hb, _⟩, hsz, hcomb, _, hlen⟩ := segtree_create_plain S n op h1 h2
  obtain ⟨t, ht⟩ := segtree_create_cfg S n op st hc
  have hts : st.tree_size = (calculate_tree_size n).toNat := by
    rw [ht]; cases op <;> rfl
  have hcomb2 : st.combine = lz_combine (op_rule op) := by rw [hcomb]; cases op <;> rfl
  have hid : st.identity = lz_identity (op_rule op) := by rw [ht]; cases op <;> rfl
  have hp : st.propagate = some (op_rule op) := by rw [ht]; cases op <;> rfl
  have hu : st.update_lazy = some (op_rule op) := by rw [ht]; cases op <;> rfl
  unfold segtree_create_lazy
  rw [hc]
  refine ⟨_, rfl, ⟨fill st.tree_size (List.replicate st.tree_size 0) st.identity,
    ⟨rfl, hp, hu, hcomb2, hid, rfl, ?_⟩, hs, ?_, ?_⟩, hsz, ?_⟩
  · rw [length_fill, List.length_replicate, hts, hlen]
  · rw [length_fill, List.length_replicate, hts, ← hlen]; exact hb
  · intro i hi
    rw [length_fill, List.length_replicate] at hi
    rw [rd_fill _ _ _ _ (by rw [List.length_replicate]), if_pos hi, hid]
  · show st.tree_size = st.tree.length
    rw [hts, hlen]

theorem query_recursive_clean (k : lazy_fn) (l r : Nat) :
    ∀ (fuel : Nat) (st : segment_tree_t) (lz : List Int) (node s e : Nat),
      s ≤ e → 1 ≤ node → LazyWF k st lz → InB node s e lz.length →
      (∀ i : Nat, i < lz.length → rd lz i = lz_identity k) →
      (query_recursive fuel st node s e l r).1 = st := by
  intro fuel
  induction fuel with
  | zero => intro st lz node s e _ _ _ _ _; rfl
  | succ fuel ih =>
    intro st lz node s e hse hn hwf hb hc
    unfold query_recursive
    by_cases h1 : r < s ∨ e < l
    · rw [if_pos h1]
    · rw [if_neg h1]
      obtain ⟨t1, lz1, e1, _, _, _, _, _, g1⟩ := call_propagate_frame hwf s e hn (InB_lt hb)
      obtain ⟨g2, g3⟩ := g1 (hc node (InB_lt hb))
      have hg : (if st.lazy_enabled = true ∧ st.propagate ≠ none then
          call_propagate st node s e else st) = st := by
        rw [ite_eq_right_iff]
        intro _
        rw [e1, g2, g3]
        exact with_bufs_self st lz hwf.2.2.2.2.2.1
      simp only [hg]
      by_cases h2 : l ≤ s ∧ e ≤ r
      · rw [if_pos h2]
      · rw [if_neg h2]
        have hlt : s < e := by omega
        have ha := ih st lz (2 * node) s ((s + e) / 2) (by omega) (by omega) hwf
          (InB_left hlt hb) hc
        simp only [ha]
        exact ih st lz (2 * node + 1) ((s + e) / 2 + 1) e (by omega) (by omega) hwf
          (InB_right hlt hb) hc

theorem LazyClean_stats {k : lazy_fn} {st : segment_tree_t} (h : LazyClean k st)
    (c : segtree_stats_t) : LazyClean k { st with stats := c } := h

theorem LazyClean_step {k : lazy_fn} {st : segment_tree_t} (h : LazyClean k st)
    (c : point_call) :
    ∃ st2 : segment_tree_t,
      (match c with
        | point_call.query l r => (segtree_query (some st) l r (some 0)).2.1
        | point_call.update_point i v => (segtree_update_point (some st) i v).2) = some st2 ∧
      LazyClean k st2 := by
  cases c with
  | query l r =>
    show ∃ st2 : segment_tree_t,
      (segtree_query (some st) l r (some 0)).2.1 = some st2 ∧ LazyClean k st2
    unfold segtree_query
    simp only
    split_ifs with hg
    · exact ⟨st, rfl, h⟩
    · obtain ⟨lz, hwf, hs, hb, hc⟩ := h
      rw [query_recursive_clean k _ _ _ st lz 1 0 (st.size - 1) (Nat.zero_le _) (le_refl _)
        hwf hb hc]
      exact ⟨_, rfl, LazyClean_stats ⟨lz, hwf, hs, hb, hc⟩ _⟩
  | update_point i v =>
    show ∃ st2 : segment_tree_t,
      (segtree_update_point (some st) i v).2 = some st2 ∧ LazyClean k st2
    unfold segtree_update_point
    simp only
    split_ifs with hg
    · exact ⟨st, rfl, h⟩
    · obtain ⟨lz, ⟨w1, w2, w3, w4, w5, w6, w7⟩, hs, hb, hc⟩ := h
      obtain ⟨t, e1, a1⟩ :=
        update_point_recursive_cfg i.toNat v st.size st 1 0 (st.size - 1)
      rw [e1]
      exact ⟨_, rfl, lz, ⟨w1, w2, w3, w4, w5, w6, w7.trans a1.symm⟩, hs, hb, hc⟩

theorem LazyClean_calls (k : lazy_fn) (cs : List point_call) :
    ∀ st : segment_tree_t, LazyClean k st →
      ∃ st2 : segment_tree_t, point_calls (some st) cs = some st2 ∧ LazyClean k st2 := by
  induction cs with
  | nil => intro st h; exact ⟨st, rfl, h⟩
  | cons c cs ih =>
    intro st h
    obtain ⟨st1, e1, h1⟩ := LazyClean_step h c
    obtain ⟨st2, e2, h2⟩ := ih st1 h1
    refine ⟨st2, ?_, h2⟩
    unfold point_calls at e2 ⊢
    rw [List.foldl_cons, e1]
    exact e2

/-- C24 as stated fails: on the lazy SUM tree over `{1, 1, 1, 1}` one successful
`segtree_update_range (0, 1, 5)` leaves the tag 5 pending on node 4, the leaf of element
0 (and on node 5): `lazy[4] == 5`, not the identity 0. -/
theorem leaf_tag_counterexample :
    Covers 1 0 (4 - 1) 4 0 0 ∧
    (segtree_update_range (segtree_create_lazy (some [1, 1, 1, 1]) 4 SEGTREE_SUM) 0 1 5).1 =
      SEGTREE_OK ∧
    ((segtree_update_range (segtree_create_lazy (some [1, 1, 1, 1]) 4 SEGTREE_SUM)
      0 1 5).2).map (fun st => (st.size, st.identity, st.lazy.map (fun lz => rd lz 4))) =
      some (4, 0, some 5) :=
  ⟨Covers.left 1 0 3 4 0 0 (by decide)
      (Covers.left 2 0 1 4 0 0 (by decide) (Covers.here 4 0 0)),
    by decide, by decide⟩

/-- C24 (amended): in every state of a lazy tree reached from `segtree_create_lazy`
(`1 <= n <= SEGTREE_MAX_SIZE`) by `segtree_query` and `segtree_update_point` calls, without
any `segtree_update_range`, no leaf carries a pending tag: for every leaf node of the
recursion tree over `[0, size - 1]`, `lazy[leaf] == identity`. -/
theorem leaf_tags_without_range_update (S : List Int) (n : Int) (op : segtree_operation_t)
    (cs : List point_call) (h1 : 1 ≤ n) (h2 : n ≤ SEGTREE_MAX_SIZE) :
    ∃ (st : segment_tree_t) (lz : List Int),
      point_calls (segtree_create_lazy (some S) n op) cs = some st ∧
      st.lazy_enabled = true ∧ st.lazy = some lz ∧
      ∀ i a : Nat, Covers 1 0 (st.size - 1) i a a → rd lz i = st.identity := by
  obtain ⟨st0, e0, hc0, _, _⟩ := segtree_create_lazy_wf S n op h1 h2
  obtain ⟨st, e, lz, hwf, hs, hb, hc⟩ := LazyClean_calls (op_rule op) cs st0 hc0
  rw [e0]
  refine ⟨st, lz, e, hwf.1, hwf.2.2.2.2.2.1, ?_⟩
  intro i a hi
  obtain ⟨_, _, hbi, _⟩ := Covers_InB hi (le_refl _) (Nat.zero_le _) hb
  rw [hwf.2.2.2.2.1]
  exact hc i (InB_lt hbi)

theorem leaf_tags_without_range_update_witness :
    ∃ (st : segment_tree_t) (lz : List Int),
      point_calls (segtree_create_lazy (some [3, 1, 4, 1, 5]) 5 SEGTREE_MIN)
        [point_call.query 1 3, point_call.update_point 2 9, point_call.query 0 4] = some st ∧
      st.lazy_enabled = true ∧ st.lazy = some lz ∧
      ∀ i a : Nat, Covers 1 0 (st.size - 1) i a a → rd lz i = st.identity :=
  leaf_tags_without_range_update [3, 1, 4, 1, 5] 5 SEGTREE_MIN
    [point_call.query 1 3, point_call.update_point 2 9, point_call.query 0 4]
    (by decide) (by decide)

/-! ## Validation of lazy SUM trees -/

theorem with_bufs_inj {st : segment_tree_t} {t lz t2 lz2 : List Int}
    (h : with_bufs st t lz = with_bufs st t2 lz2) : t = t2 ∧ lz = lz2 := by
  have h1 : (with_bufs st t lz).tree = (with_bufs st t2 lz2).tree := by rw [h]
  have h2 : (with_bufs st t lz).lazy = (with_bufs st t2 lz2).lazy := by rw [h]
  exact ⟨h1, Option.some.inj h2⟩

theorem call_propagate_keeps {k : lazy_fn} {st : segment_tree_t} {lz : List Int}
    {M : Nat → Int} {node s e : Nat} {acc : Int} (hwf : LazyWF k st lz) (hn : 1 ≤ node)
    (hb : InB node s e st.tree.length) (h : LazyInv k st.tree lz M node s e acc) :
    ∃ t2 lz2 : List Int, call_propagate st node s e = with_bufs st t2 lz2 ∧
      t2.length = st.tree.length ∧ lz2.length = lz.length ∧
      rd lz2 node = lz_identity k ∧
      (∀ i, ¬ inSub node i → rd t2 i = rd st.tree i) ∧
      (∀ i, ¬ inSub node i → rd lz2 i = rd lz i) ∧
      LazyInv k t2 lz2 M node s e acc ∧
      node_value k t2 lz2 node s e = node_value k st.tree lz node s e ∧
      rd t2 node = node_value k st.tree lz node s e := by
  obtain ⟨t2, lz2, e1, a1, b1, c1, f1, g1, L1⟩ := call_propagate_spec hwf hn hb h
  refine ⟨t2, lz2, e1, a1, b1, c1, f1, g1, L1, ?_⟩
  have hst := LazyInv_stored h
  have hlz := hwf.2.2.2.2.2.1
  have e2 := call_propagate_eq hwf.2.1 hlz node s e hn
  rw [e1] at e2
  by_cases h0 : rd lz node = lz_identity k
  · rw [if_pos h0, ← with_bufs_self st lz hlz] at e2
    obtain ⟨r1, r2⟩ := with_bufs_inj e2
    rw [r1, r2]
    refine ⟨rfl, ?_⟩
    unfold node_value
    rw [h0, tag_apply_id k _ _ hst]
  · rw [if_neg h0] at e2
    obtain ⟨r1, r2⟩ := with_bufs_inj e2
    have hv : rd t2 node = node_value k st.tree lz node s e := by
      rw [r1]
      exact rd_wr_same _ (InB_lt hb)
    refine ⟨?_, hv⟩
    unfold node_value at hv ⊢
    rw [c1, hv, tag_apply_id k _ _ (stored_ok_apply k _ _ _ hst)]

theorem sum_node_cancel {x y c : Int} (hx : is_int32 x) (hy : is_int32 y)
    (h : wrap32 (x + c) = wrap32 (y + c)) : x = y := by
  unfold is_int32 at hx hy
  unfold wrap32 at h
  omega

theorem LazyInv_sum_node {t lz : List Int} {M : Nat → Int} {node s e : Nat} {acc : Int}
    (h : LazyInv lazy_fn.sum t lz M node s e acc) (hlt : s < e) :
    rd t node =
      combine_sum (node_value lazy_fn.sum t lz (2 * node) s ((s + e) / 2))
        (node_value lazy_fn.sum t lz (2 * node + 1) ((s + e) / 2 + 1) e) := by
  cases h with
  | leaf _ _ _ _ _ => omega
  | node _ _ _ _ _ hst heq _ _ =>
    unfold node_value at heq
    exact sum_node_cancel hst (wrap32_is_int32 _) heq

theorem validate_tree_recursive_lazy_sum (M : Nat → Int) :
    ∀ (fuel : Nat) (st : segment_tree_t) (lz : List Int) (node s e : Nat) (acc : Int),
      e - s < fuel → 1 ≤ node → LazyWF lazy_fn.sum st lz → InB node s e st.tree.length →
      st.tree_size = st.tree.length → e < st.size →
      LazyInv lazy_fn.sum st.tree lz M node s e acc →
      ∃ t2 lz2 : List Int,
        validate_tree_recursive fuel st node s e = (true, with_bufs st t2 lz2) ∧
        t2.length = st.tree.length ∧ lz2.length = lz.length ∧
        (∀ i, ¬ inSub node i → rd t2 i = rd st.tree i) ∧
        (∀ i, ¬ inSub node i → rd lz2 i = rd lz i) ∧
        rd t2 node = rd st.tree node ∧ rd lz2 node = rd lz node ∧
        LazyInv lazy_fn.sum t2 lz2 M node s e acc := by
  intro fuel
  induction fuel with
  | zero => intro st lz node s e acc h; omega
  | succ fuel ih =>
    intro st lz node s e acc hf hn hwf hb hts hes h
    have hse := LazyInv_le h
    have hlzs := hwf.2.2.2.2.2.1
    have hlen := hwf.2.2.2.2.2.2
    have hnb := InB_lt hb
    unfold validate_tree_recursive
    rw [if_neg (by omega)]
    by_cases heq : s = e
    · rw [if_pos heq]
      exact ⟨st.tree, lz, by rw [with_bufs_self st lz hlzs], rfl, rfl, fun _ _ => rfl,
        fun _ _ => rfl, rfl, rfl, h⟩
    · rw [if_neg heq]
      have hlt : s < e := by omega
      have hbl := InB_left hlt hb
      have hbr := InB_right hlt hb
      have hnl := InB_lt hbl
      have hnr := InB_lt hbr
      have hsum := LazyInv_sum_node h hlt
      have hnode := h
      cases h with
      | leaf _ _ _ _ _ => omega
      | node _ _ _ _ _ hst hq hL hR =>
        -- left subtree
        obtain ⟨t1, lz1, e1, a1, b1, f1, g1, p1, q1, L1⟩ :=
          ih st lz (2 * node) s ((s + e) / 2) _ (by omega) (by omega) hwf hbl hts (by omega) hL
        have hwf1 : LazyWF lazy_fn.sum (with_bufs st t1 lz1) lz1 :=
          LazyWF_with_bufs hwf t1 lz1 (by rw [a1, b1, hlen])
        have R1 : LazyInv lazy_fn.sum t1 lz1 M (2 * node + 1) ((s + e) / 2 + 1) e
            (tag_compose lazy_fn.sum acc (rd lz node)) :=
          LazyInv_frame hR (fun i hi => f1 i (fun c => inSub_disjoint hn c hi))
            (fun i hi => g1 i (fun c => inSub_disjoint hn c hi)) (fun _ _ _ => rfl)
        -- right subtree
        obtain ⟨t2, lz2, e2, a2, b2, f2, g2, p2, q2, R2⟩ :=
          ih (with_bufs st t1 lz1) lz1 (2 * node + 1) ((s + e) / 2 + 1) e _ (by omega)
            (by omega) hwf1 (by show InB _ _ _ t1.length; rw [a1]; exact hbr)
            (by show st.tree_size = t1.length; rw [a1]; exact hts) hes R1
        rw [with_bufs_with_bufs] at e2
        have a2b : t2.length = st.tree.length := a2.trans a1
        have b2b : lz2.length = lz.length := b2.trans b1
        have hwf2 : LazyWF lazy_fn.sum (with_bufs st t2 lz2) lz2 :=
          LazyWF_with_bufs hwf t2 lz2 (by rw [a2b, b2b, hlen])
        have L2 : LazyInv lazy_fn.sum t2 lz2 M (2 * node) s ((s + e) / 2)
            (tag_compose lazy_fn.sum acc (rd lz node)) :=
          LazyInv_frame L1 (fun i hi => f2 i (fun c => inSub_disjoint hn hi c))
            (fun i hi => g2 i (fun c => inSub_disjoint hn hi c)) (fun _ _ _ => rfl)
        -- propagation of the two children
        obtain ⟨t3, lz3, e3, a3, b3, c3, f3, g3, L3, nv3, _⟩ :=
          call_propagate_keeps hwf2 (by omega : 1 ≤ 2 * node)
            (by show InB _ _ _ t2.length; rw [a2b]; exact hbl) L2
        have a3b : t3.length = st.tree.length := a3.trans a2b
        have b3b : lz3.length = lz.length := b3.trans b2b
        have hwf3 : LazyWF lazy_fn.sum (with_bufs st t3 lz3) lz3 :=
          LazyWF_with_bufs hwf t3 lz3 (by rw [a3b, b3b, hlen])
        have R3 : LazyInv lazy_fn.sum t3 lz3 M (2 * node + 1) ((s + e) / 2 + 1) e
            (tag_compose lazy_fn.sum acc (rd lz node)) :=
          LazyInv_frame R2 (fun i hi => f3 i (fun c => inSub_disjoint hn c hi))
            (fun i hi => g3 i (fun c => inSub_disjoint hn c hi)) (fun _ _ _ => rfl)
        have e3b : call_propagate (with_bufs st t2 lz2) (2 * node) s ((s + e) / 2) =
            with_bufs st t3 lz3 := by rw [e3, with_bufs_with_bufs]
        obtain ⟨t4, lz4, e4, a4, b4, c4, f4, g4, R4, nv4, _⟩ :=
          call_propagate_keeps hwf3 (by omega : 1 ≤ 2 * node + 1)
            (by show InB _ _ _ t3.length; rw [a3b]; exact hbr) R3
        have a4b : t4.length = st.tree.length := a4.trans a3b
        have b4b : lz4.length = lz.length := b4.trans b3b
        have e4b : call_propagate (with_bufs st t3 lz3) (2 * node + 1) ((s + e) / 2 + 1) e =
            with_bufs st t4 lz4 := by rw [e4, with_bufs_with_bufs]
        have L4 : LazyInv lazy_fn.sum t4 lz4 M (2 * node) s ((s + e) / 2)
            (tag_compose lazy_fn.sum acc (rd lz node)) :=
          LazyInv_frame L3 (fun i hi => f4 i (fun c => inSub_disjoint hn hi c))
            (fun i hi => g4 i (fun c => inSub_disjoint hn hi c)) (fun _ _ _ => rfl)
        -- slots outside the two subtrees
        have hout : ∀ i, ¬ inSub (2 * node) i → ¬ inSub (2 * node + 1) i →
            rd t4 i = rd st.tree i ∧ rd lz4 i = rd lz i := by
          intro i h1 h2
          constructor
          · rw [f4 i h2]; show rd t3 i = _
            rw [f3 i h1]; show rd t2 i = _
            rw [f2 i h2]; show rd t1 i = _
            exact f1 i h1
          · rw [g4 i h2, g3 i h1, g2 i h2, g1 i h1]
        have hself := hout node (fun c => inSub_left_ne hn c rfl)
          (fun c => inSub_right_ne c rfl)
        -- values of the children
        have hl0 : ¬ inSub (2 * node + 1) (2 * node) := fun c => by
          have := inSub_ge c; omega
        have hr0 : ¬ inSub (2 * node) (2 * node + 1) := fun c =>
          inSub_disjoint hn c (inSub_self _)
        have nvl : node_value lazy_fn.sum t4 lz4 (2 * node) s ((s + e) / 2) =
            node_value lazy_fn.sum st.tree lz (2 * node) s ((s + e) / 2) := by
          rw [node_value_congr lazy_fn.sum (2 * node) s ((s + e) / 2) (f4 _ hl0) (g4 _ hl0)]
          show node_value lazy_fn.sum t3 lz3 _ _ _ = _
          rw [nv3]
          show node_value lazy_fn.sum t2 lz2 _ _ _ = _
          rw [node_value_congr lazy_fn.sum (2 * node) s ((s + e) / 2) (f2 _ hl0) (g2 _ hl0)]
          show node_value lazy_fn.sum t1 lz1 _ _ _ = _
          exact node_value_congr lazy_fn.sum (2 * node) s ((s + e) / 2) p1 q1
        have nvr : node_value lazy_fn.sum t4 lz4 (2 * node + 1) ((s + e) / 2 + 1) e =
            node_value lazy_fn.sum st.tree lz (2 * node + 1) ((s + e) / 2 + 1) e := by
          rw [nv4]
          show node_value lazy_fn.sum t3 lz3 _ _ _ = _
          rw [node_value_congr lazy_fn.sum (2 * node + 1) ((s + e) / 2 + 1) e (f3 _ hr0)
            (g3 _ hr0)]
          show node_value lazy_fn.sum t2 lz2 _ _ _ = _
          rw [node_value_congr lazy_fn.sum (2 * node + 1) ((s + e) / 2 + 1) e p2 q2]
          show node_value lazy_fn.sum t1 lz1 _ _ _ = _
          exact node_value_congr lazy_fn.sum (2 * node + 1) ((s + e) / 2 + 1) e (f1 _ hr0)
            (g1 _ hr0)
        have hzl : rd lz4 (2 * node) = lz_identity lazy_fn.sum := by
          rw [g4 _ hl0]; exact c3
        have vl : rd t4 (2 * node) =
            node_value lazy_fn.sum st.tree lz (2 * node) s ((s + e) / 2) := by
          rw [← nvl]
          unfold node_value
          rw [hzl, tag_apply_id lazy_fn.sum _ _ (LazyInv_stored L4)]
        have vr : rd t4 (2 * node + 1) =
            node_value lazy_fn.sum st.tree lz (2 * node + 1) ((s + e) / 2 + 1) e := by
          rw [← nvr]
          unfold node_value
          rw [c4, tag_apply_id lazy_fn.sum _ _ (LazyInv_stored R4)]
        have hfin : rd t4 node = combine_sum (rd t4 (2 * node)) (rd t4 (2 * node + 1)) := by
          rw [hself.1, vl, vr]; exact hsum
        -- the invariant at the node itself
        have hinv : LazyInv lazy_fn.sum t4 lz4 M node s e acc := by
          refine LazyInv.node node s e acc hlt (by rw [hself.1]; exact hst) ?_
            (by rw [hself.2]; exact L4) (by rw [hself.2]; exact R4)
          rw [nvl, nvr, node_value_congr lazy_fn.sum node s e hself.1 hself.2, hself.2]
          exact hq
        -- the code
        have hc1 : ((with_bufs st t2 lz2).lazy_enabled = true ∧
            (with_bufs st t2 lz2).propagate ≠ none) := ⟨hwf.1, by
              show st.propagate ≠ none
              rw [hwf.2.1]; simp⟩
        have hcomb : (with_bufs st t4 lz4).combine = combine_sum := hwf.2.2.2.1
        simp only [e1, e2]
        rw [if_neg (by omega), if_neg (by simp), if_pos hc1, e3b, e4b, hcomb,
          if_neg (by
            show ¬ (rd t4 node ≠ combine_sum (rd t4 (2 * node)) (rd t4 (2 * node + 1)))
            rw [not_not]; exact hfin)]
        refine ⟨t4, lz4, rfl, a4b, b4b, ?_, ?_, hself.1, hself.2, hinv⟩
        · intro i hi
          exact (hout i (fun c => hi (inSub_left c)) (fun c => hi (inSub_right c))).1
        · intro i hi
          exact (hout i (fun c => hi (inSub_left c)) (fun c => hi (inSub_right c))).2

theorem LazyInv_covers {k : lazy_fn} {t lz : List Int} {M : Nat → Int}
    {node s e i a b : Nat} (hc : Covers node s e i a b) :
    ∀ acc : Int, LazyInv k t lz M node s e acc →
      ∃ acc2 : Int, LazyInv k t lz M i a b acc2 := by
  induction hc with
  | here node s e => intro acc h; exact ⟨acc, h⟩
  | left node s e i a b hlt _ ih =>
    intro acc h
    cases h with
    | leaf _ _ _ _ _ => omega
    | node _ _ _ _ _ _ _ hL _ => exact ih _ hL
  | right node s e i a b hlt _ ih =>
    intro acc h
    cases h with
    | leaf _ _ _ _ _ => omega
    | node _ _ _ _ _ _ _ _ hR => exact ih _ hR

theorem run_call_shape (st : segment_tree_t) (c : lazy_call) :
    ∃ st2 : segment_tree_t, run_call (some st) c = some st2 ∧
      st2.tree_size = st.tree_size ∧ st2.tree.length = st.tree.length := by
  cases c with
  | query l r =>
    show ∃ st2 : segment_tree_t, (segtree_query (some st) l r (some 0)).2.1 = some st2 ∧ _
    unfold segtree_query
    simp only
    split_ifs
    · exact ⟨st, rfl, rfl, rfl⟩
    · obtain ⟨t, lzo, e1, a1, _⟩ :=
        query_recursive_cfg l.toNat r.toNat st.size st 1 0 (st.size - 1)
      rw [e1]
      exact ⟨_, rfl, rfl, a1⟩
  | update_range l r v =>
    show ∃ st2 : segment_tree_t, (segtree_update_range (some st) l r v).2 = some st2 ∧ _
    unfold segtree_update_range
    simp only
    split_ifs
    · exact ⟨st, rfl, rfl, rfl⟩
    · exact ⟨st, rfl, rfl, rfl⟩
    · obtain ⟨t, lzo, e1, a1, _⟩ :=
        update_range_recursive_cfg l.toNat r.toNat v st.size st 1 0 (st.size - 1)
      rw [e1]
      exact ⟨_, rfl, rfl, a1⟩

theorem run_calls_shape (cs : List lazy_call) :
    ∀ st : segment_tree_t, ∃ st2 : segment_tree_t, run_calls (some st) cs = some st2 ∧
      st2.tree_size = st.tree_size ∧ st2.tree.length = st.tree.length := by
  induction cs with
  | nil => intro st; exact ⟨st, rfl, rfl, rfl⟩
  | cons c cs ih =>
    intro st
    obtain ⟨st1, e1, a1, b1⟩ := run_call_shape st c
    obtain ⟨st2, e2, a2, b2⟩ := ih st1
    refine ⟨st2, ?_, a2.trans a1, b2.trans b1⟩
    unfold run_calls at e2 ⊢
    rw [List.foldl_cons, e1]
    exact e2

theorem segtree_validate_lazy_sum {st : segment_tree_t} {M : Nat → Int}
    (hrep : LazyRep lazy_fn.sum st M) (hts : st.tree_size = st.tree.length) :
    (segtree_validate (some st)).1 = true := by
  obtain ⟨lz, hwf, hs, hb, hinv⟩ := hrep
  have hn := InB_lt hb
  unfold segtree_validate
  simp only
  rw [if_neg (by omega), if_neg (by
    rw [hwf.2.2.2.2.2.1, hwf.2.1, hwf.2.2.1]; simp)]
  by_cases h1 : st.size = 1
  · rw [if_pos h1]
  · rw [if_neg h1]
    obtain ⟨t2, lz2, e, _⟩ := validate_tree_recursive_lazy_sum M st.size st lz 1 0
      (st.size - 1) _ (by omega) (le_refl _) hwf hb hts (by omega) hinv
    rw [e]

/-- C21: on a lazy SUM tree built by `segtree_create_lazy` from 32-bit elements, after any
sequence of valid `segtree_update_range` and `segtree_query` calls, every internal node
`i` of the recursion tree, covering `[a, b]` with midpoint `m`, satisfies in 32-bit
arithmetic `tree[i] == (tree[2i] + lazy[2i] * (m - a + 1)) +
(tree[2i+1] + lazy[2i+1] * (b - m))`, an equality of integers whenever the right-hand side
is representable, and `segtree_validate` returns true. -/
theorem lazy_sum_aggregate_invariant (S : List Int) (n : Int) (cs : List lazy_call)
    (hn : n = S.length) (hn1 : 1 ≤ n) (hn2 : n ≤ SEGTREE_MAX_SIZE)
    (hS : ∀ x ∈ S, is_int32 x) (hcs : ∀ c ∈ cs, valid_call lazy_fn.sum n c) :
    ∃ (st : segment_tree_t) (lz : List Int),
      run_calls (segtree_create_lazy (some S) n SEGTREE_SUM) cs = some st ∧
      st.lazy = some lz ∧
      (∀ i a b : Nat, Covers 1 0 (st.size - 1) i a b → a < b →
        rd st.tree i =
          wrap32 ((rd st.tree (2 * i) + rd lz (2 * i) * ((((a + b) / 2 : Nat) : Int) - a + 1)) +
            (rd st.tree (2 * i + 1) +
              rd lz (2 * i + 1) * ((b : Int) - (((a + b) / 2 : Nat) : Int)))) ∧
        (is_int32 ((rd st.tree (2 * i) +
              rd lz (2 * i) * ((((a + b) / 2 : Nat) : Int) - a + 1)) +
            (rd st.tree (2 * i + 1) +
              rd lz (2 * i + 1) * ((b : Int) - (((a + b) / 2 : Nat) : Int)))) →
          rd st.tree i =
            (rd st.tree (2 * i) + rd lz (2 * i) * ((((a + b) / 2 : Nat) : Int) - a + 1)) +
              (rd st.tree (2 * i + 1) +
                rd lz (2 * i + 1) * ((b : Int) - (((a + b) / 2 : Nat) : Int))))) ∧
      (segtree_validate (some st)).1 = true := by
  obtain ⟨st0, e0, hrep0, hsz0⟩ := segtree_create_lazy_rep S n SEGTREE_SUM hn1 hn2 hS
  obtain ⟨st0b, e0b, _, _, hts0⟩ := segtree_create_lazy_wf S n SEGTREE_SUM hn1 hn2
  rw [e0] at e0b
  have hst0 : st0b = st0 := (Option.some.inj e0b).symm
  subst hst0
  have hlen : S.length = st0b.size := by rw [hsz0]; omega
  have hrep0b : LazyRep lazy_fn.sum st0b (stored_model lazy_fn.sum S) :=
    LazyRep_congr hrep0 (fun i _ => wrap32_of_is_int32 (rd_int32_of_mem hS i))
  obtain ⟨st, e, hrep, hsz, _, _⟩ := run_calls_lazy lazy_fn.sum cs st0b S hrep0b hlen
    (fun j _ => wrap32_is_int32 _)
    (fun c hc => by
      have : (st0b.size : Int) = n := by rw [hsz0]; omega
      rw [this]; exact hcs c hc)
  obtain ⟨st2, e2, a2, b2⟩ := run_calls_shape cs st0b
  rw [e] at e2
  have hst : st2 = st := (Option.some.inj e2).symm
  subst hst
  have hts : st2.tree_size = st2.tree.length := by rw [a2, b2]; exact hts0
  have hv := segtree_validate_lazy_sum hrep hts
  obtain ⟨lz, hwf, hs, hb, hinv⟩ := hrep
  rw [e0]
  refine ⟨st2, lz, e, hwf.2.2.2.2.2.1, ?_, hv⟩
  intro i a b hc hab
  obtain ⟨acc2, hi⟩ := LazyInv_covers hc _ hinv
  have hq := LazyInv_sum_node hi hab
  have hw : rd st2.tree i =
      wrap32 ((rd st2.tree (2 * i) + rd lz (2 * i) * ((((a + b) / 2 : Nat) : Int) - a + 1)) +
        (rd st2.tree (2 * i + 1) +
          rd lz (2 * i + 1) * ((b : Int) - (((a + b) / 2 : Nat) : Int)))) := by
    rw [hq]
    unfold node_value combine_sum
    show wrap32 (wrap32 (_ + wrap32 _) + wrap32 (_ + wrap32 _)) = _
    have hr : ((b : Int) - (((a + b) / 2 + 1 : Nat) : Int) + 1) =
        (b : Int) - (((a + b) / 2 : Nat) : Int) := by push_cast; ring
    rw [hr]
    generalize rd lz (2 * i) * ((((a + b) / 2 : Nat) : Int) - a + 1) = p
    generalize rd lz (2 * i + 1) * ((b : Int) - (((a + b) / 2 : Nat) : Int)) = q
    unfold wrap32
    omega
  refine ⟨hw, fun h32 => ?_⟩
  rw [hw, wrap32_of_is_int32 h32]

theorem lazy_sum_aggregate_invariant_witness :
    ∃ (st : segment_tree_t) (lz : List Int),
      run_calls (segtree_create_lazy (some [1, 2, 3, 4, 5]) 5 SEGTREE_SUM)
        [lazy_call.update_range 0 4 3, lazy_call.update_range 1 3 10,
          lazy_call.query 2 2] = some st ∧
      st.lazy = some lz ∧
      (∀ i a b : Nat, Covers 1 0 (st.size - 1) i a b → a < b →
        rd st.tree i =
          wrap32 ((rd st.tree (2 * i) + rd lz (2 * i) * ((((a + b) / 2 : Nat) : Int) - a + 1)) +
            (rd st.tree (2 * i + 1) +
              rd lz (2 * i + 1) * ((b : Int) - (((a + b) / 2 : Nat) : Int)))) ∧
        (is_int32 ((rd st.tree (2 * i) +
              rd lz (2 * i) * ((((a + b) / 2 : Nat) : Int) - a + 1)) +
            (rd st.tree (2 * i + 1) +
              rd lz (2 * i + 1) * ((b : Int) - (((a + b) / 2 : Nat) : Int)))) →
          rd st.tree i =
            (rd st.tree (2 * i) + rd lz (2 * i) * ((((a + b) / 2 : Nat) : Int) - a + 1)) +
              (rd st.tree (2 * i + 1) +
                rd lz (2 * i + 1) * ((b : Int) - (((a + b) / 2 : Nat) : Int))))) ∧
      (segtree_validate (some st)).1 = true :=
  lazy_sum_aggregate_invariant [1, 2, 3, 4, 5] 5
    [lazy_call.update_range 0 4 3, lazy_call.update_range 1 3 10, lazy_call.query 2 2]
    (by decide) (by decide) (by decide) (by decide) (by decide)

/-! ## Repeating a range update on a MIN or MAX tree -/

theorem wr_rd_self (a : List Int) : ∀ i : Nat, wr a i (rd a i) = a := by
  induction a with
  | nil => intro i; rfl
  | cons x xs ih =>
    intro i
    cases i with
    | zero => rfl
    | succ j =>
      have h := ih j
      unfold wr at h ⊢
      rw [rd_cons_succ, List.set_cons_succ, h]

theorem Settled_lz {k : lazy_fn} {t lz : List Int} {l r node s e : Nat}
    (h : Settled k t lz l r node s e) : rd lz node = lz_identity k := by
  cases h <;> assumption

theorem Settled_frame {k : lazy_fn} {t lz t2 lz2 : List Int} {l r node s e : Nat}
    (h : Settled k t lz l r node s e)
    (ht : ∀ i, inSub node i → rd t2 i = rd t i)
    (hz : ∀ i, inSub node i → rd lz2 i = rd lz i) : Settled k t2 lz2 l r node s e := by
  induction h with
  | outside node s e h1 h2 =>
    exact Settled.outside node s e h1 (by rw [hz node (inSub_self node)]; exact h2)
  | covered node s e h1 h2 h3 h4 =>
    exact Settled.covered node s e h1 h2 (by rw [hz node (inSub_self node)]; exact h3)
      (by rw [ht node (inSub_self node)]; exact h4)
  | cut node s e h1 h2 h3 _ _ h6 ihl ihr =>
    refine Settled.cut node s e h1 h2 (by rw [hz node (inSub_self node)]; exact h3)
      (ihl (fun i hi => ht i (inSub_left hi)) (fun i hi => hz i (inSub_left hi)))
      (ihr (fun i hi => ht i (inSub_right hi)) (fun i hi => hz i (inSub_right hi))) ?_
    rw [ht node (inSub_self node), ht _ (inSub_left (inSub_self _)),
      ht _ (inSub_right (inSub_self _))]
    exact h6

theorem call_propagate_noop {k : lazy_fn} {st : segment_tree_t} {lz : List Int}
    (hwf : LazyWF k st lz) (node s e : Nat) (hn : 1 ≤ node)
    (h0 : rd lz node = lz_identity k) : call_propagate st node s e = st := by
  rw [call_propagate_eq hwf.2.1 hwf.2.2.2.2.2.1 node s e hn, if_pos h0]

theorem update_range_recursive_settled {k : lazy_fn} (hk : k ≠ lazy_fn.sum) (l r : Nat) :
    ∀ (fuel : Nat) (st : segment_tree_t) (lz : List Int) (node s e : Nat), 1 ≤ node →
      LazyWF k st lz → Settled k st.tree lz l r node s e →
      update_range_recursive fuel st node s e l r (lz_identity k) = st := by
  intro fuel
  induction fuel with
  | zero => intro st lz node s e _ _ _; rfl
  | succ fuel ih =>
    intro st lz node s e hn hwf h
    have hlzs := hwf.2.2.2.2.2.1
    unfold update_range_recursive
    have hp : (if st.lazy_enabled = true ∧ st.propagate ≠ none then
        call_propagate st node s e else st) = st := by
      rw [ite_eq_right_iff]
      intro _
      exact call_propagate_noop hwf node s e hn (Settled_lz h)
    simp only [hp]
    cases h with
    | outside _ _ _ h1 _ => rw [if_pos h1]
    | covered _ _ _ h1 h2 h3 h4 =>
      rw [if_neg h1, if_pos h2, if_pos ⟨hwf.1, by rw [hwf.2.2.1]; simp⟩,
        call_update_lazy_eq hwf.2.2.1 hlzs node s e _ h3, if_neg hk, h3, tag_compose_id_id]
      have e1 : wr st.tree node (lz_identity k) = st.tree := by
        rw [← h4]; exact wr_rd_self _ _
      have e2 : wr lz node (lz_identity k) = lz := by
        rw [← h3]; exact wr_rd_self _ _
      rw [e1, e2]
      exact with_bufs_self st lz hlzs
    | cut _ _ _ h1 h2 h3 hL hR h6 =>
      rw [if_neg h1, if_neg h2]
      have ea := ih st lz (2 * node) s ((s + e) / 2) (by omega) hwf hL
      simp only [ea]
      have eb := ih st lz (2 * node + 1) ((s + e) / 2 + 1) e (by omega) hwf hR
      simp only [eb]
      have hp2 : (if st.lazy_enabled = true ∧ st.propagate ≠ none then
          call_propagate (call_propagate st (2 * node) s ((s + e) / 2)) (2 * node + 1)
            ((s + e) / 2 + 1) e else st) = st := by
        rw [ite_eq_right_iff]
        intro _
        rw [call_propagate_noop hwf (2 * node) s ((s + e) / 2) (by omega) (Settled_lz hL),
          call_propagate_noop hwf (2 * node + 1) ((s + e) / 2 + 1) e (by omega)
            (Settled_lz hR)]
      simp only [hp2]
      have hv : st.combine (rd st.tree (2 * node)) (rd st.tree (2 * node + 1)) =
          rd st.tree node := by rw [hwf.2.2.2.1]; exact h6.symm
      rw [hv, wr_rd_self]

theorem update_range_recursive_settles {k : lazy_fn} (hk : k ≠ lazy_fn.sum) (l r : Nat) :
    ∀ (fuel : Nat) (st : segment_tree_t) (lz : List Int) (node s e : Nat), e - s < fuel →
      s ≤ e → 1 ≤ node → LazyWF k st lz → InB node s e lz.length →
      ∃ t2 lz2 : List Int,
        update_range_recursive fuel st node s e l r (lz_identity k) = with_bufs st t2 lz2 ∧
        t2.length = st.tree.length ∧ lz2.length = lz.length ∧
        (∀ i, ¬ inSub node i → rd t2 i = rd st.tree i) ∧
        (∀ i, ¬ inSub node i → rd lz2 i = rd lz i) ∧
        Settled k t2 lz2 l r node s e := by
  intro fuel
  induction fuel with
  | zero => intro st lz node s e h; omega
  | succ fuel ih =>
    intro st lz node s e hf hse hn hwf hb
    have hlen := hwf.2.2.2.2.2.2
    have hnb := InB_lt hb
    unfold update_range_recursive
    obtain ⟨t1, lz1, e1, a1, b1, c1, f1, g1, _⟩ := call_propagate_frame hwf s e hn hnb
    have hg : (if st.lazy_enabled = true ∧ st.propagate ≠ none then
        call_propagate st node s e else st) = with_bufs st t1 lz1 := by
      rw [if_pos ⟨hwf.1, by rw [hwf.2.1]; simp⟩, e1]
    simp only [hg]
    have hwf1 : LazyWF k (with_bufs st t1 lz1) lz1 :=
      LazyWF_with_bufs hwf t1 lz1 (by rw [a1, b1, hlen])
    by_cases h1 : s > r ∨ e < l
    · rw [if_pos h1]
      exact ⟨t1, lz1, rfl, a1, b1, f1, g1, Settled.outside node s e h1 c1⟩
    · rw [if_neg h1]
      by_cases h2 : s ≥ l ∧ e ≤ r
      · rw [if_pos h2, if_pos ⟨hwf1.1, by rw [hwf1.2.2.1]; simp⟩,
          call_update_lazy_eq hwf1.2.2.1 hwf1.2.2.2.2.2.1 node s e _ c1, if_neg hk, c1,
          tag_compose_id_id, with_bufs_with_bufs]
        refine ⟨_, _, rfl, (length_wr _ _ _).trans a1, (length_wr _ _ _).trans b1, ?_, ?_, ?_⟩
        · intro i hi
          show rd (wr t1 node _) i = _
          rw [rd_wr_ne _ (ne_of_not_inSub hi)]; exact f1 i hi
        · intro i hi
          rw [rd_wr_ne _ (ne_of_not_inSub hi)]; exact g1 i hi
        · refine Settled.covered node s e h1 h2 (rd_wr_same _ (by rw [b1]; exact hnb)) ?_
          show rd (wr t1 node _) node = _
          exact rd_wr_same _ (by rw [a1, ← hlen]; exact hnb)
      · rw [if_neg h2]
        have hlt : s < e := by omega
        have hb1 : InB node s e lz1.length := by rw [b1]; exact hb
        obtain ⟨ta, lza, ea, aa, ba, fa, ga, sa⟩ := ih (with_bufs st t1 lz1) lz1 (2 * node) s
          ((s + e) / 2) (by omega) (by omega) (by omega) hwf1 (InB_left hlt hb1)
        rw [with_bufs_with_bufs] at ea
        have aab : ta.length = st.tree.length := aa.trans a1
        have bab : lza.length = lz.length := ba.trans b1
        have hwfa : LazyWF k (with_bufs st ta lza) lza :=
          LazyWF_with_bufs hwf ta lza (by rw [aab, bab, hlen])
        obtain ⟨tb, lzb, eb, ab, bb, fb, gb, sb⟩ := ih (with_bufs st ta lza) lza
          (2 * node + 1) ((s + e) / 2 + 1) e (by omega) (by omega) (by omega) hwfa
          (by rw [bab]; exact InB_right hlt hb)
        rw [with_bufs_with_bufs] at eb
        have abb : tb.length = st.tree.length := ab.trans aab
        have bbb : lzb.length = lz.length := bb.trans bab
        have hwfb : LazyWF k (with_bufs st tb lzb) lzb :=
          LazyWF_with_bufs hwf tb lzb (by rw [abb, bbb, hlen])
        have sa2 : Settled k tb lzb l r (2 * node) s ((s + e) / 2) :=
          Settled_frame sa (fun i hi => fb i (fun c => inSub_disjoint hn hi c))
            (fun i hi => gb i (fun c => inSub_disjoint hn hi c))
        simp only [ea, eb]
        have hp2 : (if (with_bufs st tb lzb).lazy_enabled = true ∧
            (with_bufs st tb lzb).propagate ≠ none then
            call_propagate (call_propagate (with_bufs st tb lzb) (2 * node) s ((s + e) / 2))
              (2 * node + 1) ((s + e) / 2 + 1) e else with_bufs st tb lzb) =
            with_bufs st tb lzb := by
          rw [ite_eq_right_iff]
          intro _
          rw [call_propagate_noop hwfb (2 * node) s ((s + e) / 2) (by omega) (Settled_lz sa2),
            call_propagate_noop hwfb (2 * node + 1) ((s + e) / 2 + 1) e (by omega)
              (Settled_lz sb)]
        simp only [hp2]
        have hzn : rd lzb node = lz_identity k := by
          rw [gb node (fun c => inSub_right_ne c rfl),
            ga node (fun c => inSub_left_ne hn c rfl)]
          exact c1
        refine ⟨wr tb node (st.combine (rd tb (2 * node)) (rd tb (2 * node + 1))), lzb, rfl,
          (length_wr _ _ _).trans abb, bbb, ?_, ?_, ?_⟩
        · intro i hi
          rw [rd_wr_ne _ (ne_of_not_inSub hi), fb i (fun c => hi (inSub_right c))]
          show rd ta i = _
          rw [fa i (fun c => hi (inSub_left c))]
          exact f1 i hi
        · intro i hi
          rw [gb i (fun c => hi (inSub_right c)), ga i (fun c => hi (inSub_left c))]
          exact g1 i hi
        · refine Settled.cut node s e h1 h2 hzn
            (Settled_frame sa2 (fun i hi => rd_wr_ne _ (fun c => inSub_left_ne hn hi c.symm))
              (fun _ _ => rfl))
            (Settled_frame sb (fun i hi => rd_wr_ne _ (fun c => inSub_right_ne hi c.symm))
              (fun _ _ => rfl)) ?_
          rw [rd_wr_same _ (by rw [abb, ← hlen]; exact hnb), rd_wr_ne _ (by omega),
            rd_wr_ne _ (by omega), hwf.2.2.2.1]

theorem segtree_update_range_settled {k : lazy_fn} (hk : k ≠ lazy_fn.sum)
    {st : segment_tree_t} {lz : List Int} (hwf : LazyWF k st lz) (l r : Int) (h0 : 0 ≤ l)
    (hlr : l ≤ r) (hr : r < st.size)
    (hset : Settled k st.tree lz l.toNat r.toNat 1 0 (st.size - 1)) :
    segtree_update_range (some st) l r (lz_identity k) =
      (SEGTREE_OK, some { st with stats :=
        { st.stats with update_count := wrap32 (st.stats.update_count + 1) } }) := by
  have hle : st.lazy_enabled ≠ false := by rw [hwf.1]; simp
  unfold segtree_update_range
  simp only
  rw [if_neg hle, if_neg (by omega),
    update_range_recursive_settled hk l.toNat r.toNat st.size st lz 1 0 (st.size - 1)
      (le_refl _) hwf hset]

theorem segtree_update_range_sentinel_twice {k : lazy_fn} (hk : k ≠ lazy_fn.sum)
    {st : segment_tree_t} {lz : List Int} (hwf : LazyWF k st lz) (hs : 1 ≤ st.size)
    (hb : InB 1 0 (st.size - 1) lz.length) (l r : Int) (h0 : 0 ≤ l) (hlr : l ≤ r)
    (hr : r < st.size) :
    ∃ (st1 : segment_tree_t) (c : segtree_stats_t),
      segtree_update_range (some st) l r (lz_identity k) = (SEGTREE_OK, some st1) ∧
      st1.size = st.size ∧
      segtree_update_range (some st1) l r (lz_identity k) =
        (SEGTREE_OK, some { st1 with stats := c }) := by
  obtain ⟨t2, lz2, e, a2, b2, _, _, hset⟩ :=
    update_range_recursive_settles hk l.toNat r.toNat st.size st lz 1 0 (st.size - 1)
      (by omega) (Nat.zero_le _) (le_refl _) hwf hb
  have hwf2 : LazyWF k (with_bufs st t2 lz2) lz2 :=
    LazyWF_with_bufs hwf t2 lz2 (by rw [a2, b2]; exact hwf.2.2.2.2.2.2)
  have hle : st.lazy_enabled ≠ false := by rw [hwf.1]; simp
  have e1 : segtree_update_range (some st) l r (lz_identity k) =
      (SEGTREE_OK, some { with_bufs st t2 lz2 with stats :=
        { st.stats with update_count := wrap32 (st.stats.update_count + 1) } }) := by
    unfold segtree_update_range
    simp only
    rw [if_neg hle, if_neg (by omega), e]
    rfl
  have hwf3 : LazyWF k { with_bufs st t2 lz2 with stats :=
      { st.stats with update_count := wrap32 (st.stats.update_count + 1) } } lz2 := hwf2
  exact ⟨_, _, e1, rfl, segtree_update_range_settled hk hwf3 l r h0 hlr hr hset⟩

theorem segtree_query_stats (st : segment_tree_t) (c : segtree_stats_t) (l r old : Int) :
    (segtree_query (some { st with stats := c }) l r (some old)).1 =
      (segtree_query (some st) l r (some old)).1 ∧
    (segtree_query (some { st with stats := c }) l r (some old)).2.2 =
      (segtree_query (some st) l r (some old)).2.2 := by
  unfold segtree_query
  simp only
  split_ifs with hg
  · exact ⟨rfl, rfl⟩
  · rw [query_recursive_stats]
    exact ⟨rfl, rfl⟩

theorem model_update_idem {k : lazy_fn} (hk : k ≠ lazy_fn.sum) (l r : Nat) (v : Int) :
    ∀ (M : List Int) (i : Nat),
      model_update k l r v i (model_update k l r v i M) = model_update k l r v i M := by
  intro M
  induction M with
  | nil => intro i; rfl
  | cons x xs ih =>
    intro i
    simp only [model_update]
    rw [ih (i + 1)]
    congr 1
    split_ifs
    · cases k
      · exact absurd rfl hk
      · rfl
      · rfl
    · rfl

theorem run_calls_append (t : Option segment_tree_t) (cs ds : List lazy_call) :
    run_calls t (cs ++ ds) = run_calls (run_calls t cs) ds := by
  simp [run_calls, List.foldl_append]

/-- C28: on a lazy MIN or MAX tree built by `segtree_create_lazy` from 32-bit elements and
brought to any state by valid calls, for every valid range `(l, r)`, every 32-bit value
`v` (the sentinel included) and every valid query range `(a, b)`, the query `(a, b)`
returns `SEGTREE_OK` and the same value after `segtree_update_range (l, r, v)` applied
twice in succession as after it is applied once. -/
theorem repeated_range_update (S : List Int) (n : Int) (op : segtree_operation_t)
    (cs : List lazy_call) (hop : op = SEGTREE_MIN ∨ op = SEGTREE_MAX) (hn : n = S.length)
    (hn1 : 1 ≤ n) (hn2 : n ≤ SEGTREE_MAX_SIZE) (hS : ∀ x ∈ S, is_int32 x)
    (hcs : ∀ c ∈ cs, valid_call (op_rule op) n c) (l r v a b old : Int)
    (h0 : 0 ≤ l) (hlr : l ≤ r) (hr : r < n) (hv : is_int32 v)
    (ha : 0 ≤ a) (hab : a ≤ b) (hb : b < n) :
    (segtree_query (run_calls (segtree_create_lazy (some S) n op)
      (cs ++ [lazy_call.update_range l r v])) a b (some old)).1 = SEGTREE_OK ∧
    (segtree_query (run_calls (segtree_create_lazy (some S) n op)
      (cs ++ [lazy_call.update_range l r v, lazy_call.update_range l r v])) a b
      (some old)).1 = SEGTREE_OK ∧
    (segtree_query (run_calls (segtree_create_lazy (some S) n op)
      (cs ++ [lazy_call.update_range l r v, lazy_call.update_range l r v])) a b
      (some old)).2.2 =
    (segtree_query (run_calls (segtree_create_lazy (some S) n op)
      (cs ++ [lazy_call.update_range l r v])) a b (some old)).2.2 := by
  have hk : op_rule op ≠ lazy_fn.sum := by
    rcases hop with h | h <;> subst h <;> decide
  by_cases hvs : v = lz_identity (op_rule op)
  · -- the sentinel: the second call changes nothing but the counter
    subst hvs
    obtain ⟨st0, e0, hrep0, hsz0⟩ := segtree_create_lazy_rep S n op hn1 hn2 hS
    have hlen : S.length = st0.size := by rw [hsz0]; omega
    have hsm : ∀ M : List Int, stored_model (op_rule op) M = rd M := by
      intro M
      rcases hop with h | h <;> subst h <;> rfl
    obtain ⟨st, e, hrep, hsz, _, _⟩ := run_calls_lazy (op_rule op) cs st0 S
      (by rw [hsm]; exact hrep0) hlen
      (fun j _ => by rw [hsm]; exact rd_int32_of_mem hS j)
      (fun c hc => by
        have : (st0.size : Int) = n := by rw [hsz0]; omega
        rw [this]; exact hcs c hc)
    obtain ⟨lz, hwf, hs, hbn, _⟩ := hrep
    have hszn : (st.size : Int) = n := by rw [hsz, hsz0]; omega
    obtain ⟨st1, c, e1, hs1, e2⟩ := segtree_update_range_sentinel_twice hk hwf hs
      (by rw [hwf.2.2.2.2.2.2]; exact hbn) l r h0 hlr (by omega)
    have r1 : run_calls (segtree_create_lazy (some S) n op)
        (cs ++ [lazy_call.update_range l r (lz_identity (op_rule op))]) = some st1 := by
      rw [run_calls_append, e0, e]
      show (segtree_update_range (some st) l r _).2 = _
      rw [e1]
    have r2 : run_calls (segtree_create_lazy (some S) n op)
        (cs ++ [lazy_call.update_range l r (lz_identity (op_rule op)),
          lazy_call.update_range l r (lz_identity (op_rule op))]) =
        some { st1 with stats := c } := by
      rw [run_calls_append, e0, e]
      show (segtree_update_range (segtree_update_range (some st) l r _).2 l r _).2 = _
      rw [e1]
      show (segtree_update_range (some st1) l r _).2 = _
      rw [e2]
    rw [r1, r2]
    obtain ⟨q1, q2⟩ := segtree_query_stats st1 c a b old
    have hok : (segtree_query (some st1) a b (some old)).1 = SEGTREE_OK := by
      unfold segtree_query
      simp only
      rw [if_neg (by omega)]
    exact ⟨hok, q1.trans hok, q2⟩
  · have hc : valid_call (op_rule op) n (lazy_call.update_range l r v) :=
      ⟨h0, hlr, hr, hv, Or.inr hvs⟩
    have hcs1 : ∀ c ∈ cs ++ [lazy_call.update_range l r v], valid_call (op_rule op) n c := by
      intro c hc2
      rcases List.mem_append.1 hc2 with h | h
      · exact hcs c h
      · rw [List.mem_singleton.1 h]; exact hc
    have hcs2 : ∀ c ∈ cs ++ [lazy_call.update_range l r v, lazy_call.update_range l r v],
        valid_call (op_rule op) n c := by
      intro c hc2
      rcases List.mem_append.1 hc2 with h | h
      · exact hcs c h
      · simp only [List.mem_cons, List.mem_singleton, List.not_mem_nil, or_false,
          or_self] at h
        rw [h]; exact hc
    obtain ⟨s1, e1, _, _⟩ :=
      lazy_query_after_calls S n op _ hn hn1 hn2 hS hcs1 a b old ha hab hb
    obtain ⟨s2, e2, _, _⟩ :=
      lazy_query_after_calls S n op _ hn hn1 hn2 hS hcs2 a b old ha hab hb
    have hm : naive_model (op_rule op) S
        (cs ++ [lazy_call.update_range l r v, lazy_call.update_range l r v]) =
        naive_model (op_rule op) S (cs ++ [lazy_call.update_range l r v]) := by
      have : cs ++ [lazy_call.update_range l r v, lazy_call.update_range l r v] =
          (cs ++ [lazy_call.update_range l r v]) ++ [lazy_call.update_range l r v] := by
        simp
      rw [this, naive_model_append]
      simp only [naive_step]
      rw [naive_model_append]
      simp only [naive_step]
      exact model_update_idem hk _ _ _ _ _
    rw [e1, e2, hm]
    exact ⟨rfl, rfl, rfl⟩

theorem repeated_range_update_witness :
    (segtree_query (run_calls (segtree_create_lazy (some [8, 3, 12, 1, 6, 9]) 6 SEGTREE_MIN)
      ([lazy_call.update_range 1 4 7, lazy_call.query 0 5] ++
        [lazy_call.update_range 2 5 4])) 0 3 (some 0)).1 = SEGTREE_OK ∧
    (segtree_query (run_calls (segtree_create_lazy (some [8, 3, 12, 1, 6, 9]) 6 SEGTREE_MIN)
      ([lazy_call.update_range 1 4 7, lazy_call.query 0 5] ++
        [lazy_call.update_range 2 5 4, lazy_call.update_range 2 5 4])) 0 3
      (some 0)).1 = SEGTREE_OK ∧
    (segtree_query (run_calls (segtree_create_lazy (some [8, 3, 12, 1, 6, 9]) 6 SEGTREE_MIN)
      ([lazy_call.update_range 1 4 7, lazy_call.query 0 5] ++
        [lazy_call.update_range 2 5 4, lazy_call.update_range 2 5 4])) 0 3
      (some 0)).2.2 =
    (segtree_query (run_calls (segtree_create_lazy (some [8, 3, 12, 1, 6, 9]) 6 SEGTREE_MIN)
      ([lazy_call.update_range 1 4 7, lazy_call.query 0 5] ++
        [lazy_call.update_range 2 5 4])) 0 3 (some 0)).2.2 :=
  repeated_range_update [8, 3, 12, 1, 6, 9] 6 SEGTREE_MIN
    [lazy_call.update_range 1 4 7, lazy_call.query 0 5] (by decide) (by decide) (by decide)
    (by decide) (by decide) (by decide) 2 5 4 0 3 0 (by decide) (by decide) (by decide)
    (by decide) (by decide) (by decide) (by decide)

/-! ## Frame of a point update -/

theorem update_point_recursive_path (idx : Nat) (val : Int) :
    ∀ (fuel : Nat) (st : segment_tree_t) (node s e : Nat),
      ∃ t : List Int,
        update_point_recursive fuel st node s e idx val = { st with tree := t } ∧
        t.length = st.tree.length ∧
        ∀ j : Nat, ¬ OnPath idx node s e j → rd t j = rd st.tree j := by
  intro fuel
  induction fuel with
  | zero => intro st node s e; exact ⟨_, rfl, rfl, fun _ _ => rfl⟩
  | succ fuel ih =>
    intro st node s e
    unfold update_point_recursive
    by_cases h1 : s = e
    · rw [if_pos h1]
      refine ⟨_, rfl, length_wr _ _ _, fun j hj => ?_⟩
      exact rd_wr_ne _ (fun c : node = j => hj (c ▸ OnPath.here node s e))
    · rw [if_neg h1]
      have hc : ∃ t : List Int,
          (if idx ≤ (s + e) / 2 then
            update_point_recursive fuel st (2 * node) s ((s + e) / 2) idx val
          else update_point_recursive fuel st (2 * node + 1) ((s + e) / 2 + 1) e idx val) =
            { st with tree := t } ∧ t.length = st.tree.length ∧
          ∀ j : Nat, ¬ OnPath idx node s e j → rd t j = rd st.tree j := by
        split_ifs with hi
        · obtain ⟨t, e1, a1, f1⟩ := ih st (2 * node) s ((s + e) / 2)
          exact ⟨t, e1, a1, fun j hj =>
            f1 j (fun c => hj (OnPath.left node s e j h1 hi c))⟩
        · obtain ⟨t, e1, a1, f1⟩ := ih st (2 * node + 1) ((s + e) / 2 + 1) e
          exact ⟨t, e1, a1, fun j hj =>
            f1 j (fun c => hj (OnPath.right node s e j h1 hi c))⟩
      obtain ⟨t1, e1, a1, f1⟩ := hc
      simp only
      rw [e1]
      refine ⟨_, rfl, (length_wr _ _ _).trans a1, fun j hj => ?_⟩
      show rd (wr t1 node _) j = _
      rw [rd_wr_ne _ (fun c : node = j => hj (c ▸ OnPath.here node s e))]
      exact f1 j hj

theorem Covers_range {node s e i a b : Nat} (h : Covers node s e i a b) :
    s ≤ e → s ≤ a ∧ a ≤ b ∧ b ≤ e := by
  induction h with
  | here node s e => intro hse; exact ⟨le_refl _, hse, le_refl _⟩
  | left node s e i a b hlt _ ih =>
    intro _
    have := ih (by omega)
    omega
  | right node s e i a b hlt _ ih =>
    intro _
    have := ih (by omega)
    omega

theorem OnPath_iff_covers (idx : Nat) {node s e : Nat} (hs : s ≤ idx) (he : idx ≤ e) (i : Nat) :
    OnPath idx node s e i ↔ ∃ a b : Nat, Covers node s e i a b ∧ a ≤ idx ∧ idx ≤ b := by
  constructor
  · intro h
    induction h with
    | here node s e => exact ⟨s, e, Covers.here node s e, hs, he⟩
    | left node s e i hne hi _ ih =>
      obtain ⟨a, b, hc, h1, h2⟩ := ih hs hi
      exact ⟨a, b, Covers.left node s e i a b (by omega) hc, h1, h2⟩
    | right node s e i hne hi _ ih =>
      obtain ⟨a, b, hc, h1, h2⟩ := ih (by omega) he
      exact ⟨a, b, Covers.right node s e i a b (by omega) hc, h1, h2⟩
  · rintro ⟨a, b, hc, h1, h2⟩
    induction hc with
    | here node s e => exact OnPath.here node s e
    | left node s e i a b hlt hc2 ih =>
      have hr := Covers_range hc2 (by omega)
      exact OnPath.left node s e i (by omega) (by omega) (ih hs (by omega) h1 h2)
    | right node s e i a b hlt hc2 ih =>
      have hr := Covers_range hc2 (by omega)
      exact OnPath.right node s e i (by omega) (by omega) (ih (by omega) he h1 h2)

/-- C32: a `segtree_update_point (index, value)` with a valid index returns `SEGTREE_OK` and
a tree in which every `tree[]` slot off the path from the root to the leaf of `index` is
what it was, `tree[]` has the same length, and `lazy` (every slot, so every pending tag,
also on that path), `size`, `tree_size`, `op_type`, the combine function, the lazy rules,
`identity` and `lazy_enabled` are unchanged; `update_count` is the only other field that
changes. The path consists of the nodes of the recursion tree whose interval contains
`index`: the leaf of `index` and its ancestors. -/
theorem update_point_frame (st : segment_tree_t) (index value : Int) (h0 : 0 ≤ index)
    (h1 : index < st.size) :
    ∃ st2 : segment_tree_t,
      segtree_update_point (some st) index value = (SEGTREE_OK, some st2) ∧
      (∀ j : Nat, ¬ OnPath index.toNat 1 0 (st.size - 1) j → rd st2.tree j = rd st.tree j) ∧
      st2.tree.length = st.tree.length ∧ st2.lazy = st.lazy ∧ st2.size = st.size ∧
      st2.tree_size = st.tree_size ∧ st2.op_type = st.op_type ∧ st2.combine = st.combine ∧
      st2.update_lazy = st.update_lazy ∧ st2.propagate = st.propagate ∧
      st2.identity = st.identity ∧ st2.lazy_enabled = st.lazy_enabled ∧
      st2.stats.query_count = st.stats.query_count ∧
      ∀ j : Nat, OnPath index.toNat 1 0 (st.size - 1) j ↔
        ∃ a b : Nat, Covers 1 0 (st.size - 1) j a b ∧ a ≤ index.toNat ∧ index.toNat ≤ b := by
  obtain ⟨t, e1, a1, f1⟩ :=
    update_point_recursive_path index.toNat value st.size st 1 0 (st.size - 1)
  unfold segtree_update_point
  simp only
  rw [if_neg (by omega), e1]
  exact ⟨_, rfl, f1, a1, rfl, rfl, rfl, rfl, rfl, rfl, rfl, rfl, rfl, rfl,
    OnPath_iff_covers index.toNat (Nat.zero_le _) (by omega)⟩

theorem update_point_frame_witness :
    ∃ st2 : segment_tree_t,
      segtree_update_point (some lazy_sum_123) 1 10 = (SEGTREE_OK, some st2) ∧
      (∀ j : Nat, ¬ OnPath (1 : Int).toNat 1 0 (lazy_sum_123.size - 1) j →
        rd st2.tree j = rd lazy_sum_123.tree j) ∧
      st2.tree.length = lazy_sum_123.tree.length ∧ st2.lazy = lazy_sum_123.lazy ∧
      st2.size = lazy_sum_123.size ∧ st2.tree_size = lazy_sum_123.tree_size ∧
      st2.op_type = lazy_sum_123.op_type ∧ st2.combine = lazy_sum_123.combine ∧
      st2.update_lazy = lazy_sum_123.update_lazy ∧ st2.propagate = lazy_sum_123.propagate ∧
      st2.identity = lazy_sum_123.identity ∧
      st2.lazy_enabled = lazy_sum_123.lazy_enabled ∧
      st2.stats.query_count = lazy_sum_123.stats.query_count ∧
      ∀ j : Nat, OnPath (1 : Int).toNat 1 0 (lazy_sum_123.size - 1) j ↔
        ∃ a b : Nat, Covers 1 0 (lazy_sum_123.size - 1) j a b ∧ a ≤ (1 : Int).toNat ∧
          (1 : Int).toNat ≤ b :=
  update_point_frame lazy_sum_123 1 10 (by decide) (by decide)

/-! ## The operation tag is never read after construction -/

theorem call_propagate_op (st : segment_tree_t) (o : segtree_operation_t) (node s e : Nat) :
    call_propagate (with_op st o) node s e = with_op (call_propagate st node s e) o := by
  unfold call_propagate with_op
  simp only
  split
  · unfold propagate_sum
    simp only
    split
    · rfl
    · split_ifs <;> rfl
  · unfold propagate_min
    simp only
    split
    · rfl
    · split_ifs <;> rfl
  · unfold propagate_max
    simp only
    split
    · rfl
    · split_ifs <;> rfl
  · rfl

theorem call_update_lazy_op (st : segment_tree_t) (o : segtree_operation_t) (node s e : Nat)
    (val : Int) :
    call_update_lazy (with_op st o) node s e val =
      with_op (call_update_lazy st node s e val) o := by
  unfold call_update_lazy with_op
  simp only
  split
  · unfold update_lazy_sum
    simp only
    split <;> rfl
  · unfold update_lazy_min
    simp only
    split
    · rfl
    · split_ifs <;> rfl
  · unfold update_lazy_max
    simp only
    split
    · rfl
    · split_ifs <;> rfl
  · rfl

theorem guarded_propagate_op (st : segment_tree_t) (o : segtree_operation_t) (node s e : Nat) :
    (if (with_op st o).lazy_enabled = true ∧ (with_op st o).propagate ≠ none then
      call_propagate (with_op st o) node s e else with_op st o) =
    with_op (if st.lazy_enabled = true ∧ st.propagate ≠ none then call_propagate st node s e
      else st) o := by
  have h1 : (with_op st o).lazy_enabled = st.lazy_enabled := rfl
  have h2 : (with_op st o).propagate = st.propagate := rfl
  rw [h1, h2]
  split_ifs
  · exact call_propagate_op st o node s e
  · rfl

theorem build_tree_op (o : segtree_operation_t) (arr : List Int) :
    ∀ (fuel : Nat) (st : segment_tree_t) (node s e : Nat),
      build_tree fuel (with_op st o) arr node s e = with_op (build_tree fuel st arr node s e) o := by
  intro fuel
  induction fuel with
  | zero => intro st node s e; rfl
  | succ fuel ih =>
    intro st node s e
    unfold build_tree
    split_ifs
    · rfl
    · simp only [ih]
      rfl

theorem query_recursive_op (o : segtree_operation_t) (l r : Nat) :
    ∀ (fuel : Nat) (st : segment_tree_t) (node s e : Nat),
      query_recursive fuel (with_op st o) node s e l r =
        (with_op (query_recursive fuel st node s e l r).1 o,
          (query_recursive fuel st node s e l r).2) := by
  intro fuel
  induction fuel with
  | zero => intro st node s e; rfl
  | succ fuel ih =>
    intro st node s e
    unfold query_recursive
    by_cases h1 : r < s ∨ e < l
    · rw [if_pos h1, if_pos h1]; rfl
    · rw [if_neg h1, if_neg h1]
      simp only [guarded_propagate_op]
      by_cases h2 : l ≤ s ∧ e ≤ r
      · rw [if_pos h2, if_pos h2]; rfl
      · rw [if_neg h2, if_neg h2]
        simp only [ih]
        rfl

theorem update_point_recursive_op (o : segtree_operation_t) (idx : Nat) (val : Int) :
    ∀ (fuel : Nat) (st : segment_tree_t) (node s e : Nat),
      update_point_recursive fuel (with_op st o) node s e idx val =
        with_op (update_point_recursive fuel st node s e idx val) o := by
  intro fuel
  induction fuel with
  | zero => intro st node s e; rfl
  | succ fuel ih =>
    intro st node s e
    unfold update_point_recursive
    by_cases h1 : s = e
    · rw [if_pos h1, if_pos h1]; rfl
    · rw [if_neg h1, if_neg h1]
      by_cases hi : idx ≤ (s + e) / 2
      · simp only [if_pos hi, ih]; rfl
      · simp only [if_neg hi, ih]; rfl

theorem update_range_recursive_op (o : segtree_operation_t) (l r : Nat) (val : Int) :
    ∀ (fuel : Nat) (st : segment_tree_t) (node s e : Nat),
      update_range_recursive fuel (with_op st o) node s e l r val =
        with_op (update_range_recursive fuel st node s e l r val) o := by
  intro fuel
  induction fuel with
  | zero => intro st node s e; rfl
  | succ fuel ih =>
    intro st node s e
    unfold update_range_recursive
    simp only [guarded_propagate_op]
    generalize (if st.lazy_enabled = true ∧ st.propagate ≠ none then
      call_propagate st node s e else st) = x
    by_cases h1 : s > r ∨ e < l
    · rw [if_pos h1, if_pos h1]
    · rw [if_neg h1, if_neg h1]
      by_cases h2 : s ≥ l ∧ e ≤ r
      · rw [if_pos h2, if_pos h2]
        by_cases h3 : x.lazy_enabled = true ∧ x.update_lazy ≠ none
        · rw [if_pos h3, if_pos (show (with_op x o).lazy_enabled = true ∧
            (with_op x o).update_lazy ≠ none from h3)]
          exact call_update_lazy_op x o node s e val
        · rw [if_neg h3, if_neg (show ¬ ((with_op x o).lazy_enabled = true ∧
            (with_op x o).update_lazy ≠ none) from h3)]
          rfl
      · rw [if_neg h2, if_neg h2]
        simp only [ih]
        generalize update_range_recursive fuel
          (update_range_recursive fuel x (2 * node) s ((s + e) / 2) l r val) (2 * node + 1)
          ((s + e) / 2 + 1) e l r val = y
        by_cases h3 : y.lazy_enabled = true ∧ y.propagate ≠ none
        · rw [if_pos h3, if_pos (show (with_op y o).lazy_enabled = true ∧
            (with_op y o).propagate ≠ none from h3), call_propagate_op, call_propagate_op]
          rfl
        · rw [if_neg h3, if_neg (show ¬ ((with_op y o).lazy_enabled = true ∧
            (with_op y o).propagate ≠ none) from h3)]
          rfl

theorem segtree_query_op (t : Option segment_tree_t) (o : segtree_operation_t)
    (l r : Int) (res : Option Int) :
    segtree_query (t.map (fun x => with_op x o)) l r res =
      ((segtree_query t l r res).1, (segtree_query t l r res).2.1.map (fun x => with_op x o),
        (segtree_query t l r res).2.2) := by
  cases t with
  | none => rfl
  | some st =>
    cases res with
    | none => rfl
    | some old =>
      show segtree_query (some (with_op st o)) l r (some old) = _
      unfold segtree_query
      simp only
      have hs : (with_op st o).size = st.size := rfl
      rw [hs]
      split_ifs
      · rfl
      · rw [query_recursive_op]
        rfl

theorem segtree_update_point_op (t : Option segment_tree_t) (o : segtree_operation_t)
    (i v : Int) :
    segtree_update_point (t.map (fun x => with_op x o)) i v =
      ((segtree_update_point t i v).1,
        (segtree_update_point t i v).2.map (fun x => with_op x o)) := by
  cases t with
  | none => rfl
  | some st =>
    show segtree_update_point (some (with_op st o)) i v = _
    unfold segtree_update_point
    simp only
    have hs : (with_op st o).size = st.size := rfl
    rw [hs]
    split_ifs
    · rfl
    · rw [update_point_recursive_op]
      rfl

theorem segtree_update_range_op (t : Option segment_tree_t) (o : segtree_operation_t)
    (l r v : Int) :
    segtree_update_range (t.map (fun x => with_op x o)) l r v =
      ((segtree_update_range t l r v).1,
        (segtree_update_range t l r v).2.map (fun x => with_op x o)) := by
  cases t with
  | none => rfl
  | some st =>
    show segtree_update_range (some (with_op st o)) l r v = _
    unfold segtree_update_range
    simp only
    have hs : (with_op st o).size = st.size := rfl
    have hl : (with_op st o).lazy_enabled = st.lazy_enabled := rfl
    rw [hs, hl]
    split_ifs
    · rfl
    · rfl
    · rw [update_range_recursive_op]
      rfl

theorem segtree_rebuild_op (t : Option segment_tree_t) (o : segtree_operation_t)
    (a : Option (List Int)) (n : Int) :
    segtree_rebuild (t.map (fun x => with_op x o)) a n =
      ((segtree_rebuild t a n).1, (segtree_rebuild t a n).2.map (fun x => with_op x o)) := by
  cases t with
  | none => cases a <;> rfl
  | some st =>
    cases a with
    | none => rfl
    | some arr =>
      show segtree_rebuild (some (with_op st o)) (some arr) n = _
      unfold segtree_rebuild
      simp only
      by_cases h1 : n ≤ 0 ∨ n > SEGTREE_MAX_SIZE
      · rw [if_pos h1, if_pos h1]; rfl
      · rw [if_neg h1, if_neg h1]
        have hts : (with_op st o).tree_size = st.tree_size := rfl
        have hl : (with_op st o).lazy_enabled = st.lazy_enabled := rfl
        by_cases h2 : (calculate_tree_size n).toNat ≠ st.tree_size
        · by_cases h3 : st.lazy_enabled = true
          · simp only [hts, hl, if_pos h2, if_pos h3]
            simp only [Option.map_some']
            rw [← build_tree_op]
            rfl
          · simp only [hts, hl, if_pos h2, if_neg h3]
            simp only [Option.map_some']
            rw [← build_tree_op]
            rfl
        · simp only [hts, if_neg h2]
          simp only [Option.map_some']
          rw [← build_tree_op]
          rfl

theorem tree_step_op (t : Option segment_tree_t) (o : segtree_operation_t) (c : tree_call) :
    tree_step (t.map (fun x => with_op x o)) c = (tree_step t c).map (fun x => with_op x o) := by
  cases c with
  | query l r =>
    show (segtree_query (t.map (fun x => with_op x o)) l r (some 0)).2.1 = _
    rw [segtree_query_op]; rfl
  | update_point i v =>
    show (segtree_update_point (t.map (fun x => with_op x o)) i v).2 = _
    rw [segtree_update_point_op]; rfl
  | update_range l r v =>
    show (segtree_update_range (t.map (fun x => with_op x o)) l r v).2 = _
    rw [segtree_update_range_op]; rfl
  | rebuild a n =>
    show (segtree_rebuild (t.map (fun x => with_op x o)) a n).2 = _
    rw [segtree_rebuild_op]; rfl

theorem tree_calls_op (o : segtree_operation_t) (cs : List tree_call) :
    ∀ t : Option segment_tree_t,
      tree_calls (t.map (fun x => with_op x o)) cs =
        (tree_calls t cs).map (fun x => with_op x o) := by
  induction cs with
  | nil => intro t; rfl
  | cons c cs ih =>
    intro t
    unfold tree_calls at ih ⊢
    rw [List.foldl_cons, List.foldl_cons, tree_step_op]
    exact ih _

theorem segtree_create_custom_tag (arr : Option (List Int)) (n : Int) :
    segtree_create arr n SEGTREE_CUSTOM =
      (segtree_create arr n SEGTREE_SUM).map (fun x => with_op x SEGTREE_CUSTOM) := by
  cases arr with
  | none => rfl
  | some S =>
    unfold segtree_create
    simp only
    split_ifs
    · rfl
    · show some _ = some _
      have h : setup_operations (fresh_tree n SEGTREE_CUSTOM) SEGTREE_CUSTOM =
          with_op (setup_operations (fresh_tree n SEGTREE_SUM) SEGTREE_SUM) SEGTREE_CUSTOM := rfl
      rw [h, build_tree_op]
      rfl

theorem segtree_create_lazy_custom_tag (arr : Option (List Int)) (n : Int) :
    segtree_create_lazy arr n SEGTREE_CUSTOM =
      (segtree_create_lazy arr n SEGTREE_SUM).map (fun x => with_op x SEGTREE_CUSTOM) := by
  unfold segtree_create_lazy
  rw [segtree_create_custom_tag]
  cases segtree_create arr n SEGTREE_SUM <;> rfl

/-- C33: for a non-null array and `1 <= n <= SEGTREE_MAX_SIZE`, `segtree_create` and
`segtree_create_lazy` called with `SEGTREE_CUSTOM` do not fail: each returns the tree that
the same call with `SEGTREE_SUM` returns, except that `op_type` is `SEGTREE_CUSTOM`; its
combine function is `combine_sum` (32-bit integer addition), its identity is 0 and its
lazy rules are the SUM rules. After any sequence of calls of the four operations, every
query on it returns the same error code and the same value as on the SUM tree. -/
theorem create_custom_as_sum (S : List Int) (n : Int) (h1 : 1 ≤ n)
    (h2 : n ≤ SEGTREE_MAX_SIZE) :
    ∃ st sl : segment_tree_t,
      segtree_create (some S) n SEGTREE_SUM = some st ∧
      segtree_create (some S) n SEGTREE_CUSTOM = some (with_op st SEGTREE_CUSTOM) ∧
      segtree_create_lazy (some S) n SEGTREE_SUM = some sl ∧
      segtree_create_lazy (some S) n SEGTREE_CUSTOM = some (with_op sl SEGTREE_CUSTOM) ∧
      ((with_op st SEGTREE_CUSTOM).op_type = SEGTREE_CUSTOM ∧
        (with_op st SEGTREE_CUSTOM).combine = combine_sum ∧
        (∀ a b : Int, (with_op st SEGTREE_CUSTOM).combine a b = wrap32 (a + b)) ∧
        (with_op st SEGTREE_CUSTOM).identity = 0 ∧
        (with_op st SEGTREE_CUSTOM).update_lazy = some lazy_fn.sum ∧
        (with_op st SEGTREE_CUSTOM).propagate = some lazy_fn.sum ∧
        (with_op st SEGTREE_CUSTOM).lazy_enabled = false) ∧
      ((with_op sl SEGTREE_CUSTOM).op_type = SEGTREE_CUSTOM ∧
        (with_op sl SEGTREE_CUSTOM).combine = combine_sum ∧
        (with_op sl SEGTREE_CUSTOM).identity = 0 ∧
        (with_op sl SEGTREE_CUSTOM).update_lazy = some lazy_fn.sum ∧
        (with_op sl SEGTREE_CUSTOM).propagate = some lazy_fn.sum ∧
        (with_op sl SEGTREE_CUSTOM).lazy_enabled = true) ∧
      ∀ (cs : List tree_call) (l r : Int) (res : Option Int),
        ((segtree_query (tree_calls (segtree_create (some S) n SEGTREE_CUSTOM) cs) l r res).1 =
            (segtree_query (tree_calls (segtree_create (some S) n SEGTREE_SUM) cs) l r res).1 ∧
          (segtree_query (tree_calls (segtree_create (some S) n SEGTREE_CUSTOM) cs)
              l r res).2.2 =
            (segtree_query (tree_calls (segtree_create (some S) n SEGTREE_SUM) cs)
              l r res).2.2) ∧
        ((segtree_query (tree_calls (segtree_create_lazy (some S) n SEGTREE_CUSTOM) cs)
              l r res).1 =
            (segtree_query (tree_calls (segtree_create_lazy (some S) n SEGTREE_SUM) cs)
              l r res).1 ∧
          (segtree_query (tree_calls (segtree_create_lazy (some S) n SEGTREE_CUSTOM) cs)
              l r res).2.2 =
            (segtree_query (tree_calls (segtree_create_lazy (some S) n SEGTREE_SUM) cs)
              l r res).2.2) := by
  obtain ⟨t, e⟩ := segtree_create_some S n SEGTREE_SUM (by omega)
  have el : segtree_create_lazy (some S) n SEGTREE_SUM =
      some { ({ setup_operations (fresh_tree n SEGTREE_SUM) SEGTREE_SUM with tree := t } :
        segment_tree_t) with
        lazy_enabled := true
        lazy := some (fill (calculate_tree_size n).toNat
          (List.replicate (calculate_tree_size n).toNat 0) 0) } := by
    unfold segtree_create_lazy
    rw [e]
    rfl
  refine ⟨_, _, e, ?_, el, ?_, ⟨rfl, rfl, fun _ _ => rfl, rfl, rfl, rfl, rfl⟩,
    ⟨rfl, rfl, rfl, rfl, rfl, rfl⟩, ?_⟩
  · rw [segtree_create_custom_tag, e]; rfl
  · rw [segtree_create_lazy_custom_tag, el]; rfl
  · intro cs l r res
    rw [segtree_create_custom_tag, segtree_create_lazy_custom_tag, tree_calls_op, tree_calls_op,
      segtree_query_op, segtree_query_op]
    exact ⟨⟨rfl, rfl⟩, rfl, rfl⟩

theorem create_custom_as_sum_witness :
    ((segtree_query (tree_calls (segtree_create (some [1, 2, 3]) 3 SEGTREE_CUSTOM)
          [tree_call.update_point 1 7, tree_call.rebuild (some [4, 5, 6, 7]) 4]) 0 3
          (some 0)).2.2 =
        (segtree_query (tree_calls (segtree_create (some [1, 2, 3]) 3 SEGTREE_SUM)
          [tree_call.update_point 1 7, tree_call.rebuild (some [4, 5, 6, 7]) 4]) 0 3
          (some 0)).2.2) ∧
    ((segtree_query (tree_calls (segtree_create_lazy (some [1, 2, 3]) 3 SEGTREE_CUSTOM)
          [tree_call.update_range 0 1 5, tree_call.query 1 1]) 0 2 (some 0)).2.2 =
        (segtree_query (tree_calls (segtree_create_lazy (some [1, 2, 3]) 3 SEGTREE_SUM)
          [tree_call.update_range 0 1 5, tree_call.query 1 1]) 0 2 (some 0)).2.2) :=
  let ⟨_, _, _, _, _, _, _, _, h⟩ := create_custom_as_sum [1, 2, 3] 3 (by decide) (by decide)
  ⟨(h [tree_call.update_point 1 7, tree_call.rebuild (some [4, 5, 6, 7]) 4] 0 3
      (some 0)).1.2,
   (h [tree_call.update_range 0 1 5, tree_call.query 1 1] 0 2 (some 0)).2.2⟩

/-! ## Queries do not change what later queries return -/

theorem resolved_value_frame (k : lazy_fn) {t lz t2 lz2 : List Int} (a b : Nat) :
    ∀ (fuel node s e : Nat) (acc : Int),
      (∀ i, inSub node i → rd t2 i = rd t i) → (∀ i, inSub node i → rd lz2 i = rd lz i) →
      resolved_value k t2 lz2 a b fuel node s e acc =
        resolved_value k t lz a b fuel node s e acc := by
  intro fuel
  induction fuel with
  | zero => intro node s e acc _ _; rfl
  | succ fuel ih =>
    intro node s e acc ht hz
    unfold resolved_value
    rw [ht node (inSub_self node), hz node (inSub_self node),
      ih (2 * node) s ((s + e) / 2) _ (fun i hi => ht i (inSub_left hi))
        (fun i hi => hz i (inSub_left hi)),
      ih (2 * node + 1) ((s + e) / 2 + 1) e _ (fun i hi => ht i (inSub_right hi))
        (fun i hi => hz i (inSub_right hi))]

theorem resolved_value_child (k : lazy_fn) {t lz t2 lz2 : List Int} (a b : Nat)
    (fuel c s e : Nat) (acc acc2 : Int) (hc : 1 ≤ c) (ht : rd t2 c = rd t c)
    (hq : tag_compose k acc2 (rd lz2 c) = tag_compose k acc (rd lz c))
    (ht2 : ∀ i, inSub c i → i ≠ c → rd t2 i = rd t i)
    (hz2 : ∀ i, inSub c i → i ≠ c → rd lz2 i = rd lz i) :
    resolved_value k t2 lz2 a b fuel c s e acc2 = resolved_value k t lz a b fuel c s e acc := by
  cases fuel with
  | zero => rfl
  | succ fuel =>
    unfold resolved_value
    rw [ht, hq,
      resolved_value_frame k a b fuel (2 * c) s ((s + e) / 2) _
        (fun i hi => ht2 i (inSub_left hi) (inSub_left_ne hc hi))
        (fun i hi => hz2 i (inSub_left hi) (inSub_left_ne hc hi)),
      resolved_value_frame k a b fuel (2 * c + 1) ((s + e) / 2 + 1) e _
        (fun i hi => ht2 i (inSub_right hi) (inSub_right_ne hi))
        (fun i hi => hz2 i (inSub_right hi) (inSub_right_ne hi))]

theorem call_propagate_resolved {k : lazy_fn} {st : segment_tree_t} {lz : List Int}
    (hwf : LazyWF k st lz) {node s e : Nat} (hn : 1 ≤ node) (hse : s ≤ e)
    (hb : InB node s e lz.length) (hst : ∀ i, stored_ok k (rd st.tree i)) :
    ∃ t2 lz2 : List Int, call_propagate st node s e = with_bufs st t2 lz2 ∧
      t2.length = st.tree.length ∧ lz2.length = lz.length ∧
      rd lz2 node = lz_identity k ∧
      (∀ i, ¬ inSub node i → rd t2 i = rd st.tree i) ∧
      (∀ i, ¬ inSub node i → rd lz2 i = rd lz i) ∧
      (∀ i, stored_ok k (rd t2 i)) ∧
      ∀ (a b fuel : Nat) (acc : Int),
        resolved_value k t2 lz2 a b fuel node s e acc =
          resolved_value k st.tree lz a b fuel node s e acc := by
  obtain ⟨t2, lz2, e1, a1, b1, c1, f1, g1, n1⟩ := call_propagate_frame hwf s e hn (InB_lt hb)
  have hlzs := hwf.2.2.2.2.2.1
  have hlen := hwf.2.2.2.2.2.2
  have hnb := InB_lt hb
  by_cases h0 : rd lz node = lz_identity k
  · obtain ⟨r1, r2⟩ := n1 h0
    subst r1; subst r2
    exact ⟨_, _, e1, a1, b1, c1, f1, g1, hst, fun _ _ _ _ => rfl⟩
  · have e2 := call_propagate_eq hwf.2.1 hlzs node s e hn
    rw [e1, if_neg h0] at e2
    obtain ⟨r1, r2⟩ := with_bufs_inj e2
    have hv : rd t2 node =
        tag_apply k (rd lz node) ((e : Int) - (s : Int) + 1) (rd st.tree node) := by
      rw [r1]; exact rd_wr_same _ (by rw [← hlen]; exact hnb)
    have hto : ∀ i, i ≠ node → rd t2 i = rd st.tree i := by
      intro i hi
      rw [r1]; exact rd_wr_ne _ (fun c => hi c.symm)
    refine ⟨t2, lz2, e1, a1, b1, c1, f1, g1, ?_, ?_⟩
    · intro i
      by_cases hi : i = node
      · rw [hi, hv]; exact stored_ok_apply k _ _ _ (hst node)
      · rw [hto i hi]; exact hst i
    · intro a b fuel acc
      cases fuel with
      | zero => rfl
      | succ fuel =>
        unfold resolved_value
        by_cases h1 : b < s ∨ e < a
        · rw [if_pos h1, if_pos h1]
        · rw [if_neg h1, if_neg h1]
          by_cases h2 : a ≤ s ∧ e ≤ b
          · rw [if_pos h2, if_pos h2, c1, hv]
            exact tag_apply_push_id k acc _ _ _ (hst node)
          · rw [if_neg h2, if_neg h2, c1]
            have hlt : s < e := by omega
            have hbl := InB_lt (InB_left hlt hb)
            have hbr := InB_lt (InB_right hlt hb)
            have hzl : rd lz2 (2 * node) =
                tag_compose k (rd lz node) (rd lz (2 * node)) := by
              rw [r2, if_pos (by omega : s ≠ e), rd_wr_ne _ (by omega),
                rd_wr_ne _ (by omega)]
              exact rd_wr_same _ hbl
            have hzr : rd lz2 (2 * node + 1) =
                tag_compose k (rd lz node) (rd lz (2 * node + 1)) := by
              rw [r2, if_pos (by omega : s ≠ e), rd_wr_ne _ (by omega)]
              exact rd_wr_same _ (by rw [length_wr]; exact hbr)
            have hzo : ∀ i, i ≠ node → i ≠ 2 * node → i ≠ 2 * node + 1 →
                rd lz2 i = rd lz i := by
              intro i i1 i2 i3
              rw [r2, if_pos (by omega : s ≠ e), rd_wr_ne _ (fun c => i1 c.symm),
                rd_wr_ne _ (fun c => i3 c.symm), rd_wr_ne _ (fun c => i2 c.symm)]
            rw [resolved_value_child k a b fuel (2 * node) s ((s + e) / 2)
                (tag_compose k acc (rd lz node)) (tag_compose k acc (lz_identity k))
                (by omega) (hto _ (by omega))
                (by rw [hzl]; exact tag_compose_push k acc _ _)
                (fun i hi hne => hto i (inSub_left_ne hn hi))
                (fun i hi hne => hzo i (inSub_left_ne hn hi) hne (fun c => by
                  rw [c] at hi
                  exact inSub_disjoint hn hi (inSub_self _))),
              resolved_value_child k a b fuel (2 * node + 1) ((s + e) / 2 + 1) e
                (tag_compose k acc (rd lz node)) (tag_compose k acc (lz_identity k))
                (by omega) (hto _ (by omega))
                (by rw [hzr]; exact tag_compose_push k acc _ _)
                (fun i hi hne => hto i (inSub_right_ne hi))
                (fun i hi hne => hzo i (inSub_right_ne hi) (fun c => by
                  rw [c] at hi
                  exact inSub_disjoint hn (inSub_self _) hi) hne)]

theorem query_recursive_resolved (k : lazy_fn) (a b : Nat) :
    ∀ (fuel : Nat) (st : segment_tree_t) (lz : List Int) (node s e : Nat), e - s < fuel →
      s ≤ e → 1 ≤ node → LazyWF k st lz → InB node s e lz.length →
      (∀ i, stored_ok k (rd st.tree i)) →
      ∃ t2 lz2 : List Int,
        query_recursive fuel st node s e a b =
          (with_bufs st t2 lz2,
            resolved_value k st.tree lz a b fuel node s e (lz_identity k)) ∧
        t2.length = st.tree.length ∧ lz2.length = lz.length ∧
        (∀ i, ¬ inSub node i → rd t2 i = rd st.tree i) ∧
        (∀ i, ¬ inSub node i → rd lz2 i = rd lz i) ∧
        (∀ i, stored_ok k (rd t2 i)) ∧
        ∀ (a2 b2 f : Nat) (acc : Int),
          resolved_value k t2 lz2 a2 b2 f node s e acc =
            resolved_value k st.tree lz a2 b2 f node s e acc := by
  intro fuel
  induction fuel with
  | zero => intro st lz node s e h; omega
  | succ fuel ih =>
    intro st lz node s e hf hse hn hwf hb hst
    have hlzs := hwf.2.2.2.2.2.1
    have hlen := hwf.2.2.2.2.2.2
    have hid := hwf.2.2.2.2.1
    unfold query_recursive
    by_cases h1 : b < s ∨ e < a
    · rw [if_pos h1]
      refine ⟨st.tree, lz, ?_, rfl, rfl, fun _ _ => rfl, fun _ _ => rfl, hst,
        fun _ _ _ _ => rfl⟩
      rw [with_bufs_self st lz hlzs, hid]
      unfold resolved_value
      rw [if_pos h1]
    · rw [if_neg h1]
      obtain ⟨t1, lz1, e1, a1, b1, c1, f1, g1, s1, p1⟩ :=
        call_propagate_resolved hwf hn hse hb hst
      have hg : (if st.lazy_enabled = true ∧ st.propagate ≠ none then
          call_propagate st node s e else st) = with_bufs st t1 lz1 := by
        rw [if_pos ⟨hwf.1, by rw [hwf.2.1]; simp⟩, e1]
      simp only [hg]
      have hwf1 : LazyWF k (with_bufs st t1 lz1) lz1 :=
        LazyWF_with_bufs hwf t1 lz1 (by rw [a1, b1, hlen])
      have hroot : resolved_value k st.tree lz a b (fuel + 1) node s e (lz_identity k) =
          resolved_value k t1 lz1 a b (fuel + 1) node s e (lz_identity k) :=
        (p1 a b (fuel + 1) (lz_identity k)).symm
      rw [hroot]
      by_cases h2 : a ≤ s ∧ e ≤ b
      · rw [if_pos h2]
        refine ⟨t1, lz1, ?_, a1, b1, f1, g1, s1, p1⟩
        unfold resolved_value
        rw [if_neg h1, if_pos h2, c1, tag_compose_id_id, tag_apply_id k _ _ (s1 node)]
        rfl
      · rw [if_neg h2]
        have hlt : s < e := by omega
        have hb1 : InB node s e lz1.length := by rw [b1]; exact hb
        obtain ⟨ta, lza, ea, aa, ba, fa, ga, sa, pa⟩ := ih (with_bufs st t1 lz1) lz1
          (2 * node) s ((s + e) / 2) (by omega) (by omega) (by omega) hwf1
          (InB_left hlt hb1) s1
        have aab : ta.length = st.tree.length := aa.trans a1
        have bab : lza.length = lz.length := ba.trans b1
        have hwfa : LazyWF k (with_bufs st ta lza) lza :=
          LazyWF_with_bufs hwf ta lza (by rw [aab, bab, hlen])
        obtain ⟨tb, lzb, eb, ab, bb, fb, gb, sb, pb⟩ := ih (with_bufs st ta lza) lza
          (2 * node + 1) ((s + e) / 2 + 1) e (by omega) (by omega) (by omega) hwfa
          (by rw [bab]; exact InB_right hlt hb) sa
        rw [ea]
        simp only [with_bufs_with_bufs]
        rw [eb]
        simp only [with_bufs_with_bufs]
        have hcomb : (with_bufs st tb lzb).combine = lz_combine k := hwf.2.2.2.1
        rw [hcomb]
        have hra : resolved_value k ta lza a b fuel (2 * node + 1) ((s + e) / 2 + 1) e
            (lz_identity k) =
            resolved_value k t1 lz1 a b fuel (2 * node + 1) ((s + e) / 2 + 1) e
              (lz_identity k) :=
          resolved_value_frame k a b fuel _ _ _ _
            (fun i hi => fa i (fun c => inSub_disjoint hn c hi))
            (fun i hi => ga i (fun c => inSub_disjoint hn c hi))
        refine ⟨tb, lzb, ?_, ab.trans aab, bb.trans bab, ?_, ?_, sb, ?_⟩
        · show (with_bufs st tb lzb, lz_combine k
            (resolved_value k t1 lz1 a b fuel (2 * node) s ((s + e) / 2) (lz_identity k))
            (resolved_value k ta lza a b fuel (2 * node + 1) ((s + e) / 2 + 1) e
              (lz_identity k))) = _
          rw [hra]
          conv_rhs => unfold resolved_value
          rw [if_neg h1, if_neg h2, c1, tag_compose_id_id]
        · intro i hi
          rw [fb i (fun c => hi (inSub_right c))]
          show rd ta i = _
          rw [fa i (fun c => hi (inSub_left c))]
          exact f1 i hi
        · intro i hi
          rw [gb i (fun c => hi (inSub_right c)), ga i (fun c => hi (inSub_left c))]
          exact g1 i hi
        · intro a2 b2 f acc
          rw [← p1 a2 b2 f acc]
          cases f with
          | zero => rfl
          | succ f =>
            have hnl : ¬ inSub (2 * node) node := fun c => inSub_left_ne hn c rfl
            have hnr : ¬ inSub (2 * node + 1) node := fun c => inSub_right_ne c rfl
            have htn : rd tb node = rd t1 node := by
              rw [fb node hnr]; exact fa node hnl
            have hzn : rd lzb node = rd lz1 node := by
              rw [gb node hnr]; exact ga node hnl
            have hL : ∀ q : Int, resolved_value k tb lzb a2 b2 f (2 * node) s ((s + e) / 2) q =
                resolved_value k t1 lz1 a2 b2 f (2 * node) s ((s + e) / 2) q := fun q =>
              (resolved_value_frame k a2 b2 f (2 * node) s ((s + e) / 2) q
                (fun i hi => fb i (fun c => inSub_disjoint hn hi c))
                (fun i hi => gb i (fun c => inSub_disjoint hn hi c))).trans (pa a2 b2 f q)
            have hR : ∀ q : Int,
                resolved_value k tb lzb a2 b2 f (2 * node + 1) ((s + e) / 2 + 1) e q =
                resolved_value k t1 lz1 a2 b2 f (2 * node + 1) ((s + e) / 2 + 1) e q :=
              fun q => (pb a2 b2 f q).trans
                (resolved_value_frame k a2 b2 f (2 * node + 1) ((s + e) / 2 + 1) e q
                  (fun i hi => fa i (fun c => inSub_disjoint hn c hi))
                  (fun i hi => ga i (fun c => inSub_disjoint hn c hi)))
            unfold resolved_value
            rw [htn, hzn, hL, hR]

theorem segtree_query_resolved {k : lazy_fn} {st : segment_tree_t} {lz : List Int}
    (hwf : LazyWF k st lz) (hs : 1 ≤ st.size) (hb : InB 1 0 (st.size - 1) lz.length)
    (hst : ∀ i, stored_ok k (rd st.tree i)) (a b old : Int) (h0 : 0 ≤ a) (hab : a ≤ b)
    (hr : b < st.size) :
    ∃ (t2 lz2 : List Int) (c : segtree_stats_t),
      segtree_query (some st) a b (some old) =
        (SEGTREE_OK, some { with_bufs st t2 lz2 with stats := c },
          some (resolved_value k st.tree lz a.toNat b.toNat st.size 1 0 (st.size - 1)
            (lz_identity k))) ∧
      LazyWF k (with_bufs st t2 lz2) lz2 ∧ lz2.length = lz.length ∧
      (∀ i, stored_ok k (rd t2 i)) ∧
      ∀ (a2 b2 f : Nat) (acc : Int),
        resolved_value k t2 lz2 a2 b2 f 1 0 (st.size - 1) acc =
          resolved_value k st.tree lz a2 b2 f 1 0 (st.size - 1) acc := by
  obtain ⟨t2, lz2, e, a2, b2, _, _, s2, p2⟩ :=
    query_recursive_resolved k a.toNat b.toNat st.size st lz 1 0 (st.size - 1) (by omega)
      (Nat.zero_le _) (le_refl _) hwf hb hst
  refine ⟨t2, lz2, segtree_stats_t.mk (wrap32 (st.stats.query_count + 1)) st.stats.update_count,
    ?_, LazyWF_with_bufs hwf t2 lz2 (by rw [a2, b2]; exact hwf.2.2.2.2.2.2), b2, s2, p2⟩
  unfold segtree_query
  simp only
  rw [if_neg (by omega), e]
  rfl

/-- C31: on a lazy SUM, MIN or MAX tree in any state (lazy rule `k` installed, `lazy[]` as
long as `tree[]` and large enough for the recursion over `[0, size - 1]`, 32-bit integers
in `tree[]`), for all valid ranges `(l, r)` and `(a, b)` the query `(a, b)` returns
`SEGTREE_OK` and the same value whether or not the query `(l, r)` was executed first; the
value is the one read off the buffers with all pending tags applied. On a tree with lazy
propagation disabled a query leaves `tree[]` and `lazy` unchanged. -/
theorem query_read_only (k : lazy_fn) (st : segment_tree_t) (lz : List Int)
    (hwf : LazyWF k st lz) (hs : 1 ≤ st.size) (hb : InB 1 0 (st.size - 1) lz.length)
    (h32 : ∀ i, is_int32 (rd st.tree i)) (l r a b o1 o2 : Int)
    (hl0 : 0 ≤ l) (hlr : l ≤ r) (hr : r < st.size)
    (ha0 : 0 ≤ a) (hab : a ≤ b) (hbn : b < st.size) :
    (segtree_query (some st) a b (some o2)).1 = SEGTREE_OK ∧
    (segtree_query (segtree_query (some st) l r (some o1)).2.1 a b (some o2)).1 =
      SEGTREE_OK ∧
    (segtree_query (segtree_query (some st) l r (some o1)).2.1 a b (some o2)).2.2 =
      (segtree_query (some st) a b (some o2)).2.2 ∧
    (segtree_query (some st) a b (some o2)).2.2 =
      some (resolved_value k st.tree lz a.toNat b.toNat st.size 1 0 (st.size - 1)
        (lz_identity k)) ∧
    ∀ (p : segment_tree_t) (x y : Int) (res : Option Int), p.lazy_enabled = false →
      ∃ p2 : segment_tree_t, (segtree_query (some p) x y res).2.1 = some p2 ∧
        p2.tree = p.tree ∧ p2.lazy = p.lazy := by
  have hst : ∀ i, stored_ok k (rd st.tree i) := fun i => stored_ok_of_int32 k _ (h32 i)
  obtain ⟨t1, lz1, c1, e1, w1, b1, s1, p1⟩ :=
    segtree_query_resolved hwf hs hb hst l r o1 hl0 hlr hr
  obtain ⟨t2, lz2, c2, e2, _, _, _, _⟩ :=
    segtree_query_resolved hwf hs hb hst a b o2 ha0 hab hbn
  obtain ⟨t3, lz3, c3, e3, _, _, _, _⟩ :=
    segtree_query_resolved w1 hs (by rw [b1]; exact hb) s1 a b o2 ha0 hab hbn
  obtain ⟨q1, q2⟩ := segtree_query_stats (with_bufs st t1 lz1) c1 a b o2
  refine ⟨by rw [e2], ?_, ?_, by rw [e2], ?_⟩
  · rw [e1]
    show (segtree_query (some { with_bufs st t1 lz1 with stats := c1 }) a b (some o2)).1 = _
    rw [q1, e3]
  · rw [e1]
    show (segtree_query (some { with_bufs st t1 lz1 with stats := c1 }) a b (some o2)).2.2 = _
    rw [q2, e3, e2]
    show some (resolved_value k t1 lz1 a.toNat b.toNat st.size 1 0 (st.size - 1)
      (lz_identity k)) = _
    rw [p1]
  · intro p x y res hp
    cases res with
    | none => exact ⟨p, rfl, rfl, rfl⟩
    | some old =>
      unfold segtree_query
      simp only
      split_ifs
      · exact ⟨p, rfl, rfl, rfl⟩
      · rw [query_recursive_nolazy_state _ _ _ _ _ _ _ hp]
        exact ⟨_, rfl, rfl, rfl⟩

theorem query_read_only_witness :
    lazy_sum_123_tagged.lazy = some [0, 5, 0, 0, 0, 0, 0, 0] ∧
    ((segtree_query (some lazy_sum_123_tagged) 0 0 (some 0)).2.1).map
        (fun st => (st.tree, st.lazy)) =
      some ([0, 21, 13, 3, 6, 2, 0, 0], some [0, 0, 0, 5, 0, 5, 0, 0]) ∧
    (segtree_query (some lazy_sum_123_tagged) 1 2 (some 0)).2.2 = some 15 ∧
    (segtree_query (some lazy_sum_123_tagged) 1 2 (some 0)).1 = SEGTREE_OK ∧
    (segtree_query (segtree_query (some lazy_sum_123_tagged) 0 0 (some 0)).2.1 1 2
      (some 0)).1 = SEGTREE_OK ∧
    (segtree_query (segtree_query (some lazy_sum_123_tagged) 0 0 (some 0)).2.1 1 2
      (some 0)).2.2 = (segtree_query (some lazy_sum_123_tagged) 1 2 (some 0)).2.2 ∧
    (segtree_query (some lazy_sum_123_tagged) 1 2 (some 0)).2.2 =
      some (resolved_value lazy_fn.sum lazy_sum_123_tagged.tree [0, 5, 0, 0, 0, 0, 0, 0]
        (1 : Int).toNat (2 : Int).toNat lazy_sum_123_tagged.size 1 0
        (lazy_sum_123_tagged.size - 1) (lz_identity lazy_fn.sum)) ∧
    ∀ (p : segment_tree_t) (x y : Int) (res : Option Int), p.lazy_enabled = false →
      ∃ p2 : segment_tree_t, (segtree_query (some p) x y res).2.1 = some p2 ∧
        p2.tree = p.tree ∧ p2.lazy = p.lazy :=
  ⟨rfl, by decide, by decide,
   query_read_only lazy_fn.sum lazy_sum_123_tagged [0, 5, 0, 0, 0, 0, 0, 0]
    ⟨rfl, rfl, rfl, rfl, rfl, rfl, rfl⟩ (by decide) ⟨2, by decide, by decide⟩
    (fun i => rd_int32_of_mem (by decide) i) 0 0 1 2 0 0 (by decide) (by decide) (by decide)
    (by decide) (by decide) (by decide)⟩

/-! ## Slots accessed by the recursions -/

theorem slot_rd_ok {ts i : Nat} (a : List Int) (h1 : 1 ≤ i) (h2 : i < ts) :
    slot_rd ts a i = some (rd a i) := by
  unfold slot_rd; rw [if_pos ⟨h1, h2⟩]

theorem slot_wr_ok {ts i : Nat} (a : List Int) (v : Int) (h1 : 1 ≤ i) (h2 : i < ts) :
    slot_wr ts a i v = some (wr a i v) := by
  unfold slot_wr; rw [if_pos ⟨h1, h2⟩]

theorem propagate_sum_checked_eq (st : segment_tree_t) (node s e : Nat) (hn : 1 ≤ node)
    (h1 : node < st.tree_size) (h2 : s ≠ e → 2 * node + 1 < st.tree_size) :
    propagate_sum_checked st node s e = some (propagate_sum st node s e) := by
  unfold propagate_sum_checked propagate_sum
  cases st.lazy with
  | none => rfl
  | some lz =>
    by_cases hse : s = e
    · simp [hse, slot_rd_ok _ hn h1, slot_wr_ok _ _ hn h1]
      split_ifs <;> rfl
    · have h3 := h2 hse
      simp [hse, slot_rd_ok _ hn h1, slot_wr_ok _ _ hn h1,
        slot_rd_ok _ (show 1 ≤ 2 * node by omega) (show 2 * node < st.tree_size by omega),
        slot_wr_ok _ _ (show 1 ≤ 2 * node by omega) (show 2 * node < st.tree_size by omega),
        slot_rd_ok _ (show 1 ≤ 2 * node + 1 by omega) h3,
        slot_wr_ok _ _ (show 1 ≤ 2 * node + 1 by omega) h3]
      split_ifs <;> rfl

theorem propagate_min_checked_eq (st : segment_tree_t) (node s e : Nat) (hn : 1 ≤ node)
    (h1 : node < st.tree_size) (h2 : s ≠ e → 2 * node + 1 < st.tree_size) :
    propagate_min_checked st node s e = some (propagate_min st node s e) := by
  unfold propagate_min_checked propagate_min
  cases st.lazy with
  | none => rfl
  | some lz =>
    by_cases hse : s = e
    · simp [hse, slot_rd_ok _ hn h1, slot_wr_ok _ _ hn h1]
      split_ifs <;> rfl
    · have h3 := h2 hse
      simp [hse, slot_rd_ok _ hn h1, slot_wr_ok _ _ hn h1,
        slot_wr_ok _ _ (show 1 ≤ 2 * node by omega) (show 2 * node < st.tree_size by omega),
        slot_wr_ok _ _ (show 1 ≤ 2 * node + 1 by omega) h3]
      split_ifs <;> rfl

theorem propagate_max_checked_eq (st : segment_tree_t) (node s e : Nat) (hn : 1 ≤ node)
    (h1 : node < st.tree_size) (h2 : s ≠ e → 2 * node + 1 < st.tree_size) :
    propagate_max_checked st node s e = some (propagate_max st node s e) := by
  unfold propagate_max_checked propagate_max
  cases st.lazy with
  | none => rfl
  | some lz =>
    by_cases hse : s = e
    · simp [hse, slot_rd_ok _ hn h1, slot_wr_ok _ _ hn h1]
      split_ifs <;> rfl
    · have h3 := h2 hse
      simp [hse, slot_rd_ok _ hn h1, slot_wr_ok _ _ hn h1,
        slot_wr_ok _ _ (show 1 ≤ 2 * node by omega) (show 2 * node < st.tree_size by omega),
        slot_wr_ok _ _ (show 1 ≤ 2 * node + 1 by omega) h3]
      split_ifs <;> rfl

theorem update_lazy_sum_checked_eq (st : segment_tree_t) (node s e : Nat) (val : Int)
    (hn : 1 ≤ node) (h1 : node < st.tree_size) :
    update_lazy_sum_checked st node s e val = some (update_lazy_sum st node s e val) := by
  unfold update_lazy_sum_checked update_lazy_sum
  cases st.lazy with
  | none => rfl
  | some lz => simp [slot_rd_ok _ hn h1, slot_wr_ok _ _ hn h1]

theorem update_lazy_min_checked_eq (st : segment_tree_t) (node s e : Nat) (val : Int)
    (hn : 1 ≤ node) (h1 : node < st.tree_size) :
    update_lazy_min_checked st node s e val = some (update_lazy_min st node s e val) := by
  unfold update_lazy_min_checked update_lazy_min
  cases st.lazy with
  | none => rfl
  | some lz =>
    simp [slot_rd_ok _ hn h1, slot_wr_ok _ _ hn h1]
    split_ifs <;> rfl

theorem update_lazy_max_checked_eq (st : segment_tree_t) (node s e : Nat) (val : Int)
    (hn : 1 ≤ node) (h1 : node < st.tree_size) :
    update_lazy_max_checked st node s e val = some (update_lazy_max st node s e val) := by
  unfold update_lazy_max_checked update_lazy_max
  cases st.lazy with
  | none => rfl
  | some lz =>
    simp [slot_rd_ok _ hn h1, slot_wr_ok _ _ hn h1]
    split_ifs <;> rfl

theorem call_propagate_checked_eq (st : segment_tree_t) (node s e : Nat) (hn : 1 ≤ node)
    (h1 : node < st.tree_size) (h2 : s ≠ e → 2 * node + 1 < st.tree_size) :
    call_propagate_checked st node s e = some (call_propagate st node s e) := by
  unfold call_propagate_checked call_propagate
  cases st.propagate with
  | none => rfl
  | some k =>
    cases k with
    | sum => exact propagate_sum_checked_eq st node s e hn h1 h2
    | min => exact propagate_min_checked_eq st node s e hn h1 h2
    | max => exact propagate_max_checked_eq st node s e hn h1 h2

theorem call_update_lazy_checked_eq (st : segment_tree_t) (node s e : Nat) (val : Int)
    (hn : 1 ≤ node) (h1 : node < st.tree_size) :
    call_update_lazy_checked st node s e val = some (call_update_lazy st node s e val) := by
  unfold call_update_lazy_checked call_update_lazy
  cases st.update_lazy with
  | none => rfl
  | some k =>
    cases k with
    | sum => exact update_lazy_sum_checked_eq st node s e val hn h1
    | min => exact update_lazy_min_checked_eq st node s e val hn h1
    | max => exact update_lazy_max_checked_eq st node s e val hn h1

theorem call_propagate_checked_InB (st : segment_tree_t) {node s e : Nat} (hn : 1 ≤ node)
    (hse : s ≤ e) (hb : InB node s e st.tree_size) :
    call_propagate_checked st node s e = some (call_propagate st node s e) :=
  call_propagate_checked_eq st node s e hn (InB_lt hb)
    (fun h => InB_lt (InB_right (show s < e by omega) hb))

theorem guarded_propagate_checked (st : segment_tree_t) (c : Prop) [Decidable c]
    {node s e : Nat} (hn : 1 ≤ node) (hse : s ≤ e) (hb : InB node s e st.tree_size) :
    (if c then call_propagate_checked st node s e else some st) =
      some (if c then call_propagate st node s e else st) := by
  split_ifs
  · exact call_propagate_checked_InB st hn hse hb
  · rfl

theorem guarded_propagate_tree_size (st : segment_tree_t) (c : Prop) [Decidable c]
    (node s e : Nat) :
    (if c then call_propagate st node s e else st).tree_size = st.tree_size := by
  obtain ⟨t, lzo, h, _, _⟩ := guarded_propagate_cfg st c node s e
  rw [h]

theorem build_tree_checked_eq (arr : List Int) :
    ∀ (fuel : Nat) (st : segment_tree_t) (node s e : Nat), 1 ≤ node → s ≤ e → e - s < fuel →
      InB node s e st.tree_size →
      build_tree_checked fuel st arr node s e = some (build_tree fuel st arr node s e) := by
  intro fuel
  induction fuel with
  | zero => intro st node s e _ _ h; omega
  | succ fuel ih =>
    intro st node s e hn hse hf hb
    unfold build_tree_checked build_tree
    by_cases heq : s = e
    · rw [if_pos heq, if_pos heq]
      simp [slot_wr_ok _ _ hn (InB_lt hb)]
    · rw [if_neg heq, if_neg heq]
      have hlt : s < e := by omega
      have hbl := InB_left hlt hb
      have hbr := InB_right hlt hb
      have ea := ih st (2 * node) s ((s + e) / 2) (by omega) (by omega) (by omega) hbl
      have ts1 : (build_tree fuel st arr (2 * node) s ((s + e) / 2)).tree_size =
          st.tree_size := (build_tree_fields arr fuel st _ _ _).2.2.1
      have eb := ih (build_tree fuel st arr (2 * node) s ((s + e) / 2)) (2 * node + 1)
        ((s + e) / 2 + 1) e (by omega) (by omega) (by omega) (by rw [ts1]; exact hbr)
      have ts2 : (build_tree fuel (build_tree fuel st arr (2 * node) s ((s + e) / 2)) arr
          (2 * node + 1) ((s + e) / 2 + 1) e).tree_size = st.tree_size := by
        rw [(build_tree_fields arr fuel _ _ _ _).2.2.1, ts1]
      have k1 := InB_lt hb
      have k2 := InB_lt hbl
      have k3 := InB_lt hbr
      simp [ea, eb, ts2, slot_rd_ok _ (show 1 ≤ 2 * node by omega) k2,
        slot_rd_ok _ (show 1 ≤ 2 * node + 1 by omega) k3, slot_wr_ok _ _ hn k1]

theorem call_propagate_tree_size (st : segment_tree_t) (node s e : Nat) :
    (call_propagate st node s e).tree_size = st.tree_size := by
  obtain ⟨t, lzo, h, _, _⟩ := call_propagate_cfg st node s e
  rw [h]

theorem query_recursive_tree_size (l r fuel : Nat) (st : segment_tree_t) (node s e : Nat) :
    (query_recursive fuel st node s e l r).1.tree_size = st.tree_size := by
  obtain ⟨t, lzo, h, _, _⟩ := query_recursive_cfg l r fuel st node s e
  rw [h]

theorem update_point_recursive_tree_size (idx : Nat) (val : Int) (fuel : Nat)
    (st : segment_tree_t) (node s e : Nat) :
    (update_point_recursive fuel st node s e idx val).tree_size = st.tree_size := by
  obtain ⟨t, h, _⟩ := update_point_recursive_cfg idx val fuel st node s e
  rw [h]

theorem update_range_recursive_tree_size (l r : Nat) (val : Int) (fuel : Nat)
    (st : segment_tree_t) (node s e : Nat) :
    (update_range_recursive fuel st node s e l r val).tree_size = st.tree_size := by
  obtain ⟨t, lzo, h, _, _⟩ := update_range_recursive_cfg l r val fuel st node s e
  rw [h]

theorem update_point_recursive_checked_eq (idx : Nat) (val : Int) :
    ∀ (fuel : Nat) (st : segment_tree_t) (node s e : Nat), 1 ≤ node → s ≤ e → e - s < fuel →
      InB node s e st.tree_size →
      update_point_recursive_checked fuel st node s e idx val =
        some (update_point_recursive fuel st node s e idx val) := by
  intro fuel
  induction fuel with
  | zero => intro st node s e _ _ h; omega
  | succ fuel ih =>
    intro st node s e hn hse hf hb
    unfold update_point_recursive_checked update_point_recursive
    by_cases heq : s = e
    · rw [if_pos heq, if_pos heq]
      simp [slot_wr_ok _ _ hn (InB_lt hb)]
    · rw [if_neg heq, if_neg heq]
      have hlt : s < e := by omega
      have hbl := InB_left hlt hb
      have hbr := InB_right hlt hb
      have k1 := InB_lt hb
      have k2 := InB_lt hbl
      have k3 := InB_lt hbr
      by_cases hi : idx ≤ (s + e) / 2
      · have ea := ih st (2 * node) s ((s + e) / 2) (by omega) (by omega) (by omega) hbl
        have ts1 := update_point_recursive_tree_size idx val fuel st (2 * node) s
          ((s + e) / 2)
        simp [hi, ea, ts1, slot_rd_ok _ (show 1 ≤ 2 * node by omega) k2,
          slot_rd_ok _ (show 1 ≤ 2 * node + 1 by omega) k3, slot_wr_ok _ _ hn k1]
      · have ea := ih st (2 * node + 1) ((s + e) / 2 + 1) e (by omega) (by omega) (by omega)
          hbr
        have ts1 := update_point_recursive_tree_size idx val fuel st (2 * node + 1)
          ((s + e) / 2 + 1) e
        simp [hi, ea, ts1, slot_rd_ok _ (show 1 ≤ 2 * node by omega) k2,
          slot_rd_ok _ (show 1 ≤ 2 * node + 1 by omega) k3, slot_wr_ok _ _ hn k1]

theorem query_recursive_checked_eq (l r : Nat) :
    ∀ (fuel : Nat) (st : segment_tree_t) (node s e : Nat), 1 ≤ node → s ≤ e → e - s < fuel →
      InB node s e st.tree_size →
      query_recursive_checked fuel st node s e l r =
        some (query_recursive fuel st node s e l r) := by
  intro fuel
  induction fuel with
  | zero => intro st node s e _ _ h; omega
  | succ fuel ih =>
    intro st node s e hn hse hf hb
    unfold query_recursive_checked query_recursive
    by_cases h1 : r < s ∨ e < l
    · rw [if_pos h1, if_pos h1]
    · rw [if_neg h1, if_neg h1]
      have hp := guarded_propagate_checked st (st.lazy_enabled = true ∧ st.propagate ≠ none)
        hn hse hb
      have ts1 := guarded_propagate_tree_size st
        (st.lazy_enabled = true ∧ st.propagate ≠ none) node s e
      simp only [hp, Option.bind_eq_bind, Option.some_bind]
      generalize (if st.lazy_enabled = true ∧ st.propagate ≠ none then
        call_propagate st node s e else st) = st1 at ts1 ⊢
      have k1 : node < st1.tree_size := by rw [ts1]; exact InB_lt hb
      by_cases h2 : l ≤ s ∧ e ≤ r
      · rw [if_pos h2, if_pos h2]
        simp [slot_rd_ok _ hn k1]
      · rw [if_neg h2, if_neg h2]
        have hlt : s < e := by omega
        have hbl := InB_left hlt hb
        have hbr := InB_right hlt hb
        have ea := ih st1 (2 * node) s ((s + e) / 2) (by omega) (by omega) (by omega)
          (by rw [ts1]; exact hbl)
        have ts2 := query_recursive_tree_size l r fuel st1 (2 * node) s ((s + e) / 2)
        have eb := ih (query_recursive fuel st1 (2 * node) s ((s + e) / 2) l r).1
          (2 * node + 1) ((s + e) / 2 + 1) e (by omega) (by omega) (by omega)
          (by rw [ts2, ts1]; exact hbr)
        simp [ea, eb]

theorem update_range_recursive_checked_eq (l r : Nat) (val : Int) :
    ∀ (fuel : Nat) (st : segment_tree_t) (node s e : Nat), 1 ≤ node → s ≤ e → e - s < fuel →
      InB node s e st.tree_size →
      update_range_recursive_checked fuel st node s e l r val =
        some (update_range_recursive fuel st node s e l r val) := by
  intro fuel
  induction fuel with
  | zero => intro st node s e _ _ h; omega
  | succ fuel ih =>
    intro st node s e hn hse hf hb
    unfold update_range_recursive_checked update_range_recursive
    have hp := guarded_propagate_checked st (st.lazy_enabled = true ∧ st.propagate ≠ none)
      hn hse hb
    have ts1 := guarded_propagate_tree_size st
      (st.lazy_enabled = true ∧ st.propagate ≠ none) node s e
    simp only [hp, Option.bind_eq_bind, Option.some_bind]
    generalize (if st.lazy_enabled = true ∧ st.propagate ≠ none then
      call_propagate st node s e else st) = st1 at ts1 ⊢
    have k1 : node < st1.tree_size := by rw [ts1]; exact InB_lt hb
    by_cases h1 : s > r ∨ e < l
    · rw [if_pos h1, if_pos h1]
    · rw [if_neg h1, if_neg h1]
      by_cases h2 : s ≥ l ∧ e ≤ r
      · rw [if_pos h2, if_pos h2]
        by_cases h3 : st1.lazy_enabled = true ∧ st1.update_lazy ≠ none
        · rw [if_pos h3, if_pos h3]
          exact call_update_lazy_checked_eq st1 node s e val hn k1
        · rw [if_neg h3, if_neg h3]
          simp [slot_wr_ok _ _ hn k1]
      · rw [if_neg h2, if_neg h2]
        have hlt : s < e := by omega
        have hbl := InB_left hlt hb
        have hbr := InB_right hlt hb
        have ea := ih st1 (2 * node) s ((s + e) / 2) (by omega) (by omega) (by omega)
          (by rw [ts1]; exact hbl)
        have ts2 := update_range_recursive_tree_size l r val fuel st1 (2 * node) s
          ((s + e) / 2)
        have eb := ih (update_range_recursive fuel st1 (2 * node) s ((s + e) / 2) l r val)
          (2 * node + 1) ((s + e) / 2 + 1) e (by omega) (by omega) (by omega)
          (by rw [ts2, ts1]; exact hbr)
        have ts3 := update_range_recursive_tree_size l r val fuel
          (update_range_recursive fuel st1 (2 * node) s ((s + e) / 2) l r val) (2 * node + 1)
          ((s + e) / 2 + 1) e
        simp only [ea, eb, Option.bind_eq_bind, Option.some_bind]
        generalize (update_range_recursive fuel
          (update_range_recursive fuel st1 (2 * node) s ((s + e) / 2) l r val) (2 * node + 1)
          ((s + e) / 2 + 1) e l r val) = st3 at ts3 ⊢
        have ts3b : st3.tree_size = st.tree_size := by rw [ts3, ts2, ts1]
        have hc1 := call_propagate_checked_InB st3 (show 1 ≤ 2 * node by omega)
          (show s ≤ (s + e) / 2 by omega) (by rw [ts3b]; exact hbl)
        have tc1 := call_propagate_tree_size st3 (2 * node) s ((s + e) / 2)
        have hc2 := call_propagate_checked_InB (call_propagate st3 (2 * node) s ((s + e) / 2))
          (show 1 ≤ 2 * node + 1 by omega) (show (s + e) / 2 + 1 ≤ e by omega)
          (by rw [tc1, ts3b]; exact hbr)
        have tc2 := call_propagate_tree_size (call_propagate st3 (2 * node) s ((s + e) / 2))
          (2 * node + 1) ((s + e) / 2 + 1) e
        have k2 := InB_lt hbl
        have k3 := InB_lt hbr
        have k0 := InB_lt hb
        by_cases h4 : st3.lazy_enabled = true ∧ st3.propagate ≠ none
        · simp [h4, hc1, hc2, tc2, tc1, ts3b,
            slot_rd_ok _ (show 1 ≤ 2 * node by omega) k2,
            slot_rd_ok _ (show 1 ≤ 2 * node + 1 by omega) k3, slot_wr_ok _ _ hn k0]
        · simp [h4, ts3b,
            slot_rd_ok _ (show 1 ≤ 2 * node by omega) k2,
            slot_rd_ok _ (show 1 ≤ 2 * node + 1 by omega) k3, slot_wr_ok _ _ hn k0]

theorem Internal_bound {node s e i ts : Nat} (hi : Internal node s e i) :
    1 ≤ node → InB node s e ts → 1 ≤ i ∧ 2 * i + 1 < ts := by
  induction hi with
  | here node s e hse =>
    intro hn hb
    have := InB_lt (InB_right hse hb)
    omega
  | left node s e i hse _ ih =>
    intro hn hb
    exact ih (by omega) (InB_left hse hb)
  | right node s e i hse _ ih =>
    intro hn hb
    exact ih (by omega) (InB_right hse hb)

theorem segtree_create_lazy_buffers (S : List Int) (n : Int) (op : segtree_operation_t)
    (h1 : 1 ≤ n) (h2 : n ≤ SEGTREE_MAX_SIZE) :
    ∃ (st : segment_tree_t) (lz : List Int), segtree_create_lazy (some S) n op = some st ∧
      st.lazy = some lz ∧ st.tree_size = (calculate_tree_size n).toNat ∧
      st.tree.length = st.tree_size ∧ lz.length = st.tree_size := by
  obtain ⟨st, hc, ⟨lz, hwf, _, _, _⟩, _, hlen⟩ := segtree_create_lazy_wf S n op h1 h2
  refine ⟨st, lz, hc, hwf.2.2.2.2.2.1, ?_, hlen.symm, by rw [hwf.2.2.2.2.2.2, hlen]⟩
  obtain ⟨t, ht⟩ := segtree_create_some S n op (by omega)
  unfold segtree_create_lazy at hc
  rw [ht] at hc
  simp only at hc
  rw [← Option.some.inj hc]
  cases op <;> rfl

/-- C19: for every `n` with `1 <= n <= SEGTREE_MAX_SIZE`, with
`tree_size = calculate_tree_size (n) = 2 * 2^j >= 2 * n`: on every tree with this
`tree_size`, in any state and for all arguments, `build_tree`, `update_point_recursive`,
`query_recursive` and `update_range_recursive` started at node 1 over `[0, n - 1]`, run
with a fault on every read or write of `tree[]` or `lazy[]` whose index `i` fails
`1 <= i < tree_size` (the accesses of their `propagate` and `update_lazy` calls included),
end without a fault and with the result of the function itself; so does `propagate` at
every node of the recursion tree, and for every non-leaf node `i` of the recursion tree
the child slots `2 * i` and `2 * i + 1` lie inside the buffers. The buffers that
`segtree_create_lazy` allocates have `tree_size` slots. -/
theorem slots_in_bounds (n : Int) (h1 : 1 ≤ n) (h2 : n ≤ SEGTREE_MAX_SIZE) :
    (∃ j : Nat, n.toNat ≤ 2 ^ j ∧ (calculate_tree_size n).toNat = 2 * 2 ^ j) ∧
    (∀ st : segment_tree_t, st.tree_size = (calculate_tree_size n).toNat →
      (∀ arr : List Int,
        build_tree_checked n.toNat st arr 1 0 (n.toNat - 1) =
          some (build_tree n.toNat st arr 1 0 (n.toNat - 1))) ∧
      (∀ (idx : Nat) (val : Int),
        update_point_recursive_checked n.toNat st 1 0 (n.toNat - 1) idx val =
          some (update_point_recursive n.toNat st 1 0 (n.toNat - 1) idx val)) ∧
      (∀ l r : Nat,
        query_recursive_checked n.toNat st 1 0 (n.toNat - 1) l r =
          some (query_recursive n.toNat st 1 0 (n.toNat - 1) l r)) ∧
      (∀ (l r : Nat) (val : Int),
        update_range_recursive_checked n.toNat st 1 0 (n.toNat - 1) l r val =
          some (update_range_recursive n.toNat st 1 0 (n.toNat - 1) l r val)) ∧
      (∀ i a b : Nat, Covers 1 0 (n.toNat - 1) i a b →
        call_propagate_checked st i a b = some (call_propagate st i a b))) ∧
    (∀ i : Nat, Internal 1 0 (n.toNat - 1) i →
      1 ≤ i ∧ 2 * i + 1 < (calculate_tree_size n).toNat) ∧
    (∀ (S : List Int) (op : segtree_operation_t),
      ∃ (st : segment_tree_t) (lz : List Int), segtree_create_lazy (some S) n op = some st ∧
        st.lazy = some lz ∧ st.tree_size = (calculate_tree_size n).toNat ∧
        st.tree.length = st.tree_size ∧ lz.length = st.tree_size) := by
  have hb := InB_root n h1 h2
  obtain ⟨j, _, hj, he⟩ := calculate_tree_size_spec n h1 h2
  have hf : n.toNat - 1 - 0 < n.toNat := by omega
  refine ⟨⟨j, hj, he⟩, ?_, fun i hi => Internal_bound hi (le_refl _) hb,
    fun S op => segtree_create_lazy_buffers S n op h1 h2⟩
  intro st hts
  rw [← hts] at hb
  refine ⟨fun arr => build_tree_checked_eq arr _ st 1 0 _ (le_refl _) (Nat.zero_le _) hf hb,
    fun idx val =>
      update_point_recursive_checked_eq idx val _ st 1 0 _ (le_refl _) (Nat.zero_le _) hf hb,
    fun l r => query_recursive_checked_eq l r _ st 1 0 _ (le_refl _) (Nat.zero_le _) hf hb,
    fun l r val =>
      update_range_recursive_checked_eq l r val _ st 1 0 _ (le_refl _) (Nat.zero_le _) hf hb,
    ?_⟩
  intro i a b hc
  obtain ⟨p1, p2, p3, _⟩ := Covers_InB hc (le_refl _) (Nat.zero_le _) hb
  exact call_propagate_checked_InB st p1 p2 p3

theorem slots_in_bounds_witness :
    lazy_sum_123_tagged.tree_size = (calculate_tree_size 3).toNat ∧
    (build_tree_checked 3 { plain_sum_123 with tree_size := 5 } [1, 2, 3] 1 0 2).map
      (fun st => st.tree) = none ∧
    (query_recursive_checked 3 { lazy_sum_123_tagged with tree_size := 5 } 1 0 2 0 0).map
      (fun q => q.2) = none ∧
    build_tree_checked (3 : Int).toNat lazy_sum_123_tagged [1, 2, 3] 1 0 ((3 : Int).toNat - 1) =
      some (build_tree (3 : Int).toNat lazy_sum_123_tagged [1, 2, 3] 1 0
        ((3 : Int).toNat - 1)) ∧
    query_recursive_checked (3 : Int).toNat lazy_sum_123_tagged 1 0 ((3 : Int).toNat - 1) 0 0 =
      some (query_recursive (3 : Int).toNat lazy_sum_123_tagged 1 0 ((3 : Int).toNat - 1)
        0 0) ∧
    update_range_recursive_checked (3 : Int).toNat lazy_sum_123_tagged 1 0
        ((3 : Int).toNat - 1) 0 1 7 =
      some (update_range_recursive (3 : Int).toNat lazy_sum_123_tagged 1 0
        ((3 : Int).toNat - 1) 0 1 7) :=
  ⟨by decide, by decide, by decide,
   ((slots_in_bounds 3 (by decide) (by decide)).2.1 lazy_sum_123_tagged (by decide)).1
     [1, 2, 3],
   ((slots_in_bounds 3 (by decide) (by decide)).2.1 lazy_sum_123_tagged (by decide)).2.2.1
     0 0,
   ((slots_in_bounds 3 (by decide) (by decide)).2.1 lazy_sum_123_tagged
     (by decide)).2.2.2.1 0 1 7⟩

end SegTree
